import Mathlib

/-!
# Cartesian (grid) vertex-cut partitioning: `hGraph_cartesianCut`

A shallow embedding of `src/libdist/include/Galois/Runtime/dGraph_cartesianCut.h`
and the properties proved about it.

Conventions of the embedding.

* `unsigned`, `uint32_t` and `uint64_t` values are natural numbers.  The two
  32-bit accumulators that can wrap (`columnIndex` in `getColumnIndex` and
  `numNodes` in `loadStatistics`) are reduced modulo `2 ^ 32` explicitly.
* A failed `assert` or an undefined operation (division by zero) is a `Fault`
  where the function is modelled as fallible; elsewhere the function returns
  the value the code returns when the assertion is compiled out, and the
  asserted condition is proved separately.
* `std::vector` is `List`, `Galois::DynamicBitSet` is `List Bool`,
  `std::unordered_map<uint64_t, uint32_t>` is a partial function
  `Nat → Option Nat`.  The graph file (`FileGraph`) and the local CSR store
  (`LocalCSR`) are collaborators outside the source file and are modelled
  from their interface.
* A host is given by its id; the fields shared by all hosts are in `Cut`.
  The messages a host receives are the list of what the other hosts send to
  it.  A loop that waits for a message that never comes returns `none`.  The
  results are shown not to depend on the order of arrival
  (`loadStatisticsFrom_perm`, `loadEdgesFrom_perm`).
* The registries `mirrorNodes` and `masterNodes` are lists of lists indexed by
  host.  The phase counter and the tags of the messages are kept apart from
  the passes themselves (`loadStatisticsTagged`, `loadEdgesTagged`), and
  `reset_bitset` is the list of the calls it makes to its callback.
-/

set_option autoImplicit false

namespace CartesianCut

/-! ## Data model -/

/-- Ways in which a call can stop without returning a value. -/
inductive Fault where
  | divisionByZero
  | assertionFailed
  deriving DecidableEq, Repr

/-- The fields of `hGraph` / `hGraph_cartesianCut` that every host computes
identically: the host count, the grid shape, the number of global nodes and
the ownership table `gid2host` (one half-open range `(start, end)` per host). -/
structure Cut where
  numHosts : Nat
  numRowHosts : Nat
  numColumnHosts : Nat
  totalNodes : Nat
  gid2host : List (Nat × Nat)

/-! ## GridFactorizer -/

/-- The loop `while ((numHosts % numColumnHosts) != 0) numColumnHosts--;`
started at `numColumnHosts = c`.  Taking the remainder by `0` is undefined. -/
def factorizeLoop (numHosts : Nat) : Nat → Except Fault Nat
  | 0 => .error .divisionByZero
  | c + 1 => if numHosts % (c + 1) != 0 then factorizeLoop numHosts c else .ok (c + 1)

/-- The function `factorize_hosts`: returns `(numRowHosts, numColumnHosts)`.
`sqrt` is the double-precision square root truncated to `unsigned`; for a
32-bit argument that is the integer square root. -/
def factorize_hosts (numHosts : Nat) : Except Fault (Nat × Nat) :=
  match factorizeLoop numHosts (Nat.sqrt numHosts) with
  | .error e => .error e
  | .ok numColumnHosts =>
    let numRowHosts := numHosts / numColumnHosts
    if numRowHosts ≥ numColumnHosts then .ok (numRowHosts, numColumnHosts)
    else .error .assertionFailed

/-- The function `gridRowID(id)`. -/
def gridRowID (p : Cut) (id : Nat) : Nat := id / p.numColumnHosts

/-- The function `gridColumnID(id)`. -/
def gridColumnID (p : Cut) (id : Nat) : Nat := id % p.numColumnHosts

/-- The function `is_vertex_cut`. -/
def is_vertex_cut (p : Cut) : Bool :=
  if p.numRowHosts == 1 || p.numColumnHosts == 1 then false else true

/-! ## Ownership -/

/-- The table access `gid2host[h]`. -/
def hostRange (p : Cut) (h : Nat) : Nat × Nat := p.gid2host.getD h (0, 0)

/-- The test `gid >= start && gid < end` on the range of host `h`; with
`h = id` this is `isOwned(gid)` evaluated on host `id`. -/
def isOwned (p : Cut) (id gid : Nat) : Bool :=
  decide ((hostRange p id).1 ≤ gid) && decide (gid < (hostRange p id).2)

/-- The `for` loop of `getHostID`: the first host whose range contains `gid`,
or `none` when the loop ends without returning. -/
def getHostIDLoop (p : Cut) (gid : Nat) : Option Nat :=
  (List.range p.numHosts).find? (fun h => isOwned p h gid)

/-- The function `getHostID`.  When the loop finds no host the code reaches
`assert(false); return numHosts;`. -/
def getHostID (p : Cut) (gid : Nat) : Nat :=
  match getHostIDLoop p gid with
  | some h => h
  | none => p.numHosts

/-- The function `getBlockID`. -/
def getBlockID (p : Cut) (gid : Nat) : Nat := getHostID p gid

/-- The function `getColumnHostIDOfBlock`. -/
def getColumnHostIDOfBlock (p : Cut) (blockID : Nat) : Nat := blockID % p.numColumnHosts

/-- The function `getColumnHostID`. -/
def getColumnHostID (p : Cut) (gid : Nat) : Nat :=
  getColumnHostIDOfBlock p (getBlockID p gid)

/-- The standing invariant of `gid2host`: one range per host, the ranges are
contiguous, ordered by host id, and cover `[0, totalNodes)`. -/
structure ValidPartition (p : Cut) : Prop where
  hosts_pos : 0 < p.numHosts
  length_eq : p.gid2host.length = p.numHosts
  first_start : (hostRange p 0).1 = 0
  start_le_end : ∀ h, h < p.numHosts → (hostRange p h).1 ≤ (hostRange p h).2
  contiguous : ∀ h, h + 1 < p.numHosts → (hostRange p h).2 = (hostRange p (h + 1)).1
  last_end : (hostRange p (p.numHosts - 1)).2 = p.totalNodes

/-- The `for` loop of `getColumnIndex` over the blocks still to visit; the
second argument is the running value of the 32-bit `columnIndex`.  The
differences `gid - start` and `end - start` are taken where
`start ≤ gid` and `start ≤ end` under the invariant of `gid2host`. -/
def getColumnIndexLoop (p : Cut) (gid h : Nat) : List Nat → Nat → Nat
  | [], columnIndex => columnIndex
  | b :: bs, columnIndex =>
    if getColumnHostIDOfBlock p b == h then
      if gid < (hostRange p b).2 then
        (columnIndex + (gid - (hostRange p b).1)) % 2 ^ 32
      else
        getColumnIndexLoop p gid h bs
          ((columnIndex + ((hostRange p b).2 - (hostRange p b).1)) % 2 ^ 32)
    else getColumnIndexLoop p gid h bs columnIndex

/-- The function `getColumnIndex`. -/
def getColumnIndex (p : Cut) (gid : Nat) : Nat :=
  let blockID := getBlockID p gid
  getColumnIndexLoop p gid (getColumnHostIDOfBlock p blockID) (List.range (blockID + 1)) 0

/-! ## The graph file -/

/-- Modelled from the spec: the offline graph source, which exposes
"`edge_begin(gid)`/`edge_end(gid)` → ordered edge-position range,
`getEdgeDst(pos)`".  `outIdx n` is the position one past the last edge of node
`n` and `outs pos` is the destination of the edge stored at `pos`. -/
structure FileGraph where
  outIdx : Nat → Nat
  outs : Nat → Nat

/-- Modelled from the spec: `edge_end(gid)` of the offline graph source. -/
def FileGraph.edge_end (g : FileGraph) (n : Nat) : Nat := g.outIdx n

/-- Modelled from the spec: `edge_begin(gid)` of the offline graph source,
the end of the previous node's edges. -/
def FileGraph.edge_begin (g : FileGraph) (n : Nat) : Nat :=
  if n = 0 then 0 else g.outIdx (n - 1)

/-- Modelled from the spec: `getEdgeDst(pos)` of the offline graph source. -/
def FileGraph.getEdgeDst (g : FileGraph) (pos : Nat) : Nat := g.outs pos

/-- The destinations read by `for (; ii < ee; ++ii) getEdgeDst(ii)`. -/
def FileGraph.edgeDsts (g : FileGraph) (ii ee : Nat) : List Nat :=
  (List.range' ii (ee - ii)).map g.getEdgeDst

/-- The destinations of the edges of node `n`, in file order. -/
def FileGraph.outEdges (g : FileGraph) (n : Nat) : List Nat :=
  g.edgeDsts (g.edge_begin n) (g.edge_end n)

/-! ## Pass 1: `loadStatistics` -/

/-- The two tables filled by the edge inspection, one entry per grid column. -/
structure EdgeStats where
  hasIncomingEdge : List (List Bool)
  numOutgoingEdges : List (List Nat)

/-- The value `gid2host[id].second - gid2host[id].first` stored in
`totalOwnedNodes`. -/
def totalOwnedNodes (p : Cut) (id : Nat) : Nat := (hostRange p id).2 - (hostRange p id).1

/-- The size given to `hasIncomingEdge[i]`: the loop over all blocks `b` that
adds `end - start` for the blocks of column `i`. -/
def columnBlockSize (p : Cut) (i : Nat) : Nat :=
  (List.range p.numHosts).foldl
    (fun size b =>
      if getColumnHostIDOfBlock p b == i then size + ((hostRange p b).2 - (hostRange p b).1)
      else size) 0

/-- The tables before the inspection: cleared bitsets of the column sizes and
zeroed counters, one per owned node. -/
def initialStats (p : Cut) (id : Nat) : EdgeStats where
  hasIncomingEdge :=
    (List.range p.numColumnHosts).map fun i => List.replicate (columnBlockSize p i) false
  numOutgoingEdges :=
    (List.range p.numColumnHosts).map fun _ => List.replicate (totalOwnedNodes p id) 0

/-- The body of the inner inspection loop for one edge `src → dst`. -/
def inspectEdge (p : Cut) (rowOffset src : Nat) (st : EdgeStats) (dst : Nat) : EdgeStats :=
  let h := getColumnHostID p dst
  { hasIncomingEdge :=
      st.hasIncomingEdge.modify (fun bits => bits.set (getColumnIndex p dst) true) h
    numOutgoingEdges :=
      st.numOutgoingEdges.modify (fun v => v.modify (fun n => n + 1) (src - rowOffset)) h }

/-- The body of the outer inspection loop for one owned node; the second
component of the state is the iterator `ee`. -/
def inspectNode (p : Cut) (g : FileGraph) (rowOffset : Nat) (acc : EdgeStats × Nat)
    (src : Nat) : EdgeStats × Nat :=
  let ii := acc.2
  let ee := g.edge_end src
  ((g.edgeDsts ii ee).foldl (inspectEdge p rowOffset src) acc.1, ee)

/-- The edge inspection of `loadStatistics` on host `id`. -/
def inspectEdges (p : Cut) (g : FileGraph) (id : Nat) : EdgeStats :=
  let first := (hostRange p id).1
  let second := (hostRange p id).2
  ((List.range' first (second - first)).foldl (inspectNode p g first)
    (initialStats p id, g.edge_begin first)).1

/-- A pass-1 message: the receiver, the sender, and the two serialized
tables. -/
structure StatMsg where
  dest : Nat
  sender : Nat
  numOutgoingEdges : List Nat
  hasIncomingEdge : List Bool

/-- The send loop of `loadStatistics` on host `sender`: one message for every
other host of its grid row. -/
def sendStatistics (p : Cut) (g : FileGraph) (sender : Nat) : List StatMsg :=
  let st := inspectEdges p g sender
  (List.range p.numColumnHosts).filterMap fun i =>
    let h := gridRowID p sender * p.numColumnHosts + i
    if h == sender then none
    else some ⟨h, sender, st.numOutgoingEdges.getD i [], st.hasIncomingEdge.getD i []⟩

/-- The pass-1 messages that reach host `id`, listed by sender. -/
def statInbox (p : Cut) (g : FileGraph) (id : Nat) : List StatMsg :=
  (List.range p.numHosts).flatMap fun sender =>
    (sendStatistics p g sender).filter fun m => m.dest == id

/-- The body of the receive loop: the tables of the message replace the
entries of column `sender % numColumnHosts`. -/
def storeStatistics (p : Cut) (st : EdgeStats) (m : StatMsg) : EdgeStats :=
  let h := m.sender % p.numColumnHosts
  { hasIncomingEdge := st.hasIncomingEdge.set h m.hasIncomingEdge
    numOutgoingEdges := st.numOutgoingEdges.set h m.numOutgoingEdges }

/-- The receive loop, run for the given number of rounds.  A round with no
message left polls for ever: the result is `none`. -/
def recvStatistics (p : Cut) : Nat → List StatMsg → EdgeStats → Option EdgeStats
  | 0, _, st => some st
  | _ + 1, [], _ => none
  | n + 1, m :: inbox, st => recvStatistics p n inbox (storeStatistics p st m)

/-- Modelled from the spec: `DynamicBitSet::bitwise_or`, "received bitsets
are OR-merged"; the receiver keeps its size. -/
def bitwise_or : List Bool → List Bool → List Bool
  | [], _ => []
  | x :: xs, [] => x :: xs
  | x :: xs, y :: ys => (x || y) :: bitwise_or xs ys

/-- The loop `hasIncomingEdge[0].bitwise_or(hasIncomingEdge[i])` for
`1 ≤ i < numColumnHosts`; returns the final `hasIncomingEdge[0]`. -/
def mergeIncoming (p : Cut) (hasIncomingEdge : List (List Bool)) : List Bool :=
  (List.range' 1 (p.numColumnHosts - 1)).foldl
    (fun bits i => bitwise_or bits (hasIncomingEdge.getD i [])) (hasIncomingEdge.getD 0 [])

/-- The members of `hGraph_cartesianCut` written by `loadStatistics`, the
vector `prefixSumOfEdges` it fills, and a flag recording whether the branch
marked `should be owned` has been executed. -/
structure LocalGraph where
  totalOwnedNodes : Nat
  localToGlobalVector : List Nat
  globalToLocalMap : Nat → Option Nat
  numNodes : Nat
  numEdges : Nat
  numOwned : Nat
  prefixSumOfEdges : List Nat
  inconsistent : Bool

/-- The three statements executed when a node is created:
`localToGlobalVector.push_back(gid); globalToLocalMap[gid] = numNodes++;
prefixSumOfEdges.push_back(numEdges);`. -/
def createNode (st : LocalGraph) (gid : Nat) : LocalGraph :=
  { st with
    localToGlobalVector := st.localToGlobalVector ++ [gid]
    globalToLocalMap := fun k => if k = gid then some st.numNodes else st.globalToLocalMap k
    numNodes := (st.numNodes + 1) % 2 ^ 32
    prefixSumOfEdges := st.prefixSumOfEdges ++ [st.numEdges] }

/-- The body of the first node-creation loop for the counter
`n = numOutgoingEdges[i][j]`; the second component of the state is `src`. -/
def rowNodeStep (p : Cut) (id : Nat) (hasIn0 : List Bool) (acc : LocalGraph × Nat)
    (n : Nat) : LocalGraph × Nat :=
  let st := acc.1
  let src := acc.2
  let st' :=
    if n > 0 then createNode { st with numEdges := st.numEdges + n } src
    else if isOwned p id src then createNode st src
    else if gridColumnID p id == getColumnHostID p src
        && hasIn0.getD (getColumnIndex p src) false then
      createNode { st with inconsistent := true } src
    else st
  (st', src + 1)

/-- The first node-creation loop: for every column `i` and every entry of
`numOutgoingEdges[i]`. -/
def createRowNodes (p : Cut) (id : Nat) (numOutgoingEdges : List (List Nat))
    (hasIn0 : List Bool) (acc : LocalGraph × Nat) : LocalGraph × Nat :=
  (List.range p.numColumnHosts).foldl
    (fun acc i => (numOutgoingEdges.getD i []).foldl (rowNodeStep p id hasIn0) acc) acc

/-- The body of the second node-creation loop for one global id `dst`. -/
def columnNodeStep (p : Cut) (hasIn0 : List Bool) (st : LocalGraph) (dst : Nat) : LocalGraph :=
  if hasIn0.getD (getColumnIndex p dst) false then createNode st dst else st

/-- The second node-creation loop: the ranges of the other hosts of the
caller's grid column. -/
def createColumnNodes (p : Cut) (id : Nat) (hasIn0 : List Bool) (st : LocalGraph) :
    LocalGraph :=
  (List.range p.numRowHosts).foldl
    (fun st i =>
      let hostID := i * p.numColumnHosts + gridColumnID p id
      if hostID == id then st
      else
        (List.range' (hostRange p hostID).1 ((hostRange p hostID).2 - (hostRange p hostID).1)).foldl
          (columnNodeStep p hasIn0) st) st

/-- The state of the members before the node-creation loops. -/
def emptyLocalGraph (p : Cut) (id : Nat) : LocalGraph where
  totalOwnedNodes := totalOwnedNodes p id
  localToGlobalVector := []
  globalToLocalMap := fun _ => none
  numNodes := 0
  numEdges := 0
  numOwned := 0
  prefixSumOfEdges := []
  inconsistent := false

/-- The function `loadStatistics` on host `id`, for the pass-1 messages
`inbox` in their order of arrival; `none` when the receive loop never ends. -/
def loadStatisticsFrom (p : Cut) (g : FileGraph) (id : Nat) (inbox : List StatMsg) :
    Option LocalGraph :=
  match recvStatistics p (p.numColumnHosts - 1) inbox (inspectEdges p g id) with
  | none => none
  | some stats =>
    let hasIn0 := mergeIncoming p stats.hasIncomingEdge
    let leaderHostID := gridRowID p id * p.numColumnHosts
    let st := (createRowNodes p id stats.numOutgoingEdges hasIn0
      (emptyLocalGraph p id, (hostRange p leaderHostID).1)).1
    some (createColumnNodes p id hasIn0 { st with numOwned := st.numNodes })

/-- The function `loadStatistics` on host `id`, the messages arriving in the
order of their senders. -/
def loadStatistics (p : Cut) (g : FileGraph) (id : Nat) : Option LocalGraph :=
  loadStatisticsFrom p g id (statInbox p g id)

/-! ## IdTranslator -/

/-- The function `isLocal`. -/
def isLocal (p : Cut) (id : Nat) (st : LocalGraph) (gid : Nat) : Bool :=
  isOwned p id gid || (st.globalToLocalMap gid).isSome

/-- The function `G2L`: `globalToLocalMap.at(gid)`, which fails on a missing
key. -/
def G2L (st : LocalGraph) (gid : Nat) : Option Nat := st.globalToLocalMap gid

/-- The function `L2G`: `localToGlobalVector[lid]`. -/
def L2G (st : LocalGraph) (lid : Nat) : Option Nat := st.localToGlobalVector[lid]?

/-! ## Auxiliary notions used in the statements -/

/-- The number of global ids owned by block `b`. -/
def blockSize (p : Cut) (b : Nat) : Nat := (hostRange p b).2 - (hostRange p b).1

/-- The number of global ids of column `c` that lie in the blocks below `n`. -/
def columnPrefix (p : Cut) (c n : Nat) : Nat :=
  (List.range n).foldl
    (fun size b =>
      if getColumnHostIDOfBlock p b == c then size + ((hostRange p b).2 - (hostRange p b).1)
      else size) 0

/-- The standing assumptions on a host grid, an ownership table and a graph
file: the table is a partition, the grid has one cell per host, and every edge
ends at a node of the graph. -/
structure Partitioned (p : Cut) (g : FileGraph) : Prop where
  valid : ValidPartition p
  grid : p.numRowHosts * p.numColumnHosts = p.numHosts
  dst_lt : ∀ src, src < p.totalNodes → ∀ d, d ∈ g.outEdges src → d < p.totalNodes

/-- The standing assumptions of `Partitioned`, and node ids that fit the
32-bit type of `numNodes`, of the local ids and of the column index. -/
structure WellFormed (p : Cut) (g : FileGraph) extends Partitioned p g : Prop where
  nodes_lt : p.totalNodes < 2 ^ 32

/-- The number of edges of node `src` whose destination lies in column `c`. -/
def outCount (p : Cut) (g : FileGraph) (c src : Nat) : Nat :=
  (g.outEdges src).countP fun d => getColumnHostID p d == c

/-- Whether some edge of a node in `[s, s + n)` ends at a node of column `c`
with column index `k`. -/
def incomingFrom (p : Cut) (g : FileGraph) (c k s n : Nat) : Bool :=
  (List.range' s n).any fun src =>
    (g.outEdges src).any fun d => getColumnHostID p d == c && getColumnIndex p d == k

/-- The counters of host `P` for column `c`: for each node owned by `P`, the
number of its edges that end in column `c`. -/
def scanCounts (p : Cut) (g : FileGraph) (P c : Nat) : List Nat :=
  (List.range' (hostRange p P).1 (totalOwnedNodes p P)).map (outCount p g c)

/-- The bitset of host `P` for column `c`: bit `k` tells whether a node owned
by `P` has an edge to the node of column `c` with column index `k`. -/
def scanBits (p : Cut) (g : FileGraph) (P c : Nat) : List Bool :=
  (List.range (columnBlockSize p c)).map fun k =>
    incomingFrom p g c k (hostRange p P).1 (totalOwnedNodes p P)

/-- The pass-1 message that host `P` sends to host `H` of its row. -/
def statMsg (p : Cut) (g : FileGraph) (H P : Nat) : StatMsg :=
  ⟨H, P, scanCounts p g P (H % p.numColumnHosts), scanBits p g P (H % p.numColumnHosts)⟩

/-- The senders of the pass-1 messages that reach `H`: the other hosts of its
grid row. -/
def rowPeers (p : Cut) (H : Nat) : List Nat :=
  (List.range p.numHosts).filter fun P =>
    P / p.numColumnHosts == H / p.numColumnHosts && P != H

/-- The running sums of a list, started at `a`. -/
def prefixSums : List Nat → Nat → List Nat
  | [], _ => []
  | x :: xs, a => (a + x) :: prefixSums xs (a + x)

/-- The invariant of the node-creation loops, for a function `w` giving the
number of local edges of each global id: `numNodes` is the length of
`localToGlobalVector`, the map sends a global id to the position where the
vector holds it, `numEdges` and `prefixSumOfEdges` are the sum and the running
sums of `w` over the vector, and the branch marked `should be owned` has not
been executed. -/
structure Consistent (w : Nat → Nat) (st : LocalGraph) : Prop where
  numNodes_eq : st.numNodes = st.localToGlobalVector.length
  map_iff : ∀ k v, st.globalToLocalMap k = some v ↔ st.localToGlobalVector[v]? = some k
  numEdges_eq : st.numEdges = (st.localToGlobalVector.map w).sum
  prefix_eq : st.prefixSumOfEdges = prefixSums (st.localToGlobalVector.map w) 0
  not_inconsistent : st.inconsistent = false

/-- One iteration of a node-creation loop in normal form: the node `x` is
created, with `w x` local edges, when `keep x` holds. -/
def createIf (keep : Nat → Bool) (w : Nat → Nat) (st : LocalGraph) (x : Nat) : LocalGraph :=
  if keep x then createNode { st with numEdges := st.numEdges + w x } x else st

/-- The first global id of block `b`, and `totalNodes` past the last block. -/
def blockStart (p : Cut) (b : Nat) : Nat :=
  if b < p.numHosts then (hostRange p b).1 else p.totalNodes

/-- The condition under which the first node-creation loop on host `id`
creates the node `x` of its grid row: an edge into the column of `id`, or
ownership. -/
def keepRowNode (p : Cut) (g : FileGraph) (id x : Nat) : Bool :=
  decide (0 < outCount p g (id % p.numColumnHosts) x) || isOwned p id x

/-- The number of edges that host `id` stores for the global id `x`: the edges
of `x` into the column of `id` when `x` belongs to the grid row of `id`, and
none otherwise. -/
def localEdgeCount (p : Cut) (g : FileGraph) (id x : Nat) : Nat :=
  if blockStart p (id / p.numColumnHosts * p.numColumnHosts) ≤ x ∧
      x < blockStart p (id / p.numColumnHosts * p.numColumnHosts + p.numColumnHosts) then
    outCount p g (id % p.numColumnHosts) x
  else 0

/-- The global ids walked by the first node-creation loop on host `id`: the
ranges of the hosts of its grid row. -/
def rowCandidates (p : Cut) (id : Nat) : List Nat :=
  List.range' (blockStart p (id / p.numColumnHosts * p.numColumnHosts))
    (blockStart p (id / p.numColumnHosts * p.numColumnHosts + p.numColumnHosts) -
      blockStart p (id / p.numColumnHosts * p.numColumnHosts))

/-- The global ids walked by the second node-creation loop on host `id`: the
ranges of the other hosts of its grid column. -/
def columnCandidates (p : Cut) (id : Nat) : List Nat :=
  (List.range p.numRowHosts).flatMap fun i =>
    if (i * p.numColumnHosts + gridColumnID p id == id) = true then []
    else List.range' (hostRange p (i * p.numColumnHosts + gridColumnID p id)).1
      ((hostRange p (i * p.numColumnHosts + gridColumnID p id)).2 -
        (hostRange p (i * p.numColumnHosts + gridColumnID p id)).1)

/-- The bitset `hasIncomingEdge[0]` of host `id` after the exchange and the
merge: the union of what the hosts of its row recorded for its column. -/
def mergedIncoming (p : Cut) (g : FileGraph) (id : Nat) : List Bool :=
  mergeIncoming p ((List.range p.numColumnHosts).map fun i =>
    scanBits p g (id / p.numColumnHosts * p.numColumnHosts + i) (id % p.numColumnHosts))

/-- The condition under which the second node-creation loop on host `id`
creates the node `x`. -/
def keepColumnNode (p : Cut) (g : FileGraph) (id x : Nat) : Bool :=
  (mergedIncoming p g id).getD (getColumnIndex p x) false

/-- The value of `numEdges` after `loadStatistics` on host `id`. -/
def numEdgesOn (p : Cut) (g : FileGraph) (id : Nat) : Nat :=
  match loadStatistics p g id with
  | some st => st.numEdges
  | none => 0

/-- Modelled from the spec: `sizeEdges()` of the offline graph source, the end
of the edges of the last node. -/
def FileGraph.sizeEdges (g : FileGraph) (totalNodes : Nat) : Nat :=
  if totalNodes = 0 then 0 else g.edge_end (totalNodes - 1)

/-! ## Example inputs -/

/-- Scenario C: six nodes split across three hosts, two nodes per host, on the
`3 x 1` grid. -/
def pathCut : Cut := ⟨3, 3, 1, 6, [(0, 2), (2, 4), (4, 6)]⟩

/-- Scenario C: the path `0 → 1 → 2 → 3 → 4 → 5`. -/
def pathGraph : FileGraph :=
  ⟨fun n => [1, 2, 3, 4, 5, 5].getD n 5, fun pos => [1, 2, 3, 4, 5].getD pos 0⟩

/-- Eight nodes split across four hosts, two nodes per host, on the `2 x 2`
grid. -/
def gridCut : Cut := ⟨4, 2, 2, 8, [(0, 2), (2, 4), (4, 6), (6, 8)]⟩

/-- The graph with the edges `0 → 4`, `0 → 1`, `1 → 2`, `3 → 6`, `4 → 0`,
`5 → 7` and `7 → 2` on eight nodes. -/
def gridGraph : FileGraph :=
  ⟨fun n => [2, 3, 3, 4, 5, 6, 6, 7].getD n 7, fun pos => [4, 1, 2, 6, 0, 7, 2].getD pos 0⟩

/-- Scenario B: one host that owns the six nodes of the path, on the `1 x 1`
grid. -/
def soloCut : Cut := ⟨1, 1, 1, 6, [(0, 6)]⟩

/-- More than `2 ^ 33` nodes split across four hosts, `2 ^ 31 + 1` nodes per
host, on the `2 x 2` grid: every host owns fewer than `2 ^ 32` nodes, and each
column holds `2 ^ 32 + 2` of them. -/
def wideCut : Cut :=
  ⟨4, 2, 2, 4 * (2 ^ 31 + 1),
    [(0, 2 ^ 31 + 1), (2 ^ 31 + 1, 2 * (2 ^ 31 + 1)),
      (2 * (2 ^ 31 + 1), 3 * (2 ^ 31 + 1)), (3 * (2 ^ 31 + 1), 4 * (2 ^ 31 + 1))]⟩

/-! ## Pass 2: `loadEdges` -/

/-- Modelled from the spec: the local CSR store, "per-node contiguous edge
slice located via a cumulative degree prefix sum".  `edgeIndData` holds the
slice ends set by `fixEndEdge` and `edgeDst` the destinations written by
`constructEdge`, `none` for a slot not yet written. -/
structure LocalCSR where
  edgeIndData : List Nat
  edgeDst : Nat → Option Nat

/-- Modelled from the spec: `edge_begin(lid)` of the local CSR store, the end
of the previous slice. -/
def LocalCSR.edge_begin (c : LocalCSR) (lid : Nat) : Nat :=
  if lid = 0 then 0 else c.edgeIndData.getD (lid - 1) 0

/-- Modelled from the spec: `edge_end(lid)` of the local CSR store. -/
def LocalCSR.edge_end (c : LocalCSR) (lid : Nat) : Nat := c.edgeIndData.getD lid 0

/-- Modelled from the spec: `constructEdge(pos, ldst)` of the local CSR store
writes the destination of the edge slot `pos`. -/
def LocalCSR.constructEdge (c : LocalCSR) (pos ldst : Nat) : LocalCSR :=
  { c with edgeDst := fun k => if k = pos then some ldst else c.edgeDst k }

/-- The allocation in the constructor: `allocateFrom`, `constructNodes` and
the loop `fixEndEdge(n, prefixSumOfEdges[n])` for `n < numNodes`. -/
def allocateGraph (st : LocalGraph) : LocalCSR where
  edgeIndData := (List.range st.numNodes).map fun n => st.prefixSumOfEdges.getD n 0
  edgeDst := fun _ => none

/-- A pass-2 message: the receiver, the source global id `n` and the batch
`gdst_vec` of destinations. -/
structure EdgeMsg where
  dest : Nat
  n : Nat
  gdst_vec : List Nat
  deriving DecidableEq

/-- The state of the edge loop of `loadEdgesFromFile` for one source node. -/
structure FileLoadState where
  graph : LocalCSR
  cur : Nat
  gdst_vec : List (List Nat)

/-- The body of the edge loop of `loadEdgesFromFile` for the destination
`gdst`: constructed locally when its column host is the caller, batched
otherwise.  `G2L` fails on a global id that is not a key of the map; the
`assert(isLocal(n))` concerns a node `n` of the owned range, for which
`isOwned(n)` holds. -/
def loadEdge (p : Cut) (id : Nat) (st : LocalGraph) (acc : FileLoadState) (gdst : Nat) :
    Option FileLoadState :=
  let i := getColumnHostID p gdst
  if gridRowID p id * p.numColumnHosts + i == id then
    match G2L st gdst with
    | none => none
    | some ldst =>
      some { acc with graph := acc.graph.constructEdge acc.cur ldst, cur := acc.cur + 1 }
  else some { acc with gdst_vec := acc.gdst_vec.modify (fun v => v ++ [gdst]) i }

/-- The edge loop of `loadEdgesFromFile` over the destinations of one node. -/
def loadEdgesOfNode (p : Cut) (id : Nat) (st : LocalGraph) :
    List Nat → FileLoadState → Option FileLoadState
  | [], acc => some acc
  | gdst :: rest, acc =>
    match loadEdge p id st acc gdst with
    | none => none
    | some acc' => loadEdgesOfNode p id st rest acc'

/-- The state of the node loop of `loadEdgesFromFile`: the store, the iterator
`ee` and the messages sent so far. -/
structure FileLoadProgress where
  graph : LocalCSR
  ee : Nat
  sent : List EdgeMsg

/-- The body of the node loop of `loadEdgesFromFile` for the owned node `n`.
The result is `none` when `G2L` fails or when the final
`assert(cur == *graph.edge_end(lsrc))` does not hold. -/
def loadNode (p : Cut) (g : FileGraph) (id : Nat) (st : LocalGraph) (acc : FileLoadProgress)
    (n : Nat) : Option FileLoadProgress :=
  let start : Option (Nat × Nat) :=
    if isLocal p id st n then
      match G2L st n with
      | none => none
      | some lsrc => some (lsrc, acc.graph.edge_begin lsrc)
    else some (0, 0)
  match start with
  | none => none
  | some (lsrc, cur) =>
    let ii := acc.ee
    let ee := g.edge_end n
    match loadEdgesOfNode p id st (g.edgeDsts ii ee)
        ⟨acc.graph, cur, List.replicate p.numColumnHosts []⟩ with
    | none => none
    | some r =>
      let msgs := (List.range p.numColumnHosts).filterMap fun i =>
        if (r.gdst_vec.getD i []).length > 0 then
          some ⟨gridRowID p id * p.numColumnHosts + i, n, r.gdst_vec.getD i []⟩
        else none
      if isLocal p id st n && r.cur != r.graph.edge_end lsrc then none
      else some ⟨r.graph, ee, acc.sent ++ msgs⟩

/-- The node loop of `loadEdgesFromFile` over a list of owned nodes. -/
def loadNodes (p : Cut) (g : FileGraph) (id : Nat) (st : LocalGraph) :
    List Nat → FileLoadProgress → Option FileLoadProgress
  | [], acc => some acc
  | n :: rest, acc =>
    match loadNode p g id st acc n with
    | none => none
    | some acc' => loadNodes p g id st rest acc'

/-- The function `loadEdgesFromFile` (edge data of type `void`) on host `id`:
the store after the local edges have been constructed and the messages sent
to the other hosts of the row. -/
def loadEdgesFromFile (p : Cut) (g : FileGraph) (id : Nat) (st : LocalGraph)
    (graph : LocalCSR) : Option FileLoadProgress :=
  loadNodes p g id st
    (List.range' (hostRange p id).1 ((hostRange p id).2 - (hostRange p id).1))
    ⟨graph, g.edge_begin (hostRange p id).1, []⟩

/-- The function `deserializeEdges` (edge data of type `void`): the loop
`while (cur < cur_end)` run for `cur_end - cur` rounds; reading `gdst_vec`
past its end is undefined. -/
def deserializeEdges (st : LocalGraph) (gdst_vec : List Nat) :
    Nat → Nat → Nat → LocalCSR → Option LocalCSR
  | 0, _, _, graph => some graph
  | rounds + 1, i, cur, graph =>
    match gdst_vec[i]? with
    | none => none
    | some gdst =>
      match G2L st gdst with
      | none => none
      | some ldst =>
        deserializeEdges st gdst_vec rounds (i + 1) (cur + 1) (graph.constructEdge cur ldst)

/-- The body of the loop of `receiveEdges` for one message; `none` when one
of its assertions fails or `G2L` fails. -/
def receiveEdgeMsg (p : Cut) (id : Nat) (st : LocalGraph) (graph : LocalCSR) (m : EdgeMsg) :
    Option LocalCSR :=
  if isLocal p id st m.n then
    match G2L st m.n with
    | none => none
    | some lsrc =>
      let cur := graph.edge_begin lsrc
      let cur_end := graph.edge_end lsrc
      if cur_end - cur == m.gdst_vec.length then
        deserializeEdges st m.gdst_vec (cur_end - cur) 0 cur graph
      else none
  else none

/-- The function `receiveEdges`: messages are consumed while
`numNodesWithEdges < numOwned`; with no message left the loop polls for
ever. -/
def receiveEdges (p : Cut) (id : Nat) (st : LocalGraph) :
    Nat → List EdgeMsg → LocalCSR → Option LocalCSR
  | numNodesWithEdges, [], graph => if numNodesWithEdges < st.numOwned then none else some graph
  | numNodesWithEdges, m :: inbox, graph =>
    if numNodesWithEdges < st.numOwned then
      match receiveEdgeMsg p id st graph m with
      | none => none
      | some graph' => receiveEdges p id st (numNodesWithEdges + 1) inbox graph'
    else some graph

/-- The pass-2 messages sent by host `sender`. -/
def sendEdges (p : Cut) (g : FileGraph) (sender : Nat) : List EdgeMsg :=
  match loadStatistics p g sender with
  | none => []
  | some st =>
    match loadEdgesFromFile p g sender st (allocateGraph st) with
    | none => []
    | some r => r.sent

/-- The pass-2 messages that reach host `id`, listed by sender. -/
def edgeInbox (p : Cut) (g : FileGraph) (id : Nat) : List EdgeMsg :=
  (List.range p.numHosts).flatMap fun sender =>
    (sendEdges p g sender).filter fun m => m.dest == id

/-- The two passes on host `id` followed on one thread (`nthreads == 1`), for
the pass-2 messages `inbox` in their order of arrival: `loadStatistics`, the
allocation, `loadEdgesFromFile`, then `receiveEdges` started at
`numNodesWithEdges = totalOwnedNodes`.  Returns the tables and the store. -/
def loadEdgesFrom (p : Cut) (g : FileGraph) (id : Nat) (inbox : List EdgeMsg) :
    Option (LocalGraph × LocalCSR) :=
  match loadStatistics p g id with
  | none => none
  | some st =>
    match loadEdgesFromFile p g id st (allocateGraph st) with
    | none => none
    | some r =>
      match receiveEdges p id st st.totalOwnedNodes inbox r.graph with
      | none => none
      | some graph => some (st, graph)

/-- The two passes on host `id`, the pass-2 messages arriving in the order of
their senders. -/
def loadEdges (p : Cut) (g : FileGraph) (id : Nat) : Option (LocalGraph × LocalCSR) :=
  loadEdgesFrom p g id (edgeInbox p g id)

/-- The local destinations stored in the slice of local node `lid`. -/
def LocalCSR.slice (c : LocalCSR) (lid : Nat) : List (Option Nat) :=
  (List.range' (c.edge_begin lid) (c.edge_end lid - c.edge_begin lid)).map c.edgeDst

/-- The global destinations of the edges stored for local node `lid`: the
slots of its slice that have been written, translated by `L2G`. -/
def storedEdges (st : LocalGraph) (c : LocalCSR) (lid : Nat) : List Nat :=
  (c.slice lid).filterMap fun slot => slot.bind (L2G st)

/-- The global destinations that host `id` is to store for the global id `s`:
the edges of `s` into the column of `id` when `s` belongs to the grid row of
`id`, and none otherwise. -/
def expectedDsts (p : Cut) (g : FileGraph) (id s : Nat) : List Nat :=
  if blockStart p (id / p.numColumnHosts * p.numColumnHosts) ≤ s ∧
      s < blockStart p (id / p.numColumnHosts * p.numColumnHosts + p.numColumnHosts) then
    (g.outEdges s).filter fun d => getColumnHostID p d == id % p.numColumnHosts
  else []

/-- The first edge slot of local node `lid` when the slices have the sizes
`ws`. -/
def sliceStart (ws : List Nat) (lid : Nat) : Nat := (ws.take lid).sum

/-- The pass-2 messages that host `id` sends for its node `n`: one batch for
each other column with an edge of `n` into it. -/
def nodeMsgs (p : Cut) (g : FileGraph) (id n : Nat) : List EdgeMsg :=
  (List.range p.numColumnHosts).filterMap fun i =>
    if i ≠ id % p.numColumnHosts ∧
        0 < ((g.outEdges n).filter fun d => getColumnHostID p d == i).length then
      some ⟨id / p.numColumnHosts * p.numColumnHosts + i, n,
        (g.outEdges n).filter fun d => getColumnHostID p d == i⟩
    else none

/-- The state of the store of host `id` when the slices of the global ids in
`done` have been written and the others are untouched. -/
def SlicesFilled (p : Cut) (g : FileGraph) (id : Nat) (st : LocalGraph)
    (edgeDst : Nat → Option Nat) (done : Nat → Prop) : Prop :=
  ∀ l s, st.localToGlobalVector[l]? = some s → ∀ j, j < localEdgeCount p g id s →
    (done s → edgeDst (sliceStart (st.localToGlobalVector.map (localEdgeCount p g id)) l + j) =
      ((expectedDsts p g id s)[j]?).bind (G2L st)) ∧
    (¬ done s →
      edgeDst (sliceStart (st.localToGlobalVector.map (localEdgeCount p g id)) l + j) = none)

/-- The pass-2 message that reaches host `id` for the source node `n`. -/
def edgeMsg (p : Cut) (g : FileGraph) (id n : Nat) : EdgeMsg :=
  ⟨id, n, (g.outEdges n).filter fun d => getColumnHostID p d == id % p.numColumnHosts⟩

/-- The source nodes of the pass-2 messages that reach host `id`: the nodes
owned by the other hosts of its row that have an edge into its column. -/
def incomingSources (p : Cut) (g : FileGraph) (id : Nat) : List Nat :=
  (rowPeers p id).flatMap fun P =>
    (List.range' (hostRange p P).1 (totalOwnedNodes p P)).filter fun n =>
      decide (0 < outCount p g (id % p.numColumnHosts) n)

/-! ## MirrorMasterRegistry: `fill_mirrorNodes` -/

/-- The body of the two inner loops of `fill_mirrorNodes` for one global id
of the range of `hostID`: `if (globalToLocalMap.find(gid) !=
globalToLocalMap.end()) mirrorNodes[hostID].push_back(gid);`. -/
def mirrorStep (st : LocalGraph) (hostID : Nat) (mirrorNodes : List (List Nat)) (gid : Nat) :
    List (List Nat) :=
  if (st.globalToLocalMap gid).isSome then mirrorNodes.modify (fun v => v ++ [gid]) hostID
  else mirrorNodes

/-- The inner loop of `fill_mirrorNodes` over the range `gid2host[hostID]`. -/
def fillMirrorsOf (p : Cut) (st : LocalGraph) (hostID : Nat) (mirrorNodes : List (List Nat)) :
    List (List Nat) :=
  (List.range' (hostRange p hostID).1 ((hostRange p hostID).2 - (hostRange p hostID).1)).foldl
    (mirrorStep st hostID) mirrorNodes

/-- The function `fill_mirrorNodes` on host `id`: first the other hosts of the
caller's grid row (mirrors for outgoing edges), then the other hosts of its
grid column (mirrors for incoming edges). -/
def fill_mirrorNodes (p : Cut) (id : Nat) (st : LocalGraph) (mirrorNodes : List (List Nat)) :
    List (List Nat) :=
  let outgoing := (List.range p.numColumnHosts).foldl
    (fun m i =>
      let hostID := gridRowID p id * p.numColumnHosts + i
      if hostID == id then m else fillMirrorsOf p st hostID m) mirrorNodes
  (List.range p.numRowHosts).foldl
    (fun m i =>
      let hostID := i * p.numColumnHosts + gridColumnID p id
      if hostID == id then m else fillMirrorsOf p st hostID m) outgoing

/-- Modelled from the spec: the `MirrorTable` holds "per peer host" sequences
of global ids; the base class, which is not part of the source file, sizes
`mirrorNodes` with one empty list per host. -/
def emptyMirrorNodes (p : Cut) : List (List Nat) := List.replicate p.numHosts []

/-- The value of `mirrorNodes` on host `id` after `loadStatistics` and
`fill_mirrorNodes`, started from empty lists; `none` when `loadStatistics`
does not return. -/
def mirrorNodesOn (p : Cut) (g : FileGraph) (id : Nat) : Option (List (List Nat)) :=
  match loadStatistics p g id with
  | none => none
  | some st => some (fill_mirrorNodes p id st (emptyMirrorNodes p))

/-- Modelled from the spec: the exchange of the registries, done by the base
class outside the source file.  "If host A lists global id X as mirrored from
host B, B must ... list A as a recipient of X": host `id` receives as
`masterNodes[A]` the list that host `A` computed as `mirrorNodes[id]`. -/
def masterNodesOn (p : Cut) (g : FileGraph) (id : Nat) : List (List Nat) :=
  (List.range p.numHosts).map fun A =>
    match mirrorNodesOn p g A with
    | none => []
    | some mirrorNodes => mirrorNodes.getD id []

/-- The global ids of the range of host `h` that are keys of
`globalToLocalMap`, in increasing order. -/
def mirrorKeys (p : Cut) (st : LocalGraph) (h : Nat) : List Nat :=
  (List.range' (hostRange p h).1 ((hostRange p h).2 - (hostRange p h).1)).filter fun gid =>
    (st.globalToLocalMap gid).isSome

/-- The hosts visited by `fill_mirrorNodes` on host `id`, in the order of the
visit: the other hosts of its grid row, then the other hosts of its grid
column. -/
def mirrorPeers (p : Cut) (id : Nat) : List Nat :=
  ((List.range p.numColumnHosts).map fun i => gridRowID p id * p.numColumnHosts + i).filter
      (fun h => h != id) ++
    ((List.range p.numRowHosts).map fun i => i * p.numColumnHosts + gridColumnID p id).filter
      (fun h => h != id)

/-! ## Synchronizer: communication partners -/

/-- The type `SyncType` of the base class: the two values the source file
names. -/
inductive SyncType where
  | syncReduce
  | syncBroadcast
  deriving DecidableEq, Repr

/-- The type `WriteLocation`: the three values handled by the `switch` of
`isNotCommunicationPartner`. -/
inductive WriteLocation where
  | writeSource
  | writeDestination
  | writeAny
  deriving DecidableEq, Repr

/-- The type `ReadLocation`: the three values handled by the `switch` of
`isNotCommunicationPartner`. -/
inductive ReadLocation where
  | readSource
  | readDestination
  | readAny
  deriving DecidableEq, Repr

/-- The function `isNotCommunicationPartner` on host `id`.  The `writeAny` and
`readAny` cases start with an `assert`. -/
def isNotCommunicationPartner (p : Cut) (id host : Nat) (syncType : SyncType)
    (writeLocation : WriteLocation) (readLocation : ReadLocation) : Except Fault Bool :=
  match syncType with
  | .syncReduce =>
    match writeLocation with
    | .writeSource => .ok (gridRowID p id != gridRowID p host)
    | .writeDestination => .ok (gridColumnID p id != gridColumnID p host)
    | .writeAny =>
      if gridRowID p id == gridRowID p host || gridColumnID p id == gridColumnID p host then
        .ok (gridRowID p id != gridRowID p host && gridColumnID p id != gridColumnID p host)
      else .error .assertionFailed
  | .syncBroadcast =>
    match readLocation with
    | .readSource => .ok (gridRowID p id != gridRowID p host)
    | .readDestination => .ok (gridColumnID p id != gridColumnID p host)
    | .readAny =>
      if gridRowID p id == gridRowID p host || gridColumnID p id == gridColumnID p host then
        .ok (gridRowID p id != gridRowID p host && gridColumnID p id != gridColumnID p host)
      else .error .assertionFailed

/-- The function `nothingToSend` on host `id`, whose registries are
`mirrorNodes` and `masterNodes`. -/
def nothingToSend (p : Cut) (id : Nat) (mirrorNodes masterNodes : List (List Nat)) (host : Nat)
    (syncType : SyncType) (writeLocation : WriteLocation) (readLocation : ReadLocation) :
    Except Fault Bool :=
  let sharedNodes := if syncType = .syncReduce then mirrorNodes else masterNodes
  if (sharedNodes.getD host []).length > 0 then
    isNotCommunicationPartner p id host syncType writeLocation readLocation
  else .ok true

/-- The function `nothingToRecv` on host `id`, whose registries are
`mirrorNodes` and `masterNodes`. -/
def nothingToRecv (p : Cut) (id : Nat) (mirrorNodes masterNodes : List (List Nat)) (host : Nat)
    (syncType : SyncType) (writeLocation : WriteLocation) (readLocation : ReadLocation) :
    Except Fault Bool :=
  let sharedNodes := if syncType = .syncReduce then masterNodes else mirrorNodes
  if (sharedNodes.getD host []).length > 0 then
    isNotCommunicationPartner p id host syncType writeLocation readLocation
  else .ok true

/-! ## The constructor -/

/-- Ways in which the constructor can end without a partitioned graph:
`GALOIS_DIE`, a fault of one of its steps, or a pass that does not complete. -/
inductive Abort where
  | die
  | fault (f : Fault)
  | incomplete
  deriving DecidableEq, Repr

/-- The members set by the constructor. -/
structure Partition where
  cut : Cut
  nodes : LocalGraph
  beginMaster : Nat
  endMaster : Nat
  graph : LocalCSR
  mirrorNodes : List (List Nat)

/-- The constructor of `hGraph_cartesianCut` on host `host`.  The graph file
is given by its edges `g` and its node count `size`; `computeMasters`, a
function of the base class outside the source file, is a parameter that
returns the table `gid2host`.  The subtraction in
`gid2host[id].second - 1` is the 64-bit one.  The steps that follow
`fill_mirrorNodes` (thread ranges, `setup_communication`) belong to the base
class and are left out. -/
def construct (computeMasters : FileGraph → Nat → Nat → List Nat → List (Nat × Nat))
    (g : FileGraph) (size host numHosts : Nat) (scalefactor : List Nat) (transpose : Bool) :
    Except Abort Partition :=
  if transpose then .error .die
  else
    match factorize_hosts numHosts with
    | .error f => .error (.fault f)
    | .ok (numRowHosts, numColumnHosts) =>
      let p : Cut :=
        ⟨numHosts, numRowHosts, numColumnHosts, size, computeMasters g size numHosts scalefactor⟩
      match loadStatistics p g host with
      | none => .error .incomplete
      | some st =>
        match G2L st (hostRange p host).1,
            G2L st (((hostRange p host).2 + 2 ^ 64 - 1) % 2 ^ 64) with
        | some first, some last =>
          if st.numNodes > 0 ∧ st.prefixSumOfEdges.length ≠ st.numNodes then
            .error (.fault .assertionFailed)
          else
            match loadEdges p g host with
            | none => .error .incomplete
            | some (nodes, graph) =>
              .ok ⟨p, nodes, first, last + 1, graph,
                fill_mirrorNodes p host nodes (emptyMirrorNodes p)⟩
        | _, _ => .error (.fault .assertionFailed)

/-! ## Slices fixed by the prefix sum -/

/-- The first edge slot of local node `l` after the loop
`fixEndEdge(n, prefixSumOfEdges[n])`: the end of the previous slice, and `0`
for `l = 0`. -/
def LocalGraph.sliceBegin (st : LocalGraph) (l : Nat) : Nat :=
  if l = 0 then 0 else st.prefixSumOfEdges.getD (l - 1) 0

/-- The end of the slice of local node `l`: the value `prefixSumOfEdges[l]`
passed to `fixEndEdge`. -/
def LocalGraph.sliceEnd (st : LocalGraph) (l : Nat) : Nat := st.prefixSumOfEdges.getD l 0

/-! ## `reset_bitset` -/

/-- The function `reset_bitset` on host `id`: the calls
`bitset_reset_range(first, last)` it makes, in order.  `G2L` fails on a global
id that is not a key of the map and the two `assert`s are faults.  The
subtraction in `gid2host[id].second - 1` is the 64-bit one and the one in
`numNodes - 1` the 32-bit one. -/
def reset_bitset (p : Cut) (id : Nat) (st : LocalGraph) (syncType : SyncType) :
    Except Fault (List (Nat × Nat)) :=
  match G2L st (hostRange p id).1, G2L st (((hostRange p id).2 + 2 ^ 64 - 1) % 2 ^ 64) with
  | some first_owned, some last_owned =>
    if first_owned ≤ last_owned then
      if last_owned - first_owned + 1 = st.totalOwnedNodes then
        match syncType with
        | .syncBroadcast => .ok [(first_owned, last_owned)]
        | .syncReduce =>
          .ok ((if first_owned > 0 then [(0, first_owned - 1)] else []) ++
            (if last_owned < (st.numNodes + 2 ^ 32 - 1) % 2 ^ 32 then
              [(last_owned + 1, (st.numNodes + 2 ^ 32 - 1) % 2 ^ 32)]
            else []))
      else .error .assertionFailed
    else .error .assertionFailed
  | _, _ => .error .assertionFailed

/-! ## Phase tags -/

/-- Modelled from the spec: a message in flight, "tagged with a monotonically
increasing phase counter".  The network interface is outside the source file;
the body is a pass-1 or a pass-2 message. -/
structure Tagged where
  tag : Nat
  body : StatMsg ⊕ EdgeMsg

/-- Modelled from the spec: `recieveTagged(tag, ...)` on the receive queue of
a host, "message tags from this round can never be mistaken for the next": the
first queued message that carries the tag, taken out of the queue; `none` when
no queued message carries it. -/
def recieveTagged (tag : Nat) : List Tagged → Option (Tagged × List Tagged)
  | [] => none
  | m :: queue =>
    if m.tag == tag then some (m, queue)
    else
      match recieveTagged tag queue with
      | none => none
      | some (r, rest) => some (r, m :: rest)

/-- The send loop of `loadStatistics` on host `sender` with the tag given to
`sendTagged`, the current value of `evilPhase`. -/
def sendStatisticsTagged (p : Cut) (g : FileGraph) (sender evilPhase : Nat) : List Tagged :=
  (sendStatistics p g sender).map fun m => ⟨evilPhase, .inl m⟩

/-- The receive loop of `loadStatistics` on a queue of tagged messages: every
round takes a message tagged `evilPhase` and polls for ever when there is
none.  Returns the tables, the messages accepted and the rest of the queue;
a buffer that is not a pass-1 message cannot be deserialized. -/
def recvStatisticsTagged (p : Cut) (evilPhase : Nat) :
    Nat → List Tagged → EdgeStats → List Tagged → Option (EdgeStats × List Tagged × List Tagged)
  | 0, queue, st, accepted => some (st, accepted, queue)
  | n + 1, queue, st, accepted =>
    match recieveTagged evilPhase queue with
    | none => none
    | some (m, rest) =>
      match m.body with
      | .inl s =>
        recvStatisticsTagged p evilPhase n rest (storeStatistics p st s) (accepted ++ [m])
      | .inr _ => none

/-- The outcome of a pass run with the phase counter: the value of
`evilPhase` it leaves, the messages it sent and accepted, and the rest of the
receive queue. -/
structure Phased (α : Type) where
  result : α
  evilPhase : Nat
  sent : List Tagged
  accepted : List Tagged
  queue : List Tagged

/-- The function `loadStatistics` on host `id` with the phase counter: the
messages are sent and received with the tag `evilPhase`, and `++evilPhase`
follows the receive loop.  The counter is declared outside the source file and
is taken as a natural number. -/
def loadStatisticsTagged (p : Cut) (g : FileGraph) (id evilPhase : Nat) (queue : List Tagged) :
    Option (Phased LocalGraph) :=
  match recvStatisticsTagged p evilPhase (p.numColumnHosts - 1) queue (inspectEdges p g id) []
    with
  | none => none
  | some (stats, accepted, rest) =>
    let hasIn0 := mergeIncoming p stats.hasIncomingEdge
    let leaderHostID := gridRowID p id * p.numColumnHosts
    let st := (createRowNodes p id stats.numOutgoingEdges hasIn0
      (emptyLocalGraph p id, (hostRange p leaderHostID).1)).1
    some ⟨createColumnNodes p id hasIn0 { st with numOwned := st.numNodes }, evilPhase + 1,
      sendStatisticsTagged p g id evilPhase, accepted, rest⟩

/-- The loop of `receiveEdges` on a queue of tagged messages, for the number
of messages still to come, `numOwned - numNodesWithEdges`: every round takes a
message tagged `evilPhase` and polls for ever when there is none. -/
def receiveEdgesTagged (p : Cut) (id : Nat) (st : LocalGraph) (evilPhase : Nat) :
    Nat → List Tagged → LocalCSR → List Tagged → Option (LocalCSR × List Tagged × List Tagged)
  | 0, queue, graph, accepted => some (graph, accepted, queue)
  | n + 1, queue, graph, accepted =>
    match recieveTagged evilPhase queue with
    | none => none
    | some (m, rest) =>
      match m.body with
      | .inr e =>
        match receiveEdgeMsg p id st graph e with
        | none => none
        | some graph' => receiveEdgesTagged p id st evilPhase n rest graph' (accepted ++ [m])
      | .inl _ => none

/-- The function `loadEdges` on host `id` with the phase counter, on one
thread: `loadEdgesFromFile` sends with the tag `evilPhase`, `receiveEdges`
receives with it, and `++evilPhase` follows. -/
def loadEdgesTagged (p : Cut) (g : FileGraph) (id : Nat) (st : LocalGraph) (evilPhase : Nat)
    (queue : List Tagged) : Option (Phased LocalCSR) :=
  match loadEdgesFromFile p g id st (allocateGraph st) with
  | none => none
  | some r =>
    match receiveEdgesTagged p id st evilPhase (st.numOwned - st.totalOwnedNodes) queue r.graph []
      with
    | none => none
    | some (graph, accepted, rest) =>
      some ⟨graph, evilPhase + 1, r.sent.map fun m => ⟨evilPhase, .inr m⟩, accepted, rest⟩

/-! ## Properties of the grid -/

theorem factorizeLoop_spec (n : Nat) :
    ∀ c, 1 ≤ c → ∃ k, factorizeLoop n c = .ok k ∧ 1 ≤ k ∧ k ≤ c ∧ n % k = 0 ∧
      ∀ d, d ≤ c → n % d = 0 → d ≤ k := by
  intro c
  induction c with
  | zero => intro h; omega
  | succ c ih =>
    intro _
    by_cases hdiv : n % (c + 1) = 0
    · refine ⟨c + 1, ?_, by omega, le_refl _, hdiv, fun d hd _ => hd⟩
      simp [factorizeLoop, hdiv]
    · have hc : 1 ≤ c := by
        rcases Nat.eq_zero_or_pos c with h0 | h0
        · subst h0; exact absurd (Nat.mod_one n) hdiv
        · exact h0
      obtain ⟨k, hk, hk1, hkc, hkd, hmax⟩ := ih hc
      refine ⟨k, ?_, hk1, by omega, hkd, ?_⟩
      · simp [factorizeLoop, hdiv, hk]
      · intro d hd hdn
        rcases Nat.lt_or_ge d (c + 1) with h | h
        · exact hmax d (by omega) hdn
        · have : d = c + 1 := by omega
          subst this; exact absurd hdn hdiv

theorem factorize_hosts_spec (n : Nat) (hn : 1 ≤ n) :
    ∃ c, factorize_hosts n = .ok (n / c, c) ∧ 1 ≤ c ∧ c ∣ n ∧ c * c ≤ n ∧
      ∀ d, d ∣ n → d * d ≤ n → d ≤ c := by
  have hs : 1 ≤ Nat.sqrt n := Nat.sqrt_pos.2 hn
  obtain ⟨k, hk, hk1, hkc, hkd, hmax⟩ := factorizeLoop_spec n (Nat.sqrt n) hs
  have hsq : k * k ≤ n := Nat.le_sqrt.1 hkc
  have hle : k ≤ n / k := (Nat.le_div_iff_mul_le hk1).2 hsq
  refine ⟨k, ?_, hk1, Nat.dvd_of_mod_eq_zero hkd, hsq, ?_⟩
  · simp [factorize_hosts, hk, hle]
  · intro d hd hdd
    exact hmax d (Nat.le_sqrt.2 hdd) (Nat.mod_eq_zero_of_dvd hd)

theorem factorize_hosts_four : factorize_hosts 4 = .ok (2, 2) := by
  have h : Nat.sqrt 4 = 2 := Nat.sqrt_eq 2
  simp [factorize_hosts, h, factorizeLoop]

/-- C1: for every host count `N ≥ 1`, `factorize_hosts` returns normally with
`numColumnHosts` the largest `d` such that `d` divides `N` and `d * d ≤ N`,
and `numRowHosts = N / numColumnHosts`; for `N = 4` the grid is `2 x 2`. -/
theorem factorize_hosts_largest_divisor (N : Nat) (hN : 1 ≤ N) :
    (∃ rows cols, factorize_hosts N = .ok (rows, cols) ∧
      cols ∣ N ∧ cols * cols ≤ N ∧ (∀ d, d ∣ N → d * d ≤ N → d ≤ cols) ∧
      rows = N / cols) ∧
    factorize_hosts 4 = .ok (2, 2) := by
  obtain ⟨c, hc, _, hdvd, hsq, hmax⟩ := factorize_hosts_spec N hN
  exact ⟨⟨N / c, c, hc, hdvd, hsq, hmax, rfl⟩, factorize_hosts_four⟩

theorem factorize_hosts_largest_divisor_witness :
    (∃ rows cols, factorize_hosts 12 = .ok (rows, cols) ∧
      cols ∣ 12 ∧ cols * cols ≤ 12 ∧ (∀ d, d ∣ 12 → d * d ≤ 12 → d ≤ cols) ∧
      rows = 12 / cols) ∧
    factorize_hosts 4 = .ok (2, 2) :=
  factorize_hosts_largest_divisor 12 (by decide)

/-- C2: for every host count `N ≥ 1`, `factorize_hosts` returns normally (its
`assert(numRowHosts>=numColumnHosts)` holds) with
`numRowHosts * numColumnHosts = N` and `numRowHosts ≥ numColumnHosts`. -/
theorem factorize_hosts_product (N : Nat) (hN : 1 ≤ N) :
    ∃ rows cols, factorize_hosts N = .ok (rows, cols) ∧ rows * cols = N ∧ rows ≥ cols := by
  obtain ⟨c, hc, hc1, hdvd, hsq, _⟩ := factorize_hosts_spec N hN
  exact ⟨N / c, c, hc, Nat.div_mul_cancel hdvd, (Nat.le_div_iff_mul_le hc1).2 hsq⟩

theorem factorize_hosts_product_witness :
    ∃ rows cols, factorize_hosts 6 = .ok (rows, cols) ∧ rows * cols = 6 ∧ rows ≥ cols :=
  factorize_hosts_product 6 (by decide)

/-- C3: the grid chosen by `factorize_hosts` minimizes the difference between
the factors: for `N ≥ 1` and positive `r`, `c` with `r * c = N`,
`numRowHosts - numColumnHosts ≤ |r - c|`. -/
theorem factorize_hosts_minimal_imbalance (N r c : Nat) (hN : 1 ≤ N) (hr : 0 < r)
    (hc : 0 < c) (hrc : r * c = N) :
    ∃ rows cols, factorize_hosts N = .ok (rows, cols) ∧
      (rows : Int) - (cols : Int) ≤ |(r : Int) - (c : Int)| := by
  obtain ⟨k, hk, hk1, hdvd, hsq, hmax⟩ := factorize_hosts_spec N hN
  refine ⟨N / k, k, hk, ?_⟩
  have hprod : N / k * k = N := Nat.div_mul_cancel hdvd
  -- the smaller of `r`, `c` is a divisor below the square root
  have key : ∀ a b : Nat, 0 < a → a * b = N → a ≤ b → (N / k : Nat) ≤ b ∧ a ≤ k := by
    intro a b ha hab hle
    have hak : a ≤ k := by
      apply hmax a ⟨b, hab.symm⟩
      calc a * a ≤ a * b := Nat.mul_le_mul_left a hle
        _ = N := hab
    refine ⟨?_, hak⟩
    have hb : b = N / a := by
      rw [← hab, Nat.mul_div_cancel_left b ha]
    rw [hb]
    exact Nat.div_le_div_left hak ha
  rcases Nat.le_total c r with hcr | hcr
  · obtain ⟨h1, h2⟩ := key c r hc (by rw [Nat.mul_comm]; exact hrc) hcr
    rw [abs_of_nonneg (by omega)]
    omega
  · obtain ⟨h1, h2⟩ := key r c hr hrc hcr
    rw [abs_of_nonpos (by omega)]
    omega

theorem factorize_hosts_minimal_imbalance_witness :
    ∃ rows cols, factorize_hosts 12 = .ok (rows, cols) ∧
      (rows : Int) - (cols : Int) ≤ |((6 : Nat) : Int) - ((2 : Nat) : Int)| :=
  factorize_hosts_minimal_imbalance 12 6 2 (by decide) (by decide) (by decide) (by decide)

/-- C4: on the grid produced by `factorize_hosts` for `N` hosts, every host id
`h < N` has `gridRowID(h) = h / numColumnHosts < numRowHosts`,
`gridColumnID(h) = h mod numColumnHosts < numColumnHosts` and
`h = gridRowID(h) * numColumnHosts + gridColumnID(h)`; the map
`h ↦ (row, column)` is injective on `[0, N)` and onto
`[0, numRowHosts) × [0, numColumnHosts)`. -/
theorem grid_coordinates_bijection (p : Cut) (hN : 1 ≤ p.numHosts)
    (hgrid : factorize_hosts p.numHosts = .ok (p.numRowHosts, p.numColumnHosts)) :
    (∀ h, h < p.numHosts →
      gridRowID p h = h / p.numColumnHosts ∧ gridRowID p h < p.numRowHosts ∧
      gridColumnID p h = h % p.numColumnHosts ∧ gridColumnID p h < p.numColumnHosts ∧
      h = gridRowID p h * p.numColumnHosts + gridColumnID p h) ∧
    (∀ h h', h < p.numHosts → h' < p.numHosts →
      gridRowID p h = gridRowID p h' → gridColumnID p h = gridColumnID p h' → h = h') ∧
    (∀ r c, r < p.numRowHosts → c < p.numColumnHosts →
      ∃ h, h < p.numHosts ∧ gridRowID p h = r ∧ gridColumnID p h = c) := by
  obtain ⟨k, hk, hk1, hdvd, _, _⟩ := factorize_hosts_spec p.numHosts hN
  rw [hk] at hgrid
  have hpair : (p.numHosts / k, k) = (p.numRowHosts, p.numColumnHosts) := by
    injection hgrid
  have hR : p.numRowHosts = p.numHosts / k := (congrArg Prod.fst hpair).symm
  have hC : p.numColumnHosts = k := (congrArg Prod.snd hpair).symm
  have hprod : p.numRowHosts * p.numColumnHosts = p.numHosts := by
    rw [hR, hC]; exact Nat.div_mul_cancel hdvd
  have hCpos : 0 < p.numColumnHosts := by omega
  refine ⟨?_, ?_, ?_⟩
  · intro h hh
    refine ⟨rfl, ?_, rfl, Nat.mod_lt _ hCpos, ?_⟩
    · unfold gridRowID
      rw [Nat.div_lt_iff_lt_mul hCpos, hprod]; exact hh
    · unfold gridRowID gridColumnID
      rw [Nat.mul_comm]; exact (Nat.div_add_mod h p.numColumnHosts).symm
  · intro h h' _ _ hrow hcol
    unfold gridRowID at hrow
    unfold gridColumnID at hcol
    rw [← Nat.div_add_mod h p.numColumnHosts, ← Nat.div_add_mod h' p.numColumnHosts,
      hrow, hcol]
  · intro r c hr hc
    refine ⟨r * p.numColumnHosts + c, ?_, ?_, ?_⟩
    · calc r * p.numColumnHosts + c < r * p.numColumnHosts + p.numColumnHosts := by omega
        _ = (r + 1) * p.numColumnHosts := by ring
        _ ≤ p.numRowHosts * p.numColumnHosts := Nat.mul_le_mul_right _ hr
        _ = p.numHosts := hprod
    · unfold gridRowID
      rw [Nat.mul_comm, Nat.mul_add_div hCpos, Nat.div_eq_of_lt hc]; rfl
    · unfold gridColumnID
      rw [Nat.mul_comm, Nat.mul_add_mod, Nat.mod_eq_of_lt hc]

theorem grid_coordinates_bijection_witness :
    (∀ h, h < 4 →
      gridRowID ⟨4, 2, 2, 0, []⟩ h = h / 2 ∧ gridRowID ⟨4, 2, 2, 0, []⟩ h < 2 ∧
      gridColumnID ⟨4, 2, 2, 0, []⟩ h = h % 2 ∧ gridColumnID ⟨4, 2, 2, 0, []⟩ h < 2 ∧
      h = gridRowID ⟨4, 2, 2, 0, []⟩ h * 2 + gridColumnID ⟨4, 2, 2, 0, []⟩ h) ∧
    (∀ h h', h < 4 → h' < 4 →
      gridRowID ⟨4, 2, 2, 0, []⟩ h = gridRowID ⟨4, 2, 2, 0, []⟩ h' →
      gridColumnID ⟨4, 2, 2, 0, []⟩ h = gridColumnID ⟨4, 2, 2, 0, []⟩ h' → h = h') ∧
    (∀ r c, r < 2 → c < 2 →
      ∃ h, h < 4 ∧ gridRowID ⟨4, 2, 2, 0, []⟩ h = r ∧ gridColumnID ⟨4, 2, 2, 0, []⟩ h = c) :=
  grid_coordinates_bijection ⟨4, 2, 2, 0, []⟩ (by decide) factorize_hosts_four

/-! ## Properties of the ownership table -/

theorem isOwned_iff (p : Cut) (h g : Nat) :
    isOwned p h g = true ↔ (hostRange p h).1 ≤ g ∧ g < (hostRange p h).2 := by
  simp [isOwned]

theorem ValidPartition.start_mono {p : Cut} (hv : ValidPartition p) :
    ∀ h h', h ≤ h' → h' < p.numHosts → (hostRange p h).1 ≤ (hostRange p h').1 := by
  intro h h' hle
  induction hle with
  | refl => intro _; exact le_refl _
  | step hm ih =>
    rename_i m
    intro hlt
    have h1 := ih (by omega)
    have h2 := hv.start_le_end m (by omega)
    have h3 := hv.contiguous m hlt
    show _ ≤ (hostRange p (m + 1)).1
    omega

theorem ValidPartition.end_le_start {p : Cut} (hv : ValidPartition p) (h h' : Nat)
    (hlt : h < h') (hh' : h' < p.numHosts) : (hostRange p h).2 ≤ (hostRange p h').1 := by
  have h1 := hv.contiguous h (by omega)
  have h2 := hv.start_mono (h + 1) h' hlt hh'
  omega

theorem ValidPartition.end_le_total {p : Cut} (hv : ValidPartition p) (h : Nat)
    (hh : h < p.numHosts) : (hostRange p h).2 ≤ p.totalNodes := by
  have hpos := hv.hosts_pos
  rcases Nat.lt_or_ge h (p.numHosts - 1) with hlt | hge
  · have h1 := hv.end_le_start h (p.numHosts - 1) hlt (by omega)
    have h2 := hv.start_le_end (p.numHosts - 1) (by omega)
    have h3 := hv.last_end
    omega
  · have : h = p.numHosts - 1 := by omega
    rw [this, hv.last_end]

theorem hostRange_of_ge (p : Cut) (hlen : p.gid2host.length = p.numHosts) (h : Nat)
    (hh : p.numHosts ≤ h) : hostRange p h = (0, 0) := by
  unfold hostRange
  rw [List.getD_eq_default]
  omega

theorem ValidPartition.isOwned_lt {p : Cut} (hv : ValidPartition p) (h g : Nat)
    (ho : isOwned p h g = true) : h < p.numHosts ∧ g < p.totalNodes := by
  rw [isOwned_iff] at ho
  rcases Nat.lt_or_ge h p.numHosts with hlt | hge
  · exact ⟨hlt, lt_of_lt_of_le ho.2 (hv.end_le_total h hlt)⟩
  · rw [hostRange_of_ge p hv.length_eq h hge] at ho
    simp at ho

theorem ValidPartition.isOwned_unique {p : Cut} (hv : ValidPartition p) (h h' g : Nat)
    (ho : isOwned p h g = true) (ho' : isOwned p h' g = true) : h = h' := by
  have hl := (hv.isOwned_lt h g ho).1
  have hl' := (hv.isOwned_lt h' g ho').1
  rw [isOwned_iff] at ho ho'
  rcases Nat.lt_trichotomy h h' with hlt | heq | hgt
  · have := hv.end_le_start h h' hlt hl'
    omega
  · exact heq
  · have := hv.end_le_start h' h hgt hl
    omega

theorem ValidPartition.exists_owner {p : Cut} (hv : ValidPartition p) (g : Nat)
    (hg : g < p.totalNodes) : ∃ h, h < p.numHosts ∧ isOwned p h g = true := by
  have hpos := hv.hosts_pos
  -- among the hosts whose range ends above `g`, take the first
  have hex : ∃ h, h < p.numHosts ∧ g < (hostRange p h).2 :=
    ⟨p.numHosts - 1, by omega, by rw [hv.last_end]; exact hg⟩
  classical
  let h := Nat.find hex
  have hh : h < p.numHosts ∧ g < (hostRange p h).2 := Nat.find_spec hex
  refine ⟨h, hh.1, (isOwned_iff p h g).2 ⟨?_, hh.2⟩⟩
  rcases Nat.eq_zero_or_pos h with h0 | hp
  · rw [h0, hv.first_start]; exact Nat.zero_le _
  · have hmin : ¬ (h - 1 < p.numHosts ∧ g < (hostRange p (h - 1)).2) :=
      Nat.find_min hex (by omega)
    have hc := hv.contiguous (h - 1) (by omega)
    have e : h - 1 + 1 = h := by omega
    rw [e] at hc
    have : ¬ g < (hostRange p (h - 1)).2 := fun hlt => hmin ⟨by omega, hlt⟩
    omega

theorem ValidPartition.getHostIDLoop_eq {p : Cut} (hv : ValidPartition p) (h g : Nat)
    (ho : isOwned p h g = true) : getHostIDLoop p g = some h := by
  unfold getHostIDLoop
  cases hf : (List.range p.numHosts).find? (fun h => isOwned p h g) with
  | none =>
    rw [List.find?_eq_none] at hf
    have := hf h (List.mem_range.2 (hv.isOwned_lt h g ho).1)
    simp [ho] at this
  | some h' =>
    have := List.find?_some hf
    rw [hv.isOwned_unique h h' g ho this]

theorem ValidPartition.getHostID_eq {p : Cut} (hv : ValidPartition p) (h g : Nat)
    (ho : isOwned p h g = true) : getHostID p g = h := by
  unfold getHostID
  rw [hv.getHostIDLoop_eq h g ho]

theorem ValidPartition.isOwned_getHostID {p : Cut} (hv : ValidPartition p) (g : Nat)
    (hg : g < p.totalNodes) : getHostID p g < p.numHosts ∧ isOwned p (getHostID p g) g = true := by
  obtain ⟨h, hh, ho⟩ := hv.exists_owner g hg
  rw [hv.getHostID_eq h g ho]
  exact ⟨hh, ho⟩

/-- C5: when `gid2host` is a partition of `[0, totalNodes)` into contiguous
half-open ranges ordered by host id, every global id `g < totalNodes` is owned
by exactly one host `h`, and `getHostID(g)` returns that `h`, a value below
`numHosts`, from inside its loop (the trailing `assert(false)` is not reached). -/
theorem getHostID_unique_owner (p : Cut) (hv : ValidPartition p) (g : Nat)
    (hg : g < p.totalNodes) :
    ∃ h, h < p.numHosts ∧ isOwned p h g = true ∧
      (∀ h', isOwned p h' g = true → h' = h) ∧
      getHostIDLoop p g = some h ∧ getHostID p g = h := by
  obtain ⟨h, hh, ho⟩ := hv.exists_owner g hg
  exact ⟨h, hh, ho, fun h' ho' => hv.isOwned_unique h' h g ho' ho,
    hv.getHostIDLoop_eq h g ho, hv.getHostID_eq h g ho⟩

/-! ## Properties of the column index -/

theorem columnBlockSize_eq (p : Cut) (c : Nat) : columnBlockSize p c = columnPrefix p c p.numHosts := rfl

theorem columnPrefix_zero (p : Cut) (c : Nat) : columnPrefix p c 0 = 0 := rfl

theorem columnPrefix_succ (p : Cut) (c n : Nat) :
    columnPrefix p c (n + 1) =
      if n % p.numColumnHosts = c then columnPrefix p c n + blockSize p n else columnPrefix p c n := by
  unfold columnPrefix
  rw [List.range_succ, List.foldl_append]
  simp [getColumnHostIDOfBlock, blockSize]

theorem columnPrefix_mono (p : Cut) (c : Nat) : ∀ n m, n ≤ m → columnPrefix p c n ≤ columnPrefix p c m := by
  intro n m h
  obtain ⟨d, rfl⟩ := Nat.exists_eq_add_of_le h
  induction d with
  | zero => exact le_refl _
  | succ d ih =>
    have e : n + (d + 1) = (n + d) + 1 := by omega
    rw [e, columnPrefix_succ]
    have := ih (by omega)
    split <;> omega

theorem ValidPartition.columnPrefix_le_start {p : Cut} (hv : ValidPartition p) (c : Nat) :
    ∀ b, b < p.numHosts → columnPrefix p c b ≤ (hostRange p b).1 := by
  intro b
  induction b with
  | zero => intro _; rw [columnPrefix_zero]; exact Nat.zero_le _
  | succ b ih =>
    intro hb
    have h1 := ih (by omega)
    have h2 := hv.start_le_end b (by omega)
    have h3 := hv.contiguous b hb
    rw [columnPrefix_succ]
    unfold blockSize
    split <;> omega

theorem ValidPartition.columnPrefix_succ_le_end {p : Cut} (hv : ValidPartition p) (c b : Nat)
    (hb : b < p.numHosts) : columnPrefix p c (b + 1) ≤ (hostRange p b).2 := by
  have h1 := hv.columnPrefix_le_start c b hb
  have h2 := hv.start_le_end b hb
  rw [columnPrefix_succ]
  unfold blockSize
  split <;> omega

theorem getColumnIndexLoop_spec {p : Cut} (hv : ValidPartition p) (hT : p.totalNodes < 2 ^ 32)
    (B gid : Nat) (ho : isOwned p B gid = true) :
    ∀ n k, k + n = B + 1 → k ≤ B →
      getColumnIndexLoop p gid (getColumnHostIDOfBlock p B) (List.range' k n)
          (columnPrefix p (B % p.numColumnHosts) k) =
        columnPrefix p (B % p.numColumnHosts) B + (gid - (hostRange p B).1) := by
  have hB := (hv.isOwned_lt B gid ho).1
  have hg := (hv.isOwned_lt B gid ho).2
  rw [isOwned_iff] at ho
  intro n
  induction n with
  | zero => intro k hk hkB; omega
  | succ n ih =>
    intro k hk hkB
    rw [List.range'_succ]
    unfold getColumnIndexLoop
    by_cases hcol : k % p.numColumnHosts = B % p.numColumnHosts
    · simp only [getColumnHostIDOfBlock, hcol, beq_self_eq_true, if_true]
      rcases Nat.lt_or_ge k B with hlt | hge
      · -- an earlier block of the same column: `gid` is past its end
        have h1 := hv.end_le_start k B hlt hB
        have h2 : ¬ gid < (hostRange p k).2 := by omega
        rw [if_neg h2]
        have h3 := hv.columnPrefix_succ_le_end (B % p.numColumnHosts) k (by omega)
        have h4 := hv.end_le_total k (by omega)
        have h5 : columnPrefix p (B % p.numColumnHosts) (k + 1) =
            columnPrefix p (B % p.numColumnHosts) k + ((hostRange p k).2 - (hostRange p k).1) := by
          rw [columnPrefix_succ, if_pos hcol]; rfl
        have h6 : columnPrefix p (B % p.numColumnHosts) (k + 1) < 2 ^ 32 := by omega
        rw [← h5, Nat.mod_eq_of_lt h6]
        exact ih (k + 1) (by omega) (by omega)
      · have hk' : k = B := by omega
        subst hk'
        rw [if_pos ho.2]
        have h1 := hv.columnPrefix_le_start (k % p.numColumnHosts) k hB
        exact Nat.mod_eq_of_lt (by omega)
    · have hne : ¬ (getColumnHostIDOfBlock p k == getColumnHostIDOfBlock p B) = true := by
        simpa [getColumnHostIDOfBlock] using hcol
      rw [if_neg hne]
      have h5 : columnPrefix p (B % p.numColumnHosts) (k + 1) =
          columnPrefix p (B % p.numColumnHosts) k := by
        rw [columnPrefix_succ, if_neg hcol]
      have hk2 : k ≠ B := fun h => hcol (by rw [h])
      rw [← h5]
      exact ih (k + 1) (by omega) (by omega)

theorem getColumnIndex_eq {p : Cut} (hv : ValidPartition p) (hT : p.totalNodes < 2 ^ 32)
    (B gid : Nat) (ho : isOwned p B gid = true) :
    getColumnIndex p gid = columnPrefix p (B % p.numColumnHosts) B + (gid - (hostRange p B).1) := by
  unfold getColumnIndex getBlockID
  rw [hv.getHostID_eq B gid ho]
  dsimp only
  rw [List.range_eq_range']
  exact getColumnIndexLoop_spec hv hT B gid ho (B + 1) 0 (by omega) (by omega)

theorem getColumnHostID_eq {p : Cut} (hv : ValidPartition p) (B gid : Nat)
    (ho : isOwned p B gid = true) : getColumnHostID p gid = B % p.numColumnHosts := by
  unfold getColumnHostID getBlockID getColumnHostIDOfBlock
  rw [hv.getHostID_eq B gid ho]

theorem getColumnIndex_lt {p : Cut} (hv : ValidPartition p) (hT : p.totalNodes < 2 ^ 32)
    (gid : Nat) (hg : gid < p.totalNodes) :
    getColumnIndex p gid < columnBlockSize p (getColumnHostID p gid) := by
  obtain ⟨B, hB, ho⟩ := hv.exists_owner gid hg
  rw [getColumnIndex_eq hv hT B gid ho, getColumnHostID_eq hv B gid ho, columnBlockSize_eq]
  have h1 : columnPrefix p (B % p.numColumnHosts) (B + 1) =
      columnPrefix p (B % p.numColumnHosts) B + blockSize p B := by
    rw [columnPrefix_succ, if_pos rfl]
  have h2 := columnPrefix_mono p (B % p.numColumnHosts) (B + 1) p.numHosts (by omega)
  rw [isOwned_iff] at ho
  unfold blockSize at h1
  omega

theorem getColumnIndex_inj {p : Cut} (hv : ValidPartition p) (hT : p.totalNodes < 2 ^ 32)
    (g₁ g₂ : Nat) (h₁ : g₁ < p.totalNodes) (h₂ : g₂ < p.totalNodes)
    (hcol : getColumnHostID p g₁ = getColumnHostID p g₂)
    (hidx : getColumnIndex p g₁ = getColumnIndex p g₂) : g₁ = g₂ := by
  obtain ⟨B₁, hB₁, ho₁⟩ := hv.exists_owner g₁ h₁
  obtain ⟨B₂, hB₂, ho₂⟩ := hv.exists_owner g₂ h₂
  rw [getColumnHostID_eq hv B₁ g₁ ho₁, getColumnHostID_eq hv B₂ g₂ ho₂] at hcol
  rw [getColumnIndex_eq hv hT B₁ g₁ ho₁, getColumnIndex_eq hv hT B₂ g₂ ho₂] at hidx
  have key : ∀ a b ga gb, a < b → b < p.numHosts → a % p.numColumnHosts = b % p.numColumnHosts →
      isOwned p a ga = true → isOwned p b gb = true →
      columnPrefix p (a % p.numColumnHosts) a + (ga - (hostRange p a).1) <
        columnPrefix p (b % p.numColumnHosts) b + (gb - (hostRange p b).1) := by
    intro a b ga gb hab hb hc hoa hob
    rw [isOwned_iff] at hoa
    have e1 : columnPrefix p (a % p.numColumnHosts) (a + 1) =
        columnPrefix p (a % p.numColumnHosts) a + blockSize p a := by
      rw [columnPrefix_succ, if_pos rfl]
    have e2 := columnPrefix_mono p (a % p.numColumnHosts) (a + 1) b hab
    rw [hc] at e1 e2
    rw [hc]
    unfold blockSize at e1
    omega
  rw [isOwned_iff] at ho₁ ho₂
  rcases Nat.lt_trichotomy B₁ B₂ with hlt | heq | hgt
  · have := key B₁ B₂ g₁ g₂ hlt hB₂ hcol ((isOwned_iff _ _ _).2 ho₁) ((isOwned_iff _ _ _).2 ho₂)
    omega
  · subst heq; omega
  · have := key B₂ B₁ g₂ g₁ hgt hB₁ hcol.symm ((isOwned_iff _ _ _).2 ho₂) ((isOwned_iff _ _ _).2 ho₁)
    omega

/-! ## Lists used as vectors -/

theorem getD_modify_of_lt {α : Type} (l : List α) (f : α → α) (n m : Nat) (d : α)
    (hm : m < l.length) :
    (l.modify f n).getD m d = if n = m then f (l.getD m d) else l.getD m d := by
  simp only [List.getD_eq_getElem?_getD, List.getElem?_modify, List.getElem?_eq_getElem hm]
  split <;> simp

theorem getD_set_of_lt {α : Type} (l : List α) (n m : Nat) (a d : α) (hm : m < l.length) :
    (l.set n a).getD m d = if n = m then a else l.getD m d := by
  simp only [List.getD_eq_getElem?_getD, List.getElem?_set, List.getElem?_eq_getElem hm]
  by_cases h : n = m
  · subst h; simp [hm]
  · simp [h]

theorem map_length_modify {α : Type} (l : List (List α)) (f : List α → List α) (n : Nat)
    (hf : ∀ x, (f x).length = x.length) :
    (l.modify f n).map List.length = l.map List.length := by
  apply List.ext_getElem?
  intro m
  simp only [List.getElem?_map, List.getElem?_modify]
  cases l[m]? with
  | none => rfl
  | some v => by_cases h : n = m <;> simp [h, hf]

theorem length_getD_eq {α : Type} (a b : List (List α))
    (h : a.map List.length = b.map List.length) (i : Nat) :
    (a.getD i []).length = (b.getD i []).length := by
  have h1 := congrArg (fun l => l[i]?) h
  simp only [List.getElem?_map] at h1
  simp only [List.getD_eq_getElem?_getD]
  cases ha : a[i]? <;> cases hb : b[i]? <;> simp [ha, hb] at h1 ⊢
  exact h1

theorem length_eq_of_map_length_eq {α : Type} (a b : List (List α))
    (h : a.map List.length = b.map List.length) : a.length = b.length := by
  have := congrArg List.length h
  simpa using this

/-! ## The edge inspection -/

theorem inspectEdge_shape (p : Cut) (ro src : Nat) (st : EdgeStats) (dst : Nat) :
    (inspectEdge p ro src st dst).numOutgoingEdges.map List.length =
        st.numOutgoingEdges.map List.length ∧
      (inspectEdge p ro src st dst).hasIncomingEdge.map List.length =
        st.hasIncomingEdge.map List.length := by
  constructor
  · exact map_length_modify _ _ _ (fun x => List.length_modify _ _ _)
  · exact map_length_modify _ _ _ (fun x => List.length_set _ _ _)

theorem inspectEdge_count (p : Cut) (ro src : Nat) (st : EdgeStats) (dst h j : Nat)
    (hh : h < st.numOutgoingEdges.length) (hj : j < (st.numOutgoingEdges.getD h []).length) :
    ((inspectEdge p ro src st dst).numOutgoingEdges.getD h []).getD j 0 =
      (st.numOutgoingEdges.getD h []).getD j 0 +
        (if getColumnHostID p dst = h ∧ j = src - ro then 1 else 0) := by
  unfold inspectEdge
  dsimp only
  rw [getD_modify_of_lt _ _ _ _ _ hh]
  by_cases h1 : getColumnHostID p dst = h
  · rw [if_pos h1, getD_modify_of_lt _ _ _ _ _ hj]
    by_cases h2 : j = src - ro
    · simp [h1, h2]
    · have : ¬ src - ro = j := fun e => h2 e.symm
      simp [h2, this]
  · simp [h1]

theorem inspectEdge_bit (p : Cut) (ro src : Nat) (st : EdgeStats) (dst h k : Nat)
    (hh : h < st.hasIncomingEdge.length) (hk : k < (st.hasIncomingEdge.getD h []).length) :
    ((inspectEdge p ro src st dst).hasIncomingEdge.getD h []).getD k false =
      ((st.hasIncomingEdge.getD h []).getD k false ||
        (getColumnHostID p dst == h && getColumnIndex p dst == k)) := by
  unfold inspectEdge
  dsimp only
  rw [getD_modify_of_lt _ _ _ _ _ hh]
  by_cases h1 : getColumnHostID p dst = h
  · rw [if_pos h1, getD_set_of_lt _ _ _ _ _ hk]
    by_cases h2 : getColumnIndex p dst = k
    · simp [h1, h2]
    · simp [h1, h2]
  · simp [h1]

theorem inspectEdge_foldl (p : Cut) (ro src : Nat) (ds : List Nat) :
    ∀ st : EdgeStats,
      ((ds.foldl (inspectEdge p ro src) st).numOutgoingEdges.map List.length =
          st.numOutgoingEdges.map List.length ∧
        (ds.foldl (inspectEdge p ro src) st).hasIncomingEdge.map List.length =
          st.hasIncomingEdge.map List.length) ∧
      (∀ h j, h < st.numOutgoingEdges.length → j < (st.numOutgoingEdges.getD h []).length →
        ((ds.foldl (inspectEdge p ro src) st).numOutgoingEdges.getD h []).getD j 0 =
          (st.numOutgoingEdges.getD h []).getD j 0 +
            (if j = src - ro then ds.countP (fun d => getColumnHostID p d == h) else 0)) ∧
      (∀ h k, h < st.hasIncomingEdge.length → k < (st.hasIncomingEdge.getD h []).length →
        ((ds.foldl (inspectEdge p ro src) st).hasIncomingEdge.getD h []).getD k false =
          ((st.hasIncomingEdge.getD h []).getD k false ||
            ds.any (fun d => getColumnHostID p d == h && getColumnIndex p d == k))) := by
  induction ds with
  | nil => intro st; simp
  | cons d ds ih =>
    intro st
    obtain ⟨⟨s1, s2⟩, c1, b1⟩ := ih (inspectEdge p ro src st d)
    obtain ⟨t1, t2⟩ := inspectEdge_shape p ro src st d
    refine ⟨⟨?_, ?_⟩, ?_, ?_⟩
    · rw [List.foldl_cons, s1, t1]
    · rw [List.foldl_cons, s2, t2]
    · intro h j hh hj
      rw [List.foldl_cons, c1 h j (by rw [length_eq_of_map_length_eq _ _ t1]; exact hh)
        (by rw [length_getD_eq _ _ t1]; exact hj), inspectEdge_count p ro src st d h j hh hj,
        List.countP_cons]
      by_cases e1 : j = src - ro <;> by_cases e2 : getColumnHostID p d = h <;>
        simp [e1, e2]
      omega
    · intro h k hh hk
      rw [List.foldl_cons, b1 h k (by rw [length_eq_of_map_length_eq _ _ t2]; exact hh)
        (by rw [length_getD_eq _ _ t2]; exact hk), inspectEdge_bit p ro src st d h k hh hk,
        List.any_cons, Bool.or_assoc]

theorem edge_begin_succ (g : FileGraph) (n : Nat) : g.edge_begin (n + 1) = g.edge_end n := by
  simp [FileGraph.edge_begin, FileGraph.edge_end]

theorem inspectNode_foldl (p : Cut) (g : FileGraph) (ro : Nat) :
    ∀ n s (st : EdgeStats), ro ≤ s →
      ((List.range' s n).foldl (inspectNode p g ro) (st, g.edge_begin s)).2 =
          g.edge_begin (s + n) ∧
      (((List.range' s n).foldl (inspectNode p g ro) (st, g.edge_begin s)).1.numOutgoingEdges.map
            List.length = st.numOutgoingEdges.map List.length ∧
        ((List.range' s n).foldl (inspectNode p g ro) (st, g.edge_begin s)).1.hasIncomingEdge.map
            List.length = st.hasIncomingEdge.map List.length) ∧
      (∀ h j, h < st.numOutgoingEdges.length → j < (st.numOutgoingEdges.getD h []).length →
        (((List.range' s n).foldl (inspectNode p g ro)
            (st, g.edge_begin s)).1.numOutgoingEdges.getD h []).getD j 0 =
          (st.numOutgoingEdges.getD h []).getD j 0 +
            (if s ≤ ro + j ∧ ro + j < s + n then outCount p g h (ro + j) else 0)) ∧
      (∀ h k, h < st.hasIncomingEdge.length → k < (st.hasIncomingEdge.getD h []).length →
        (((List.range' s n).foldl (inspectNode p g ro)
            (st, g.edge_begin s)).1.hasIncomingEdge.getD h []).getD k false =
          ((st.hasIncomingEdge.getD h []).getD k false || incomingFrom p g h k s n)) := by
  intro n
  induction n with
  | zero =>
    intro s st _
    simp [incomingFrom]
  | succ n ih =>
    intro s st hs
    have hstep : inspectNode p g ro (st, g.edge_begin s) s =
        ((g.outEdges s).foldl (inspectEdge p ro s) st, g.edge_begin (s + 1)) := by
      simp [inspectNode, FileGraph.outEdges, edge_begin_succ]
    rw [List.range'_succ, List.foldl_cons, hstep]
    obtain ⟨⟨t1, t2⟩, c0, b0⟩ := inspectEdge_foldl p ro s (g.outEdges s) st
    obtain ⟨e1, ⟨s1, s2⟩, c1, b1⟩ := ih (s + 1) ((g.outEdges s).foldl (inspectEdge p ro s) st)
      (by omega)
    refine ⟨?_, ⟨?_, ?_⟩, ?_, ?_⟩
    · rw [e1]; congr 1; omega
    · rw [s1, t1]
    · rw [s2, t2]
    · intro h j hh hj
      rw [c1 h j (by rw [length_eq_of_map_length_eq _ _ t1]; exact hh)
        (by rw [length_getD_eq _ _ t1]; exact hj), c0 h j hh hj]
      by_cases e : j = s - ro
      · have e' : ro + j = s := by omega
        simp only [e, if_true]
        rw [show ro + (s - ro) = s by omega]
        simp [outCount]
      · have e' : ro + j ≠ s := by omega
        rw [if_neg e]
        by_cases e2 : s + 1 ≤ ro + j ∧ ro + j < s + 1 + n
        · rw [if_pos e2, if_pos (by omega)]; omega
        · rw [if_neg e2, if_neg (by omega)]
    · intro h k hh hk
      rw [b1 h k (by rw [length_eq_of_map_length_eq _ _ t2]; exact hh)
        (by rw [length_getD_eq _ _ t2]; exact hk), b0 h k hh hk, Bool.or_assoc]
      simp [incomingFrom, List.range'_succ]

theorem initialStats_numOutgoingEdges (p : Cut) (id h : Nat) (hh : h < p.numColumnHosts) :
    (initialStats p id).numOutgoingEdges.getD h [] = List.replicate (totalOwnedNodes p id) 0 := by
  simp [initialStats, List.getD_eq_getElem?_getD, List.getElem?_replicate, hh]

theorem initialStats_hasIncomingEdge (p : Cut) (id h : Nat) (hh : h < p.numColumnHosts) :
    (initialStats p id).hasIncomingEdge.getD h [] =
      List.replicate (columnBlockSize p h) false := by
  simp [initialStats, List.getD_eq_getElem?_getD, List.getElem?_map, List.getElem?_range hh]

theorem inspectEdges_length (p : Cut) (g : FileGraph) (P : Nat) :
    (inspectEdges p g P).numOutgoingEdges.length = p.numColumnHosts ∧
      (inspectEdges p g P).hasIncomingEdge.length = p.numColumnHosts := by
  obtain ⟨_, ⟨s1, s2⟩, _, _⟩ := inspectNode_foldl p g (hostRange p P).1
    ((hostRange p P).2 - (hostRange p P).1) (hostRange p P).1 (initialStats p P) (le_refl _)
  constructor
  · have := length_eq_of_map_length_eq _ _ s1
    unfold inspectEdges
    rw [this]; simp [initialStats]
  · have := length_eq_of_map_length_eq _ _ s2
    unfold inspectEdges
    rw [this]; simp [initialStats]

theorem inspectEdges_numOutgoingEdges (p : Cut) (g : FileGraph) (P h : Nat)
    (hh : h < p.numColumnHosts) :
    (inspectEdges p g P).numOutgoingEdges.getD h [] = scanCounts p g P h := by
  obtain ⟨_, ⟨s1, _⟩, c1, _⟩ := inspectNode_foldl p g (hostRange p P).1
    ((hostRange p P).2 - (hostRange p P).1) (hostRange p P).1 (initialStats p P) (le_refl _)
  have hlen : (initialStats p P).numOutgoingEdges.length = p.numColumnHosts := by
    simp [initialStats]
  have hl : ((inspectEdges p g P).numOutgoingEdges.getD h []).length = totalOwnedNodes p P := by
    unfold inspectEdges
    rw [length_getD_eq _ _ s1, initialStats_numOutgoingEdges p P h hh, List.length_replicate]
  apply List.ext_getElem
  · rw [hl]; simp [scanCounts]
  · intro j h1 h2
    rw [hl] at h1
    have := c1 h j (by rw [hlen]; exact hh)
      (by rw [initialStats_numOutgoingEdges p P h hh, List.length_replicate]; exact h1)
    rw [initialStats_numOutgoingEdges p P h hh] at this
    have hj : (hostRange p P).1 + j < (hostRange p P).1 + ((hostRange p P).2 - (hostRange p P).1) := by
      unfold totalOwnedNodes at h1; omega
    rw [if_pos ⟨by omega, hj⟩] at this
    rw [← List.getD_eq_getElem _ 0 (by rw [hl]; exact h1)]
    unfold inspectEdges
    rw [this]
    simp [scanCounts, List.getD_eq_getElem?_getD, List.getElem?_replicate, h1]

theorem inspectEdges_hasIncomingEdge (p : Cut) (g : FileGraph) (P h : Nat)
    (hh : h < p.numColumnHosts) :
    (inspectEdges p g P).hasIncomingEdge.getD h [] = scanBits p g P h := by
  obtain ⟨_, ⟨_, s2⟩, _, b1⟩ := inspectNode_foldl p g (hostRange p P).1
    ((hostRange p P).2 - (hostRange p P).1) (hostRange p P).1 (initialStats p P) (le_refl _)
  have hlen : (initialStats p P).hasIncomingEdge.length = p.numColumnHosts := by
    simp [initialStats]
  have hl : ((inspectEdges p g P).hasIncomingEdge.getD h []).length = columnBlockSize p h := by
    unfold inspectEdges
    rw [length_getD_eq _ _ s2, initialStats_hasIncomingEdge p P h hh, List.length_replicate]
  apply List.ext_getElem
  · rw [hl]; simp [scanBits]
  · intro k h1 h2
    rw [hl] at h1
    have := b1 h k (by rw [hlen]; exact hh)
      (by rw [initialStats_hasIncomingEdge p P h hh, List.length_replicate]; exact h1)
    rw [initialStats_hasIncomingEdge p P h hh] at this
    rw [← List.getD_eq_getElem _ false (by rw [hl]; exact h1)]
    unfold inspectEdges
    rw [this]
    simp [scanBits, List.getD_eq_getElem?_getD, List.getElem?_replicate, h1, totalOwnedNodes]

/-! ## The pass-1 exchange -/

theorem flatMap_ite_singleton {α β : Type} (l : List α) (q : α → Bool) (m : α → β) :
    l.flatMap (fun x => if q x then [m x] else []) = (l.filter q).map m := by
  induction l with
  | nil => rfl
  | cons a l ih =>
    rw [List.flatMap_cons, ih]
    by_cases h : q a <;> simp [h]

theorem filter_range_eq_singleton (n k : Nat) (q : Nat → Bool) (hk : k < n)
    (hq : ∀ i, i < n → (q i = true ↔ i = k)) : (List.range n).filter q = [k] := by
  rw [← List.perm_singleton]
  apply (List.perm_ext_iff_of_nodup ((List.nodup_range n).filter q) (List.nodup_singleton k)).2
  intro a
  simp only [List.mem_filter, List.mem_range, List.mem_singleton]
  constructor
  · rintro ⟨h1, h2⟩; exact (hq a h1).1 h2
  · rintro rfl; exact ⟨hk, (hq a hk).2 rfl⟩

theorem row_add_eq_iff (C r i H : Nat) (hi : i < C) :
    r * C + i = H ↔ r = H / C ∧ i = H % C := by
  have hC : 0 < C := by omega
  constructor
  · rintro rfl
    constructor
    · rw [Nat.mul_comm, Nat.mul_add_div hC, Nat.div_eq_of_lt hi]; rfl
    · rw [Nat.mul_comm, Nat.mul_add_mod, Nat.mod_eq_of_lt hi]
  · rintro ⟨rfl, rfl⟩
    rw [Nat.mul_comm]; exact Nat.div_add_mod H C

theorem filter_filterMap_ite {β : Type} (l : List Nat) (q : Nat → Bool) (m : Nat → β)
    (pred : β → Bool) :
    (l.filterMap (fun i => if q i = true then none else some (m i))).filter pred =
      (l.filter (fun i => !q i && pred (m i))).map m := by
  induction l with
  | nil => rfl
  | cons a l ih =>
    by_cases h1 : q a = true
    · simp [List.filterMap_cons, h1, ih]
    · by_cases h2 : pred (m a) = true
      · simp [List.filterMap_cons, h1, h2, List.filter_cons, ih]
      · simp [List.filterMap_cons, h1, h2, List.filter_cons, ih]

theorem sendStatistics_filter (p : Cut) (g : FileGraph) (hC : 0 < p.numColumnHosts) (P H : Nat) :
    (sendStatistics p g P).filter (fun m => m.dest == H) =
      if (P / p.numColumnHosts == H / p.numColumnHosts && P != H) = true then [statMsg p g H P]
      else [] := by
  have hcH : H % p.numColumnHosts < p.numColumnHosts := Nat.mod_lt _ hC
  unfold sendStatistics
  dsimp only
  rw [filter_filterMap_ite]
  dsimp only
  by_cases hc : (P / p.numColumnHosts == H / p.numColumnHosts && P != H) = true
  · rw [if_pos hc]
    simp only [Bool.and_eq_true, beq_iff_eq, bne_iff_ne, ne_eq] at hc
    rw [filter_range_eq_singleton _ (H % p.numColumnHosts) _ hcH]
    · have hH : gridRowID p P * p.numColumnHosts + H % p.numColumnHosts = H :=
        (row_add_eq_iff p.numColumnHosts (gridRowID p P) _ H hcH).2 ⟨hc.1, rfl⟩
      simp only [List.map_cons, List.map_nil, statMsg, hH]
      rw [inspectEdges_numOutgoingEdges p g P _ hcH, inspectEdges_hasIncomingEdge p g P _ hcH]
    · intro i hi
      have h1 := row_add_eq_iff p.numColumnHosts (gridRowID p P) i H hi
      simp only [Bool.and_eq_true, Bool.not_eq_true', beq_eq_false_iff_ne, ne_eq, beq_iff_eq]
      constructor
      · rintro ⟨_, h3⟩; exact (h1.1 h3).2
      · intro h3
        have hH := h1.2 ⟨hc.1, h3⟩
        exact ⟨by rw [hH]; exact fun e => hc.2 e.symm, hH⟩
  · rw [if_neg hc, List.map_eq_nil_iff, List.filter_eq_nil_iff]
    intro i hi
    rw [List.mem_range] at hi
    have h1 := row_add_eq_iff p.numColumnHosts (gridRowID p P) i H hi
    simp only [Bool.and_eq_true, Bool.not_eq_true', beq_eq_false_iff_ne, ne_eq, beq_iff_eq]
    rintro ⟨h2, h3⟩
    apply hc
    simp only [Bool.and_eq_true, beq_iff_eq, bne_iff_ne, ne_eq]
    exact ⟨(h1.1 h3).1, fun e => h2 (by rw [h3, e])⟩

theorem statInbox_eq (p : Cut) (g : FileGraph) (hC : 0 < p.numColumnHosts) (H : Nat) :
    statInbox p g H = (rowPeers p H).map (statMsg p g H) := by
  unfold statInbox rowPeers
  rw [← flatMap_ite_singleton]
  congr 1
  funext P
  exact sendStatistics_filter p g hC P H

theorem recvStatistics_eq (p : Cut) :
    ∀ (n : Nat) (inbox : List StatMsg) (st : EdgeStats), inbox.length = n →
      recvStatistics p n inbox st = some (inbox.foldl (storeStatistics p) st) := by
  intro n
  induction n with
  | zero =>
    intro inbox st h
    rw [List.length_eq_zero] at h
    subst h; rfl
  | succ n ih =>
    intro inbox st h
    cases inbox with
    | nil => simp at h
    | cons m inbox =>
      simp only [List.length_cons, Nat.add_right_cancel_iff] at h
      simp only [recvStatistics, List.foldl_cons]
      exact ih inbox _ h

theorem div_mul_add_mod_lt (C N R H : Nat) (hgrid : R * C = N) (hH : H < N) (i : Nat)
    (hi : i < C) : H / C * C + i < N := by
  have hC : 0 < C := by omega
  have h1 : H / C < R := by
    rw [Nat.div_lt_iff_lt_mul hC, hgrid]; exact hH
  calc H / C * C + i < H / C * C + C := by omega
    _ = (H / C + 1) * C := by ring
    _ ≤ R * C := Nat.mul_le_mul_right _ h1
    _ = N := hgrid

theorem mem_rowPeers (p : Cut) (H P : Nat) :
    P ∈ rowPeers p H ↔
      P < p.numHosts ∧ P / p.numColumnHosts = H / p.numColumnHosts ∧ P ≠ H := by
  simp [rowPeers, List.mem_filter]

theorem rowPeers_length (p : Cut) (hgrid : p.numRowHosts * p.numColumnHosts = p.numHosts)
    (H : Nat) (hH : H < p.numHosts) : (rowPeers p H).length = p.numColumnHosts - 1 := by
  have hC : 0 < p.numColumnHosts := by
    rcases Nat.eq_zero_or_pos p.numColumnHosts with h | h
    · rw [h] at hgrid; omega
    · exact h
  have hnd : (rowPeers p H).Nodup := (List.nodup_range _).filter _
  rw [← List.toFinset_card_of_nodup hnd]
  have e : (rowPeers p H).toFinset =
      (Finset.Ico (H / p.numColumnHosts * p.numColumnHosts)
        (H / p.numColumnHosts * p.numColumnHosts + p.numColumnHosts)).erase H := by
    ext P
    simp only [List.mem_toFinset, mem_rowPeers, Finset.mem_erase, Finset.mem_Ico]
    constructor
    · rintro ⟨_, h2, h3⟩
      refine ⟨h3, ?_, ?_⟩
      · rw [← h2]; exact Nat.div_mul_le_self P _
      · rw [← h2]
        have := Nat.div_add_mod P p.numColumnHosts
        have := Nat.mod_lt P hC
        rw [Nat.mul_comm]; omega
    · rintro ⟨h1, h2, h3⟩
      have hdiv : P / p.numColumnHosts = H / p.numColumnHosts := by
        apply Nat.div_eq_of_lt_le
        · exact h2
        · calc P < H / p.numColumnHosts * p.numColumnHosts + p.numColumnHosts := h3
            _ = (H / p.numColumnHosts + 1) * p.numColumnHosts := by ring
      refine ⟨?_, hdiv, h1⟩
      have := div_mul_add_mod_lt p.numColumnHosts p.numHosts p.numRowHosts H hgrid hH
        (P % p.numColumnHosts) (Nat.mod_lt P hC)
      have h4 := Nat.div_add_mod P p.numColumnHosts
      rw [hdiv, Nat.mul_comm] at h4
      omega
  rw [e, Finset.card_erase_of_mem, Nat.card_Ico]
  · omega
  · rw [Finset.mem_Ico]
    have h4 := Nat.div_add_mod H p.numColumnHosts
    have := Nat.mod_lt H hC
    have := Nat.div_mul_le_self H p.numColumnHosts
    rw [Nat.mul_comm] at h4
    omega

theorem storeStatistics_foldl (p : Cut) (g : FileGraph) (H : Nat) :
    ∀ (l : List Nat) (st : EdgeStats),
      (∀ P, P ∈ l → P / p.numColumnHosts = H / p.numColumnHosts) →
      (((l.map (statMsg p g H)).foldl (storeStatistics p) st).numOutgoingEdges.length =
          st.numOutgoingEdges.length ∧
        ((l.map (statMsg p g H)).foldl (storeStatistics p) st).hasIncomingEdge.length =
          st.hasIncomingEdge.length) ∧
      (∀ i, i < p.numColumnHosts → i < st.numOutgoingEdges.length →
        ((l.map (statMsg p g H)).foldl (storeStatistics p) st).numOutgoingEdges.getD i [] =
          if H / p.numColumnHosts * p.numColumnHosts + i ∈ l then
            scanCounts p g (H / p.numColumnHosts * p.numColumnHosts + i) (H % p.numColumnHosts)
          else st.numOutgoingEdges.getD i []) ∧
      (∀ i, i < p.numColumnHosts → i < st.hasIncomingEdge.length →
        ((l.map (statMsg p g H)).foldl (storeStatistics p) st).hasIncomingEdge.getD i [] =
          if H / p.numColumnHosts * p.numColumnHosts + i ∈ l then
            scanBits p g (H / p.numColumnHosts * p.numColumnHosts + i) (H % p.numColumnHosts)
          else st.hasIncomingEdge.getD i []) := by
  intro l
  induction l with
  | nil => intro st _; simp
  | cons P l ih =>
    intro st hrow
    have hP : P / p.numColumnHosts = H / p.numColumnHosts := hrow P (List.mem_cons_self _ _)
    obtain ⟨⟨l1, l2⟩, c1, b1⟩ := ih (storeStatistics p st (statMsg p g H P))
      (fun Q hQ => hrow Q (List.mem_cons_of_mem _ hQ))
    have hPi : ∀ i, i < p.numColumnHosts →
        (P % p.numColumnHosts = i ↔ H / p.numColumnHosts * p.numColumnHosts + i = P) := by
      intro i hi
      rw [row_add_eq_iff _ _ _ _ hi, hP]
      constructor
      · intro h; exact ⟨rfl, h.symm⟩
      · intro h; exact h.2.symm
    simp only [List.map_cons, List.foldl_cons]
    refine ⟨⟨?_, ?_⟩, ?_, ?_⟩
    · rw [l1]; simp [storeStatistics]
    · rw [l2]; simp [storeStatistics]
    · intro i hi hlen
      rw [c1 i hi (by simp [storeStatistics]; exact hlen)]
      by_cases hm : H / p.numColumnHosts * p.numColumnHosts + i ∈ l
      · rw [if_pos hm, if_pos (List.mem_cons_of_mem _ hm)]
      · rw [if_neg hm]
        simp only [storeStatistics, statMsg]
        rw [getD_set_of_lt _ _ _ _ _ hlen]
        by_cases hPi' : P % p.numColumnHosts = i
        · have := (hPi i hi).1 hPi'
          rw [if_pos hPi', if_pos (by rw [this]; exact List.mem_cons_self _ _), this]
        · have hne : ¬ H / p.numColumnHosts * p.numColumnHosts + i = P :=
            fun e => hPi' ((hPi i hi).2 e)
          rw [if_neg hPi', if_neg]
          simp only [List.mem_cons, not_or]
          exact ⟨hne, hm⟩
    · intro i hi hlen
      rw [b1 i hi (by simp [storeStatistics]; exact hlen)]
      by_cases hm : H / p.numColumnHosts * p.numColumnHosts + i ∈ l
      · rw [if_pos hm, if_pos (List.mem_cons_of_mem _ hm)]
      · rw [if_neg hm]
        simp only [storeStatistics, statMsg]
        rw [getD_set_of_lt _ _ _ _ _ hlen]
        by_cases hPi' : P % p.numColumnHosts = i
        · have := (hPi i hi).1 hPi'
          rw [if_pos hPi', if_pos (by rw [this]; exact List.mem_cons_self _ _), this]
        · have hne : ¬ H / p.numColumnHosts * p.numColumnHosts + i = P :=
            fun e => hPi' ((hPi i hi).2 e)
          rw [if_neg hPi', if_neg]
          simp only [List.mem_cons, not_or]
          exact ⟨hne, hm⟩

/-- The tables of host `H` after the exchange: entry `i` holds what the host
of column `i` in the row of `H` counted for the column of `H`. -/
theorem recvStatistics_spec (p : Cut) (g : FileGraph)
    (hgrid : p.numRowHosts * p.numColumnHosts = p.numHosts) (H : Nat) (hH : H < p.numHosts) :
    ∃ stats, recvStatistics p (p.numColumnHosts - 1) (statInbox p g H) (inspectEdges p g H) =
        some stats ∧
      ∀ i, i < p.numColumnHosts →
        stats.numOutgoingEdges.getD i [] =
            scanCounts p g (H / p.numColumnHosts * p.numColumnHosts + i) (H % p.numColumnHosts) ∧
          stats.hasIncomingEdge.getD i [] =
            scanBits p g (H / p.numColumnHosts * p.numColumnHosts + i) (H % p.numColumnHosts) := by
  have hC : 0 < p.numColumnHosts := by
    rcases Nat.eq_zero_or_pos p.numColumnHosts with h | h
    · rw [h] at hgrid; omega
    · exact h
  have hcH : H % p.numColumnHosts < p.numColumnHosts := Nat.mod_lt _ hC
  rw [statInbox_eq p g hC H]
  refine ⟨_, recvStatistics_eq p _ _ _ (by rw [List.length_map, rowPeers_length p hgrid H hH]), ?_⟩
  obtain ⟨_, c1, b1⟩ := storeStatistics_foldl p g H (rowPeers p H) (inspectEdges p g H)
    (fun P hP => ((mem_rowPeers p H P).1 hP).2.1)
  obtain ⟨n1, n2⟩ := inspectEdges_length p g H
  have hHeq : H / p.numColumnHosts * p.numColumnHosts + H % p.numColumnHosts = H := by
    rw [Nat.mul_comm]; exact Nat.div_add_mod H _
  intro i hi
  rw [c1 i hi (by rw [n1]; exact hi), b1 i hi (by rw [n2]; exact hi)]
  by_cases hic : i = H % p.numColumnHosts
  · have hnot : ¬ H / p.numColumnHosts * p.numColumnHosts + i ∈ rowPeers p H := by
      rw [mem_rowPeers, hic, hHeq]; exact fun h => h.2.2 rfl
    rw [if_neg hnot, if_neg hnot, hic, hHeq]
    exact ⟨inspectEdges_numOutgoingEdges p g H _ hcH, inspectEdges_hasIncomingEdge p g H _ hcH⟩
  · have hmem : H / p.numColumnHosts * p.numColumnHosts + i ∈ rowPeers p H := by
      rw [mem_rowPeers]
      refine ⟨div_mul_add_mod_lt _ _ _ H hgrid hH i hi, ?_, ?_⟩
      · exact ((row_add_eq_iff _ _ i _ hi).1 rfl).1.symm
      · intro e
        exact hic (((row_add_eq_iff _ _ i H hi).1 e).2)
    rw [if_pos hmem, if_pos hmem]
    exact ⟨rfl, rfl⟩

/-! ## The merged bitset -/

theorem bitwise_or_length : ∀ (a b : List Bool), (bitwise_or a b).length = a.length
  | [], _ => rfl
  | _ :: _, [] => rfl
  | _ :: xs, _ :: ys => by simp [bitwise_or, bitwise_or_length xs ys]

theorem bitwise_or_getD : ∀ (a b : List Bool) (k : Nat), a.length = b.length →
    (bitwise_or a b).getD k false = (a.getD k false || b.getD k false)
  | [], [], _, _ => by simp [bitwise_or]
  | [], _ :: _, _, h => by simp at h
  | _ :: _, [], _, h => by simp at h
  | x :: xs, y :: ys, 0, _ => by simp [bitwise_or]
  | x :: xs, y :: ys, k + 1, h => by
    simp only [bitwise_or, List.getD_cons_succ]
    exact bitwise_or_getD xs ys k (by simpa using h)

theorem mergeIncoming_foldl (tbl : List (List Bool)) (S : Nat) :
    ∀ n, (∀ i, i < n + 1 → (tbl.getD i []).length = S) →
      ((List.range' 1 n).foldl (fun bits i => bitwise_or bits (tbl.getD i [])) (tbl.getD 0 [])).length
          = S ∧
        ∀ k, ((List.range' 1 n).foldl (fun bits i => bitwise_or bits (tbl.getD i []))
            (tbl.getD 0 [])).getD k false =
          (List.range (n + 1)).any fun i => (tbl.getD i []).getD k false := by
  intro n
  induction n with
  | zero =>
    intro h
    exact ⟨h 0 (by omega), fun k => by simp [List.range_succ]⟩
  | succ n ih =>
    intro h
    obtain ⟨l1, g1⟩ := ih (fun i hi => h i (by omega))
    rw [List.range'_concat, List.foldl_append]
    simp only [List.foldl_cons, List.foldl_nil, Nat.one_mul]
    refine ⟨by rw [bitwise_or_length, l1], fun k => ?_⟩
    rw [bitwise_or_getD _ _ k (by rw [l1, h (1 + n) (by omega)]), g1 k,
      List.range_succ (n + 1), List.any_append]
    simp [Nat.add_comm]

theorem incomingFrom_iff (p : Cut) (g : FileGraph) (c k P : Nat) :
    incomingFrom p g c k (hostRange p P).1 (totalOwnedNodes p P) = true ↔
      ∃ src, isOwned p P src = true ∧
        ∃ d, d ∈ g.outEdges src ∧ getColumnHostID p d = c ∧ getColumnIndex p d = k := by
  simp only [incomingFrom, List.any_eq_true, List.mem_range'_1, Bool.and_eq_true, beq_iff_eq,
    totalOwnedNodes, isOwned_iff]
  constructor
  · rintro ⟨src, ⟨h1, h2⟩, d, hd, h3⟩
    exact ⟨src, ⟨h1, by omega⟩, d, hd, h3⟩
  · rintro ⟨src, ⟨h1, h2⟩, d, hd, h3⟩
    exact ⟨src, ⟨h1, by omega⟩, d, hd, h3⟩

/-- The merged bitset of a host of row `r` and column `c`: bit `k` is set
exactly when a node owned by a host of row `r` has an edge to the node of
column `c` with column index `k`. -/
theorem mergeIncoming_spec (p : Cut) (g : FileGraph) (hC : 0 < p.numColumnHosts) (r c : Nat)
    (tbl : List (List Bool))
    (htbl : ∀ i, i < p.numColumnHosts → tbl.getD i [] = scanBits p g (r * p.numColumnHosts + i) c)
    (k : Nat) :
    (mergeIncoming p tbl).getD k false = true ↔
      k < columnBlockSize p c ∧ ∃ i, i < p.numColumnHosts ∧ ∃ src,
        isOwned p (r * p.numColumnHosts + i) src = true ∧
        ∃ d, d ∈ g.outEdges src ∧ getColumnHostID p d = c ∧ getColumnIndex p d = k := by
  have hlen : ∀ i, i < p.numColumnHosts - 1 + 1 → (tbl.getD i []).length = columnBlockSize p c := by
    intro i hi
    rw [htbl i (by omega)]; simp [scanBits]
  obtain ⟨_, g1⟩ := mergeIncoming_foldl tbl (columnBlockSize p c) (p.numColumnHosts - 1) hlen
  unfold mergeIncoming
  rw [g1 k, show p.numColumnHosts - 1 + 1 = p.numColumnHosts by omega]
  simp only [List.any_eq_true, List.mem_range]
  constructor
  · rintro ⟨i, hi, hb⟩
    rw [htbl i hi] at hb
    simp only [scanBits, List.getD_eq_getElem?_getD, List.getElem?_map] at hb
    by_cases hk : k < columnBlockSize p c
    · rw [List.getElem?_range hk] at hb
      simp only [Option.map_some', Option.getD_some] at hb
      exact ⟨hk, i, hi, (incomingFrom_iff p g c k _).1 hb⟩
    · rw [List.getElem?_eq_none (by simp; omega)] at hb
      simp at hb
  · rintro ⟨hk, i, hi, hex⟩
    refine ⟨i, hi, ?_⟩
    rw [htbl i hi]
    simp only [scanBits, List.getD_eq_getElem?_getD, List.getElem?_map, List.getElem?_range hk,
      Option.map_some', Option.getD_some]
    exact (incomingFrom_iff p g c k _).2 hex

/-! ## The node-creation loops -/

theorem prefixSums_append (l : List Nat) (x : Nat) :
    ∀ a, prefixSums (l ++ [x]) a = prefixSums l a ++ [a + l.sum + x] := by
  induction l with
  | nil => intro a; simp [prefixSums]
  | cons y l ih =>
    intro a
    show (a + y) :: prefixSums (l ++ [x]) (a + y) = _
    rw [ih (a + y), List.sum_cons, show a + y + l.sum + x = a + (y + l.sum) + x by omega]
    rfl

theorem prefixSums_length (l : List Nat) : ∀ a, (prefixSums l a).length = l.length := by
  induction l with
  | nil => intro a; rfl
  | cons y l ih => intro a; simp [prefixSums, ih]

theorem nodup_length_le (l : List Nat) (T : Nat) (hnd : l.Nodup) (h : ∀ x, x ∈ l → x < T) :
    l.length ≤ T := by
  rw [← List.toFinset_card_of_nodup hnd, ← Finset.card_range T]
  apply Finset.card_le_card
  intro x hx
  rw [List.mem_toFinset] at hx
  exact Finset.mem_range.2 (h x hx)

theorem Consistent.mem_iff {w : Nat → Nat} {st : LocalGraph} (hc : Consistent w st) (k : Nat) :
    k ∈ st.localToGlobalVector ↔ ∃ v, st.globalToLocalMap k = some v := by
  rw [List.mem_iff_getElem?]
  constructor
  · rintro ⟨v, hv⟩; exact ⟨v, (hc.map_iff k v).2 hv⟩
  · rintro ⟨v, hv⟩; exact ⟨v, (hc.map_iff k v).1 hv⟩

theorem Consistent.nodup {w : Nat → Nat} {st : LocalGraph} (hc : Consistent w st) :
    st.localToGlobalVector.Nodup := by
  rw [List.nodup_iff_injective_get]
  intro i j hij
  have hi : st.localToGlobalVector[i.1]? = some (st.localToGlobalVector.get i) := by
    rw [List.getElem?_eq_getElem i.2]; rfl
  have hj : st.localToGlobalVector[j.1]? = some (st.localToGlobalVector.get i) := by
    rw [hij, List.getElem?_eq_getElem j.2]; rfl
  have h1 := (hc.map_iff _ _).2 hi
  have h2 := (hc.map_iff _ _).2 hj
  rw [h1] at h2
  exact Fin.ext (Option.some.inj h2)

theorem emptyLocalGraph_consistent (p : Cut) (id : Nat) (w : Nat → Nat) :
    Consistent w (emptyLocalGraph p id) where
  numNodes_eq := rfl
  map_iff := by intro k v; simp [emptyLocalGraph]
  numEdges_eq := rfl
  prefix_eq := rfl
  not_inconsistent := rfl

theorem createNode_consistent (w : Nat → Nat) (st : LocalGraph) (x : Nat)
    (hc : Consistent w st) (hx : x ∉ st.localToGlobalVector)
    (hlen : st.localToGlobalVector.length + 1 < 2 ^ 32) :
    Consistent w (createNode { st with numEdges := st.numEdges + w x } x) where
  numNodes_eq := by
    simp only [createNode, List.length_append, List.length_singleton]
    rw [hc.numNodes_eq, Nat.mod_eq_of_lt hlen]
  map_iff := by
    intro k v
    simp only [createNode]
    by_cases hk : k = x
    · subst hk
      rw [if_pos rfl, hc.numNodes_eq]
      constructor
      · intro h
        rw [← Option.some.inj h, List.getElem?_append_right (le_refl _)]
        simp
      · intro h
        rcases Nat.lt_or_ge v st.localToGlobalVector.length with hlt | hge
        · rw [List.getElem?_append_left hlt] at h
          exact absurd (List.mem_iff_getElem?.2 ⟨v, h⟩) hx
        · rw [List.getElem?_append_right hge] at h
          have : v - st.localToGlobalVector.length = 0 := by
            by_contra hne
            rw [List.getElem?_eq_none (by simp; omega)] at h
            simp at h
          congr 1; omega
    · rw [if_neg hk, hc.map_iff k v]
      rcases Nat.lt_or_ge v st.localToGlobalVector.length with hlt | hge
      · rw [List.getElem?_append_left hlt]
      · rw [List.getElem?_append_right hge, List.getElem?_eq_none hge]
        constructor
        · intro h; simp at h
        · intro h
          exfalso
          by_cases h0 : v - st.localToGlobalVector.length = 0
          · rw [h0] at h; simp at h; exact hk h.symm
          · rw [List.getElem?_eq_none (by simp; omega)] at h
            simp at h
  numEdges_eq := by
    simp only [createNode, List.map_append, List.sum_append, List.map_cons, List.map_nil,
      List.sum_cons, List.sum_nil, hc.numEdges_eq, Nat.add_zero]
  prefix_eq := by
    simp only [createNode, List.map_append, List.map_cons, List.map_nil, prefixSums_append,
      hc.prefix_eq, hc.numEdges_eq, Nat.zero_add]
  not_inconsistent := hc.not_inconsistent

theorem createIf_foldl (keep : Nat → Bool) (w : Nat → Nat) (T : Nat) (hT : T < 2 ^ 32) :
    ∀ (xs : List Nat) (st : LocalGraph), Consistent w st → xs.Nodup →
      (∀ x, x ∈ xs → x ∉ st.localToGlobalVector) → (∀ x, x ∈ xs → x < T) →
      (∀ x, x ∈ st.localToGlobalVector → x < T) →
      Consistent w (xs.foldl (createIf keep w) st) ∧
        (xs.foldl (createIf keep w) st).localToGlobalVector =
          st.localToGlobalVector ++ xs.filter keep ∧
        (xs.foldl (createIf keep w) st).totalOwnedNodes = st.totalOwnedNodes ∧
        (xs.foldl (createIf keep w) st).numOwned = st.numOwned := by
  intro xs
  induction xs with
  | nil => intro st hc _ _ _ _; simp [hc]
  | cons x xs ih =>
    intro st hc hnd hfresh hlt hlt'
    rw [List.nodup_cons] at hnd
    rw [List.foldl_cons]
    by_cases hk : keep x = true
    · have hx : x ∉ st.localToGlobalVector := hfresh x (List.mem_cons_self _ _)
      have hnd' : (st.localToGlobalVector ++ [x]).Nodup := by
        rw [List.nodup_append]
        refine ⟨hc.nodup, List.nodup_singleton x, ?_⟩
        intro a ha hax
        rw [List.mem_singleton] at hax
        exact hx (hax ▸ ha)
      have hall : ∀ a, a ∈ st.localToGlobalVector ++ [x] → a < T := by
        intro a ha
        rw [List.mem_append, List.mem_singleton] at ha
        rcases ha with ha | ha
        · exact hlt' a ha
        · rw [ha]; exact hlt x (List.mem_cons_self _ _)
      have hlen := nodup_length_le _ T hnd' hall
      rw [List.length_append, List.length_singleton] at hlen
      have hc' := createNode_consistent w st x hc hx (by omega)
      have e : createIf keep w st x = createNode { st with numEdges := st.numEdges + w x } x := by
        simp [createIf, hk]
      rw [e]
      obtain ⟨c1, c2, c3, c4⟩ := ih _ hc' hnd.2
        (by
          intro a ha
          show a ∉ st.localToGlobalVector ++ [x]
          rw [List.mem_append, List.mem_singleton]
          rintro (h | h)
          · exact hfresh a (List.mem_cons_of_mem _ ha) h
          · exact hnd.1 (h ▸ ha))
        (fun a ha => hlt a (List.mem_cons_of_mem _ ha)) hall
      refine ⟨c1, ?_, c3, c4⟩
      rw [c2, List.filter_cons, if_pos hk]
      simp [createNode]
    · have e : createIf keep w st x = st := by simp [createIf, hk]
      rw [e]
      obtain ⟨c1, c2, c3, c4⟩ := ih st hc hnd.2
        (fun a ha => hfresh a (List.mem_cons_of_mem _ ha))
        (fun a ha => hlt a (List.mem_cons_of_mem _ ha)) hlt'
      refine ⟨c1, ?_, c3, c4⟩
      rw [c2, List.filter_cons, if_neg hk]

theorem ValidPartition.blockStart_eq {p : Cut} (_hv : ValidPartition p) (b : Nat)
    (hb : b < p.numHosts) : blockStart p b = (hostRange p b).1 := by
  simp [blockStart, hb]

theorem ValidPartition.blockStart_succ {p : Cut} (hv : ValidPartition p) (b : Nat)
    (hb : b < p.numHosts) : blockStart p (b + 1) = (hostRange p b).2 := by
  unfold blockStart
  by_cases h : b + 1 < p.numHosts
  · rw [if_pos h, hv.contiguous b h]
  · rw [if_neg h, ← hv.last_end]
    congr 2; omega

theorem ValidPartition.blockStart_le_succ {p : Cut} (hv : ValidPartition p) (b : Nat) :
    blockStart p b ≤ blockStart p (b + 1) := by
  by_cases hb : b < p.numHosts
  · rw [hv.blockStart_eq b hb, hv.blockStart_succ b hb]
    exact hv.start_le_end b hb
  · simp [blockStart, hb, show ¬ b + 1 < p.numHosts by omega]

theorem ValidPartition.blockStart_mono {p : Cut} (hv : ValidPartition p) (a b : Nat)
    (hab : a ≤ b) : blockStart p a ≤ blockStart p b := by
  obtain ⟨d, rfl⟩ := Nat.exists_eq_add_of_le hab
  induction d with
  | zero => exact le_refl _
  | succ d ih =>
    exact le_trans (ih (by omega)) (hv.blockStart_le_succ (a + d))

theorem ValidPartition.blockStart_le_total {p : Cut} (hv : ValidPartition p) (b : Nat) :
    blockStart p b ≤ p.totalNodes := by
  have h1 := hv.blockStart_mono b (max b p.numHosts) (le_max_left _ _)
  have h2 : blockStart p (max b p.numHosts) = p.totalNodes := by
    simp [blockStart]
  omega

theorem ValidPartition.isOwned_iff_blockStart {p : Cut} (hv : ValidPartition p) (b x : Nat)
    (hb : b < p.numHosts) :
    isOwned p b x = true ↔ blockStart p b ≤ x ∧ x < blockStart p (b + 1) := by
  rw [isOwned_iff, hv.blockStart_eq b hb, hv.blockStart_succ b hb]

/-- The global ids between the starts of two blocks are owned by the blocks
in between. -/
theorem ValidPartition.owner_between {p : Cut} (hv : ValidPartition p) (a b x : Nat)
    (hb : b ≤ p.numHosts) :
    (blockStart p a ≤ x ∧ x < blockStart p b) ↔
      ∃ B, a ≤ B ∧ B < b ∧ isOwned p B x = true := by
  constructor
  · rintro ⟨h1, h2⟩
    have hx : x < p.totalNodes := lt_of_lt_of_le h2 (hv.blockStart_le_total b)
    obtain ⟨B, hB, ho⟩ := hv.exists_owner x hx
    have ho' := (hv.isOwned_iff_blockStart B x hB).1 ho
    refine ⟨B, ?_, ?_, ho⟩
    · by_contra hlt
      have := hv.blockStart_mono (B + 1) a (by omega)
      omega
    · by_contra hge
      have := hv.blockStart_mono b B (by omega)
      omega
  · rintro ⟨B, h1, h2, ho⟩
    have ho' := (hv.isOwned_iff_blockStart B x (by omega)).1 ho
    have := hv.blockStart_mono a B h1
    have := hv.blockStart_mono (B + 1) b (by omega)
    omega

theorem div_eq_of_row_block (C r B : Nat) (h1 : r * C ≤ B) (h2 : B < r * C + C) :
    B / C = r := by
  apply Nat.div_eq_of_lt_le
  · exact h1
  · calc B < r * C + C := h2
      _ = (r + 1) * C := by ring

theorem eq_of_div_mod_eq (C a b : Nat) (hd : a / C = b / C) (hm : a % C = b % C) : a = b := by
  rw [← Nat.div_add_mod a C, ← Nat.div_add_mod b C, hd, hm]

theorem rowNodeStep_eq (p : Cut) (g : FileGraph) (hv : ValidPartition p) (id : Nat)
    (hasIn0 : List Bool) (st : LocalGraph) (src B : Nat)
    (hB : B / p.numColumnHosts = id / p.numColumnHosts) (ho : isOwned p B src = true) :
    rowNodeStep p id hasIn0 (st, src) (outCount p g (id % p.numColumnHosts) src) =
      (createIf (keepRowNode p g id) (outCount p g (id % p.numColumnHosts)) st src, src + 1) := by
  unfold rowNodeStep createIf keepRowNode
  dsimp only
  congr 1
  by_cases h1 : 0 < outCount p g (id % p.numColumnHosts) src
  · simp [h1]
  · have h1' : outCount p g (id % p.numColumnHosts) src = 0 := by omega
    by_cases h2 : isOwned p id src = true
    · simp [h1', h2]
    · have h3 : (gridColumnID p id == getColumnHostID p src) = false := by
        rw [beq_eq_false_iff_ne, getColumnHostID_eq hv B src ho]
        intro e
        unfold gridColumnID at e
        have := eq_of_div_mod_eq p.numColumnHosts B id hB e.symm
        rw [this] at ho
        exact h2 ho
      simp [h1', h2, h3]

theorem rowNodeStep_foldl (p : Cut) (g : FileGraph) (hv : ValidPartition p) (id : Nat)
    (hasIn0 : List Bool) :
    ∀ (n s : Nat) (st : LocalGraph),
      (∀ x, s ≤ x → x < s + n →
        ∃ B, B / p.numColumnHosts = id / p.numColumnHosts ∧ isOwned p B x = true) →
      ((List.range' s n).map (outCount p g (id % p.numColumnHosts))).foldl
          (rowNodeStep p id hasIn0) (st, s) =
        ((List.range' s n).foldl
          (createIf (keepRowNode p g id) (outCount p g (id % p.numColumnHosts))) st, s + n) := by
  intro n
  induction n with
  | zero => intro s st _; rfl
  | succ n ih =>
    intro s st h
    obtain ⟨B, hB, ho⟩ := h s (le_refl _) (by omega)
    rw [List.range'_succ, List.map_cons, List.foldl_cons, List.foldl_cons,
      rowNodeStep_eq p g hv id hasIn0 st s B hB ho, ih (s + 1) _ (fun x h1 h2 => h x (by omega) (by omega))]
    congr 1; omega

theorem createRowNodes_eq (p : Cut) (g : FileGraph) (hv : ValidPartition p)
    (hgrid : p.numRowHosts * p.numColumnHosts = p.numHosts) (id : Nat) (hid : id < p.numHosts)
    (numOut : List (List Nat)) (hasIn0 : List Bool)
    (hnum : ∀ i, i < p.numColumnHosts → numOut.getD i [] =
      scanCounts p g (id / p.numColumnHosts * p.numColumnHosts + i) (id % p.numColumnHosts))
    (st : LocalGraph) :
    ∀ n, n ≤ p.numColumnHosts →
      (List.range n).foldl (fun acc i => (numOut.getD i []).foldl (rowNodeStep p id hasIn0) acc)
          (st, blockStart p (id / p.numColumnHosts * p.numColumnHosts)) =
        ((List.range' (blockStart p (id / p.numColumnHosts * p.numColumnHosts))
            (blockStart p (id / p.numColumnHosts * p.numColumnHosts + n) -
              blockStart p (id / p.numColumnHosts * p.numColumnHosts))).foldl
          (createIf (keepRowNode p g id) (outCount p g (id % p.numColumnHosts))) st,
          blockStart p (id / p.numColumnHosts * p.numColumnHosts + n)) := by
  intro n
  induction n with
  | zero => intro _; simp
  | succ n ih =>
    intro hn
    have hb : id / p.numColumnHosts * p.numColumnHosts + n < p.numHosts :=
      div_mul_add_mod_lt _ _ _ id hgrid hid n (by omega)
    rw [List.range_succ, List.foldl_append, ih (by omega)]
    simp only [List.foldl_cons, List.foldl_nil]
    rw [hnum n (by omega)]
    unfold scanCounts totalOwnedNodes
    rw [← hv.blockStart_eq _ hb, ← hv.blockStart_succ _ hb]
    rw [rowNodeStep_foldl p g hv id hasIn0]
    · have h1 := hv.blockStart_mono (id / p.numColumnHosts * p.numColumnHosts)
        (id / p.numColumnHosts * p.numColumnHosts + n) (by omega)
      have h2 := hv.blockStart_le_succ (id / p.numColumnHosts * p.numColumnHosts + n)
      rw [← List.foldl_append]
      have e := List.range'_append (blockStart p (id / p.numColumnHosts * p.numColumnHosts))
        (blockStart p (id / p.numColumnHosts * p.numColumnHosts + n) -
          blockStart p (id / p.numColumnHosts * p.numColumnHosts))
        (blockStart p (id / p.numColumnHosts * p.numColumnHosts + n + 1) -
          blockStart p (id / p.numColumnHosts * p.numColumnHosts + n)) 1
      rw [Nat.one_mul, show blockStart p (id / p.numColumnHosts * p.numColumnHosts) +
          (blockStart p (id / p.numColumnHosts * p.numColumnHosts + n) -
            blockStart p (id / p.numColumnHosts * p.numColumnHosts)) =
          blockStart p (id / p.numColumnHosts * p.numColumnHosts + n) by omega] at e
      rw [e]
      congr 2
      · congr 1
        show _ = blockStart p (id / p.numColumnHosts * p.numColumnHosts + n + 1) - _
        omega
      · show _ = blockStart p (id / p.numColumnHosts * p.numColumnHosts + n + 1)
        omega
    · intro x hx1 hx2
      refine ⟨id / p.numColumnHosts * p.numColumnHosts + n,
        div_eq_of_row_block _ _ _ (by omega) (by omega), ?_⟩
      rw [hv.isOwned_iff_blockStart _ _ hb]
      have h2 := hv.blockStart_le_succ (id / p.numColumnHosts * p.numColumnHosts + n)
      exact ⟨hx1, by omega⟩

theorem foldl_flatMap {α β γ : Type} (f : α → List β) (step : γ → β → γ) :
    ∀ (l : List α) (a : γ),
      (l.flatMap f).foldl step a = l.foldl (fun a x => (f x).foldl step a) a := by
  intro l
  induction l with
  | nil => intro a; rfl
  | cons x l ih => intro a; rw [List.flatMap_cons, List.foldl_append, ih]; rfl

theorem createIf_foldl_congr (keep keep' : Nat → Bool) (w w' : Nat → Nat) :
    ∀ (xs : List Nat) (st : LocalGraph),
      (∀ x, x ∈ xs → keep x = keep' x ∧ w x = w' x) →
      xs.foldl (createIf keep w) st = xs.foldl (createIf keep' w') st := by
  intro xs
  induction xs with
  | nil => intro st _; rfl
  | cons x xs ih =>
    intro st h
    obtain ⟨h1, h2⟩ := h x (List.mem_cons_self _ _)
    rw [List.foldl_cons, List.foldl_cons, ih _ (fun a ha => h a (List.mem_cons_of_mem _ ha))]
    simp [createIf, h1, h2]

theorem mergeIncoming_congr (p : Cut) (hC : 0 < p.numColumnHosts) (tbl tbl' : List (List Bool))
    (h : ∀ i, i < p.numColumnHosts → tbl.getD i [] = tbl'.getD i []) :
    mergeIncoming p tbl = mergeIncoming p tbl' := by
  unfold mergeIncoming
  rw [h 0 hC]
  have : ∀ (l : List Nat) (b : List Bool), (∀ i, i ∈ l → i < p.numColumnHosts) →
      l.foldl (fun bits i => bitwise_or bits (tbl.getD i [])) b =
        l.foldl (fun bits i => bitwise_or bits (tbl'.getD i [])) b := by
    intro l
    induction l with
    | nil => intro b _; rfl
    | cons i l ih =>
      intro b hl
      rw [List.foldl_cons, List.foldl_cons, h i (hl i (List.mem_cons_self _ _)),
        ih _ (fun j hj => hl j (List.mem_cons_of_mem _ hj))]
  apply this
  intro i hi
  rw [List.mem_range'_1] at hi
  omega

theorem createColumnNodes_eq (p : Cut) (id : Nat) (hasIn0 : List Bool) (st : LocalGraph) :
    createColumnNodes p id hasIn0 st =
      (columnCandidates p id).foldl (columnNodeStep p hasIn0) st := by
  unfold createColumnNodes columnCandidates
  rw [foldl_flatMap]
  congr 1
  funext st i
  dsimp only
  split <;> rfl

theorem columnNodeStep_eq (p : Cut) (g : FileGraph) (id : Nat) (st : LocalGraph) (x : Nat) :
    columnNodeStep p (mergedIncoming p g id) st x =
      createIf (keepColumnNode p g id) (fun _ => 0) st x := by
  unfold columnNodeStep createIf keepColumnNode
  rfl

theorem mem_rowCandidates {p : Cut} (hv : ValidPartition p)
    (hgrid : p.numRowHosts * p.numColumnHosts = p.numHosts) (id : Nat) (hid : id < p.numHosts)
    (x : Nat) :
    x ∈ rowCandidates p id ↔
      ∃ B, B < p.numHosts ∧ B / p.numColumnHosts = id / p.numColumnHosts ∧
        isOwned p B x = true := by
  have hC : 0 < p.numColumnHosts := by
    rcases Nat.eq_zero_or_pos p.numColumnHosts with h | h
    · rw [h] at hgrid; omega
    · exact h
  have hle : id / p.numColumnHosts * p.numColumnHosts + p.numColumnHosts ≤ p.numHosts := by
    have := div_mul_add_mod_lt _ _ _ id hgrid hid (p.numColumnHosts - 1) (by omega)
    omega
  have hmono := hv.blockStart_mono (id / p.numColumnHosts * p.numColumnHosts)
    (id / p.numColumnHosts * p.numColumnHosts + p.numColumnHosts) (by omega)
  unfold rowCandidates
  rw [List.mem_range'_1]
  rw [show blockStart p (id / p.numColumnHosts * p.numColumnHosts) +
      (blockStart p (id / p.numColumnHosts * p.numColumnHosts + p.numColumnHosts) -
        blockStart p (id / p.numColumnHosts * p.numColumnHosts)) =
      blockStart p (id / p.numColumnHosts * p.numColumnHosts + p.numColumnHosts) by omega]
  rw [hv.owner_between _ _ x hle]
  constructor
  · rintro ⟨B, h1, h2, ho⟩
    exact ⟨B, by omega, div_eq_of_row_block _ _ _ h1 h2, ho⟩
  · rintro ⟨B, _, h2, ho⟩
    refine ⟨B, ?_, ?_, ho⟩
    · rw [← h2]; exact Nat.div_mul_le_self B _
    · rw [← h2]
      have := Nat.div_add_mod B p.numColumnHosts
      have := Nat.mod_lt B hC
      rw [Nat.mul_comm]; omega

theorem mem_columnCandidates (p : Cut) (id x : Nat) :
    x ∈ columnCandidates p id ↔
      ∃ i, i < p.numRowHosts ∧ i * p.numColumnHosts + id % p.numColumnHosts ≠ id ∧
        isOwned p (i * p.numColumnHosts + id % p.numColumnHosts) x = true := by
  unfold columnCandidates gridColumnID
  rw [List.mem_flatMap]
  constructor
  · rintro ⟨i, hi, hx⟩
    rw [List.mem_range] at hi
    by_cases h : i * p.numColumnHosts + id % p.numColumnHosts = id
    · simp [h] at hx
    · rw [if_neg (by simpa using h), List.mem_range'_1] at hx
      exact ⟨i, hi, h, (isOwned_iff _ _ _).2 ⟨hx.1, by omega⟩⟩
  · rintro ⟨i, hi, h, ho⟩
    rw [isOwned_iff] at ho
    refine ⟨i, List.mem_range.2 hi, ?_⟩
    rw [if_neg (by simpa using h), List.mem_range'_1]
    exact ⟨ho.1, by omega⟩

theorem columnCandidates_nodup {p : Cut} (hv : ValidPartition p) (id : Nat) :
    (columnCandidates p id).Nodup := by
  unfold columnCandidates
  rw [List.nodup_flatMap]
  constructor
  · intro i _
    split
    · exact List.nodup_nil
    · exact List.nodup_range' _ _
  · apply List.Pairwise.imp _ (List.pairwise_lt_range _)
    intro a b hab x hxa hxb
    dsimp only at hxa hxb
    by_cases ha : (a * p.numColumnHosts + gridColumnID p id == id) = true
    · simp [ha] at hxa
    · by_cases hb : (b * p.numColumnHosts + gridColumnID p id == id) = true
      · simp [hb] at hxb
      · rw [if_neg ha, List.mem_range'_1] at hxa
        rw [if_neg hb, List.mem_range'_1] at hxb
        have h1 : isOwned p (a * p.numColumnHosts + gridColumnID p id) x = true :=
          (isOwned_iff _ _ _).2 ⟨hxa.1, by omega⟩
        have h2 : isOwned p (b * p.numColumnHosts + gridColumnID p id) x = true :=
          (isOwned_iff _ _ _).2 ⟨hxb.1, by omega⟩
        have e := hv.isOwned_unique _ _ x h1 h2
        have hC : 0 < p.numColumnHosts := by
          rcases Nat.eq_zero_or_pos p.numColumnHosts with h | h
          · exfalso; apply ha
            simp [gridColumnID, h]
          · exact h
        have : a * p.numColumnHosts = b * p.numColumnHosts := by omega
        have := Nat.eq_of_mul_eq_mul_right hC this
        omega

theorem WellFormed.cols_pos {p : Cut} {g : FileGraph} (wf : WellFormed p g) :
    0 < p.numColumnHosts := by
  have h1 := wf.grid
  have h2 := wf.valid.hosts_pos
  rcases Nat.eq_zero_or_pos p.numColumnHosts with h | h
  · rw [h] at h1; omega
  · exact h

theorem WellFormed.row_block_le {p : Cut} {g : FileGraph} (wf : WellFormed p g) (id : Nat)
    (hid : id < p.numHosts) :
    id / p.numColumnHosts * p.numColumnHosts + p.numColumnHosts ≤ p.numHosts := by
  have hC := wf.cols_pos
  have := div_mul_add_mod_lt _ _ _ id wf.grid hid (p.numColumnHosts - 1) (by omega)
  omega

theorem WellFormed.mem_rowCandidates_iff_range {p : Cut} {g : FileGraph} (wf : WellFormed p g)
    (id x : Nat) :
    x ∈ rowCandidates p id ↔
      blockStart p (id / p.numColumnHosts * p.numColumnHosts) ≤ x ∧
        x < blockStart p (id / p.numColumnHosts * p.numColumnHosts + p.numColumnHosts) := by
  have hmono := wf.valid.blockStart_mono (id / p.numColumnHosts * p.numColumnHosts)
    (id / p.numColumnHosts * p.numColumnHosts + p.numColumnHosts) (by omega)
  unfold rowCandidates
  rw [List.mem_range'_1]
  omega

theorem WellFormed.localEdgeCount_row {p : Cut} {g : FileGraph} (wf : WellFormed p g)
    (id x : Nat) (hx : x ∈ rowCandidates p id) :
    localEdgeCount p g id x = outCount p g (id % p.numColumnHosts) x := by
  unfold localEdgeCount
  rw [if_pos ((wf.mem_rowCandidates_iff_range id x).1 hx)]

theorem WellFormed.localEdgeCount_not_row {p : Cut} {g : FileGraph} (wf : WellFormed p g)
    (id x : Nat) (hx : x ∉ rowCandidates p id) : localEdgeCount p g id x = 0 := by
  unfold localEdgeCount
  rw [if_neg (fun h => hx ((wf.mem_rowCandidates_iff_range id x).2 h))]

theorem WellFormed.column_not_row {p : Cut} {g : FileGraph} (wf : WellFormed p g) (id : Nat)
    (hid : id < p.numHosts) (x : Nat) (hx : x ∈ columnCandidates p id) :
    x ∉ rowCandidates p id := by
  have hC := wf.cols_pos
  intro hr
  obtain ⟨i, _, hne, ho⟩ := (mem_columnCandidates p id x).1 hx
  obtain ⟨B, _, hB, ho'⟩ := (mem_rowCandidates wf.valid wf.grid id hid x).1 hr
  have e := wf.valid.isOwned_unique _ _ x ho ho'
  have hm : id % p.numColumnHosts < p.numColumnHosts := Nat.mod_lt _ hC
  have h1 := (row_add_eq_iff p.numColumnHosts i _ B hm).1 e
  apply hne
  rw [e]
  exact eq_of_div_mod_eq p.numColumnHosts B id hB h1.2.symm

theorem WellFormed.rowCandidates_lt {p : Cut} {g : FileGraph} (wf : WellFormed p g) (id x : Nat)
    (hx : x ∈ rowCandidates p id) : x < p.totalNodes := by
  have := (wf.mem_rowCandidates_iff_range id x).1 hx
  have := wf.valid.blockStart_le_total
    (id / p.numColumnHosts * p.numColumnHosts + p.numColumnHosts)
  omega

theorem WellFormed.columnCandidates_lt {p : Cut} {g : FileGraph} (wf : WellFormed p g)
    (id x : Nat) (hx : x ∈ columnCandidates p id) : x < p.totalNodes := by
  obtain ⟨i, _, _, ho⟩ := (mem_columnCandidates p id x).1 hx
  exact (wf.valid.isOwned_lt _ x ho).2

/-- The result of `loadStatistics` on a host: the receive loop ends, the
vector of global ids is the part of the row ranges that has edges into the
host's column or is owned, followed by the part of the other ranges of the
column that has incoming edges from the row, and the tables are consistent. -/
theorem loadStatistics_spec (p : Cut) (g : FileGraph) (wf : WellFormed p g) (id : Nat)
    (hid : id < p.numHosts) :
    ∃ st, loadStatistics p g id = some st ∧
      Consistent (localEdgeCount p g id) st ∧
      st.localToGlobalVector =
        (rowCandidates p id).filter (keepRowNode p g id) ++
          (columnCandidates p id).filter (keepColumnNode p g id) ∧
      st.numOwned = ((rowCandidates p id).filter (keepRowNode p g id)).length ∧
      st.totalOwnedNodes = totalOwnedNodes p id := by
  have hC := wf.cols_pos
  obtain ⟨stats, hrecv, htbl⟩ := recvStatistics_spec p g wf.grid id hid
  have hmerge : mergeIncoming p stats.hasIncomingEdge = mergedIncoming p g id := by
    unfold mergedIncoming
    apply mergeIncoming_congr p hC
    intro i hi
    rw [(htbl i hi).2]
    simp [List.getD_eq_getElem?_getD, List.getElem?_map, List.getElem?_range hi]
  have hleader : id / p.numColumnHosts * p.numColumnHosts < p.numHosts := by
    have := wf.row_block_le id hid; omega
  -- the first loop
  have hrow := createRowNodes_eq p g wf.valid wf.grid id hid stats.numOutgoingEdges
    (mergedIncoming p g id) (fun i hi => (htbl i hi).1) (emptyLocalGraph p id)
    p.numColumnHosts (le_refl _)
  have hrow' : (createRowNodes p id stats.numOutgoingEdges (mergedIncoming p g id)
      (emptyLocalGraph p id, (hostRange p (gridRowID p id * p.numColumnHosts)).1)).1 =
      (rowCandidates p id).foldl (createIf (keepRowNode p g id) (localEdgeCount p g id))
        (emptyLocalGraph p id) := by
    unfold createRowNodes gridRowID
    rw [← wf.valid.blockStart_eq _ hleader, hrow]
    exact createIf_foldl_congr _ _ _ _ _ _
      (fun x hx => ⟨rfl, (wf.localEdgeCount_row id x hx).symm⟩)
  obtain ⟨c1, l1, t1, _⟩ := createIf_foldl (keepRowNode p g id) (localEdgeCount p g id)
    p.totalNodes wf.nodes_lt (rowCandidates p id) (emptyLocalGraph p id)
    (emptyLocalGraph_consistent p id _) (List.nodup_range' _ _)
    (fun x _ => by simp [emptyLocalGraph]) (fun x hx => wf.rowCandidates_lt id x hx)
    (fun x hx => by simp [emptyLocalGraph] at hx)
  -- the second loop
  let st1 := (rowCandidates p id).foldl (createIf (keepRowNode p g id) (localEdgeCount p g id))
    (emptyLocalGraph p id)
  have c1' : Consistent (localEdgeCount p g id) { st1 with numOwned := st1.numNodes } :=
    ⟨c1.numNodes_eq, c1.map_iff, c1.numEdges_eq, c1.prefix_eq, c1.not_inconsistent⟩
  have hl1 : st1.localToGlobalVector = (rowCandidates p id).filter (keepRowNode p g id) := by
    rw [l1]; simp [emptyLocalGraph]
  have hcol : createColumnNodes p id (mergedIncoming p g id)
      { st1 with numOwned := st1.numNodes } =
      (columnCandidates p id).foldl (createIf (keepColumnNode p g id) (localEdgeCount p g id))
        { st1 with numOwned := st1.numNodes } := by
    rw [createColumnNodes_eq]
    have : columnNodeStep p (mergedIncoming p g id) =
        createIf (keepColumnNode p g id) (fun _ => 0) := by
      funext st x; exact columnNodeStep_eq p g id st x
    rw [this]
    exact createIf_foldl_congr _ _ _ _ _ _
      (fun x hx => ⟨rfl, (wf.localEdgeCount_not_row id x (wf.column_not_row id hid x hx)).symm⟩)
  obtain ⟨c2, l2, t2, o2⟩ := createIf_foldl (keepColumnNode p g id) (localEdgeCount p g id)
    p.totalNodes wf.nodes_lt (columnCandidates p id) { st1 with numOwned := st1.numNodes } c1'
    (columnCandidates_nodup wf.valid id)
    (fun x hx hmem => by
      have hmem' : x ∈ st1.localToGlobalVector := hmem
      rw [hl1] at hmem'
      exact wf.column_not_row id hid x hx (List.mem_filter.1 hmem').1)
    (fun x hx => wf.columnCandidates_lt id x hx)
    (fun x hmem => by
      have hmem' : x ∈ st1.localToGlobalVector := hmem
      rw [hl1] at hmem'
      exact wf.rowCandidates_lt id x (List.mem_filter.1 hmem').1)
  refine ⟨_, ?_, c2, ?_, ?_, ?_⟩
  · unfold loadStatistics loadStatisticsFrom
    rw [hrecv]
    dsimp only
    rw [hmerge, hrow', hcol]
  · rw [l2]
    show st1.localToGlobalVector ++ _ = _
    rw [hl1]
  · rw [o2]
    show st1.numNodes = _
    rw [c1.numNodes_eq]
    show st1.localToGlobalVector.length = _
    rw [hl1]
  · rw [t2]
    show st1.totalOwnedNodes = _
    rw [t1]; rfl

/-! ## Which nodes a host materializes -/

theorem keepRowNode_iff (p : Cut) (g : FileGraph) (id x : Nat) :
    keepRowNode p g id x = true ↔
      (∃ d, d ∈ g.outEdges x ∧ getColumnHostID p d = id % p.numColumnHosts) ∨
        isOwned p id x = true := by
  unfold keepRowNode outCount
  rw [Bool.or_eq_true, decide_eq_true_iff, List.countP_pos_iff]
  simp only [beq_iff_eq]

theorem WellFormed.keepColumnNode_iff {p : Cut} {g : FileGraph} (wf : WellFormed p g)
    (id : Nat) (hid : id < p.numHosts) (x : Nat) (hx : x < p.totalNodes)
    (hcol : getColumnHostID p x = id % p.numColumnHosts) :
    keepColumnNode p g id x = true ↔ ∃ src, src ∈ rowCandidates p id ∧ x ∈ g.outEdges src := by
  have hC := wf.cols_pos
  unfold keepColumnNode mergedIncoming
  rw [mergeIncoming_spec p g hC (id / p.numColumnHosts) (id % p.numColumnHosts) _
    (fun i hi => by
      simp [List.getD_eq_getElem?_getD, List.getElem?_map, List.getElem?_range hi])]
  constructor
  · rintro ⟨_, i, hi, src, ho, d, hd, hdc, hdi⟩
    have hB := div_mul_add_mod_lt _ _ _ id wf.grid hid i hi
    have hsrc : src < p.totalNodes := (wf.valid.isOwned_lt _ src ho).2
    have hdlt : d < p.totalNodes := wf.dst_lt src hsrc d hd
    have e : d = x := getColumnIndex_inj wf.valid wf.nodes_lt d x hdlt hx (by rw [hdc, hcol]) hdi
    refine ⟨src, ?_, e ▸ hd⟩
    rw [mem_rowCandidates wf.valid wf.grid id hid]
    exact ⟨_, hB, ((row_add_eq_iff _ _ i _ hi).1 rfl).1.symm, ho⟩
  · rintro ⟨src, hsrc, hd⟩
    obtain ⟨B, hB, hrow, ho⟩ := (mem_rowCandidates wf.valid wf.grid id hid src).1 hsrc
    refine ⟨?_, B % p.numColumnHosts, Nat.mod_lt _ hC, src, ?_, x, hd, hcol, rfl⟩
    · rw [← hcol]; exact getColumnIndex_lt wf.valid wf.nodes_lt x hx
    · rw [← hrow, Nat.mul_comm, Nat.div_add_mod]; exact ho

/-- C6: after `loadStatistics` on a host, `localToGlobalVector` has `numNodes`
entries and no repeated global id, `G2L(L2G(x)) = x` for every local id
`x < numNodes`, `L2G(G2L(gid)) = gid` for every key `gid` of
`globalToLocalMap`, and the values of the map are exactly `[0, numNodes)`. -/
theorem loadStatistics_id_maps_inverse (p : Cut) (g : FileGraph) (wf : WellFormed p g)
    (id : Nat) (hid : id < p.numHosts) :
    ∃ st, loadStatistics p g id = some st ∧
      st.localToGlobalVector.length = st.numNodes ∧
      st.localToGlobalVector.Nodup ∧
      (∀ x, x < st.numNodes → ∃ gid, L2G st x = some gid ∧ G2L st gid = some x) ∧
      (∀ gid lid, G2L st gid = some lid → L2G st lid = some gid) ∧
      (∀ v, (∃ gid, st.globalToLocalMap gid = some v) ↔ v < st.numNodes) := by
  obtain ⟨st, hst, hc, _, _, _⟩ := loadStatistics_spec p g wf id hid
  refine ⟨st, hst, hc.numNodes_eq.symm, hc.nodup, ?_, ?_, ?_⟩
  · intro x hx
    rw [hc.numNodes_eq] at hx
    refine ⟨st.localToGlobalVector[x], ?_, ?_⟩
    · exact List.getElem?_eq_getElem hx
    · exact (hc.map_iff _ _).2 (List.getElem?_eq_getElem hx)
  · intro gid lid h
    exact (hc.map_iff gid lid).1 h
  · intro v
    rw [hc.numNodes_eq]
    constructor
    · rintro ⟨gid, h⟩
      have := (hc.map_iff gid v).1 h
      by_contra hge
      rw [List.getElem?_eq_none (by omega)] at this
      simp at this
    · intro hv
      exact ⟨st.localToGlobalVector[v], (hc.map_iff _ _).2 (List.getElem?_eq_getElem hv)⟩

theorem WellFormed.owned_mem {p : Cut} {g : FileGraph} (wf : WellFormed p g) (id : Nat)
    (hid : id < p.numHosts) (gid : Nat) (ho : isOwned p id gid = true) :
    gid ∈ (rowCandidates p id).filter (keepRowNode p g id) := by
  rw [List.mem_filter, mem_rowCandidates wf.valid wf.grid id hid, keepRowNode_iff]
  exact ⟨⟨id, hid, rfl, ho⟩, Or.inr ho⟩

theorem sum_map_filter_of_zero (keep : Nat → Bool) (f : Nat → Nat) (l : List Nat)
    (h : ∀ x, x ∈ l → keep x = false → f x = 0) :
    ((l.filter keep).map f).sum = (l.map f).sum := by
  induction l with
  | nil => rfl
  | cons x l ih =>
    have ih' := ih (fun a ha => h a (List.mem_cons_of_mem _ ha))
    by_cases hk : keep x = true
    · simp [List.filter_cons, hk, ih']
    · have := h x (List.mem_cons_self _ _) (by simpa using hk)
      simp [List.filter_cons, hk, ih', this]

theorem sum_map_eq_zero (f : Nat → Nat) (l : List Nat) (h : ∀ x, x ∈ l → f x = 0) :
    (l.map f).sum = 0 := by
  induction l with
  | nil => rfl
  | cons x l ih =>
    simp [h x (List.mem_cons_self _ _), ih (fun a ha => h a (List.mem_cons_of_mem _ ha))]

/-! ## Keys and edge counts for any number of nodes -/

theorem createIf_foldl_basic (keep : Nat → Bool) (w : Nat → Nat) :
    ∀ (xs : List Nat) (st : LocalGraph),
      (xs.foldl (createIf keep w) st).localToGlobalVector =
          st.localToGlobalVector ++ xs.filter keep ∧
        (∀ k, (∃ v, (xs.foldl (createIf keep w) st).globalToLocalMap k = some v) ↔
          (∃ v, st.globalToLocalMap k = some v) ∨ k ∈ xs.filter keep) ∧
        (xs.foldl (createIf keep w) st).numEdges =
          st.numEdges + ((xs.filter keep).map w).sum := by
  intro xs
  induction xs with
  | nil => intro st; simp
  | cons x xs ih =>
    intro st
    rw [List.foldl_cons]
    by_cases hk : keep x = true
    · have e : createIf keep w st x = createNode { st with numEdges := st.numEdges + w x } x := by
        simp [createIf, hk]
      obtain ⟨l1, k1, n1⟩ := ih (createIf keep w st x)
      refine ⟨?_, ?_, ?_⟩
      · rw [l1, e, List.filter_cons, if_pos hk]
        simp [createNode]
      · intro k
        rw [k1 k, e, List.filter_cons, if_pos hk, List.mem_cons]
        simp only [createNode]
        by_cases hkx : k = x
        · simp [hkx]
        · simp [hkx]
      · rw [n1, e, List.filter_cons, if_pos hk]
        simp only [createNode, List.map_cons, List.sum_cons]
        omega
    · have e : createIf keep w st x = st := by simp [createIf, hk]
      obtain ⟨l1, k1, n1⟩ := ih st
      rw [e, List.filter_cons, if_neg hk]
      exact ⟨l1, k1, n1⟩

theorem owned_mem_kept {p : Cut} (g : FileGraph) (hv : ValidPartition p)
    (hgrid : p.numRowHosts * p.numColumnHosts = p.numHosts) (id : Nat) (hid : id < p.numHosts)
    (gid : Nat) (ho : isOwned p id gid = true) :
    gid ∈ (rowCandidates p id).filter (keepRowNode p g id) := by
  rw [List.mem_filter, mem_rowCandidates hv hgrid id hid, keepRowNode_iff]
  exact ⟨⟨id, hid, rfl, ho⟩, Or.inr ho⟩

/-- The keys of `globalToLocalMap` and the value of `numEdges` after
`loadStatistics`, for any number of nodes. -/
theorem loadStatistics_basic (p : Cut) (g : FileGraph) (hv : ValidPartition p)
    (hgrid : p.numRowHosts * p.numColumnHosts = p.numHosts) (id : Nat) (hid : id < p.numHosts) :
    ∃ st, loadStatistics p g id = some st ∧
      st.localToGlobalVector =
        (rowCandidates p id).filter (keepRowNode p g id) ++
          (columnCandidates p id).filter (keepColumnNode p g id) ∧
      (∀ k, (∃ v, st.globalToLocalMap k = some v) ↔ k ∈ st.localToGlobalVector) ∧
      st.numEdges = ((rowCandidates p id).map (outCount p g (id % p.numColumnHosts))).sum := by
  have hC : 0 < p.numColumnHosts := by
    have := hv.hosts_pos
    rcases Nat.eq_zero_or_pos p.numColumnHosts with h | h
    · rw [h] at hgrid; omega
    · exact h
  obtain ⟨stats, hrecv, htbl⟩ := recvStatistics_spec p g hgrid id hid
  have hmerge : mergeIncoming p stats.hasIncomingEdge = mergedIncoming p g id := by
    unfold mergedIncoming
    apply mergeIncoming_congr p hC
    intro i hi
    rw [(htbl i hi).2]
    simp [List.getD_eq_getElem?_getD, List.getElem?_map, List.getElem?_range hi]
  have hleader : id / p.numColumnHosts * p.numColumnHosts < p.numHosts := by
    have := div_mul_add_mod_lt _ _ _ id hgrid hid 0 hC
    omega
  have hrow := createRowNodes_eq p g hv hgrid id hid stats.numOutgoingEdges
    (mergedIncoming p g id) (fun i hi => (htbl i hi).1) (emptyLocalGraph p id)
    p.numColumnHosts (le_refl _)
  have hrow' : (createRowNodes p id stats.numOutgoingEdges (mergedIncoming p g id)
      (emptyLocalGraph p id, (hostRange p (gridRowID p id * p.numColumnHosts)).1)).1 =
      (rowCandidates p id).foldl
        (createIf (keepRowNode p g id) (outCount p g (id % p.numColumnHosts)))
        (emptyLocalGraph p id) := by
    unfold createRowNodes gridRowID
    rw [← hv.blockStart_eq _ hleader, hrow]
    rfl
  obtain ⟨l1, k1, n1⟩ := createIf_foldl_basic (keepRowNode p g id)
    (outCount p g (id % p.numColumnHosts)) (rowCandidates p id) (emptyLocalGraph p id)
  let st1 := (rowCandidates p id).foldl
    (createIf (keepRowNode p g id) (outCount p g (id % p.numColumnHosts))) (emptyLocalGraph p id)
  have hcol : createColumnNodes p id (mergedIncoming p g id)
      { st1 with numOwned := st1.numNodes } =
      (columnCandidates p id).foldl (createIf (keepColumnNode p g id) (fun _ => 0))
        { st1 with numOwned := st1.numNodes } := by
    rw [createColumnNodes_eq]
    have : columnNodeStep p (mergedIncoming p g id) =
        createIf (keepColumnNode p g id) (fun _ => 0) := by
      funext st x; exact columnNodeStep_eq p g id st x
    rw [this]
  obtain ⟨l2, k2, n2⟩ := createIf_foldl_basic (keepColumnNode p g id) (fun _ => 0)
    (columnCandidates p id) { st1 with numOwned := st1.numNodes }
  have hl1 : st1.localToGlobalVector = (rowCandidates p id).filter (keepRowNode p g id) := by
    rw [l1]; simp [emptyLocalGraph]
  refine ⟨(columnCandidates p id).foldl (createIf (keepColumnNode p g id) (fun _ => 0))
    { st1 with numOwned := st1.numNodes }, ?_, ?_, ?_, ?_⟩
  · unfold loadStatistics loadStatisticsFrom
    rw [hrecv]
    dsimp only
    rw [hmerge, hrow', hcol]
  · rw [l2]
    show st1.localToGlobalVector ++ _ = _
    rw [hl1]
  · intro k
    rw [k2 k, l2]
    show (∃ v, st1.globalToLocalMap k = some v) ∨ _ ↔ k ∈ st1.localToGlobalVector ++ _
    rw [k1 k, hl1, List.mem_append]
    simp [emptyLocalGraph]
  · rw [n2]
    show st1.numEdges + _ = _
    rw [n1, sum_map_eq_zero _ _ (fun _ _ => rfl), Nat.add_zero]
    show 0 + _ = _
    rw [Nat.zero_add, sum_map_filter_of_zero]
    intro x _ hk
    unfold keepRowNode at hk
    rw [Bool.or_eq_false_iff, decide_eq_false_iff_not] at hk
    omega

/-- C7: after `loadStatistics`, for every global id `gid < totalNodes`, `gid`
is a key of `globalToLocalMap` (so `G2L(gid)` succeeds) if and only if
`isLocal(gid)` holds; every owned global id is a key of the map. -/
theorem loadStatistics_local_iff_key (p : Cut) (g : FileGraph) (hp : Partitioned p g)
    (id : Nat) (hid : id < p.numHosts) :
    ∃ st, loadStatistics p g id = some st ∧
      ∀ gid, gid < p.totalNodes →
        ((∃ lid, G2L st gid = some lid) ↔ isLocal p id st gid = true) ∧
        (isOwned p id gid = true → ∃ lid, G2L st gid = some lid) := by
  obtain ⟨st, hst, hl, hkeys, _⟩ := loadStatistics_basic p g hp.valid hp.grid id hid
  refine ⟨st, hst, fun gid _ => ?_⟩
  have howned : isOwned p id gid = true → ∃ lid, G2L st gid = some lid := by
    intro ho
    apply (hkeys gid).2
    rw [hl]
    exact List.mem_append_left _ (owned_mem_kept g hp.valid hp.grid id hid gid ho)
  refine ⟨?_, howned⟩
  unfold isLocal
  rw [Bool.or_eq_true, Option.isSome_iff_exists]
  constructor
  · intro h; exact Or.inr h
  · rintro (h | h)
    · exact howned h
    · exact h

theorem sum_indicator_range (C k : Nat) (hk : k < C) :
    ((List.range C).map fun c => if k = c then 1 else 0).sum = 1 := by
  induction C with
  | zero => omega
  | succ C ih =>
    rw [List.range_succ, List.map_append, List.sum_append]
    by_cases h : k = C
    · subst h
      rw [sum_map_eq_zero _ _ (fun c hc => by
        rw [List.mem_range] at hc
        rw [if_neg (by omega)])]
      simp
    · rw [ih (by omega)]
      simp [h]

theorem sum_countP_columns (p : Cut) (hC : 0 < p.numColumnHosts) (ds : List Nat) :
    ((List.range p.numColumnHosts).map fun c =>
      ds.countP fun d => getColumnHostID p d == c).sum = ds.length := by
  induction ds with
  | nil => simp
  | cons d ds ih =>
    have hd : getColumnHostID p d < p.numColumnHosts := Nat.mod_lt _ hC
    have e : (fun c => (d :: ds).countP fun d => getColumnHostID p d == c) =
        fun c => (ds.countP fun d => getColumnHostID p d == c) +
          (if getColumnHostID p d = c then 1 else 0) := by
      funext c
      rw [List.countP_cons]
      simp
    rw [e, List.sum_map_add, ih, sum_indicator_range _ _ hd, List.length_cons]

theorem sum_outCount_columns (p : Cut) (g : FileGraph) (hC : 0 < p.numColumnHosts)
    (l : List Nat) :
    ((List.range p.numColumnHosts).map fun c => (l.map (outCount p g c)).sum).sum =
      (l.map fun n => (g.outEdges n).length).sum := by
  induction l with
  | nil => simp
  | cons x l ih =>
    simp only [List.map_cons, List.sum_cons]
    rw [List.sum_map_add, ih]
    congr 1
    exact sum_countP_columns p hC (g.outEdges x)

theorem sum_range_mul (f : Nat → Nat) (C : Nat) :
    ∀ R, ((List.range (R * C)).map f).sum =
      ((List.range R).map fun r => ((List.range C).map fun c => f (r * C + c)).sum).sum := by
  intro R
  induction R with
  | zero => simp
  | succ R ih =>
    rw [Nat.succ_mul, List.range_add, List.map_append, List.sum_append, ih, List.range_succ,
      List.map_append, List.sum_append, List.map_map]
    simp [Function.comp_def]

theorem sum_row_ranges {p : Cut} (hv : ValidPartition p) (f : Nat → Nat) (C : Nat) :
    ∀ R, ((List.range R).map fun r =>
        ((List.range' (blockStart p (r * C)) (blockStart p (r * C + C) - blockStart p (r * C))).map
          f).sum).sum =
      ((List.range' 0 (blockStart p (R * C))).map f).sum := by
  have h0 : blockStart p 0 = 0 := by
    rw [hv.blockStart_eq 0 hv.hosts_pos, hv.first_start]
  intro R
  induction R with
  | zero => simp [h0]
  | succ R ih =>
    rw [List.range_succ, List.map_append, List.sum_append, ih]
    simp only [List.map_cons, List.map_nil, List.sum_cons, List.sum_nil, Nat.add_zero]
    have h1 := hv.blockStart_mono 0 (R * C) (Nat.zero_le _)
    have h2 := hv.blockStart_mono (R * C) (R * C + C) (by omega)
    rw [h0] at h1
    have e := List.range'_append 0 (blockStart p (R * C))
      (blockStart p (R * C + C) - blockStart p (R * C)) 1
    rw [Nat.one_mul, Nat.zero_add] at e
    rw [← List.sum_append, ← List.map_append, e, Nat.succ_mul]
    congr 3
    omega

theorem sum_degrees_eq_sizeEdges (g : FileGraph) :
    ∀ T, (∀ n, n + 1 < T → g.edge_end n ≤ g.edge_end (n + 1)) →
      ((List.range T).map fun n => (g.outEdges n).length).sum = g.sizeEdges T := by
  intro T
  induction T with
  | zero => intro _; rfl
  | succ T ih =>
    intro hmono
    rw [List.range_succ, List.map_append, List.sum_append, ih (fun n hn => hmono n (by omega))]
    simp only [List.map_cons, List.map_nil, List.sum_cons, List.sum_nil, Nat.add_zero,
      FileGraph.outEdges, FileGraph.edgeDsts, List.length_map, List.length_range',
      FileGraph.sizeEdges, FileGraph.edge_begin]
    rcases Nat.eq_zero_or_pos T with h | h
    · subst h; simp
    · have := hmono (T - 1) (by omega)
      rw [show T - 1 + 1 = T by omega] at this
      simp only [Nat.add_sub_cancel, if_neg (show ¬ T = 0 by omega),
        if_neg (show ¬ T + 1 = 0 by omega), FileGraph.edge_end] at this ⊢
      omega

/-- C8: edge-count conservation.  On every host `loadStatistics` returns, and
the sum over all hosts of the `numEdges` it computes equals the number of
edges of the input graph (the sum of the out-degrees of its nodes, which for a
monotone edge index is `sizeEdges()`). -/
theorem loadStatistics_edge_conservation (p : Cut) (g : FileGraph) (hp : Partitioned p g) :
    (∀ id, id < p.numHosts → (loadStatistics p g id).isSome = true) ∧
      ((List.range p.numHosts).map (numEdgesOn p g)).sum =
        ((List.range p.totalNodes).map fun n => (g.outEdges n).length).sum ∧
      ((∀ n, n + 1 < p.totalNodes → g.edge_end n ≤ g.edge_end (n + 1)) →
        ((List.range p.numHosts).map (numEdgesOn p g)).sum = g.sizeEdges p.totalNodes) := by
  have hC : 0 < p.numColumnHosts := by
    have h1 := hp.grid
    have h2 := hp.valid.hosts_pos
    rcases Nat.eq_zero_or_pos p.numColumnHosts with h | h
    · rw [h] at h1; omega
    · exact h
  have hsome : ∀ id, id < p.numHosts → (loadStatistics p g id).isSome = true := by
    intro id hid
    obtain ⟨st, hst, _⟩ := loadStatistics_basic p g hp.valid hp.grid id hid
    rw [hst]; rfl
  have hnum : ∀ id, id ∈ List.range p.numHosts →
      numEdgesOn p g id =
        ((rowCandidates p id).map (outCount p g (id % p.numColumnHosts))).sum := by
    intro id hid
    obtain ⟨st, hst, _, _, he⟩ := loadStatistics_basic p g hp.valid hp.grid id
      (List.mem_range.1 hid)
    unfold numEdgesOn
    rw [hst]; exact he
  have hsum : ((List.range p.numHosts).map (numEdgesOn p g)).sum =
      ((List.range p.totalNodes).map fun n => (g.outEdges n).length).sum := by
    rw [List.map_congr_left hnum, ← hp.grid, sum_range_mul]
    have hrow : ∀ r, ((List.range p.numColumnHosts).map fun c =>
          ((rowCandidates p (r * p.numColumnHosts + c)).map
            (outCount p g ((r * p.numColumnHosts + c) % p.numColumnHosts))).sum).sum =
        ((List.range' (blockStart p (r * p.numColumnHosts))
          (blockStart p (r * p.numColumnHosts + p.numColumnHosts) -
            blockStart p (r * p.numColumnHosts))).map fun n => (g.outEdges n).length).sum := by
      intro r
      rw [← sum_outCount_columns p g hC]
      apply congrArg List.sum
      apply List.map_congr_left
      intro c hc
      rw [List.mem_range] at hc
      obtain ⟨h1, h2⟩ := (row_add_eq_iff p.numColumnHosts r c _ hc).1 rfl
      unfold rowCandidates
      rw [← h1, ← h2]
    rw [List.map_congr_left (fun r _ => hrow r), sum_row_ranges hp.valid, hp.grid,
      List.range_eq_range']
    congr 3
    simp [blockStart]
  exact ⟨hsome, hsum, fun hmono => by rw [hsum]; exact sum_degrees_eq_sizeEdges g _ hmono⟩

/-! ## The example inputs are well formed -/

theorem pathCut_valid : ValidPartition pathCut where
  hosts_pos := by decide
  length_eq := by decide
  first_start := by decide
  start_le_end := by decide
  contiguous := by
    intro h hh
    have hlt : h < 2 := by
      change h + 1 < 3 at hh
      omega
    interval_cases h <;> rfl
  last_end := by decide

theorem gridCut_valid : ValidPartition gridCut where
  hosts_pos := by decide
  length_eq := by decide
  first_start := by decide
  start_le_end := by decide
  contiguous := by
    intro h hh
    have hlt : h < 3 := by
      change h + 1 < 4 at hh
      omega
    interval_cases h <;> rfl
  last_end := by decide

theorem gridCut_wellFormed : WellFormed gridCut gridGraph where
  valid := gridCut_valid
  grid := by decide
  nodes_lt := by decide
  dst_lt := by decide

theorem getHostID_unique_owner_witness :
    ∃ h, h < pathCut.numHosts ∧ isOwned pathCut h 3 = true ∧
      (∀ h', isOwned pathCut h' 3 = true → h' = h) ∧
      getHostIDLoop pathCut 3 = some h ∧ getHostID pathCut 3 = h :=
  getHostID_unique_owner pathCut pathCut_valid 3 (by decide)

theorem loadStatistics_id_maps_inverse_witness :
    ∃ st, loadStatistics gridCut gridGraph 0 = some st ∧
      st.localToGlobalVector.length = st.numNodes ∧
      st.localToGlobalVector.Nodup ∧
      (∀ x, x < st.numNodes → ∃ gid, L2G st x = some gid ∧ G2L st gid = some x) ∧
      (∀ gid lid, G2L st gid = some lid → L2G st lid = some gid) ∧
      (∀ v, (∃ gid, st.globalToLocalMap gid = some v) ↔ v < st.numNodes) :=
  loadStatistics_id_maps_inverse gridCut gridGraph gridCut_wellFormed 0 (by decide)

theorem loadStatistics_local_iff_key_witness :
    ∃ st, loadStatistics gridCut gridGraph 1 = some st ∧
      ∀ gid, gid < gridCut.totalNodes →
        ((∃ lid, G2L st gid = some lid) ↔ isLocal gridCut 1 st gid = true) ∧
        (isOwned gridCut 1 gid = true → ∃ lid, G2L st gid = some lid) :=
  loadStatistics_local_iff_key gridCut gridGraph gridCut_wellFormed.toPartitioned 1 (by decide)

theorem loadStatistics_edge_conservation_witness :
    (∀ id, id < gridCut.numHosts → (loadStatistics gridCut gridGraph id).isSome = true) ∧
      ((List.range gridCut.numHosts).map (numEdgesOn gridCut gridGraph)).sum =
        ((List.range gridCut.totalNodes).map fun n => (gridGraph.outEdges n).length).sum ∧
      ((∀ n, n + 1 < gridCut.totalNodes → gridGraph.edge_end n ≤ gridGraph.edge_end (n + 1)) →
        ((List.range gridCut.numHosts).map (numEdgesOn gridCut gridGraph)).sum =
          gridGraph.sizeEdges gridCut.totalNodes) :=
  loadStatistics_edge_conservation gridCut gridGraph gridCut_wellFormed.toPartitioned

theorem sliceStart_succ (ws : List Nat) (l : Nat) (hl : l < ws.length) :
    sliceStart ws (l + 1) = sliceStart ws l + ws[l] := by
  unfold sliceStart
  induction ws generalizing l with
  | nil => simp at hl
  | cons x ws ih =>
    cases l with
    | zero => simp
    | succ l =>
      simp only [List.take_succ_cons, List.sum_cons, List.getElem_cons_succ]
      rw [ih l (by simpa using hl)]
      omega

theorem sliceStart_mono (ws : List Nat) (a b : Nat) (hab : a ≤ b) :
    sliceStart ws a ≤ sliceStart ws b := by
  obtain ⟨d, rfl⟩ := Nat.exists_eq_add_of_le hab
  induction d with
  | zero => exact le_refl _
  | succ d ih =>
    refine le_trans (ih (by omega)) ?_
    by_cases h : a + d < ws.length
    · rw [show a + (d + 1) = a + d + 1 by omega, sliceStart_succ ws _ h]
      omega
    · unfold sliceStart
      rw [List.take_of_length_le (by omega), List.take_of_length_le (by omega)]

theorem prefixSums_getD (ws : List Nat) :
    ∀ (a l : Nat), l < ws.length → (prefixSums ws a).getD l 0 = a + sliceStart ws (l + 1) := by
  induction ws with
  | nil => intro a l h; simp at h
  | cons x ws ih =>
    intro a l h
    cases l with
    | zero => simp [prefixSums, sliceStart]
    | succ l =>
      simp only [prefixSums, List.getD_cons_succ]
      rw [ih (a + x) l (by simpa using h)]
      simp only [sliceStart, List.take_succ_cons, List.sum_cons]
      omega

theorem slices_disjoint (ws : List Nat) (l l₀ j : Nat) (hl : l < ws.length)
    (hl₀ : l₀ < ws.length) (hne : l ≠ l₀) (hj : j < ws[l]) :
    ¬ (sliceStart ws l₀ ≤ sliceStart ws l + j ∧ sliceStart ws l + j < sliceStart ws l₀ + ws[l₀]) := by
  have h1 := sliceStart_succ ws l hl
  have h2 := sliceStart_succ ws l₀ hl₀
  rcases Nat.lt_or_ge l l₀ with h | h
  · have := sliceStart_mono ws (l + 1) l₀ h
    omega
  · have := sliceStart_mono ws (l₀ + 1) l (by omega)
    omega

/-! ## The edge loop of pass 2 -/

theorem loadEdgesOfNode_spec (p : Cut) (id : Nat) (st : LocalGraph) (hC : 0 < p.numColumnHosts) :
    ∀ (ds : List Nat) (acc : FileLoadState),
      (∀ d, d ∈ ds → getColumnHostID p d = id % p.numColumnHosts → ∃ ld, G2L st d = some ld) →
      ∃ r, loadEdgesOfNode p id st ds acc = some r ∧
        r.cur = acc.cur +
          (ds.filter fun d => getColumnHostID p d == id % p.numColumnHosts).length ∧
        r.graph.edgeIndData = acc.graph.edgeIndData ∧
        (∀ e, r.graph.edgeDst e =
          if acc.cur ≤ e ∧ e < acc.cur +
              (ds.filter fun d => getColumnHostID p d == id % p.numColumnHosts).length then
            ((ds.filter fun d => getColumnHostID p d == id % p.numColumnHosts)[e - acc.cur]?).bind
              (G2L st)
          else acc.graph.edgeDst e) ∧
        r.gdst_vec.length = acc.gdst_vec.length ∧
        ∀ i, i < acc.gdst_vec.length →
          r.gdst_vec.getD i [] = acc.gdst_vec.getD i [] ++
            (if i = id % p.numColumnHosts then []
             else ds.filter fun d => getColumnHostID p d == i) := by
  have hlocal : ∀ d, (gridRowID p id * p.numColumnHosts + getColumnHostID p d == id) =
      (getColumnHostID p d == id % p.numColumnHosts) := by
    intro d
    have hd : getColumnHostID p d < p.numColumnHosts := Nat.mod_lt _ hC
    have := row_add_eq_iff p.numColumnHosts (gridRowID p id) (getColumnHostID p d) id hd
    unfold gridRowID at this ⊢
    rw [Bool.eq_iff_iff, beq_iff_eq, beq_iff_eq, this]
    exact ⟨fun h => h.2, fun h => ⟨rfl, h⟩⟩
  intro ds
  induction ds with
  | nil =>
    intro acc _
    exact ⟨acc, rfl, by simp, rfl, fun e => by simp only [List.filter_nil, List.length_nil]; rw [if_neg (by omega)], rfl, fun i _ => by simp⟩
  | cons d ds ih =>
    intro acc hkeys
    by_cases hd : getColumnHostID p d = id % p.numColumnHosts
    · obtain ⟨ld, hld⟩ := hkeys d (List.mem_cons_self _ _) hd
      have hstep : loadEdge p id st acc d =
          some { acc with graph := acc.graph.constructEdge acc.cur ld, cur := acc.cur + 1 } := by
        unfold loadEdge
        dsimp only
        rw [hlocal d, hd, beq_self_eq_true, if_pos rfl, hld]
      obtain ⟨r, hr, hcur, hind, hdst, hlen, hvec⟩ :=
        ih { acc with graph := acc.graph.constructEdge acc.cur ld, cur := acc.cur + 1 }
          (fun d' hd' => hkeys d' (List.mem_cons_of_mem _ hd'))
      have hf : (List.filter (fun d => getColumnHostID p d == id % p.numColumnHosts) (d :: ds)) =
          d :: List.filter (fun d => getColumnHostID p d == id % p.numColumnHosts) ds := by
        rw [List.filter_cons, if_pos (by simpa using hd)]
      refine ⟨r, ?_, ?_, ?_, ?_, hlen, ?_⟩
      · simp only [loadEdgesOfNode, hstep]; exact hr
      · rw [hcur, hf, List.length_cons]
        dsimp only
        omega
      · rw [hind]; rfl
      · intro e
        rw [hdst e, hf, List.length_cons]
        dsimp only [LocalCSR.constructEdge]
        by_cases he : e = acc.cur
        · subst he
          rw [if_neg (by omega), if_pos rfl, if_pos (by omega)]
          simp [hld]
        · by_cases h2 : acc.cur + 1 ≤ e ∧ e < acc.cur + 1 +
              (ds.filter fun d => getColumnHostID p d == id % p.numColumnHosts).length
          · rw [if_pos h2, if_pos (by omega)]
            rw [show e - acc.cur = (e - (acc.cur + 1)) + 1 by omega, List.getElem?_cons_succ]
          · rw [if_neg h2, if_neg he, if_neg (by omega)]
      · intro i hi
        rw [hvec i hi]
        by_cases hic : i = id % p.numColumnHosts
        · rw [if_pos hic, if_pos hic]
        · rw [if_neg hic, if_neg hic, List.filter_cons,
            if_neg (by rw [hd]; simpa using fun e => hic e.symm)]
    · have hstep : loadEdge p id st acc d =
          some { acc with
            gdst_vec := acc.gdst_vec.modify (fun v => v ++ [d]) (getColumnHostID p d) } := by
        unfold loadEdge
        dsimp only
        rw [hlocal d, if_neg (by simpa using hd)]
      obtain ⟨r, hr, hcur, hind, hdst, hlen, hvec⟩ :=
        ih { acc with
            gdst_vec := acc.gdst_vec.modify (fun v => v ++ [d]) (getColumnHostID p d) }
          (fun d' hd' => hkeys d' (List.mem_cons_of_mem _ hd'))
      have hf : (List.filter (fun d => getColumnHostID p d == id % p.numColumnHosts) (d :: ds)) =
          List.filter (fun d => getColumnHostID p d == id % p.numColumnHosts) ds := by
        rw [List.filter_cons, if_neg (by simpa using hd)]
      refine ⟨r, ?_, ?_, hind, ?_, ?_, ?_⟩
      · simp only [loadEdgesOfNode, hstep]; exact hr
      · rw [hcur, hf]
      · intro e; rw [hdst e, hf]
      · rw [hlen]; simp
      · intro i hi
        rw [hvec i (by simpa using hi)]
        dsimp only
        rw [getD_modify_of_lt _ _ _ _ _ hi]
        by_cases hic : i = id % p.numColumnHosts
        · have : ¬ getColumnHostID p d = i := by rw [hic]; exact hd
          rw [if_pos hic, if_pos hic, if_neg this]
        · rw [if_neg hic, if_neg hic, List.filter_cons]
          by_cases hdi : getColumnHostID p d = i
          · rw [if_pos hdi, if_pos (by simpa using hdi)]
            simp
          · rw [if_neg hdi, if_neg (by simpa using hdi)]

theorem localEdgeCount_eq_length (p : Cut) (g : FileGraph) (id s : Nat) :
    localEdgeCount p g id s = (expectedDsts p g id s).length := by
  unfold localEdgeCount expectedDsts outCount
  split
  · rw [List.countP_eq_length_filter]
  · rfl

theorem WellFormed.expectedDsts_row {p : Cut} {g : FileGraph} (wf : WellFormed p g) (id s : Nat)
    (hs : s ∈ rowCandidates p id) :
    expectedDsts p g id s =
      (g.outEdges s).filter fun d => getColumnHostID p d == id % p.numColumnHosts := by
  unfold expectedDsts
  rw [if_pos ((wf.mem_rowCandidates_iff_range id s).1 hs)]

theorem WellFormed.expectedDsts_not_row {p : Cut} {g : FileGraph} (wf : WellFormed p g)
    (id s : Nat) (hs : s ∉ rowCandidates p id) : expectedDsts p g id s = [] := by
  unfold expectedDsts
  rw [if_neg (fun h => hs ((wf.mem_rowCandidates_iff_range id s).2 h))]

/-- What `loadStatistics_spec` says about the result `st` of `loadStatistics`
on host `id`. -/
theorem loadStatistics_facts {p : Cut} {g : FileGraph} (wf : WellFormed p g) {id : Nat}
    (hid : id < p.numHosts) {st : LocalGraph} (hst : loadStatistics p g id = some st) :
    Consistent (localEdgeCount p g id) st ∧
      st.localToGlobalVector =
        (rowCandidates p id).filter (keepRowNode p g id) ++
          (columnCandidates p id).filter (keepColumnNode p g id) ∧
      st.numOwned = ((rowCandidates p id).filter (keepRowNode p g id)).length ∧
      st.totalOwnedNodes = totalOwnedNodes p id := by
  obtain ⟨st', hst', h⟩ := loadStatistics_spec p g wf id hid
  rw [hst] at hst'
  rw [Option.some.inj hst']
  exact h

theorem key_of_row_node {p : Cut} {g : FileGraph} (wf : WellFormed p g) {id : Nat}
    (hid : id < p.numHosts) {st : LocalGraph} (hst : loadStatistics p g id = some st) (n : Nat)
    (hn : n ∈ rowCandidates p id) (hk : keepRowNode p g id n = true) :
    ∃ l, G2L st n = some l := by
  obtain ⟨hc, hl, _, _⟩ := loadStatistics_facts wf hid hst
  apply (hc.mem_iff n).1
  rw [hl]
  exact List.mem_append_left _ (List.mem_filter.2 ⟨hn, hk⟩)

theorem key_of_owned {p : Cut} {g : FileGraph} (wf : WellFormed p g) {id : Nat}
    (hid : id < p.numHosts) {st : LocalGraph} (hst : loadStatistics p g id = some st) (n : Nat)
    (ho : isOwned p id n = true) : ∃ l, G2L st n = some l := by
  have := List.mem_filter.1 (wf.owned_mem id hid n ho)
  exact key_of_row_node wf hid hst n this.1 this.2

theorem key_of_dst {p : Cut} {g : FileGraph} (wf : WellFormed p g) {id : Nat}
    (hid : id < p.numHosts) {st : LocalGraph} (hst : loadStatistics p g id = some st) (n d : Nat)
    (hn : n ∈ rowCandidates p id) (hd : d ∈ g.outEdges n)
    (hcol : getColumnHostID p d = id % p.numColumnHosts) : ∃ ld, G2L st d = some ld := by
  have hC := wf.cols_pos
  obtain ⟨hc, hl, _, _⟩ := loadStatistics_facts wf hid hst
  have hnlt := wf.rowCandidates_lt id n hn
  have hdlt := wf.dst_lt n hnlt d hd
  obtain ⟨B, hB, hoB⟩ := wf.valid.exists_owner d hdlt
  have hBc : B % p.numColumnHosts = id % p.numColumnHosts := by
    rw [← getColumnHostID_eq wf.valid B d hoB]; exact hcol
  by_cases hBid : B = id
  · exact key_of_owned wf hid hst d (hBid ▸ hoB)
  · apply (hc.mem_iff d).1
    rw [hl]
    apply List.mem_append_right
    have hBeq : B / p.numColumnHosts * p.numColumnHosts + id % p.numColumnHosts = B := by
      rw [← hBc, Nat.mul_comm]; exact Nat.div_add_mod B _
    rw [List.mem_filter, mem_columnCandidates, wf.keepColumnNode_iff id hid d hdlt hcol]
    refine ⟨⟨B / p.numColumnHosts, ?_, by rw [hBeq]; exact hBid, by rw [hBeq]; exact hoB⟩,
      n, hn, hd⟩
    rw [Nat.div_lt_iff_lt_mul hC, wf.grid]; exact hB

theorem allocateGraph_edgeIndData {w : Nat → Nat} {st : LocalGraph} (hc : Consistent w st) :
    (allocateGraph st).edgeIndData = st.prefixSumOfEdges := by
  have hlen : st.prefixSumOfEdges.length = st.numNodes := by
    rw [hc.prefix_eq, prefixSums_length, List.length_map, hc.numNodes_eq]
  unfold allocateGraph
  apply List.ext_getElem
  · simp [hlen]
  · intro n h1 h2
    simp [List.getD_eq_getElem?_getD, List.getElem?_eq_getElem h2]

theorem edge_begin_eq {w : Nat → Nat} {st : LocalGraph} (hc : Consistent w st)
    (graph : LocalCSR) (hg : graph.edgeIndData = st.prefixSumOfEdges) (l : Nat)
    (hl : l < st.localToGlobalVector.length) :
    graph.edge_begin l = sliceStart (st.localToGlobalVector.map w) l := by
  unfold LocalCSR.edge_begin
  rw [hg, hc.prefix_eq]
  by_cases h0 : l = 0
  · subst h0; simp [sliceStart]
  · rw [if_neg h0, prefixSums_getD _ _ _ (by rw [List.length_map]; omega), Nat.zero_add,
      show l - 1 + 1 = l by omega]

theorem edge_end_eq {w : Nat → Nat} {st : LocalGraph} (hc : Consistent w st)
    (graph : LocalCSR) (hg : graph.edgeIndData = st.prefixSumOfEdges) (l : Nat)
    (hl : l < st.localToGlobalVector.length) :
    graph.edge_end l = sliceStart (st.localToGlobalVector.map w) l + w st.localToGlobalVector[l] := by
  unfold LocalCSR.edge_end
  rw [hg, hc.prefix_eq, prefixSums_getD _ _ _ (by rw [List.length_map]; exact hl), Nat.zero_add,
    sliceStart_succ _ _ (by rw [List.length_map]; exact hl)]
  simp

theorem slicesFilled_congr (p : Cut) (g : FileGraph) (id : Nat) (st : LocalGraph)
    (edgeDst : Nat → Option Nat) (done done' : Nat → Prop) (h : ∀ x, done x ↔ done' x)
    (hf : SlicesFilled p g id st edgeDst done) : SlicesFilled p g id st edgeDst done' := by
  intro l s hs j hj
  obtain ⟨h1, h2⟩ := hf l s hs j hj
  exact ⟨fun hd => h1 ((h s).2 hd), fun hd => h2 (fun hd' => hd ((h s).1 hd'))⟩

/-- Writing the expected destinations of one more global id into its slice
keeps the other slices as they are. -/
theorem slicesFilled_write (p : Cut) (g : FileGraph) (id : Nat) (st : LocalGraph)
    (hc : Consistent (localEdgeCount p g id) st) (edgeDst edgeDst' : Nat → Option Nat)
    (done : Nat → Prop) (l₀ s₀ : Nat) (hl₀ : G2L st s₀ = some l₀) (hnd : ¬ done s₀)
    (hw : ∀ e, edgeDst' e =
      if sliceStart (st.localToGlobalVector.map (localEdgeCount p g id)) l₀ ≤ e ∧
          e < sliceStart (st.localToGlobalVector.map (localEdgeCount p g id)) l₀ +
            (expectedDsts p g id s₀).length then
        ((expectedDsts p g id s₀)[e -
          sliceStart (st.localToGlobalVector.map (localEdgeCount p g id)) l₀]?).bind (G2L st)
      else edgeDst e)
    (hf : SlicesFilled p g id st edgeDst done) :
    SlicesFilled p g id st edgeDst' (fun x => done x ∨ x = s₀) := by
  have hl₀' : st.localToGlobalVector[l₀]? = some s₀ := (hc.map_iff s₀ l₀).1 hl₀
  intro l s hs j hj
  by_cases hll : l = l₀
  · subst hll
    have hss : s = s₀ := by rw [hl₀'] at hs; exact (Option.some.inj hs).symm
    subst hss
    rw [localEdgeCount_eq_length] at hj
    rw [hw, if_pos ⟨by omega, by omega⟩, Nat.add_sub_cancel_left]
    exact ⟨fun _ => rfl, fun h => absurd (Or.inr rfl) h⟩
  · have hne : s ≠ s₀ := by
      intro e
      apply hll
      have h1 : G2L st s = some l := (hc.map_iff s l).2 hs
      rw [e, hl₀] at h1
      exact (Option.some.inj h1).symm
    have hl : l < st.localToGlobalVector.length := by
      by_contra hge
      rw [List.getElem?_eq_none (by omega)] at hs
      simp at hs
    have hl₀lt : l₀ < st.localToGlobalVector.length := by
      by_contra hge
      rw [List.getElem?_eq_none (by omega)] at hl₀'
      simp at hl₀'
    have hsl : st.localToGlobalVector[l] = s := by
      rw [List.getElem?_eq_getElem hl] at hs; exact Option.some.inj hs
    have hsl₀ : st.localToGlobalVector[l₀] = s₀ := by
      rw [List.getElem?_eq_getElem hl₀lt] at hl₀'; exact Option.some.inj hl₀'
    have hdisj := slices_disjoint (st.localToGlobalVector.map (localEdgeCount p g id)) l l₀ j
      (by rw [List.length_map]; exact hl) (by rw [List.length_map]; exact hl₀lt) hll
      (by rw [List.getElem_map, hsl]; exact hj)
    rw [List.getElem_map, hsl₀, localEdgeCount_eq_length] at hdisj
    rw [hw, if_neg hdisj]
    obtain ⟨h1, h2⟩ := hf l s hs j hj
    exact ⟨fun hd => h1 (hd.resolve_right hne), fun hd => h2 (fun hd' => hd (Or.inl hd'))⟩

/-! ## The node loop of pass 2 -/

theorem loadNode_spec {p : Cut} {g : FileGraph} (wf : WellFormed p g) {id : Nat}
    (hid : id < p.numHosts) {st : LocalGraph} (hst : loadStatistics p g id = some st)
    (acc : FileLoadProgress) (hg : acc.graph.edgeIndData = st.prefixSumOfEdges) (n : Nat)
    (ho : isOwned p id n = true) (hee : acc.ee = g.edge_begin n) :
    ∃ r l, loadNode p g id st acc n = some r ∧ G2L st n = some l ∧
      r.ee = g.edge_begin (n + 1) ∧ r.graph.edgeIndData = st.prefixSumOfEdges ∧
      r.sent = acc.sent ++ nodeMsgs p g id n ∧
      ∀ e, r.graph.edgeDst e =
        if sliceStart (st.localToGlobalVector.map (localEdgeCount p g id)) l ≤ e ∧
            e < sliceStart (st.localToGlobalVector.map (localEdgeCount p g id)) l +
              (expectedDsts p g id n).length then
          ((expectedDsts p g id n)[e -
            sliceStart (st.localToGlobalVector.map (localEdgeCount p g id)) l]?).bind (G2L st)
        else acc.graph.edgeDst e := by
  have hC := wf.cols_pos
  obtain ⟨hc, _, _, _⟩ := loadStatistics_facts wf hid hst
  have hrow : n ∈ rowCandidates p id := (List.mem_filter.1 (wf.owned_mem id hid n ho)).1
  obtain ⟨l, hl⟩ := key_of_owned wf hid hst n ho
  have hl' : st.localToGlobalVector[l]? = some n := (hc.map_iff n l).1 hl
  have hllt : l < st.localToGlobalVector.length := by
    by_contra hge
    rw [List.getElem?_eq_none (by omega)] at hl'
    simp at hl'
  have hln : st.localToGlobalVector[l] = n := by
    rw [List.getElem?_eq_getElem hllt] at hl'; exact Option.some.inj hl'
  have hloc : isLocal p id st n = true := by simp [isLocal, ho]
  have hbegin := edge_begin_eq hc acc.graph hg l hllt
  obtain ⟨r, hr, hcur, hind, hdst, hlen, hvec⟩ := loadEdgesOfNode_spec p id st hC (g.outEdges n)
    ⟨acc.graph, acc.graph.edge_begin l, List.replicate p.numColumnHosts []⟩
    (fun d hd hcol => key_of_dst wf hid hst n d hrow hd hcol)
  have hexp := wf.expectedDsts_row id n hrow
  dsimp only at hcur hind hdst hlen hvec
  rw [← hexp, hbegin] at hcur hdst
  have hend : r.graph.edge_end l = r.cur := by
    rw [edge_end_eq hc r.graph (by rw [hind, hg]) l hllt, hln, hcur, localEdgeCount_eq_length]
  have hmsgs : ((List.range p.numColumnHosts).filterMap fun i =>
        if (r.gdst_vec.getD i []).length > 0 then
          some (⟨gridRowID p id * p.numColumnHosts + i, n, r.gdst_vec.getD i []⟩ : EdgeMsg)
        else none) = nodeMsgs p g id n := by
    unfold nodeMsgs gridRowID
    apply List.filterMap_congr
    intro i hi
    rw [List.mem_range] at hi
    have hrep : (List.replicate p.numColumnHosts ([] : List Nat)).getD i [] = [] := by
      simp only [List.getD_eq_getElem?_getD, List.getElem?_replicate]
      split <;> rfl
    rw [hvec i (by simpa using hi), hrep, List.nil_append]
    by_cases hic : i = id % p.numColumnHosts
    · simp [hic]
    · simp [hic]
  refine ⟨⟨r.graph, g.edge_end n, acc.sent ++ nodeMsgs p g id n⟩, l, ?_, hl, ?_, ?_, rfl, hdst⟩
  · unfold loadNode
    simp only [hloc, if_true, hl, hee]
    have : g.edgeDsts (g.edge_begin n) (g.edge_end n) = g.outEdges n := rfl
    rw [this, hr]
    simp only [hmsgs, hend, bne_self_eq_false, Bool.and_false, Bool.false_eq_true, if_false]
  · exact (edge_begin_succ g n).symm
  · show r.graph.edgeIndData = _
    rw [hind, hg]

theorem loadNodes_spec {p : Cut} {g : FileGraph} (wf : WellFormed p g) {id : Nat}
    (hid : id < p.numHosts) {st : LocalGraph} (hst : loadStatistics p g id = some st) :
    ∀ (k s : Nat) (acc : FileLoadProgress) (done : Nat → Prop),
      (∀ x, s ≤ x → x < s + k → isOwned p id x = true ∧ ¬ done x) →
      acc.graph.edgeIndData = st.prefixSumOfEdges → acc.ee = g.edge_begin s →
      SlicesFilled p g id st acc.graph.edgeDst done →
      ∃ r, loadNodes p g id st (List.range' s k) acc = some r ∧
        r.graph.edgeIndData = st.prefixSumOfEdges ∧
        r.sent = acc.sent ++ (List.range' s k).flatMap (nodeMsgs p g id) ∧
        SlicesFilled p g id st r.graph.edgeDst (fun x => done x ∨ (s ≤ x ∧ x < s + k)) := by
  obtain ⟨hc, _, _, _⟩ := loadStatistics_facts wf hid hst
  intro k
  induction k with
  | zero =>
    intro s acc done _ hg _ hf
    refine ⟨acc, rfl, hg, by simp, ?_⟩
    exact slicesFilled_congr p g id st _ _ _ (fun x => ⟨fun h => Or.inl h, fun h => by
      rcases h with h | h
      · exact h
      · omega⟩) hf
  | succ k ih =>
    intro s acc done hown hg hee hf
    obtain ⟨ho, hnd⟩ := hown s (le_refl _) (by omega)
    obtain ⟨r1, l, hr1, hl, hee1, hind1, hsent1, hdst1⟩ := loadNode_spec wf hid hst acc hg s ho hee
    have hf1 := slicesFilled_write p g id st hc acc.graph.edgeDst r1.graph.edgeDst done l s hl hnd
      hdst1 hf
    obtain ⟨r, hr, hind, hsent, hfill⟩ := ih (s + 1) r1 (fun x => done x ∨ x = s)
      (fun x h1 h2 => ⟨(hown x (by omega) (by omega)).1, fun h => by
        rcases h with h | h
        · exact (hown x (by omega) (by omega)).2 h
        · omega⟩) hind1 hee1 hf1
    refine ⟨r, ?_, hind, ?_, ?_⟩
    · rw [List.range'_succ]
      simp only [loadNodes, hr1]
      exact hr
    · rw [hsent, hsent1, List.range'_succ, List.flatMap_cons, List.append_assoc]
    · exact slicesFilled_congr p g id st _ _ _ (fun x => by
        constructor
        · rintro ((h | h) | h)
          · exact Or.inl h
          · exact Or.inr ⟨by omega, by omega⟩
          · exact Or.inr ⟨by omega, by omega⟩
        · rintro (h | h)
          · exact Or.inl (Or.inl h)
          · by_cases hx : x = s
            · exact Or.inl (Or.inr hx)
            · exact Or.inr ⟨by omega, by omega⟩) hfill

/-- The result of `loadEdgesFromFile` on host `id`: it returns, the slices of
the owned nodes hold their edges into the column of `id`, and the messages
sent are the batches of the owned nodes for the other columns. -/
theorem loadEdgesFromFile_spec {p : Cut} {g : FileGraph} (wf : WellFormed p g) {id : Nat}
    (hid : id < p.numHosts) {st : LocalGraph} (hst : loadStatistics p g id = some st) :
    ∃ r, loadEdgesFromFile p g id st (allocateGraph st) = some r ∧
      r.graph.edgeIndData = st.prefixSumOfEdges ∧
      r.sent = (List.range' (hostRange p id).1 (totalOwnedNodes p id)).flatMap (nodeMsgs p g id) ∧
      SlicesFilled p g id st r.graph.edgeDst (fun x => isOwned p id x = true) := by
  obtain ⟨hc, _, _, _⟩ := loadStatistics_facts wf hid hst
  have hinit : SlicesFilled p g id st (allocateGraph st).edgeDst (fun _ => False) := by
    intro l s _ j _
    exact ⟨fun h => False.elim h, fun _ => rfl⟩
  obtain ⟨r, hr, hind, hsent, hfill⟩ := loadNodes_spec wf hid hst
    ((hostRange p id).2 - (hostRange p id).1) (hostRange p id).1
    ⟨allocateGraph st, g.edge_begin (hostRange p id).1, []⟩ (fun _ => False)
    (fun x h1 h2 => ⟨(isOwned_iff p id x).2 ⟨h1, by omega⟩, fun h => h⟩)
    (allocateGraph_edgeIndData hc) rfl hinit
  refine ⟨r, hr, hind, by rw [hsent]; rfl, ?_⟩
  exact slicesFilled_congr p g id st _ _ _ (fun x => by
    rw [isOwned_iff]
    constructor
    · rintro (h | ⟨h1, h2⟩)
      · exact False.elim h
      · exact ⟨h1, by omega⟩
    · rintro ⟨h1, h2⟩
      exact Or.inr ⟨h1, by omega⟩) hfill

/-! ## The pass-2 messages -/

theorem filter_filterMap_ite_some {β : Type} (l : List Nat) (Q : Nat → Prop) [DecidablePred Q]
    (m : Nat → β) (pred : β → Bool) :
    (l.filterMap (fun i => if Q i then some (m i) else none)).filter pred =
      (l.filter (fun i => decide (Q i) && pred (m i))).map m := by
  induction l with
  | nil => rfl
  | cons a l ih =>
    by_cases h1 : Q a
    · by_cases h2 : pred (m a) = true
      · simp [List.filterMap_cons, h1, h2, List.filter_cons, ih]
      · simp [List.filterMap_cons, h1, h2, List.filter_cons, ih]
    · simp [List.filterMap_cons, h1, ih]

theorem filter_flatMap {α β : Type} (l : List α) (f : α → List β) (pred : β → Bool) :
    (l.flatMap f).filter pred = l.flatMap fun x => (f x).filter pred := by
  induction l with
  | nil => rfl
  | cons a l ih => simp [List.flatMap_cons, List.filter_append, ih]

theorem flatMap_ite_filter {α β : Type} (l : List α) (q : α → Bool) (f : α → List β) :
    l.flatMap (fun x => if q x = true then f x else []) = (l.filter q).flatMap f := by
  induction l with
  | nil => rfl
  | cons a l ih =>
    by_cases h : q a = true
    · simp [List.flatMap_cons, List.filter_cons, h, ih]
    · simp [List.flatMap_cons, List.filter_cons, h, ih]

theorem nodeMsgs_filter (p : Cut) (g : FileGraph) (hC : 0 < p.numColumnHosts) (P id n : Nat) :
    (nodeMsgs p g P n).filter (fun m => m.dest == id) =
      if ((P / p.numColumnHosts == id / p.numColumnHosts && P != id) &&
          decide (0 < outCount p g (id % p.numColumnHosts) n)) = true then [edgeMsg p g id n]
      else [] := by
  have hcid : id % p.numColumnHosts < p.numColumnHosts := Nat.mod_lt _ hC
  unfold nodeMsgs
  rw [filter_filterMap_ite_some]
  dsimp only
  have hcount : outCount p g (id % p.numColumnHosts) n =
      ((g.outEdges n).filter fun d => getColumnHostID p d == id % p.numColumnHosts).length := by
    unfold outCount; rw [List.countP_eq_length_filter]
  by_cases hc : ((P / p.numColumnHosts == id / p.numColumnHosts && P != id) &&
      decide (0 < outCount p g (id % p.numColumnHosts) n)) = true
  · rw [if_pos hc]
    simp only [Bool.and_eq_true, beq_iff_eq, bne_iff_ne, ne_eq, decide_eq_true_eq] at hc
    obtain ⟨⟨hrow, hne⟩, hpos⟩ := hc
    have hid : P / p.numColumnHosts * p.numColumnHosts + id % p.numColumnHosts = id :=
      (row_add_eq_iff p.numColumnHosts _ _ id hcid).2 ⟨hrow, rfl⟩
    rw [filter_range_eq_singleton _ (id % p.numColumnHosts) _ hcid]
    · simp only [List.map_cons, List.map_nil, edgeMsg, hid]
    · intro i hi
      have h1 := row_add_eq_iff p.numColumnHosts (P / p.numColumnHosts) i id hi
      simp only [Bool.and_eq_true, decide_eq_true_eq, beq_iff_eq, ne_eq]
      constructor
      · rintro ⟨_, h3⟩; exact (h1.1 h3).2
      · intro h3
        refine ⟨⟨?_, ?_⟩, h1.2 ⟨hrow, h3⟩⟩
        · rw [h3]
          intro e
          exact hne (eq_of_div_mod_eq p.numColumnHosts P id hrow e.symm)
        · rw [h3, ← hcount]; exact hpos
  · rw [if_neg hc, List.map_eq_nil_iff, List.filter_eq_nil_iff]
    intro i hi
    rw [List.mem_range] at hi
    have h1 := row_add_eq_iff p.numColumnHosts (P / p.numColumnHosts) i id hi
    simp only [Bool.and_eq_true, decide_eq_true_eq, beq_iff_eq, ne_eq]
    rintro ⟨⟨h2, h3⟩, h4⟩
    apply hc
    obtain ⟨h5, h6⟩ := h1.1 h4
    simp only [Bool.and_eq_true, beq_iff_eq, bne_iff_ne, ne_eq, decide_eq_true_eq]
    refine ⟨⟨h5, ?_⟩, ?_⟩
    · intro e
      apply h2
      rw [h6, e]
    · rw [hcount, ← h6]; exact h3

theorem sendEdges_eq {p : Cut} {g : FileGraph} (wf : WellFormed p g) (P : Nat)
    (hP : P < p.numHosts) :
    sendEdges p g P =
      (List.range' (hostRange p P).1 (totalOwnedNodes p P)).flatMap (nodeMsgs p g P) := by
  obtain ⟨st, hst, _⟩ := loadStatistics_spec p g wf P hP
  obtain ⟨r, hr, _, hsent, _⟩ := loadEdgesFromFile_spec wf hP hst
  unfold sendEdges
  rw [hst]
  dsimp only
  rw [hr]
  exact hsent

theorem edgeInbox_eq {p : Cut} {g : FileGraph} (wf : WellFormed p g) (id : Nat) :
    edgeInbox p g id = (incomingSources p g id).map (edgeMsg p g id) := by
  have hC := wf.cols_pos
  unfold edgeInbox incomingSources rowPeers
  rw [← flatMap_ite_filter, List.map_flatMap]
  apply List.flatMap_congr
  intro P hP
  rw [List.mem_range] at hP
  rw [sendEdges_eq wf P hP, filter_flatMap]
  by_cases hrow : (P / p.numColumnHosts == id / p.numColumnHosts && P != id) = true
  · rw [if_pos hrow, ← flatMap_ite_singleton]
    apply List.flatMap_congr
    intro n _
    rw [nodeMsgs_filter p g hC P id n, hrow, Bool.true_and]
  · rw [if_neg hrow, List.map_nil, List.flatMap_eq_nil_iff]
    intro n _
    rw [nodeMsgs_filter p g hC P id n, if_neg]
    simp only [Bool.and_eq_true, not_and]
    intro h
    exact absurd (by simpa using h) (by simpa using hrow)

theorem mem_incomingSources (p : Cut) (g : FileGraph) (id n : Nat) :
    n ∈ incomingSources p g id ↔
      ∃ P, P ∈ rowPeers p id ∧ isOwned p P n = true ∧
        0 < outCount p g (id % p.numColumnHosts) n := by
  unfold incomingSources totalOwnedNodes
  simp only [List.mem_flatMap, List.mem_filter, List.mem_range'_1, decide_eq_true_eq, isOwned_iff]
  constructor
  · rintro ⟨P, hP, ⟨h1, h2⟩, h3⟩
    exact ⟨P, hP, ⟨h1, by omega⟩, h3⟩
  · rintro ⟨P, hP, ⟨h1, h2⟩, h3⟩
    exact ⟨P, hP, ⟨h1, by omega⟩, h3⟩

theorem incomingSources_nodup {p : Cut} (hv : ValidPartition p) (g : FileGraph) (id : Nat) :
    (incomingSources p g id).Nodup := by
  unfold incomingSources
  rw [List.nodup_flatMap]
  constructor
  · intro P _
    exact (List.nodup_range' _ _).filter _
  · unfold rowPeers
    apply List.Pairwise.filter
    apply List.Pairwise.imp _ (List.pairwise_lt_range _)
    intro a b hab x hxa hxb
    simp only [List.mem_filter, List.mem_range'_1, totalOwnedNodes] at hxa hxb
    have h1 : isOwned p a x = true := (isOwned_iff _ _ _).2 ⟨hxa.1.1, by omega⟩
    have h2 : isOwned p b x = true := (isOwned_iff _ _ _).2 ⟨hxb.1.1, by omega⟩
    have := hv.isOwned_unique a b x h1 h2
    omega

theorem kept_row_nodes_perm {p : Cut} {g : FileGraph} (wf : WellFormed p g) (id : Nat)
    (hid : id < p.numHosts) :
    ((rowCandidates p id).filter (keepRowNode p g id)).Perm
      (List.range' (hostRange p id).1 (totalOwnedNodes p id) ++ incomingSources p g id) := by
  have hown : ∀ x, x ∈ List.range' (hostRange p id).1 (totalOwnedNodes p id) ↔
      isOwned p id x = true := by
    intro x
    rw [List.mem_range'_1, isOwned_iff]
    unfold totalOwnedNodes
    constructor
    · rintro ⟨h1, h2⟩; exact ⟨h1, by omega⟩
    · rintro ⟨h1, h2⟩; exact ⟨h1, by omega⟩
  have hnd2 : (List.range' (hostRange p id).1 (totalOwnedNodes p id) ++
      incomingSources p g id).Nodup := by
    rw [List.nodup_append]
    refine ⟨List.nodup_range' _ _, incomingSources_nodup wf.valid g id, ?_⟩
    intro x hx1 hx2
    rw [hown] at hx1
    obtain ⟨P, hP, ho, _⟩ := (mem_incomingSources p g id x).1 hx2
    exact ((mem_rowPeers p id P).1 hP).2.2 (wf.valid.isOwned_unique P id x ho hx1)
  apply (List.perm_ext_iff_of_nodup ((List.nodup_range' _ _).filter _) hnd2).2
  intro x
  have hkeep : keepRowNode p g id x = true ↔
      0 < outCount p g (id % p.numColumnHosts) x ∨ isOwned p id x = true := by
    unfold keepRowNode
    rw [Bool.or_eq_true, decide_eq_true_eq]
  constructor
  · intro hx
    obtain ⟨hx1, hx2⟩ := List.mem_filter.1 hx
    obtain ⟨B, hB, hrow, ho⟩ := (mem_rowCandidates wf.valid wf.grid id hid x).1 hx1
    apply List.mem_append.2
    rcases hkeep.1 hx2 with hpos | hown'
    · by_cases hBid : B = id
      · exact Or.inl ((hown x).2 (hBid ▸ ho))
      · exact Or.inr ((mem_incomingSources p g id x).2
          ⟨B, (mem_rowPeers p id B).2 ⟨hB, hrow, hBid⟩, ho, hpos⟩)
    · exact Or.inl ((hown x).2 hown')
  · intro hx
    apply List.mem_filter.2
    rcases List.mem_append.1 hx with h | h
    · have ho := (hown x).1 h
      exact ⟨(mem_rowCandidates wf.valid wf.grid id hid x).2 ⟨id, hid, rfl, ho⟩,
        hkeep.2 (Or.inr ho)⟩
    · obtain ⟨P, hP, ho, hpos⟩ := (mem_incomingSources p g id x).1 h
      obtain ⟨h1, h2, _⟩ := (mem_rowPeers p id P).1 hP
      exact ⟨(mem_rowCandidates wf.valid wf.grid id hid x).2 ⟨P, h1, h2, ho⟩,
        hkeep.2 (Or.inl hpos)⟩

theorem incomingSources_length {p : Cut} {g : FileGraph} (wf : WellFormed p g) {id : Nat}
    (hid : id < p.numHosts) {st : LocalGraph} (hst : loadStatistics p g id = some st) :
    st.totalOwnedNodes + (incomingSources p g id).length = st.numOwned := by
  obtain ⟨_, _, hno, hto⟩ := loadStatistics_facts wf hid hst
  rw [hno, hto, (kept_row_nodes_perm wf id hid).length_eq, List.length_append,
    List.length_range']

/-! ## The receive loop of pass 2 -/

theorem deserializeEdges_spec (st : LocalGraph) (vec : List Nat)
    (hkeys : ∀ d, d ∈ vec → ∃ ld, G2L st d = some ld) :
    ∀ (k i cur : Nat) (graph : LocalCSR), i + k = vec.length →
      ∃ graph', deserializeEdges st vec k i cur graph = some graph' ∧
        graph'.edgeIndData = graph.edgeIndData ∧
        ∀ e, graph'.edgeDst e =
          if cur ≤ e ∧ e < cur + k then (vec[i + (e - cur)]?).bind (G2L st)
          else graph.edgeDst e := by
  intro k
  induction k with
  | zero =>
    intro i cur graph _
    exact ⟨graph, rfl, rfl, fun e => by rw [if_neg (by omega)]⟩
  | succ k ih =>
    intro i cur graph hik
    have hi : i < vec.length := by omega
    obtain ⟨ld, hld⟩ := hkeys vec[i] (List.getElem_mem hi)
    obtain ⟨graph', hg', hind, hdst⟩ := ih (i + 1) (cur + 1) (graph.constructEdge cur ld)
      (by omega)
    refine ⟨graph', ?_, by rw [hind]; rfl, ?_⟩
    · simp only [deserializeEdges, List.getElem?_eq_getElem hi, hld]
      exact hg'
    · intro e
      rw [hdst e]
      dsimp only [LocalCSR.constructEdge]
      by_cases he : e = cur
      · subst he
        rw [if_neg (by omega), if_pos rfl, if_pos (by omega), Nat.sub_self, Nat.add_zero,
          List.getElem?_eq_getElem hi]
        exact hld.symm
      · by_cases h2 : cur + 1 ≤ e ∧ e < cur + 1 + k
        · rw [if_pos h2, if_pos (by omega)]
          congr 2
          omega
        · rw [if_neg h2, if_neg he, if_neg (by omega)]

theorem receiveEdges_spec {p : Cut} {g : FileGraph} (wf : WellFormed p g) {id : Nat}
    (hid : id < p.numHosts) {st : LocalGraph} (hst : loadStatistics p g id = some st) :
    ∀ (srcs : List Nat) (cnt : Nat) (graph : LocalCSR) (done : Nat → Prop),
      graph.edgeIndData = st.prefixSumOfEdges →
      SlicesFilled p g id st graph.edgeDst done → srcs.Nodup →
      (∀ n, n ∈ srcs → n ∈ rowCandidates p id ∧ keepRowNode p g id n = true ∧ ¬ done n) →
      cnt + srcs.length = st.numOwned →
      ∃ graph', receiveEdges p id st cnt (srcs.map (edgeMsg p g id)) graph = some graph' ∧
        graph'.edgeIndData = st.prefixSumOfEdges ∧
        SlicesFilled p g id st graph'.edgeDst (fun x => done x ∨ x ∈ srcs) := by
  obtain ⟨hc, _, _, _⟩ := loadStatistics_facts wf hid hst
  intro srcs
  induction srcs with
  | nil =>
    intro cnt graph done hg hf _ _ hcnt
    refine ⟨graph, ?_, hg, ?_⟩
    · simp only [List.map_nil, receiveEdges]
      rw [if_neg (by simp at hcnt; omega)]
    · exact slicesFilled_congr p g id st _ _ _ (fun x => by simp) hf
  | cons n srcs ih =>
    intro cnt graph done hg hf hnd hsrc hcnt
    rw [List.nodup_cons] at hnd
    obtain ⟨hrow, hkeep, hndone⟩ := hsrc n (List.mem_cons_self _ _)
    obtain ⟨l, hl⟩ := key_of_row_node wf hid hst n hrow hkeep
    have hl' : st.localToGlobalVector[l]? = some n := (hc.map_iff n l).1 hl
    have hllt : l < st.localToGlobalVector.length := by
      by_contra hge
      rw [List.getElem?_eq_none (by omega)] at hl'
      simp at hl'
    have hln : st.localToGlobalVector[l] = n := by
      rw [List.getElem?_eq_getElem hllt] at hl'; exact Option.some.inj hl'
    have hloc : isLocal p id st n = true := by
      unfold isLocal
      have : st.globalToLocalMap n = some l := hl
      simp [this]
    have hexp := wf.expectedDsts_row id n hrow
    have hbegin := edge_begin_eq hc graph hg l hllt
    have hend := edge_end_eq hc graph hg l hllt
    rw [hln, localEdgeCount_eq_length] at hend
    have hsize : graph.edge_end l - graph.edge_begin l = (expectedDsts p g id n).length := by
      rw [hend, hbegin]; omega
    obtain ⟨graph1, hg1, hind1, hdst1⟩ := deserializeEdges_spec st (expectedDsts p g id n)
      (fun d hd => by
        rw [hexp, List.mem_filter] at hd
        exact key_of_dst wf hid hst n d hrow hd.1 (by simpa using hd.2))
      (expectedDsts p g id n).length 0 (graph.edge_begin l) graph (by omega)
    have hw : ∀ e, graph1.edgeDst e =
        if sliceStart (st.localToGlobalVector.map (localEdgeCount p g id)) l ≤ e ∧
            e < sliceStart (st.localToGlobalVector.map (localEdgeCount p g id)) l +
              (expectedDsts p g id n).length then
          ((expectedDsts p g id n)[e -
            sliceStart (st.localToGlobalVector.map (localEdgeCount p g id)) l]?).bind (G2L st)
        else graph.edgeDst e := by
      intro e
      rw [hdst1 e, hbegin, Nat.zero_add]
    have hf1 := slicesFilled_write p g id st hc graph.edgeDst graph1.edgeDst done l n hl hndone
      hw hf
    obtain ⟨graph', hg', hind', hfill'⟩ := ih (cnt + 1) graph1 (fun x => done x ∨ x = n)
      (by rw [hind1, hg]) hf1 hnd.2
      (fun x hx => by
        obtain ⟨h1, h2, h3⟩ := hsrc x (List.mem_cons_of_mem _ hx)
        refine ⟨h1, h2, ?_⟩
        rintro (h | h)
        · exact h3 h
        · exact hnd.1 (h ▸ hx))
      (by simp only [List.length_cons] at hcnt; omega)
    refine ⟨graph', ?_, hind', ?_⟩
    · simp only [List.map_cons, receiveEdges]
      rw [if_pos (by simp only [List.length_cons] at hcnt; omega)]
      have hstep : receiveEdgeMsg p id st graph (edgeMsg p g id n) = some graph1 := by
        unfold receiveEdgeMsg edgeMsg
        dsimp only
        rw [if_pos hloc, hl]
        dsimp only
        rw [← hexp, hsize, if_pos (by simp)]
        exact hg1
      rw [hstep]
      exact hg'
    · exact slicesFilled_congr p g id st _ _ _ (fun x => by
        simp only [List.mem_cons]
        constructor
        · rintro ((h | h) | h)
          · exact Or.inl h
          · exact Or.inr (Or.inl h)
          · exact Or.inr (Or.inr h)
        · rintro (h | h | h)
          · exact Or.inl (Or.inl h)
          · exact Or.inl (Or.inr h)
          · exact Or.inr h) hfill'

/-! ## The store after pass 2 -/

/-- The two passes on host `id` return for every order of arrival of the
pass-2 messages, and every slice of the store holds, in file order, the local
ids of the destinations the host is to store for the global id of the
slice. -/
theorem loadEdgesFrom_spec {p : Cut} {g : FileGraph} (wf : WellFormed p g) {id : Nat}
    (hid : id < p.numHosts) (srcs : List Nat) (hperm : srcs.Perm (incomingSources p g id)) :
    ∃ st graph, loadStatistics p g id = some st ∧
      loadEdgesFrom p g id (srcs.map (edgeMsg p g id)) = some (st, graph) ∧
      ∀ l s, st.localToGlobalVector[l]? = some s →
        graph.slice l = (expectedDsts p g id s).map (G2L st) := by
  obtain ⟨st, hst, _⟩ := loadStatistics_spec p g wf id hid
  obtain ⟨hc, hl2g, _, hto⟩ := loadStatistics_facts wf hid hst
  obtain ⟨r, hr, hind, _, hfill⟩ := loadEdgesFromFile_spec wf hid hst
  obtain ⟨graph, hgraph, hind', hfill'⟩ := receiveEdges_spec wf hid hst srcs
    st.totalOwnedNodes r.graph (fun x => isOwned p id x = true) hind hfill
    (hperm.nodup_iff.2 (incomingSources_nodup wf.valid g id))
    (fun n hn => by
      obtain ⟨P, hP, ho, hpos⟩ := (mem_incomingSources p g id n).1 (hperm.mem_iff.1 hn)
      obtain ⟨h1, h2, h3⟩ := (mem_rowPeers p id P).1 hP
      refine ⟨(mem_rowCandidates wf.valid wf.grid id hid n).2 ⟨P, h1, h2, ho⟩, ?_, ?_⟩
      · unfold keepRowNode
        rw [Bool.or_eq_true, decide_eq_true_eq]
        exact Or.inl hpos
      · intro ho'
        exact h3 (wf.valid.isOwned_unique P id n ho ho'))
    (by rw [hperm.length_eq]; exact incomingSources_length wf hid hst)
  refine ⟨st, graph, hst, ?_, ?_⟩
  · unfold loadEdgesFrom
    rw [hst]
    dsimp only
    rw [hr]
    dsimp only
    rw [hgraph]
  · intro l s hs
    have hllt : l < st.localToGlobalVector.length := by
      by_contra hge
      rw [List.getElem?_eq_none (by omega)] at hs
      simp at hs
    have hsl : st.localToGlobalVector[l] = s := by
      rw [List.getElem?_eq_getElem hllt] at hs; exact Option.some.inj hs
    have hbegin := edge_begin_eq hc graph hind' l hllt
    have hend := edge_end_eq hc graph hind' l hllt
    rw [hsl, localEdgeCount_eq_length] at hend
    unfold LocalCSR.slice
    rw [hend, hbegin, Nat.add_sub_cancel_left]
    apply List.ext_getElem
    · simp
    · intro j h1 h2
      simp only [List.length_map, List.length_range'] at h1
      simp only [List.getElem_map, List.getElem_range', Nat.one_mul]
      have hj : j < localEdgeCount p g id s := by rw [localEdgeCount_eq_length]; exact h1
      obtain ⟨hd, _⟩ := hfill' l s hs j hj
      have hdone : isOwned p id s = true ∨ s ∈ srcs := by
        have hmem : s ∈ st.localToGlobalVector := List.mem_iff_getElem?.2 ⟨l, hs⟩
        rw [hl2g, List.mem_append] at hmem
        rcases hmem with hm | hm
        · have := (kept_row_nodes_perm wf id hid).mem_iff.1 hm
          rw [List.mem_append, List.mem_range'_1, totalOwnedNodes] at this
          rcases this with ⟨h3, h4⟩ | h3
          · exact Or.inl ((isOwned_iff _ _ _).2 ⟨h3, by omega⟩)
          · exact Or.inr (hperm.mem_iff.2 h3)
        · exfalso
          have hnr := wf.column_not_row id hid s (List.mem_filter.1 hm).1
          rw [wf.expectedDsts_not_row id s hnr] at h1
          simp at h1
      rw [hd hdone, List.getElem?_eq_getElem h1]
      rfl

/-- The two passes on host `id` return, and every slice of the store holds,
in file order, the local ids of the destinations the host is to store for the
global id of the slice. -/
theorem loadEdges_spec {p : Cut} {g : FileGraph} (wf : WellFormed p g) {id : Nat}
    (hid : id < p.numHosts) :
    ∃ st graph, loadStatistics p g id = some st ∧ loadEdges p g id = some (st, graph) ∧
      ∀ l s, st.localToGlobalVector[l]? = some s →
        graph.slice l = (expectedDsts p g id s).map (G2L st) := by
  unfold loadEdges
  rw [edgeInbox_eq wf id]
  exact loadEdgesFrom_spec wf hid _ (List.Perm.refl _)

/-- The slices of the store do not depend on the order in which the pass-2
messages arrive. -/
theorem loadEdgesFrom_perm {p : Cut} {g : FileGraph} (wf : WellFormed p g) {id : Nat}
    (hid : id < p.numHosts) (srcs : List Nat) (hperm : srcs.Perm (incomingSources p g id)) :
    ∃ st graph graph', loadEdges p g id = some (st, graph) ∧
      loadEdgesFrom p g id (srcs.map (edgeMsg p g id)) = some (st, graph') ∧
      ∀ l s, st.localToGlobalVector[l]? = some s → graph'.slice l = graph.slice l := by
  obtain ⟨st, graph, hst, hload, hslice⟩ := loadEdges_spec wf hid
  obtain ⟨st', graph', hst', hload', hslice'⟩ := loadEdgesFrom_spec wf hid srcs hperm
  rw [hst] at hst'
  have e : st' = st := (Option.some.inj hst').symm
  subst e
  exact ⟨st', graph, graph', hload, hload', fun l s hs => by rw [hslice l s hs, hslice' l s hs]⟩

theorem storedEdges_eq {p : Cut} {g : FileGraph} (wf : WellFormed p g) {id : Nat}
    (hid : id < p.numHosts) {st : LocalGraph} (hst : loadStatistics p g id = some st)
    (graph : LocalCSR) (l s : Nat)
    (hslice : graph.slice l = (expectedDsts p g id s).map (G2L st)) :
    storedEdges st graph l = expectedDsts p g id s := by
  obtain ⟨hc, _, _, _⟩ := loadStatistics_facts wf hid hst
  unfold storedEdges
  rw [hslice, List.filterMap_map]
  have : ∀ d, d ∈ expectedDsts p g id s →
      ((fun slot : Option Nat => slot.bind (L2G st)) ∘ G2L st) d = some d := by
    intro d hd
    have hrow : s ∈ rowCandidates p id := by
      by_contra hnr
      rw [wf.expectedDsts_not_row id s hnr] at hd
      simp at hd
    rw [wf.expectedDsts_row id s hrow, List.mem_filter] at hd
    obtain ⟨ld, hld⟩ := key_of_dst wf hid hst s d hrow hd.1 (by simpa using hd.2)
    show (G2L st d).bind (L2G st) = some d
    rw [hld]
    exact (hc.map_iff d ld).1 hld
  rw [List.filterMap_congr this, List.filterMap_some]

/-- C9 (amended): every host completes the two passes; the edges stored for a
local node are exactly the input edges of its global id whose destination's
column host is the storing host's column when that global id is owned by a
host of the storing host's grid row, and none otherwise; and every edge
`(s, d)` of the input graph is constructed on the host
`gridRowID(getHostID(s)) * numColumnHosts + getColumnHostID(d)`, in the slice of
`G2L(s)` with destination `G2L(d)`, and on no other host. -/
theorem loadEdges_edge_placement (p : Cut) (g : FileGraph) (wf : WellFormed p g) :
    (∀ id, id < p.numHosts → ∃ st graph, loadEdges p g id = some (st, graph) ∧
      ∀ lid gid, L2G st lid = some gid →
        ((∃ h, h < p.numHosts ∧ gridRowID p h = gridRowID p id ∧ isOwned p h gid = true) →
          storedEdges st graph lid =
            (g.outEdges gid).filter fun d => getColumnHostID p d == gridColumnID p id) ∧
        ((¬ ∃ h, h < p.numHosts ∧ gridRowID p h = gridRowID p id ∧ isOwned p h gid = true) →
          storedEdges st graph lid = [])) ∧
    (∀ s d, s < p.totalNodes → d ∈ g.outEdges s →
      gridRowID p (getHostID p s) * p.numColumnHosts + getColumnHostID p d < p.numHosts ∧
      (∃ st graph ls ld,
        loadEdges p g
          (gridRowID p (getHostID p s) * p.numColumnHosts + getColumnHostID p d) =
            some (st, graph) ∧
        G2L st s = some ls ∧ G2L st d = some ld ∧ some ld ∈ graph.slice ls) ∧
      ∀ H, H < p.numHosts →
        H ≠ gridRowID p (getHostID p s) * p.numColumnHosts + getColumnHostID p d →
        ∀ st graph lid, loadEdges p g H = some (st, graph) → L2G st lid = some s →
          d ∉ storedEdges st graph lid) := by
  have hC := wf.cols_pos
  constructor
  · intro id hid
    obtain ⟨st, graph, hst, hload, hslice⟩ := loadEdges_spec wf hid
    refine ⟨st, graph, hload, fun lid gid hl => ?_⟩
    have hstored := storedEdges_eq wf hid hst graph lid gid (hslice lid gid hl)
    rw [hstored]
    unfold gridRowID gridColumnID
    constructor
    · intro hrow
      exact wf.expectedDsts_row id gid ((mem_rowCandidates wf.valid wf.grid id hid gid).2 hrow)
    · intro hrow
      exact wf.expectedDsts_not_row id gid
        (fun h => hrow ((mem_rowCandidates wf.valid wf.grid id hid gid).1 h))
  · intro s d hs hd
    obtain ⟨hB, hoB⟩ := wf.valid.isOwned_getHostID s hs
    have hcd : getColumnHostID p d < p.numColumnHosts := Nat.mod_lt _ hC
    have htgt : gridRowID p (getHostID p s) * p.numColumnHosts + getColumnHostID p d <
        p.numHosts := div_mul_add_mod_lt _ _ _ (getHostID p s) wf.grid hB _ hcd
    obtain ⟨hdiv, hmod⟩ := (row_add_eq_iff p.numColumnHosts (gridRowID p (getHostID p s))
      (getColumnHostID p d) _ hcd).1 rfl
    refine ⟨htgt, ?_, ?_⟩
    · obtain ⟨st, graph, hst, hload, hslice⟩ := loadEdges_spec wf htgt
      obtain ⟨hc, _, _, _⟩ := loadStatistics_facts wf htgt hst
      have hrow : s ∈ rowCandidates p
          (gridRowID p (getHostID p s) * p.numColumnHosts + getColumnHostID p d) :=
        (mem_rowCandidates wf.valid wf.grid _ htgt s).2 ⟨getHostID p s, hB, hdiv, hoB⟩
      have hkeep : keepRowNode p g
          (gridRowID p (getHostID p s) * p.numColumnHosts + getColumnHostID p d) s = true :=
        (keepRowNode_iff p g _ s).2 (Or.inl ⟨d, hd, hmod⟩)
      obtain ⟨ls, hls⟩ := key_of_row_node wf htgt hst s hrow hkeep
      obtain ⟨ld, hld⟩ := key_of_dst wf htgt hst s d hrow hd hmod
      refine ⟨st, graph, ls, ld, hload, hls, hld, ?_⟩
      rw [hslice ls s ((hc.map_iff s ls).1 hls), List.mem_map]
      refine ⟨d, ?_, hld⟩
      rw [wf.expectedDsts_row _ s hrow, List.mem_filter]
      exact ⟨hd, by simpa using hmod⟩
    · intro H hH hne st graph lid hload hl hmem
      obtain ⟨st', graph', hst', hload', hslice'⟩ := loadEdges_spec wf hH
      rw [hload'] at hload
      have e1 : st' = st := congrArg Prod.fst (Option.some.inj hload)
      have e2 : graph' = graph := congrArg Prod.snd (Option.some.inj hload)
      subst e1 e2
      rw [storedEdges_eq wf hH hst' graph' lid s (hslice' lid s hl)] at hmem
      have hrow : s ∈ rowCandidates p H := by
        by_contra hnr
        rw [wf.expectedDsts_not_row H s hnr] at hmem
        simp at hmem
      rw [wf.expectedDsts_row H s hrow, List.mem_filter] at hmem
      obtain ⟨B', _, hrowB', hoB'⟩ := (mem_rowCandidates wf.valid wf.grid H hH s).1 hrow
      have hBB : B' = getHostID p s := wf.valid.isOwned_unique _ _ s hoB' hoB
      apply hne
      apply eq_of_div_mod_eq p.numColumnHosts
      · rw [← hdiv, ← hrowB', hBB]; rfl
      · rw [← hmod]; exact (by simpa using hmem.2 : getColumnHostID p d = H % p.numColumnHosts).symm

theorem loadEdges_edge_placement_witness :
    (∀ id, id < gridCut.numHosts → ∃ st graph, loadEdges gridCut gridGraph id = some (st, graph) ∧
      ∀ lid gid, L2G st lid = some gid →
        ((∃ h, h < gridCut.numHosts ∧ gridRowID gridCut h = gridRowID gridCut id ∧
            isOwned gridCut h gid = true) →
          storedEdges st graph lid =
            (gridGraph.outEdges gid).filter fun d =>
              getColumnHostID gridCut d == gridColumnID gridCut id) ∧
        ((¬ ∃ h, h < gridCut.numHosts ∧ gridRowID gridCut h = gridRowID gridCut id ∧
            isOwned gridCut h gid = true) →
          storedEdges st graph lid = [])) ∧
    (∀ s d, s < gridCut.totalNodes → d ∈ gridGraph.outEdges s →
      gridRowID gridCut (getHostID gridCut s) * gridCut.numColumnHosts +
        getColumnHostID gridCut d < gridCut.numHosts ∧
      (∃ st graph ls ld,
        loadEdges gridCut gridGraph
          (gridRowID gridCut (getHostID gridCut s) * gridCut.numColumnHosts +
            getColumnHostID gridCut d) = some (st, graph) ∧
        G2L st s = some ls ∧ G2L st d = some ld ∧ some ld ∈ graph.slice ls) ∧
      ∀ H, H < gridCut.numHosts →
        H ≠ gridRowID gridCut (getHostID gridCut s) * gridCut.numColumnHosts +
          getColumnHostID gridCut d →
        ∀ st graph lid, loadEdges gridCut gridGraph H = some (st, graph) →
          L2G st lid = some s → d ∉ storedEdges st graph lid) :=
  loadEdges_edge_placement gridCut gridGraph gridCut_wellFormed

theorem loadEdges_gridCut_isSome : (loadEdges gridCut gridGraph 0).isSome = true := by decide

/-- C9 as stated fails: on the `2 x 2` example, host 0 holds global id 4 as a
mirror created for an incoming edge; it stores no edge for it, although the
edge `4 → 0` of the input ends in the column of host 0. -/
theorem stored_edges_of_mirror_counterexample :
    ¬ ∀ st graph lid gid, loadEdges gridCut gridGraph 0 = some (st, graph) →
        L2G st lid = some gid →
        (storedEdges st graph lid).Perm
          ((gridGraph.outEdges gid).filter fun d =>
            getColumnHostID gridCut d == gridColumnID gridCut 0) := by
  intro h
  have hperm := h ((loadEdges gridCut gridGraph 0).get loadEdges_gridCut_isSome).1
    ((loadEdges gridCut gridGraph 0).get loadEdges_gridCut_isSome).2 2 4 (by simp) (by decide)
  revert hperm
  decide

/-! ## The order of arrival of the messages -/

theorem list_ext_getD {α : Type} (a b : List α) (d : α) (hlen : a.length = b.length)
    (h : ∀ i, i < a.length → a.getD i d = b.getD i d) : a = b := by
  apply List.ext_getElem hlen
  intro i h1 h2
  rw [← List.getD_eq_getElem a d h1, ← List.getD_eq_getElem b d h2]
  exact h i h1

/-- The tables after the pass-1 exchange do not depend on the order in which
the messages of the row peers arrive. -/
theorem recvStatistics_perm (p : Cut) (g : FileGraph)
    (hgrid : p.numRowHosts * p.numColumnHosts = p.numHosts) (H : Nat) (hH : H < p.numHosts)
    (senders : List Nat) (hperm : senders.Perm (rowPeers p H)) :
    recvStatistics p (p.numColumnHosts - 1) (senders.map (statMsg p g H)) (inspectEdges p g H) =
      recvStatistics p (p.numColumnHosts - 1) (statInbox p g H) (inspectEdges p g H) := by
  have hC : 0 < p.numColumnHosts := by
    rcases Nat.eq_zero_or_pos p.numColumnHosts with h | h
    · rw [h] at hgrid; omega
    · exact h
  rw [statInbox_eq p g hC H,
    recvStatistics_eq p _ _ _ (by rw [List.length_map, hperm.length_eq, rowPeers_length p hgrid H hH]),
    recvStatistics_eq p _ _ _ (by rw [List.length_map, rowPeers_length p hgrid H hH])]
  obtain ⟨⟨l1, l2⟩, c1, b1⟩ := storeStatistics_foldl p g H senders (inspectEdges p g H)
    (fun P hP => ((mem_rowPeers p H P).1 (hperm.mem_iff.1 hP)).2.1)
  obtain ⟨⟨l1', l2'⟩, c1', b1'⟩ := storeStatistics_foldl p g H (rowPeers p H) (inspectEdges p g H)
    (fun P hP => ((mem_rowPeers p H P).1 hP).2.1)
  obtain ⟨n1, n2⟩ := inspectEdges_length p g H
  have e1 : ((senders.map (statMsg p g H)).foldl (storeStatistics p)
        (inspectEdges p g H)).numOutgoingEdges =
      (((rowPeers p H).map (statMsg p g H)).foldl (storeStatistics p)
        (inspectEdges p g H)).numOutgoingEdges := by
    apply list_ext_getD _ _ [] (by rw [l1, l1'])
    intro i hi
    rw [l1, n1] at hi
    rw [c1 i hi (by rw [n1]; exact hi), c1' i hi (by rw [n1]; exact hi)]
    simp only [hperm.mem_iff]
  have e2 : ((senders.map (statMsg p g H)).foldl (storeStatistics p)
        (inspectEdges p g H)).hasIncomingEdge =
      (((rowPeers p H).map (statMsg p g H)).foldl (storeStatistics p)
        (inspectEdges p g H)).hasIncomingEdge := by
    apply list_ext_getD _ _ [] (by rw [l2, l2'])
    intro i hi
    rw [l2, n2] at hi
    rw [b1 i hi (by rw [n2]; exact hi), b1' i hi (by rw [n2]; exact hi)]
    simp only [hperm.mem_iff]
  congr 1
  cases hA : (senders.map (statMsg p g H)).foldl (storeStatistics p) (inspectEdges p g H)
  cases hB : ((rowPeers p H).map (statMsg p g H)).foldl (storeStatistics p) (inspectEdges p g H)
  rw [hA] at e1 e2
  rw [hB] at e1 e2
  simp only at e1 e2
  rw [e1, e2]

/-- The result of `loadStatistics` does not depend on the order in which the
pass-1 messages arrive. -/
theorem loadStatisticsFrom_perm (p : Cut) (g : FileGraph)
    (hgrid : p.numRowHosts * p.numColumnHosts = p.numHosts) (id : Nat) (hid : id < p.numHosts)
    (senders : List Nat) (hperm : senders.Perm (rowPeers p id)) :
    loadStatisticsFrom p g id (senders.map (statMsg p g id)) = loadStatistics p g id := by
  unfold loadStatistics loadStatisticsFrom
  rw [recvStatistics_perm p g hgrid id hid senders hperm]

/-! ## Communication partners -/

theorem nat_beq_comm (a b : Nat) : (a == b) = (b == a) := by
  rw [Bool.eq_iff_iff, beq_iff_eq, beq_iff_eq]
  exact eq_comm

theorem nat_bne_comm (a b : Nat) : (a != b) = (b != a) := by
  rw [Bool.eq_iff_iff, bne_iff_ne, bne_iff_ne]
  exact ne_comm

theorem isNotCommunicationPartner_symm (p : Cut) (X Y : Nat) (syncType : SyncType)
    (w : WriteLocation) (r : ReadLocation) :
    isNotCommunicationPartner p X Y syncType w r = isNotCommunicationPartner p Y X syncType w r := by
  have hr : (gridRowID p X != gridRowID p Y) = (gridRowID p Y != gridRowID p X) :=
    nat_bne_comm _ _
  have hc : (gridColumnID p X != gridColumnID p Y) = (gridColumnID p Y != gridColumnID p X) :=
    nat_bne_comm _ _
  have hr' : (gridRowID p X == gridRowID p Y) = (gridRowID p Y == gridRowID p X) :=
    nat_beq_comm _ _
  have hc' : (gridColumnID p X == gridColumnID p Y) = (gridColumnID p Y == gridColumnID p X) :=
    nat_beq_comm _ _
  cases syncType <;> cases w <;> cases r <;> simp only [isNotCommunicationPartner, hr, hc, hr', hc']

/-- C15: for all hosts `X` and `Y`, every sync type and every write/read
location, when the registries are symmetric (`masterNodes[X]` on `Y` is
non-empty exactly when `mirrorNodes[Y]` on `X` is, and likewise with the roles
swapped), `nothingToSend(Y, ...)` evaluated on `X` and `nothingToRecv(X, ...)`
evaluated on `Y` have the same outcome; in particular one is true if and only
if the other is. -/
theorem nothingToSend_iff_nothingToRecv (p : Cut) (X Y : Nat)
    (mirrorX masterX mirrorY masterY : List (List Nat)) (syncType : SyncType)
    (w : WriteLocation) (r : ReadLocation)
    (hXY : 0 < (masterY.getD X []).length ↔ 0 < (mirrorX.getD Y []).length)
    (hYX : 0 < (mirrorY.getD X []).length ↔ 0 < (masterX.getD Y []).length) :
    nothingToSend p X mirrorX masterX Y syncType w r =
        nothingToRecv p Y mirrorY masterY X syncType w r ∧
      (nothingToSend p X mirrorX masterX Y syncType w r = .ok true ↔
        nothingToRecv p Y mirrorY masterY X syncType w r = .ok true) := by
  have h : nothingToSend p X mirrorX masterX Y syncType w r =
      nothingToRecv p Y mirrorY masterY X syncType w r := by
    unfold nothingToSend nothingToRecv
    rw [isNotCommunicationPartner_symm p X Y]
    cases syncType
    · simp only [if_true, gt_iff_lt]
      by_cases h1 : 0 < (mirrorX.getD Y []).length
      · rw [if_pos h1, if_pos (hXY.2 h1)]
      · rw [if_neg h1, if_neg (fun h => h1 (hXY.1 h))]
    · simp only [reduceCtorEq, if_false, gt_iff_lt]
      by_cases h1 : 0 < (masterX.getD Y []).length
      · rw [if_pos h1, if_pos (hYX.2 h1)]
      · rw [if_neg h1, if_neg (fun h => h1 (hYX.1 h))]
  exact ⟨h, by rw [h]⟩

theorem nothingToSend_iff_nothingToRecv_witness :
    nothingToSend gridCut 0 [[], [], [4], []] [[], [], [0], []] 2 .syncReduce .writeDestination
          .readAny =
        nothingToRecv gridCut 2 [[0], [], [], []] [[4], [], [], []] 0 .syncReduce
          .writeDestination .readAny ∧
      (nothingToSend gridCut 0 [[], [], [4], []] [[], [], [0], []] 2 .syncReduce
          .writeDestination .readAny = .ok true ↔
        nothingToRecv gridCut 2 [[0], [], [], []] [[4], [], [], []] 0 .syncReduce
          .writeDestination .readAny = .ok true) :=
  nothingToSend_iff_nothingToRecv gridCut 0 2 [[], [], [4], []] [[], [], [0], []]
    [[0], [], [], []] [[4], [], [], []] .syncReduce .writeDestination .readAny
    (by decide) (by decide)

theorem nothingToSend_of_empty (p : Cut) (id : Nat) (mirrorNodes masterNodes : List (List Nat))
    (h : Nat) (syncType : SyncType) (w : WriteLocation) (r : ReadLocation)
    (he : ((if syncType = .syncReduce then mirrorNodes else masterNodes).getD h []) = []) :
    nothingToSend p id mirrorNodes masterNodes h syncType w r = .ok true := by
  unfold nothingToSend
  simp only [he, List.length_nil, gt_iff_lt, Nat.lt_irrefl, if_false]

theorem nothingToRecv_of_empty (p : Cut) (id : Nat) (mirrorNodes masterNodes : List (List Nat))
    (h : Nat) (syncType : SyncType) (w : WriteLocation) (r : ReadLocation)
    (he : ((if syncType = .syncReduce then masterNodes else mirrorNodes).getD h []) = []) :
    nothingToRecv p id mirrorNodes masterNodes h syncType w r = .ok true := by
  unfold nothingToRecv
  simp only [he, List.length_nil, gt_iff_lt, Nat.lt_irrefl, if_false]

theorem nothingToSend_cases (p : Cut) (id : Nat) (mirrorNodes masterNodes : List (List Nat))
    (h : Nat) (syncType : SyncType) (w : WriteLocation) (r : ReadLocation) :
    nothingToSend p id mirrorNodes masterNodes h syncType w r = .ok true ∨
      nothingToSend p id mirrorNodes masterNodes h syncType w r =
        isNotCommunicationPartner p id h syncType w r := by
  unfold nothingToSend
  dsimp only
  generalize (if syncType = SyncType.syncReduce then mirrorNodes else masterNodes) = shared
  by_cases hlen : (shared.getD h []).length > 0
  · exact Or.inr (if_pos hlen)
  · exact Or.inl (if_neg hlen)

theorem nothingToRecv_cases (p : Cut) (id : Nat) (mirrorNodes masterNodes : List (List Nat))
    (h : Nat) (syncType : SyncType) (w : WriteLocation) (r : ReadLocation) :
    nothingToRecv p id mirrorNodes masterNodes h syncType w r = .ok true ∨
      nothingToRecv p id mirrorNodes masterNodes h syncType w r =
        isNotCommunicationPartner p id h syncType w r := by
  unfold nothingToRecv
  dsimp only
  generalize (if syncType = SyncType.syncReduce then masterNodes else mirrorNodes) = shared
  by_cases hlen : (shared.getD h []).length > 0
  · exact Or.inr (if_pos hlen)
  · exact Or.inl (if_neg hlen)

/-- The outcome of `isNotCommunicationPartner` in the four cases that name one
axis of the grid. -/
theorem isNotCommunicationPartner_axis (p : Cut) (id h : Nat) (w : WriteLocation)
    (r : ReadLocation) :
    isNotCommunicationPartner p id h .syncReduce .writeSource r =
        .ok (gridRowID p id != gridRowID p h) ∧
      isNotCommunicationPartner p id h .syncBroadcast w .readSource =
        .ok (gridRowID p id != gridRowID p h) ∧
      isNotCommunicationPartner p id h .syncReduce .writeDestination r =
        .ok (gridColumnID p id != gridColumnID p h) ∧
      isNotCommunicationPartner p id h .syncBroadcast w .readDestination =
        .ok (gridColumnID p id != gridColumnID p h) :=
  ⟨rfl, rfl, rfl, rfl⟩

/-- Along one axis of the grid, a `nothingTo...` function whose outcome is
either true or the comparison of the coordinates `a` and `b` is false only for
equal coordinates and true for different ones. -/
theorem axis_filter (x : Except Fault Bool) (a b : Nat)
    (hx : x = .ok true ∨ x = .ok (a != b)) :
    (x = .ok false → b = a) ∧ (b ≠ a → x = .ok true) := by
  rcases hx with hx | hx
  · subst hx
    exact ⟨fun h => (by cases h), fun _ => rfl⟩
  · subst hx
    constructor
    · intro h
      by_contra hne
      have : (a != b) = true := by simpa [bne_iff_ne] using fun e : a = b => hne e.symm
      rw [this] at h
      cases h
    · intro hne
      have : (a != b) = true := by simpa [bne_iff_ne] using fun e : a = b => hne e.symm
      rw [this]

/-- C16: communication-partner filtering follows the grid.  For a reduce with
`writeSource` and for a broadcast with `readSource`, `nothingToSend(h)` and
`nothingToRecv(h)` return false only if `h` is in the caller's grid row, and
return true for every `h` of another row; for `writeDestination` and
`readDestination` the same holds with the grid column; and they return true
for every `h` whose shared-node list is empty. -/
theorem communication_partners_follow_grid (p : Cut) (id : Nat)
    (mirrorNodes masterNodes : List (List Nat)) (h : Nat) (w : WriteLocation)
    (r : ReadLocation) :
    ((nothingToSend p id mirrorNodes masterNodes h .syncReduce .writeSource r = .ok false →
        gridRowID p h = gridRowID p id) ∧
      (gridRowID p h ≠ gridRowID p id →
        nothingToSend p id mirrorNodes masterNodes h .syncReduce .writeSource r = .ok true)) ∧
    ((nothingToRecv p id mirrorNodes masterNodes h .syncReduce .writeSource r = .ok false →
        gridRowID p h = gridRowID p id) ∧
      (gridRowID p h ≠ gridRowID p id →
        nothingToRecv p id mirrorNodes masterNodes h .syncReduce .writeSource r = .ok true)) ∧
    ((nothingToSend p id mirrorNodes masterNodes h .syncBroadcast w .readSource = .ok false →
        gridRowID p h = gridRowID p id) ∧
      (gridRowID p h ≠ gridRowID p id →
        nothingToSend p id mirrorNodes masterNodes h .syncBroadcast w .readSource = .ok true)) ∧
    ((nothingToRecv p id mirrorNodes masterNodes h .syncBroadcast w .readSource = .ok false →
        gridRowID p h = gridRowID p id) ∧
      (gridRowID p h ≠ gridRowID p id →
        nothingToRecv p id mirrorNodes masterNodes h .syncBroadcast w .readSource = .ok true)) ∧
    ((nothingToSend p id mirrorNodes masterNodes h .syncReduce .writeDestination r = .ok false →
        gridColumnID p h = gridColumnID p id) ∧
      (gridColumnID p h ≠ gridColumnID p id →
        nothingToSend p id mirrorNodes masterNodes h .syncReduce .writeDestination r =
          .ok true)) ∧
    ((nothingToRecv p id mirrorNodes masterNodes h .syncReduce .writeDestination r = .ok false →
        gridColumnID p h = gridColumnID p id) ∧
      (gridColumnID p h ≠ gridColumnID p id →
        nothingToRecv p id mirrorNodes masterNodes h .syncReduce .writeDestination r =
          .ok true)) ∧
    ((nothingToSend p id mirrorNodes masterNodes h .syncBroadcast w .readDestination =
          .ok false → gridColumnID p h = gridColumnID p id) ∧
      (gridColumnID p h ≠ gridColumnID p id →
        nothingToSend p id mirrorNodes masterNodes h .syncBroadcast w .readDestination =
          .ok true)) ∧
    ((nothingToRecv p id mirrorNodes masterNodes h .syncBroadcast w .readDestination =
          .ok false → gridColumnID p h = gridColumnID p id) ∧
      (gridColumnID p h ≠ gridColumnID p id →
        nothingToRecv p id mirrorNodes masterNodes h .syncBroadcast w .readDestination =
          .ok true)) ∧
    (∀ syncType,
      ((if syncType = SyncType.syncReduce then mirrorNodes else masterNodes).getD h [] = [] →
        nothingToSend p id mirrorNodes masterNodes h syncType w r = .ok true) ∧
      ((if syncType = SyncType.syncReduce then masterNodes else mirrorNodes).getD h [] = [] →
        nothingToRecv p id mirrorNodes masterNodes h syncType w r = .ok true)) := by
  obtain ⟨a1, a2, a3, a4⟩ := isNotCommunicationPartner_axis p id h w r
  refine ⟨?_, ?_, ?_, ?_, ?_, ?_, ?_, ?_, ?_⟩
  · exact axis_filter _ _ _ (a1 ▸ nothingToSend_cases p id mirrorNodes masterNodes h _ _ _)
  · exact axis_filter _ _ _ (a1 ▸ nothingToRecv_cases p id mirrorNodes masterNodes h _ _ _)
  · exact axis_filter _ _ _ (a2 ▸ nothingToSend_cases p id mirrorNodes masterNodes h _ _ _)
  · exact axis_filter _ _ _ (a2 ▸ nothingToRecv_cases p id mirrorNodes masterNodes h _ _ _)
  · exact axis_filter _ _ _ (a3 ▸ nothingToSend_cases p id mirrorNodes masterNodes h _ _ _)
  · exact axis_filter _ _ _ (a3 ▸ nothingToRecv_cases p id mirrorNodes masterNodes h _ _ _)
  · exact axis_filter _ _ _ (a4 ▸ nothingToSend_cases p id mirrorNodes masterNodes h _ _ _)
  · exact axis_filter _ _ _ (a4 ▸ nothingToRecv_cases p id mirrorNodes masterNodes h _ _ _)
  · exact fun syncType =>
      ⟨nothingToSend_of_empty p id mirrorNodes masterNodes h syncType w r,
        nothingToRecv_of_empty p id mirrorNodes masterNodes h syncType w r⟩

theorem communication_partners_follow_grid_witness :
    nothingToSend gridCut 0 [[], [], [4], [7]] [[], [], [0], []] 3 .syncReduce .writeSource
      .readAny = .ok true ∧
    gridColumnID gridCut 2 = gridColumnID gridCut 0 ∧
    nothingToRecv gridCut 0 [[], [], [4], [7]] [[], [], [0], []] 1 .syncReduce .writeAny
      .readAny = .ok true :=
  ⟨(communication_partners_follow_grid gridCut 0 [[], [], [4], [7]] [[], [], [0], []] 3
      .writeAny .readAny).1.2 (by decide),
    (communication_partners_follow_grid gridCut 0 [[], [], [4], [7]] [[], [], [0], []] 2
      .writeAny .readAny).2.2.2.2.1.1 rfl,
    ((communication_partners_follow_grid gridCut 0 [[], [], [4], [7]] [[], [], [0], []] 1
      .writeAny .readAny).2.2.2.2.2.2.2.2 .syncReduce).2 (by decide)⟩

/-! ## The constructor -/

/-- C17: for every graph file, host id, host count and scale-factor vector
(and every outcome of `computeMasters`), the constructor called with
`transpose = true` ends in `GALOIS_DIE`, whatever the other steps would do:
the grid is not factorized and no partition state is computed; with
`transpose = false` the constructor never ends in `GALOIS_DIE`. -/
theorem construct_transpose_fatal
    (computeMasters : FileGraph → Nat → Nat → List Nat → List (Nat × Nat)) (g : FileGraph)
    (size host numHosts : Nat) (scalefactor : List Nat) :
    construct computeMasters g size host numHosts scalefactor true = .error .die ∧
      construct computeMasters g size host numHosts scalefactor false ≠ .error .die := by
  constructor
  · rfl
  · unfold construct
    simp only [Bool.false_eq_true, if_false]
    intro h
    split at h
    · cases h
    · split at h
      · cases h
      · split at h
        · split at h
          · cases h
          · split at h
            · cases h
            · cases h
        · cases h

/-! ## The prefix sum of the edge counts -/

theorem prefixSums_append_list (a : List Nat) :
    ∀ (b : List Nat) (s : Nat), prefixSums (a ++ b) s = prefixSums a s ++ prefixSums b (s + a.sum) := by
  induction a with
  | nil => intro b s; simp [prefixSums]
  | cons x a ih =>
    intro b s
    show (s + x) :: prefixSums (a ++ b) (s + x) =
      (s + x) :: prefixSums a (s + x) ++ prefixSums b (s + (x :: a).sum)
    rw [ih, List.sum_cons, Nat.add_assoc]
    rfl

theorem createIf_foldl_prefix (keep : Nat → Bool) (w : Nat → Nat) :
    ∀ (xs : List Nat) (st : LocalGraph),
      (xs.foldl (createIf keep w) st).prefixSumOfEdges =
          st.prefixSumOfEdges ++ prefixSums ((xs.filter keep).map w) st.numEdges ∧
        (xs.foldl (createIf keep w) st).numEdges =
          st.numEdges + ((xs.filter keep).map w).sum := by
  intro xs
  induction xs with
  | nil => intro st; simp [prefixSums]
  | cons x xs ih =>
    intro st
    rw [List.foldl_cons]
    by_cases hk : keep x = true
    · have e : createIf keep w st x = createNode { st with numEdges := st.numEdges + w x } x := by
        simp [createIf, hk]
      obtain ⟨p1, n1⟩ := ih (createIf keep w st x)
      rw [p1, n1, e, List.filter_cons, if_pos hk]
      simp only [createNode, List.map_cons, List.sum_cons, prefixSums, List.append_assoc,
        List.singleton_append, Nat.add_assoc, and_self]
    · have e : createIf keep w st x = st := by simp [createIf, hk]
      rw [e, List.filter_cons, if_neg hk]
      exact ih st

/-- The two node-creation loops of `loadStatistics` in normal form, for any
number of nodes. -/
theorem loadStatistics_closed (p : Cut) (g : FileGraph) (hv : ValidPartition p)
    (hgrid : p.numRowHosts * p.numColumnHosts = p.numHosts) (id : Nat) (hid : id < p.numHosts) :
    loadStatistics p g id =
      some ((columnCandidates p id).foldl (createIf (keepColumnNode p g id) (fun _ => 0))
        { (rowCandidates p id).foldl
            (createIf (keepRowNode p g id) (outCount p g (id % p.numColumnHosts)))
            (emptyLocalGraph p id) with
          numOwned := ((rowCandidates p id).foldl
            (createIf (keepRowNode p g id) (outCount p g (id % p.numColumnHosts)))
            (emptyLocalGraph p id)).numNodes }) := by
  have hC : 0 < p.numColumnHosts := by
    have := hv.hosts_pos
    rcases Nat.eq_zero_or_pos p.numColumnHosts with h | h
    · rw [h] at hgrid; omega
    · exact h
  obtain ⟨stats, hrecv, htbl⟩ := recvStatistics_spec p g hgrid id hid
  have hmerge : mergeIncoming p stats.hasIncomingEdge = mergedIncoming p g id := by
    unfold mergedIncoming
    apply mergeIncoming_congr p hC
    intro i hi
    rw [(htbl i hi).2]
    simp [List.getD_eq_getElem?_getD, List.getElem?_map, List.getElem?_range hi]
  have hleader : id / p.numColumnHosts * p.numColumnHosts < p.numHosts := by
    have := div_mul_add_mod_lt _ _ _ id hgrid hid 0 hC
    omega
  have hrow := createRowNodes_eq p g hv hgrid id hid stats.numOutgoingEdges
    (mergedIncoming p g id) (fun i hi => (htbl i hi).1) (emptyLocalGraph p id)
    p.numColumnHosts (le_refl _)
  have hrow' : (createRowNodes p id stats.numOutgoingEdges (mergedIncoming p g id)
      (emptyLocalGraph p id, (hostRange p (gridRowID p id * p.numColumnHosts)).1)).1 =
      (rowCandidates p id).foldl
        (createIf (keepRowNode p g id) (outCount p g (id % p.numColumnHosts)))
        (emptyLocalGraph p id) := by
    unfold createRowNodes gridRowID
    rw [← hv.blockStart_eq _ hleader, hrow]
    rfl
  have hcol : ∀ st1, createColumnNodes p id (mergedIncoming p g id) st1 =
      (columnCandidates p id).foldl (createIf (keepColumnNode p g id) (fun _ => 0)) st1 := by
    intro st1
    rw [createColumnNodes_eq]
    have : columnNodeStep p (mergedIncoming p g id) =
        createIf (keepColumnNode p g id) (fun _ => 0) := by
      funext st x; exact columnNodeStep_eq p g id st x
    rw [this]
  unfold loadStatistics loadStatisticsFrom
  rw [hrecv]
  dsimp only
  rw [hmerge, hrow', hcol]

/-- The prefix sum and the edge count after `loadStatistics`, for any number
of nodes: the running sums and the sum of one list of slice sizes. -/
theorem loadStatistics_prefix (p : Cut) (g : FileGraph) (hv : ValidPartition p)
    (hgrid : p.numRowHosts * p.numColumnHosts = p.numHosts) (id : Nat) (hid : id < p.numHosts) :
    ∃ st ws, loadStatistics p g id = some st ∧ st.prefixSumOfEdges = prefixSums ws 0 ∧
      st.numEdges = ws.sum := by
  obtain ⟨p1, n1⟩ := createIf_foldl_prefix (keepRowNode p g id)
    (outCount p g (id % p.numColumnHosts)) (rowCandidates p id) (emptyLocalGraph p id)
  obtain ⟨p2, n2⟩ := createIf_foldl_prefix (keepColumnNode p g id) (fun _ => 0)
    (columnCandidates p id)
    { (rowCandidates p id).foldl
        (createIf (keepRowNode p g id) (outCount p g (id % p.numColumnHosts)))
        (emptyLocalGraph p id) with
      numOwned := ((rowCandidates p id).foldl
        (createIf (keepRowNode p g id) (outCount p g (id % p.numColumnHosts)))
        (emptyLocalGraph p id)).numNodes }
  refine ⟨_, ((rowCandidates p id).filter (keepRowNode p g id)).map
      (outCount p g (id % p.numColumnHosts)) ++
    ((columnCandidates p id).filter (keepColumnNode p g id)).map (fun _ => 0),
    loadStatistics_closed p g hv hgrid id hid, ?_, ?_⟩
  · rw [p2]
    dsimp only
    rw [p1, n1, prefixSums_append_list]
    simp [emptyLocalGraph]
  · rw [n2]
    dsimp only
    rw [n1, List.sum_append]
    simp [emptyLocalGraph]

theorem sliceStart_length (ws : List Nat) : sliceStart ws ws.length = ws.sum := by
  simp [sliceStart]

theorem sliceStart_le_sum (ws : List Nat) (l : Nat) : sliceStart ws l ≤ ws.sum := by
  rcases Nat.lt_or_ge l ws.length with h | h
  · rw [← sliceStart_length]; exact sliceStart_mono ws _ _ (Nat.le_of_lt h)
  · unfold sliceStart; rw [List.take_of_length_le h]

/-- The slices cut by the running sums of `ws`: slice `l` starts at the sum of
the first `l` sizes and has `ws[l]` slots. -/
theorem prefixSums_slices (st : LocalGraph) (ws : List Nat)
    (hpre : st.prefixSumOfEdges = prefixSums ws 0) (l : Nat) (hl : l < ws.length) :
    st.sliceBegin l = sliceStart ws l ∧ st.sliceEnd l = sliceStart ws (l + 1) := by
  unfold LocalGraph.sliceBegin LocalGraph.sliceEnd
  rw [hpre]
  constructor
  · by_cases h0 : l = 0
    · subst h0; simp [sliceStart]
    · rw [if_neg h0, prefixSums_getD ws 0 (l - 1) (by omega), Nat.zero_add,
        show l - 1 + 1 = l by omega]
  · rw [prefixSums_getD ws 0 l hl, Nat.zero_add]

/-- C18: the prefix sum produced by `loadStatistics` is non-decreasing and its
last entry equals `numEdges` (with no entry, `numEdges` is `0`), so the slices
`[prefixSumOfEdges[l-1], prefixSumOfEdges[l])` (with `0` for `l = 0`) passed
to `fixEndEdge` lie inside `[0, numEdges)` and those of distinct local ids are
disjoint. -/
theorem prefixSum_slices_disjoint (p : Cut) (g : FileGraph) (hp : Partitioned p g) (id : Nat)
    (hid : id < p.numHosts) :
    ∃ st, loadStatistics p g id = some st ∧
      (∀ l l', l ≤ l' → l' < st.prefixSumOfEdges.length →
        st.prefixSumOfEdges.getD l 0 ≤ st.prefixSumOfEdges.getD l' 0) ∧
      (st.prefixSumOfEdges ≠ [] → st.prefixSumOfEdges.getLast? = some st.numEdges) ∧
      (st.prefixSumOfEdges = [] → st.numEdges = 0) ∧
      (∀ l, l < st.prefixSumOfEdges.length →
        st.sliceBegin l ≤ st.sliceEnd l ∧ st.sliceEnd l ≤ st.numEdges) ∧
      (∀ l l', l < l' → l' < st.prefixSumOfEdges.length → st.sliceEnd l ≤ st.sliceBegin l') ∧
      (∀ l l' e, l < st.prefixSumOfEdges.length → l' < st.prefixSumOfEdges.length →
        st.sliceBegin l ≤ e → e < st.sliceEnd l → st.sliceBegin l' ≤ e → e < st.sliceEnd l' →
        l = l') := by
  obtain ⟨st, ws, hst, hpre, hnum⟩ := loadStatistics_prefix p g hp.valid hp.grid id hid
  have hlen : st.prefixSumOfEdges.length = ws.length := by rw [hpre, prefixSums_length]
  have hget : ∀ l, l < ws.length → st.prefixSumOfEdges.getD l 0 = sliceStart ws (l + 1) := by
    intro l hl
    rw [hpre, prefixSums_getD ws 0 l hl, Nat.zero_add]
  have hdisj : ∀ l l', l < l' → l' < st.prefixSumOfEdges.length →
      st.sliceEnd l ≤ st.sliceBegin l' := by
    intro l l' hll hl'
    rw [hlen] at hl'
    rw [(prefixSums_slices st ws hpre l (by omega)).2, (prefixSums_slices st ws hpre l' hl').1]
    exact sliceStart_mono ws _ _ (by omega)
  refine ⟨st, hst, ?_, ?_, ?_, ?_, hdisj, ?_⟩
  · intro l l' hll hl'
    rw [hlen] at hl'
    rw [hget l (by omega), hget l' hl']
    exact sliceStart_mono ws _ _ (by omega)
  · intro hne
    have hpos : 0 < ws.length := by
      rw [← hlen]; exact List.length_pos.2 hne
    rw [List.getLast?_eq_getElem?, hlen]
    have := hget (ws.length - 1) (by omega)
    rw [List.getD_eq_getElem?_getD, show ws.length - 1 + 1 = ws.length by omega,
      sliceStart_length] at this
    have hlt : ws.length - 1 < st.prefixSumOfEdges.length := by omega
    rw [List.getElem?_eq_getElem hlt] at this ⊢
    rw [hnum]
    simpa using this
  · intro he
    rw [he] at hlen
    have : ws = [] := List.length_eq_zero.1 hlen.symm
    rw [hnum, this]; rfl
  · intro l hl
    rw [hlen] at hl
    rw [(prefixSums_slices st ws hpre l hl).1, (prefixSums_slices st ws hpre l hl).2, hnum]
    exact ⟨sliceStart_mono ws _ _ (by omega), sliceStart_le_sum ws _⟩
  · intro l l' e hl hl' h1 h2 h3 h4
    rcases Nat.lt_trichotomy l l' with h | h | h
    · have := hdisj l l' h hl'; omega
    · exact h
    · have := hdisj l' l h hl; omega

theorem prefixSum_slices_disjoint_witness :
    ∃ st, loadStatistics gridCut gridGraph 1 = some st ∧
      (∀ l l', l ≤ l' → l' < st.prefixSumOfEdges.length →
        st.prefixSumOfEdges.getD l 0 ≤ st.prefixSumOfEdges.getD l' 0) ∧
      (st.prefixSumOfEdges ≠ [] → st.prefixSumOfEdges.getLast? = some st.numEdges) ∧
      (st.prefixSumOfEdges = [] → st.numEdges = 0) ∧
      (∀ l, l < st.prefixSumOfEdges.length →
        st.sliceBegin l ≤ st.sliceEnd l ∧ st.sliceEnd l ≤ st.numEdges) ∧
      (∀ l l', l < l' → l' < st.prefixSumOfEdges.length → st.sliceEnd l ≤ st.sliceBegin l') ∧
      (∀ l l' e, l < st.prefixSumOfEdges.length → l' < st.prefixSumOfEdges.length →
        st.sliceBegin l ≤ e → e < st.sliceEnd l → st.sliceBegin l' ≤ e → e < st.sliceEnd l' →
        l = l') :=
  prefixSum_slices_disjoint gridCut gridGraph gridCut_wellFormed.toPartitioned 1 (by decide)

/-! ## The entries of the prefix sum -/

theorem loadStatistics_gridCut_mirror :
    (loadStatistics gridCut gridGraph 0).map (fun st => (L2G st 2, st.sliceBegin 2, st.sliceEnd 2)) =
      some (some 4, 2, 2) := by
  decide

/-- C19 as stated fails: on the `2 x 2` example, host 0 holds global id 4 at
local id 2, a mirror created for an incoming edge.  Its entry of the prefix sum
adds nothing, although the edge `4 → 0` of the input ends in the column of
host 0. -/
theorem prefixSum_of_mirror_counterexample :
    ¬ ∀ st l gid, loadStatistics gridCut gridGraph 0 = some st → L2G st l = some gid →
        st.sliceEnd l - st.sliceBegin l =
          outCount gridCut gridGraph (gridColumnID gridCut 0) gid := by
  intro h
  have hm := loadStatistics_gridCut_mirror
  cases hst : loadStatistics gridCut gridGraph 0 with
  | none => rw [hst] at hm; cases hm
  | some st =>
    rw [hst] at hm
    simp only [Option.map_some', Option.some.injEq, Prod.mk.injEq] at hm
    obtain ⟨h1, h2, h3⟩ := hm
    have h4 := h st 2 4 hst h1
    rw [h2, h3] at h4
    revert h4
    decide

/-- C19, amended: after `loadStatistics`, `prefixSumOfEdges` has exactly
`numNodes` entries; for every local id `l < numOwned`,
`prefixSumOfEdges[l] - prefixSumOfEdges[l-1]` is the number of input-graph
edges with source `L2G(l)` whose destination's column host is this host's
column; and the difference is `0` for every local id `l ≥ numOwned`. -/
theorem prefixSum_differences (p : Cut) (g : FileGraph) (wf : WellFormed p g) (id : Nat)
    (hid : id < p.numHosts) :
    ∃ st, loadStatistics p g id = some st ∧
      st.prefixSumOfEdges.length = st.numNodes ∧
      (∀ l gid, l < st.numOwned → L2G st l = some gid →
        st.sliceEnd l = st.sliceBegin l + outCount p g (gridColumnID p id) gid) ∧
      (∀ l, st.numOwned ≤ l → l < st.numNodes → st.sliceEnd l = st.sliceBegin l) := by
  obtain ⟨st, hst, hc, hl, hno, _⟩ := loadStatistics_spec p g wf id hid
  have hpre := hc.prefix_eq
  have hlen : (st.localToGlobalVector.map (localEdgeCount p g id)).length = st.numNodes := by
    rw [List.length_map, hc.numNodes_eq]
  have hslice : ∀ l, l < st.numNodes → ∃ gid, st.localToGlobalVector[l]? = some gid ∧
      st.sliceEnd l = st.sliceBegin l + localEdgeCount p g id gid := by
    intro l hl'
    have hl₁ : l < st.localToGlobalVector.length := by rw [← hc.numNodes_eq]; exact hl'
    have hl₂ : l < (st.localToGlobalVector.map (localEdgeCount p g id)).length := by
      rw [hlen]; exact hl'
    obtain ⟨hb, he⟩ := prefixSums_slices st _ hpre l hl₂
    refine ⟨st.localToGlobalVector[l], List.getElem?_eq_getElem hl₁, ?_⟩
    rw [hb, he, sliceStart_succ _ l hl₂, List.getElem_map]
  refine ⟨st, hst, ?_, ?_, ?_⟩
  · rw [hpre, prefixSums_length, hlen]
  · intro l gid hlo hgid
    have hl₁ : l < st.localToGlobalVector.length := by
      by_contra hge
      unfold L2G at hgid
      rw [List.getElem?_eq_none (by omega)] at hgid
      cases hgid
    obtain ⟨gid', hg', hs⟩ := hslice l (by rw [hc.numNodes_eq]; exact hl₁)
    have e : gid' = gid := by
      unfold L2G at hgid
      rw [hg'] at hgid
      exact Option.some.inj hgid
    subst e
    have hrow : gid' ∈ rowCandidates p id := by
      rw [hl, List.getElem?_append_left (by rw [← hno]; exact hlo)] at hg'
      exact (List.mem_filter.1 (List.mem_iff_getElem?.2 ⟨_, hg'⟩)).1
    rw [hs, wf.localEdgeCount_row id gid' hrow]
    rfl
  · intro l hlo hln
    obtain ⟨gid, hg, hs⟩ := hslice l hln
    have hcol : gid ∈ columnCandidates p id := by
      rw [hl, List.getElem?_append_right (by rw [← hno]; exact hlo)] at hg
      exact (List.mem_filter.1 (List.mem_iff_getElem?.2 ⟨_, hg⟩)).1
    rw [hs, wf.localEdgeCount_not_row id gid (wf.column_not_row id hid gid hcol)]
    rfl

theorem prefixSum_differences_witness :
    ∃ st, loadStatistics gridCut gridGraph 0 = some st ∧
      st.prefixSumOfEdges.length = st.numNodes ∧
      (∀ l gid, l < st.numOwned → L2G st l = some gid →
        st.sliceEnd l = st.sliceBegin l + outCount gridCut gridGraph (gridColumnID gridCut 0) gid) ∧
      (∀ l, st.numOwned ≤ l → l < st.numNodes → st.sliceEnd l = st.sliceBegin l) :=
  prefixSum_differences gridCut gridGraph gridCut_wellFormed 0 (by decide)

/-! ## The number of pass-2 messages -/

theorem receiveEdges_append (p : Cut) (id : Nat) (st : LocalGraph) (extra : List EdgeMsg) :
    ∀ (inbox : List EdgeMsg) (cnt : Nat) (graph graph' : LocalCSR),
      receiveEdges p id st cnt inbox graph = some graph' → cnt + inbox.length = st.numOwned →
      receiveEdges p id st cnt (inbox ++ extra) graph = some graph' := by
  intro inbox
  induction inbox with
  | nil =>
    intro cnt graph graph' h hcnt
    have hge : ¬ cnt < st.numOwned := by simp at hcnt; omega
    simp only [receiveEdges, if_neg hge] at h
    cases extra with
    | nil => simp only [List.append_nil, receiveEdges, if_neg hge]; exact h
    | cons m extra => simp only [List.nil_append, receiveEdges, if_neg hge]; exact h
  | cons m inbox ih =>
    intro cnt graph graph' h hcnt
    have hlt : cnt < st.numOwned := by simp at hcnt; omega
    simp only [List.cons_append, receiveEdges, if_pos hlt] at h ⊢
    cases hm : receiveEdgeMsg p id st graph m with
    | none => rw [hm] at h; cases h
    | some graph₁ =>
      rw [hm] at h
      exact ih (cnt + 1) graph₁ graph' h (by simp at hcnt ⊢; omega)

theorem receiveEdges_short (p : Cut) (id : Nat) (st : LocalGraph) :
    ∀ (inbox : List EdgeMsg) (cnt : Nat) (graph : LocalCSR),
      cnt + inbox.length < st.numOwned → receiveEdges p id st cnt inbox graph = none := by
  intro inbox
  induction inbox with
  | nil =>
    intro cnt graph hcnt
    have hlt : cnt < st.numOwned := by simp at hcnt; omega
    simp only [receiveEdges, if_pos hlt]
  | cons m inbox ih =>
    intro cnt graph hcnt
    have hlt : cnt < st.numOwned := by simp at hcnt; omega
    simp only [receiveEdges, if_pos hlt]
    cases hm : receiveEdgeMsg p id st graph m with
    | none => rfl
    | some graph₁ => exact ih (cnt + 1) graph₁ (by simp at hcnt ⊢; omega)

theorem edgeInbox_sources {p : Cut} {g : FileGraph} (wf : WellFormed p g) (id : Nat) :
    (edgeInbox p g id).map (fun m => m.n) = incomingSources p g id := by
  rw [edgeInbox_eq wf id, List.map_map]
  have e : ((fun m : EdgeMsg => m.n) ∘ edgeMsg p g id) = fun n => n := rfl
  rw [e, List.map_id']

/-- The source nodes of the pass-2 messages that reach a host are its
non-owned local nodes with a local id below `numOwned`. -/
theorem mem_incomingSources_iff {p : Cut} {g : FileGraph} (wf : WellFormed p g) {id : Nat}
    (hid : id < p.numHosts) {st : LocalGraph} (hst : loadStatistics p g id = some st) (n : Nat) :
    n ∈ incomingSources p g id ↔
      isOwned p id n = false ∧ ∃ l, l < st.numOwned ∧ L2G st l = some n := by
  obtain ⟨_, hl, hno, _⟩ := loadStatistics_facts wf hid hst
  have hkept : (∃ l, l < st.numOwned ∧ L2G st l = some n) ↔
      n ∈ (rowCandidates p id).filter (keepRowNode p g id) := by
    unfold L2G
    rw [hl, hno, List.mem_iff_getElem?]
    constructor
    · rintro ⟨l, hlt, hg⟩
      rw [List.getElem?_append_left hlt] at hg
      exact ⟨l, hg⟩
    · rintro ⟨l, hg⟩
      have hlt : l < ((rowCandidates p id).filter (keepRowNode p g id)).length := by
        by_contra hge
        rw [List.getElem?_eq_none (by omega)] at hg
        cases hg
      exact ⟨l, hlt, by rw [List.getElem?_append_left hlt]; exact hg⟩
  have hown : n ∈ List.range' (hostRange p id).1 (totalOwnedNodes p id) ↔
      isOwned p id n = true := by
    rw [List.mem_range'_1, isOwned_iff, totalOwnedNodes]
    have := wf.valid.start_le_end id hid
    omega
  rw [hkept, (kept_row_nodes_perm wf id hid).mem_iff, List.mem_append, hown]
  constructor
  · intro hn
    have hno' : isOwned p id n = false := by
      obtain ⟨P, hP, ho, _⟩ := (mem_incomingSources p g id n).1 hn
      obtain ⟨_, _, hne⟩ := (mem_rowPeers p id P).1 hP
      cases hb : isOwned p id n with
      | false => rfl
      | true => exact absurd (wf.valid.isOwned_unique P id n ho hb) hne
    exact ⟨hno', Or.inr hn⟩
  · rintro ⟨hno', h | h⟩
    · rw [hno'] at h; cases h
    · exact h

/-- C20: for every host `H`, the pass-2 messages that reach `H` all come from
other hosts, and their number is `numOwned - totalOwnedNodes` on `H`.
`receiveEdges` consumes exactly these messages: it returns after them,
whatever follows them in the queue, and does not return on fewer.  There is
exactly one message for each non-owned local node with local id below
`numOwned` and none for any other node. -/
theorem receiveEdges_message_count (p : Cut) (g : FileGraph) (wf : WellFormed p g) (H : Nat)
    (hH : H < p.numHosts) :
    ∃ st r, loadStatistics p g H = some st ∧
      loadEdgesFromFile p g H st (allocateGraph st) = some r ∧
      (sendEdges p g H).filter (fun m => m.dest == H) = [] ∧
      st.totalOwnedNodes ≤ st.numOwned ∧
      (edgeInbox p g H).length = st.numOwned - st.totalOwnedNodes ∧
      (∃ graph, receiveEdges p H st st.totalOwnedNodes (edgeInbox p g H) r.graph = some graph ∧
        ∀ extra, receiveEdges p H st st.totalOwnedNodes (edgeInbox p g H ++ extra) r.graph =
          some graph) ∧
      (∀ k, k < (edgeInbox p g H).length →
        receiveEdges p H st st.totalOwnedNodes ((edgeInbox p g H).take k) r.graph = none) ∧
      ((edgeInbox p g H).map fun m => m.n).Nodup ∧
      ∀ n, n ∈ ((edgeInbox p g H).map fun m => m.n) ↔
        isOwned p H n = false ∧ ∃ l, l < st.numOwned ∧ L2G st l = some n := by
  have hC := wf.cols_pos
  obtain ⟨st, graph, hst, hload, _⟩ := loadEdges_spec wf hH
  obtain ⟨r, hr, _, _, _⟩ := loadEdgesFromFile_spec wf hH hst
  have hlen := incomingSources_length wf hH hst
  have hinlen : (edgeInbox p g H).length = (incomingSources p g H).length := by
    rw [← edgeInbox_sources wf H, List.length_map]
  have hrecv : receiveEdges p H st st.totalOwnedNodes (edgeInbox p g H) r.graph = some graph := by
    unfold loadEdges loadEdgesFrom at hload
    rw [hst] at hload
    dsimp only at hload
    rw [hr] at hload
    dsimp only at hload
    cases hrg : receiveEdges p H st st.totalOwnedNodes (edgeInbox p g H) r.graph with
    | none => rw [hrg] at hload; cases hload
    | some graph' =>
      rw [hrg] at hload
      simp only [Option.some.injEq, Prod.mk.injEq, true_and] at hload
      rw [hload]
  refine ⟨st, r, hst, hr, ?_, by omega, by omega, ⟨graph, hrecv, ?_⟩, ?_, ?_, ?_⟩
  · rw [sendEdges_eq wf H hH, filter_flatMap]
    apply List.flatMap_eq_nil_iff.2
    intro n _
    rw [nodeMsgs_filter p g hC H H n]
    simp
  · intro extra
    exact receiveEdges_append p H st extra _ _ _ _ hrecv (by omega)
  · intro k hk
    apply receiveEdges_short
    rw [List.length_take]
    omega
  · rw [edgeInbox_sources wf H]
    exact incomingSources_nodup wf.valid g H
  · intro n
    rw [edgeInbox_sources wf H]
    exact mem_incomingSources_iff wf hH hst n

theorem receiveEdges_message_count_witness :
    ∃ st r, loadStatistics gridCut gridGraph 1 = some st ∧
      loadEdgesFromFile gridCut gridGraph 1 st (allocateGraph st) = some r ∧
      (sendEdges gridCut gridGraph 1).filter (fun m => m.dest == 1) = [] ∧
      st.totalOwnedNodes ≤ st.numOwned ∧
      (edgeInbox gridCut gridGraph 1).length = st.numOwned - st.totalOwnedNodes ∧
      (∃ graph, receiveEdges gridCut 1 st st.totalOwnedNodes (edgeInbox gridCut gridGraph 1)
          r.graph = some graph ∧
        ∀ extra, receiveEdges gridCut 1 st st.totalOwnedNodes
          (edgeInbox gridCut gridGraph 1 ++ extra) r.graph = some graph) ∧
      (∀ k, k < (edgeInbox gridCut gridGraph 1).length →
        receiveEdges gridCut 1 st st.totalOwnedNodes ((edgeInbox gridCut gridGraph 1).take k)
          r.graph = none) ∧
      ((edgeInbox gridCut gridGraph 1).map fun m => m.n).Nodup ∧
      ∀ n, n ∈ ((edgeInbox gridCut gridGraph 1).map fun m => m.n) ↔
        isOwned gridCut 1 n = false ∧ ∃ l, l < st.numOwned ∧ L2G st l = some n :=
  receiveEdges_message_count gridCut gridGraph gridCut_wellFormed 1 (by decide)

/-! ## The loops of `fill_mirrorNodes` -/

theorem mirrorStep_foldl (st : LocalGraph) (h k : Nat) :
    ∀ (xs : List Nat) (m : List (List Nat)),
      (xs.foldl (mirrorStep st h) m)[k]? =
        (m[k]?).map fun v =>
          if h = k then v ++ xs.filter (fun gid => (st.globalToLocalMap gid).isSome) else v := by
  intro xs
  induction xs with
  | nil =>
    intro m
    have e : (fun v : List Nat =>
        if h = k then v ++ [].filter (fun gid => (st.globalToLocalMap gid).isSome) else v) =
        fun v => v := by
      funext v; simp
    rw [e, Option.map_id']
    rfl
  | cons x xs ih =>
    intro m
    rw [List.foldl_cons, ih]
    by_cases hx : (st.globalToLocalMap x).isSome = true
    · simp only [mirrorStep, hx, if_true, List.getElem?_modify, List.filter_cons]
      cases m[k]? with
      | none => rfl
      | some v => by_cases hk : h = k <;> simp [hk]
    · simp only [mirrorStep, hx, if_false, List.filter_cons, Bool.false_eq_true]

theorem fillMirrorsOf_getElem? (p : Cut) (st : LocalGraph) (h k : Nat) (m : List (List Nat)) :
    (fillMirrorsOf p st h m)[k]? =
      (m[k]?).map fun v => if h = k then v ++ mirrorKeys p st h else v :=
  mirrorStep_foldl st h k _ m

theorem fillMirrors_foldl (p : Cut) (st : LocalGraph) (k : Nat) :
    ∀ (hs : List Nat) (m : List (List Nat)),
      (hs.foldl (fun m h => fillMirrorsOf p st h m) m)[k]? =
        (m[k]?).map fun v =>
          v ++ (List.replicate (hs.count k) (mirrorKeys p st k)).flatten := by
  intro hs
  induction hs with
  | nil =>
    intro m
    have e : (fun v : List Nat =>
        v ++ (List.replicate (([] : List Nat).count k) (mirrorKeys p st k)).flatten) =
        fun v => v := by
      funext v; simp
    rw [e, Option.map_id']
    rfl
  | cons h hs ih =>
    intro m
    rw [List.foldl_cons, ih, fillMirrorsOf_getElem?, List.count_cons]
    cases m[k]? with
    | none => rfl
    | some v =>
      by_cases hk : h = k
      · subst hk
        simp [List.replicate_succ]
      · have : (h == k) = false := by simpa using hk
        simp [hk, this]

/-- A loop that skips the iterations whose host is the caller. -/
theorem foldl_skip_self {β : Type} (f : Nat → Nat) (id : Nat) (F : Nat → β → β) :
    ∀ (l : List Nat) (m : β),
      l.foldl (fun m i => if (f i == id) = true then m else F (f i) m) m =
        ((l.map f).filter fun h => h != id).foldl (fun m h => F h m) m := by
  intro l
  induction l with
  | nil => intro m; rfl
  | cons a l ih =>
    intro m
    rw [List.foldl_cons, List.map_cons, List.filter_cons]
    by_cases ha : f a = id
    · simp only [ha, beq_self_eq_true, if_true, bne_self_eq_false, Bool.false_eq_true, if_false]
      exact ih m
    · have h1 : (f a == id) = false := by simpa using ha
      have h2 : (f a != id) = true := by simpa [bne_iff_ne] using ha
      simp only [h1, h2, Bool.false_eq_true, if_false, if_true, List.foldl_cons]
      exact ih _

theorem fill_mirrorNodes_eq (p : Cut) (id : Nat) (st : LocalGraph) (m : List (List Nat)) :
    fill_mirrorNodes p id st m =
      (mirrorPeers p id).foldl (fun m h => fillMirrorsOf p st h m) m := by
  unfold fill_mirrorNodes mirrorPeers
  dsimp only
  rw [List.foldl_append,
    ← foldl_skip_self (fun i => gridRowID p id * p.numColumnHosts + i) id (fillMirrorsOf p st),
    ← foldl_skip_self (fun i => i * p.numColumnHosts + gridColumnID p id) id
      (fillMirrorsOf p st)]

theorem mem_mirrorPeers (p : Cut) (hgrid : p.numRowHosts * p.numColumnHosts = p.numHosts)
    (id : Nat) (hid : id < p.numHosts) (k : Nat) :
    k ∈ mirrorPeers p id ↔
      k < p.numHosts ∧ k ≠ id ∧
        (k / p.numColumnHosts = id / p.numColumnHosts ∨
          k % p.numColumnHosts = id % p.numColumnHosts) := by
  have hC : 0 < p.numColumnHosts := by
    rcases Nat.eq_zero_or_pos p.numColumnHosts with h | h
    · rw [h] at hgrid; omega
    · exact h
  have hm : id % p.numColumnHosts < p.numColumnHosts := Nat.mod_lt _ hC
  unfold mirrorPeers gridRowID gridColumnID
  simp only [List.mem_append, List.mem_filter, List.mem_map, List.mem_range, bne_iff_ne, ne_eq]
  constructor
  · rintro (⟨⟨i, hi, rfl⟩, hne⟩ | ⟨⟨i, hi, rfl⟩, hne⟩)
    · refine ⟨div_mul_add_mod_lt _ _ _ id hgrid hid i hi, hne, Or.inl ?_⟩
      exact ((row_add_eq_iff p.numColumnHosts _ i _ hi).1 rfl).1.symm
    · refine ⟨?_, hne, Or.inr ?_⟩
      · rw [← hgrid]
        calc i * p.numColumnHosts + id % p.numColumnHosts
            < i * p.numColumnHosts + p.numColumnHosts := by omega
          _ = (i + 1) * p.numColumnHosts := by rw [Nat.add_mul, Nat.one_mul]
          _ ≤ p.numRowHosts * p.numColumnHosts := Nat.mul_le_mul_right _ hi
      · exact ((row_add_eq_iff p.numColumnHosts i _ _ hm).1 rfl).2.symm
  · rintro ⟨hk, hne, hrow | hcol⟩
    · refine Or.inl ⟨⟨k % p.numColumnHosts, Nat.mod_lt _ hC, ?_⟩, hne⟩
      rw [← hrow, Nat.mul_comm]
      exact Nat.div_add_mod k _
    · refine Or.inr ⟨⟨k / p.numColumnHosts, ?_, ?_⟩, hne⟩
      · rw [Nat.div_lt_iff_lt_mul hC, hgrid]; exact hk
      · rw [← hcol, Nat.mul_comm]
        exact Nat.div_add_mod k _

theorem mirrorPeers_nodup (p : Cut) (hgrid : p.numRowHosts * p.numColumnHosts = p.numHosts)
    (id : Nat) (hid : id < p.numHosts) : (mirrorPeers p id).Nodup := by
  have hC : 0 < p.numColumnHosts := by
    rcases Nat.eq_zero_or_pos p.numColumnHosts with h | h
    · rw [h] at hgrid; omega
    · exact h
  have hm : id % p.numColumnHosts < p.numColumnHosts := Nat.mod_lt _ hC
  unfold mirrorPeers gridRowID gridColumnID
  apply List.Nodup.append
  · apply List.Nodup.filter
    apply (List.nodup_range _).map
    intro a b hab
    dsimp only at hab
    omega
  · apply List.Nodup.filter
    apply (List.nodup_range _).map
    intro a b hab
    dsimp only at hab
    have := Nat.eq_of_mul_eq_mul_right hC (Nat.add_right_cancel hab)
    exact this
  · intro k h1 h2
    simp only [List.mem_filter, List.mem_map, List.mem_range, bne_iff_ne, ne_eq] at h1 h2
    obtain ⟨⟨i, hi, rfl⟩, hne⟩ := h1
    obtain ⟨⟨j, _, hj⟩, _⟩ := h2
    apply hne
    have h3 := (row_add_eq_iff p.numColumnHosts (id / p.numColumnHosts) i _ hi).1 rfl
    have h4 := (row_add_eq_iff p.numColumnHosts j _ _ hm).1 hj
    exact eq_of_div_mod_eq p.numColumnHosts _ _ h3.1.symm h4.2.symm

/-- The registry after `fill_mirrorNodes`, started from empty lists: the list
of a host visited by the two loops holds the keys of `globalToLocalMap` in the
range of that host; the other lists are empty. -/
theorem fill_mirrorNodes_getD (p : Cut) (hgrid : p.numRowHosts * p.numColumnHosts = p.numHosts)
    (id : Nat) (hid : id < p.numHosts) (st : LocalGraph) (k : Nat) :
    (fill_mirrorNodes p id st (emptyMirrorNodes p)).getD k [] =
      if k ∈ mirrorPeers p id then mirrorKeys p st k else [] := by
  rw [List.getD_eq_getElem?_getD, fill_mirrorNodes_eq, fillMirrors_foldl]
  unfold emptyMirrorNodes
  by_cases hk : k ∈ mirrorPeers p id
  · have hlt := ((mem_mirrorPeers p hgrid id hid k).1 hk).1
    rw [if_pos hk, List.count_eq_one_of_mem (mirrorPeers_nodup p hgrid id hid) hk,
      List.getElem?_replicate, if_pos hlt]
    simp
  · rw [if_neg hk, List.count_eq_zero_of_not_mem hk]
    rw [List.getElem?_replicate]
    by_cases hlt : k < p.numHosts
    · rw [if_pos hlt]; simp
    · rw [if_neg hlt]; rfl

theorem mirrorStep_foldl_length (st : LocalGraph) (h : Nat) :
    ∀ (xs : List Nat) (m : List (List Nat)), (xs.foldl (mirrorStep st h) m).length = m.length := by
  intro xs
  induction xs with
  | nil => intro m; rfl
  | cons x xs ih =>
    intro m
    rw [List.foldl_cons, ih]
    unfold mirrorStep
    split
    · exact List.length_modify _ _ _
    · rfl

theorem fill_mirrorNodes_length (p : Cut) (id : Nat) (st : LocalGraph) (m : List (List Nat)) :
    (fill_mirrorNodes p id st m).length = m.length := by
  rw [fill_mirrorNodes_eq]
  generalize mirrorPeers p id = hs
  induction hs generalizing m with
  | nil => rfl
  | cons h hs ih =>
    rw [List.foldl_cons, ih]
    exact mirrorStep_foldl_length st h _ m

/-! ## The registry after `fill_mirrorNodes` -/

theorem mem_mirrorKeys (p : Cut) (st : LocalGraph) (h gid : Nat) :
    gid ∈ mirrorKeys p st h ↔
      isOwned p h gid = true ∧ (st.globalToLocalMap gid).isSome = true := by
  unfold mirrorKeys
  rw [List.mem_filter, List.mem_range'_1, isOwned_iff]
  constructor
  · rintro ⟨⟨h1, h2⟩, h3⟩
    exact ⟨⟨h1, by omega⟩, h3⟩
  · rintro ⟨⟨h1, h2⟩, h3⟩
    exact ⟨⟨h1, by omega⟩, h3⟩

theorem mirrorKeys_nodup (p : Cut) (st : LocalGraph) (h : Nat) : (mirrorKeys p st h).Nodup :=
  (List.nodup_range' _ _).filter _

theorem mem_fill_mirrorNodes (p : Cut) (hgrid : p.numRowHosts * p.numColumnHosts = p.numHosts)
    (id : Nat) (hid : id < p.numHosts) (st : LocalGraph) (k gid : Nat) :
    gid ∈ (fill_mirrorNodes p id st (emptyMirrorNodes p)).getD k [] ↔
      k ∈ mirrorPeers p id ∧ isOwned p k gid = true ∧
        (st.globalToLocalMap gid).isSome = true := by
  rw [fill_mirrorNodes_getD p hgrid id hid]
  by_cases hk : k ∈ mirrorPeers p id
  · rw [if_pos hk, mem_mirrorKeys]
    exact ⟨fun h => ⟨hk, h⟩, fun h => h.2⟩
  · rw [if_neg hk]
    exact ⟨fun h => (by cases h), fun h => absurd h.1 hk⟩

theorem mem_flatten_iff_getD (L : List (List Nat)) (x : Nat) :
    x ∈ L.flatten ↔ ∃ k, x ∈ L.getD k [] := by
  rw [List.mem_flatten]
  constructor
  · rintro ⟨l, hl, hx⟩
    obtain ⟨k, hk, rfl⟩ := List.getElem_of_mem hl
    exact ⟨k, by rw [List.getD_eq_getElem _ _ hk]; exact hx⟩
  · rintro ⟨k, hx⟩
    by_cases hk : k < L.length
    · rw [List.getD_eq_getElem _ _ hk] at hx
      exact ⟨L[k], List.getElem_mem hk, hx⟩
    · rw [List.getD_eq_default _ _ (by omega)] at hx
      cases hx

theorem fill_mirrorNodes_nodup {p : Cut} (hv : ValidPartition p)
    (hgrid : p.numRowHosts * p.numColumnHosts = p.numHosts) (id : Nat) (hid : id < p.numHosts)
    (st : LocalGraph) : (fill_mirrorNodes p id st (emptyMirrorNodes p)).flatten.Nodup := by
  rw [List.nodup_flatten]
  constructor
  · intro l hl
    obtain ⟨k, hk, rfl⟩ := List.getElem_of_mem hl
    rw [← List.getD_eq_getElem _ [] hk, fill_mirrorNodes_getD p hgrid id hid]
    split
    · exact mirrorKeys_nodup p st k
    · exact List.nodup_nil
  · rw [List.pairwise_iff_getElem]
    intro i j hi hj hij x hx1 hx2
    rw [← List.getD_eq_getElem _ [] hi, mem_fill_mirrorNodes p hgrid id hid] at hx1
    rw [← List.getD_eq_getElem _ [] hj, mem_fill_mirrorNodes p hgrid id hid] at hx2
    have := hv.isOwned_unique i j x hx1.2.1 hx2.2.1
    omega

/-- C11: mirror symmetry.  For all hosts `A` and `B` and every global id
`gid`, if after `fill_mirrorNodes` on `A` the list `mirrorNodes[B]` contains
`gid`, then `B` is another host, `gid` lies in the owned range of `B` and not
in that of `A`, `gid` is local on `A`, and the list that `B` receives as
`masterNodes[A]` contains `gid`. -/
theorem mirror_symmetry (p : Cut) (g : FileGraph) (hp : Partitioned p g) (A : Nat)
    (hA : A < p.numHosts) :
    ∃ st mirrorNodes, loadStatistics p g A = some st ∧
      mirrorNodesOn p g A = some mirrorNodes ∧
      mirrorNodes = fill_mirrorNodes p A st (emptyMirrorNodes p) ∧
      ∀ B gid, gid ∈ mirrorNodes.getD B [] →
        B ≠ A ∧ B < p.numHosts ∧ isOwned p B gid = true ∧ isOwned p A gid = false ∧
          isLocal p A st gid = true ∧ gid ∈ (masterNodesOn p g B).getD A [] := by
  obtain ⟨st, hst, _⟩ := loadStatistics_basic p g hp.valid hp.grid A hA
  have hmir : mirrorNodesOn p g A = some (fill_mirrorNodes p A st (emptyMirrorNodes p)) := by
    unfold mirrorNodesOn; rw [hst]
  refine ⟨st, _, hst, hmir, rfl, ?_⟩
  intro B gid hmem
  have hmem' := hmem
  rw [mem_fill_mirrorNodes p hp.grid A hA] at hmem'
  obtain ⟨hpeer, hown, hkey⟩ := hmem'
  obtain ⟨hB, hne, _⟩ := (mem_mirrorPeers p hp.grid A hA B).1 hpeer
  refine ⟨hne, hB, hown, ?_, ?_, ?_⟩
  · cases hb : isOwned p A gid with
    | false => rfl
    | true => exact absurd (hp.valid.isOwned_unique B A gid hown hb) hne
  · unfold isLocal
    rw [hkey, Bool.or_true]
  · unfold masterNodesOn
    rw [List.getD_eq_getElem?_getD, List.getElem?_map, List.getElem?_range hA]
    simp only [Option.map_some', Option.getD_some, hmir]
    exact hmem

theorem mirror_symmetry_witness :
    ∃ st mirrorNodes, loadStatistics gridCut gridGraph 0 = some st ∧
      mirrorNodesOn gridCut gridGraph 0 = some mirrorNodes ∧
      mirrorNodes = fill_mirrorNodes gridCut 0 st (emptyMirrorNodes gridCut) ∧
      ∀ B gid, gid ∈ mirrorNodes.getD B [] →
        B ≠ 0 ∧ B < gridCut.numHosts ∧ isOwned gridCut B gid = true ∧
          isOwned gridCut 0 gid = false ∧ isLocal gridCut 0 st gid = true ∧
          gid ∈ (masterNodesOn gridCut gridGraph B).getD 0 [] :=
  mirror_symmetry gridCut gridGraph gridCut_wellFormed.toPartitioned 0 (by decide)

/-- A key of `globalToLocalMap` that the host does not own lies in the range
of a host visited by `fill_mirrorNodes`. -/
theorem peer_of_mirror {p : Cut} (hv : ValidPartition p)
    (hgrid : p.numRowHosts * p.numColumnHosts = p.numHosts) (g : FileGraph) (id : Nat)
    (hid : id < p.numHosts) (gid : Nat)
    (hmem : gid ∈ (rowCandidates p id).filter (keepRowNode p g id) ++
      (columnCandidates p id).filter (keepColumnNode p g id))
    (hno : isOwned p id gid = false) :
    ∃ k, k ∈ mirrorPeers p id ∧ isOwned p k gid = true := by
  have hne : ∀ k, isOwned p k gid = true → k ≠ id := by
    intro k hk e
    rw [e, hno] at hk
    cases hk
  rw [List.mem_append] at hmem
  rcases hmem with hm | hm
  · obtain ⟨B, hB, hrow, ho⟩ :=
      (mem_rowCandidates hv hgrid id hid gid).1 (List.mem_filter.1 hm).1
    exact ⟨B, (mem_mirrorPeers p hgrid id hid B).2 ⟨hB, hne B ho, Or.inl hrow⟩, ho⟩
  · obtain ⟨i, hi, _, ho⟩ := (mem_columnCandidates p id gid).1 (List.mem_filter.1 hm).1
    have hC : 0 < p.numColumnHosts := by
      rcases Nat.eq_zero_or_pos p.numColumnHosts with h | h
      · rw [h] at hgrid; have := hv.hosts_pos; omega
      · exact h
    refine ⟨_, (mem_mirrorPeers p hgrid id hid _).2 ⟨(hv.isOwned_lt _ gid ho).1, hne _ ho,
      Or.inr ?_⟩, ho⟩
    rw [Nat.mul_comm, Nat.mul_add_mod, Nat.mod_mod]

/-- The registry after `loadStatistics` and `fill_mirrorNodes`: its entries
are the keys of `globalToLocalMap` that the host does not own, each listed
once, and there are `numNodes - totalOwnedNodes` of them. -/
theorem mirror_registry_facts {p : Cut} {g : FileGraph} (wf : WellFormed p g) {id : Nat}
    (hid : id < p.numHosts) {st : LocalGraph} (hst : loadStatistics p g id = some st) :
    (∀ gid, (∃ h, gid ∈ (fill_mirrorNodes p id st (emptyMirrorNodes p)).getD h []) ↔
        ((∃ lid, st.globalToLocalMap gid = some lid) ∧ isOwned p id gid = false)) ∧
      (fill_mirrorNodes p id st (emptyMirrorNodes p)).flatten.Nodup ∧
      st.totalOwnedNodes ≤ st.numNodes ∧
      ((fill_mirrorNodes p id st (emptyMirrorNodes p)).map List.length).sum =
        st.numNodes - st.totalOwnedNodes := by
  obtain ⟨hc, hl, _, hto⟩ := loadStatistics_facts wf hid hst
  have hnd := fill_mirrorNodes_nodup wf.valid wf.grid id hid st
  have hiff : ∀ gid, (∃ h, gid ∈ (fill_mirrorNodes p id st (emptyMirrorNodes p)).getD h []) ↔
      ((∃ lid, st.globalToLocalMap gid = some lid) ∧ isOwned p id gid = false) := by
    intro gid
    constructor
    · rintro ⟨h, hmem⟩
      obtain ⟨hpeer, hown, hkey⟩ := (mem_fill_mirrorNodes p wf.grid id hid st h gid).1 hmem
      refine ⟨Option.isSome_iff_exists.1 hkey, ?_⟩
      cases hb : isOwned p id gid with
      | false => rfl
      | true =>
        exact absurd (wf.valid.isOwned_unique h id gid hown hb)
          ((mem_mirrorPeers p wf.grid id hid h).1 hpeer).2.1
    · rintro ⟨hkey, hno⟩
      have hmem := (hc.mem_iff gid).2 hkey
      rw [hl] at hmem
      obtain ⟨k, hk, ho⟩ := peer_of_mirror wf.valid wf.grid g id hid gid hmem hno
      exact ⟨k, (mem_fill_mirrorNodes p wf.grid id hid st k gid).2
        ⟨hk, ho, Option.isSome_iff_exists.2 hkey⟩⟩
  have hperm : ((fill_mirrorNodes p id st (emptyMirrorNodes p)).flatten ++
      List.range' (hostRange p id).1 (totalOwnedNodes p id)).Perm st.localToGlobalVector := by
    apply (List.perm_ext_iff_of_nodup ?_ hc.nodup).2
    · intro x
      rw [List.mem_append, mem_flatten_iff_getD, hiff x, hc.mem_iff, List.mem_range'_1,
        totalOwnedNodes]
      have hse := wf.valid.start_le_end id hid
      constructor
      · rintro (⟨hkey, _⟩ | hown)
        · exact hkey
        · have ho : isOwned p id x = true := (isOwned_iff _ _ _).2 ⟨hown.1, by omega⟩
          have := owned_mem_kept g wf.valid wf.grid id hid x ho
          exact (hc.mem_iff x).1 (by rw [hl]; exact List.mem_append_left _ this)
      · intro hkey
        cases hb : isOwned p id x with
        | false => exact Or.inl ⟨hkey, rfl⟩
        | true =>
          have := (isOwned_iff _ _ _).1 hb
          exact Or.inr ⟨this.1, by omega⟩
    · apply List.Nodup.append hnd (List.nodup_range' _ _)
      intro x hx1 hx2
      rw [mem_flatten_iff_getD, hiff x] at hx1
      rw [List.mem_range'_1, totalOwnedNodes] at hx2
      have hse := wf.valid.start_le_end id hid
      have ho : isOwned p id x = true := (isOwned_iff _ _ _).2 ⟨hx2.1, by omega⟩
      rw [hx1.2] at ho
      cases ho
  have hlen := hperm.length_eq
  rw [List.length_append, List.length_flatten, List.length_range', ← hc.numNodes_eq, ← hto]
    at hlen
  exact ⟨hiff, hnd, by omega, by omega⟩

/-- C12: starting from empty lists, after `fill_mirrorNodes` a global id
occurs in some `mirrorNodes[h]` if and only if it is a key of
`globalToLocalMap` and not owned; it then occurs exactly once in the
registry, in the list of `h = getHostID(gid)`; and the total length of the
lists is `numNodes - totalOwnedNodes`. -/
theorem fill_mirrorNodes_exact (p : Cut) (g : FileGraph) (wf : WellFormed p g) (id : Nat)
    (hid : id < p.numHosts) :
    ∃ st, loadStatistics p g id = some st ∧
      (∀ gid, (∃ h, gid ∈ (fill_mirrorNodes p id st (emptyMirrorNodes p)).getD h []) ↔
        ((∃ lid, st.globalToLocalMap gid = some lid) ∧ isOwned p id gid = false)) ∧
      (∀ gid h, gid ∈ (fill_mirrorNodes p id st (emptyMirrorNodes p)).getD h [] →
        h = getHostID p gid ∧
          (fill_mirrorNodes p id st (emptyMirrorNodes p)).flatten.count gid = 1) ∧
      st.totalOwnedNodes ≤ st.numNodes ∧
      ((fill_mirrorNodes p id st (emptyMirrorNodes p)).map List.length).sum =
        st.numNodes - st.totalOwnedNodes := by
  obtain ⟨st, hst, _⟩ := loadStatistics_spec p g wf id hid
  obtain ⟨hiff, hnd, hle, hsum⟩ := mirror_registry_facts wf hid hst
  refine ⟨st, hst, hiff, ?_, hle, hsum⟩
  intro gid h hmem
  obtain ⟨_, hown, _⟩ := (mem_fill_mirrorNodes p wf.grid id hid st h gid).1 hmem
  exact ⟨(wf.valid.getHostID_eq h gid hown).symm,
    List.count_eq_one_of_mem hnd ((mem_flatten_iff_getD _ _).2 ⟨h, hmem⟩)⟩

theorem fill_mirrorNodes_exact_witness :
    ∃ st, loadStatistics gridCut gridGraph 1 = some st ∧
      (∀ gid, (∃ h, gid ∈ (fill_mirrorNodes gridCut 1 st (emptyMirrorNodes gridCut)).getD h []) ↔
        ((∃ lid, st.globalToLocalMap gid = some lid) ∧ isOwned gridCut 1 gid = false)) ∧
      (∀ gid h, gid ∈ (fill_mirrorNodes gridCut 1 st (emptyMirrorNodes gridCut)).getD h [] →
        h = getHostID gridCut gid ∧
          (fill_mirrorNodes gridCut 1 st (emptyMirrorNodes gridCut)).flatten.count gid = 1) ∧
      st.totalOwnedNodes ≤ st.numNodes ∧
      ((fill_mirrorNodes gridCut 1 st (emptyMirrorNodes gridCut)).map List.length).sum =
        st.numNodes - st.totalOwnedNodes :=
  fill_mirrorNodes_exact gridCut gridGraph gridCut_wellFormed 1 (by decide)

/-! ## Degenerate grids -/

theorem factorize_hosts_one : factorize_hosts 1 = .ok (1, 1) := by
  have h : Nat.sqrt 1 = 1 := Nat.sqrt_eq 1
  simp [factorize_hosts, h, factorizeLoop]

theorem lists_empty_iff (L : List (List Nat)) :
    (∀ h, L.getD h [] = []) ↔ ∀ x, ¬ ∃ h, x ∈ L.getD h [] := by
  constructor
  · rintro h x ⟨k, hk⟩
    rw [h k] at hk
    cases hk
  · intro h k
    apply List.eq_nil_iff_forall_not_mem.2
    intro x hx
    exact h x ⟨k, hx⟩

theorem sum_length_eq_zero (L : List (List Nat)) (h : ∀ k, L.getD k [] = []) :
    (L.map List.length).sum = 0 := by
  rw [← List.length_flatten]
  apply List.length_eq_zero.2
  apply List.eq_nil_iff_forall_not_mem.2
  intro x hx
  obtain ⟨k, hk⟩ := (mem_flatten_iff_getD L x).1 hx
  rw [h k] at hk
  cases hk

/-- The registry is empty and every local node is owned exactly when no
global id is listed. -/
theorem no_mirrors_iff {p : Cut} {g : FileGraph} (wf : WellFormed p g) {id : Nat}
    (hid : id < p.numHosts) {st : LocalGraph} (hst : loadStatistics p g id = some st) :
    ((∀ h, (fill_mirrorNodes p id st (emptyMirrorNodes p)).getD h [] = []) ∧
        st.numNodes = st.totalOwnedNodes) ↔
      ∀ gid, ¬ ∃ h, gid ∈ (fill_mirrorNodes p id st (emptyMirrorNodes p)).getD h [] := by
  obtain ⟨_, _, hle, hsum⟩ := mirror_registry_facts wf hid hst
  constructor
  · rintro ⟨h, _⟩
    exact (lists_empty_iff _).1 h
  · intro h
    have hempty := (lists_empty_iff _).2 h
    have := sum_length_eq_zero _ hempty
    exact ⟨hempty, by omega⟩

/-- The entries of the registry in terms of the graph: a node of the caller's
grid row with an edge into its column, or a node of its grid column with an
edge from its row. -/
theorem mirror_entries_iff {p : Cut} {g : FileGraph} (wf : WellFormed p g) {id : Nat}
    (hid : id < p.numHosts) {st : LocalGraph} (hst : loadStatistics p g id = some st)
    (gid : Nat) :
    (∃ h, gid ∈ (fill_mirrorNodes p id st (emptyMirrorNodes p)).getD h []) ↔
      isOwned p id gid = false ∧
        ((gid ∈ rowCandidates p id ∧
            ∃ d, d ∈ g.outEdges gid ∧ getColumnHostID p d = id % p.numColumnHosts) ∨
          (gid ∈ columnCandidates p id ∧
            ∃ src, src ∈ rowCandidates p id ∧ gid ∈ g.outEdges src)) := by
  have hC := wf.cols_pos
  obtain ⟨hc, hl, _, _⟩ := loadStatistics_facts wf hid hst
  obtain ⟨hiff, _, _, _⟩ := mirror_registry_facts wf hid hst
  have hcolkeep : ∀ x, x ∈ columnCandidates p id →
      (keepColumnNode p g id x = true ↔ ∃ src, src ∈ rowCandidates p id ∧ x ∈ g.outEdges src) := by
    intro x hx
    obtain ⟨i, _, _, ho⟩ := (mem_columnCandidates p id x).1 hx
    have hm : id % p.numColumnHosts < p.numColumnHosts := Nat.mod_lt _ hC
    have hcol : getColumnHostID p x = id % p.numColumnHosts := by
      rw [getColumnHostID_eq wf.valid _ x ho, Nat.mul_comm, Nat.mul_add_mod,
        Nat.mod_eq_of_lt hm]
    exact wf.keepColumnNode_iff id hid x (wf.valid.isOwned_lt _ x ho).2 hcol
  rw [hiff gid, ← hc.mem_iff gid, hl, List.mem_append, List.mem_filter, List.mem_filter,
    keepRowNode_iff]
  constructor
  · rintro ⟨hkey | hkey, hno⟩
    · rcases hkey.2 with hd | ho
      · exact ⟨hno, Or.inl ⟨hkey.1, hd⟩⟩
      · rw [hno] at ho; cases ho
    · exact ⟨hno, Or.inr ⟨hkey.1, (hcolkeep gid hkey.1).1 hkey.2⟩⟩
  · rintro ⟨hno, ⟨hrow, hd⟩ | ⟨hcolm, hsrc⟩⟩
    · exact ⟨Or.inl ⟨hrow, Or.inl hd⟩, hno⟩
    · exact ⟨Or.inr ⟨hcolm, (hcolkeep gid hcolm).2 hsrc⟩, hno⟩

theorem is_vertex_cut_false_iff (p : Cut) :
    is_vertex_cut p = false ↔ p.numRowHosts = 1 ∨ p.numColumnHosts = 1 := by
  unfold is_vertex_cut
  by_cases h : (p.numRowHosts == 1 || p.numColumnHosts == 1) = true
  · rw [if_pos h]
    simpa using h
  · rw [if_neg h]
    simp only [Bool.or_eq_true, beq_iff_eq] at h
    simp [h]

/-- With one column, the grid row of a host is the host itself. -/
theorem rowCandidates_one_column {p : Cut} {g : FileGraph} (wf : WellFormed p g) (id : Nat)
    (hid : id < p.numHosts) (hC : p.numColumnHosts = 1) (x : Nat) :
    x ∈ rowCandidates p id ↔ isOwned p id x = true := by
  rw [mem_rowCandidates wf.valid wf.grid id hid, hC]
  constructor
  · rintro ⟨B, _, hB, ho⟩
    rw [Nat.div_one, Nat.div_one] at hB
    rw [← hB]; exact ho
  · intro ho
    exact ⟨id, hid, rfl, ho⟩

/-- With one column, the grid column of a host is the set of all hosts. -/
theorem columnCandidates_one_column {p : Cut} {g : FileGraph} (wf : WellFormed p g) (id : Nat)
    (hC : p.numColumnHosts = 1) (x : Nat) :
    x ∈ columnCandidates p id ↔ x < p.totalNodes ∧ isOwned p id x = false := by
  have hgrid := wf.grid
  rw [hC, Nat.mul_one] at hgrid
  rw [mem_columnCandidates, hC]
  simp only [Nat.mul_one, Nat.mod_one, Nat.add_zero]
  constructor
  · rintro ⟨i, _, hne, ho⟩
    refine ⟨(wf.valid.isOwned_lt i x ho).2, ?_⟩
    cases hb : isOwned p id x with
    | false => rfl
    | true => exact absurd (wf.valid.isOwned_unique i id x ho hb) hne
  · rintro ⟨hx, hno⟩
    obtain ⟨h, hh, ho⟩ := wf.valid.exists_owner x hx
    refine ⟨h, by omega, ?_, ho⟩
    intro e
    rw [e, hno] at ho
    cases ho

/-- With one row, the grid row of a host is the set of all hosts and its grid
column is the host itself. -/
theorem candidates_one_row {p : Cut} {g : FileGraph} (wf : WellFormed p g) (id : Nat)
    (hid : id < p.numHosts) (hR : p.numRowHosts = 1) (x : Nat) :
    (x ∈ rowCandidates p id ↔ x < p.totalNodes) ∧ x ∉ columnCandidates p id := by
  have hgrid := wf.grid
  rw [hR, Nat.one_mul] at hgrid
  constructor
  · rw [mem_rowCandidates wf.valid wf.grid id hid]
    constructor
    · rintro ⟨B, _, _, ho⟩
      exact (wf.valid.isOwned_lt B x ho).2
    · intro hx
      obtain ⟨h, hh, ho⟩ := wf.valid.exists_owner x hx
      refine ⟨h, hh, ?_, ho⟩
      rw [Nat.div_eq_of_lt (by omega), Nat.div_eq_of_lt (by omega)]
  · rw [mem_columnCandidates]
    rintro ⟨i, hi, hne, _⟩
    rw [hR] at hi
    have hi0 : i = 0 := by omega
    apply hne
    rw [hi0, Nat.zero_mul, Nat.zero_add]
    exact Nat.mod_eq_of_lt (by omega)

/-- The non-owned global ids that an edge cut makes local: the destinations of
the edges of the owned nodes when there is one column, the sources of the
edges into the owned nodes when there is one row. -/
theorem edge_cut_entries {p : Cut} {g : FileGraph} (wf : WellFormed p g) {id : Nat}
    (hid : id < p.numHosts) (hcut : is_vertex_cut p = false) {st : LocalGraph}
    (hst : loadStatistics p g id = some st) (gid : Nat) :
    (∃ h, gid ∈ (fill_mirrorNodes p id st (emptyMirrorNodes p)).getD h []) ↔
      gid < p.totalNodes ∧ isOwned p id gid = false ∧
        ((p.numColumnHosts = 1 ∧ ∃ s, isOwned p id s = true ∧ gid ∈ g.outEdges s) ∨
          (p.numRowHosts = 1 ∧ ∃ d, isOwned p id d = true ∧ d ∈ g.outEdges gid)) := by
  rw [mirror_entries_iff wf hid hst gid]
  have hgrid := wf.grid
  have hone : ∀ d, p.numRowHosts = 1 → d < p.totalNodes →
      (getColumnHostID p d = id % p.numColumnHosts ↔ isOwned p id d = true) := by
    intro d hR hd
    rw [hR, Nat.one_mul] at hgrid
    obtain ⟨h1, h2⟩ := wf.valid.isOwned_getHostID d hd
    rw [getColumnHostID_eq wf.valid _ d h2, Nat.mod_eq_of_lt (by omega),
      Nat.mod_eq_of_lt (by omega)]
    constructor
    · intro e; rw [← e]; exact h2
    · intro ho; exact wf.valid.isOwned_unique _ _ d h2 ho
  constructor
  · rintro ⟨hno, ⟨hrow, d, hd, hcol⟩ | ⟨hcolm, src, hsrc, hmem⟩⟩
    · have hlt := wf.rowCandidates_lt id gid hrow
      rcases (is_vertex_cut_false_iff p).1 hcut with hR | hC
      · exact ⟨hlt, hno, Or.inr ⟨hR, d,
          (hone d hR (wf.dst_lt gid hlt d hd)).1 hcol, hd⟩⟩
      · rw [(rowCandidates_one_column wf id hid hC gid).1 hrow] at hno
        cases hno
    · have hlt := wf.columnCandidates_lt id gid hcolm
      rcases (is_vertex_cut_false_iff p).1 hcut with hR | hC
      · exact absurd hcolm (candidates_one_row wf id hid hR gid).2
      · exact ⟨hlt, hno, Or.inl ⟨hC, src, (rowCandidates_one_column wf id hid hC src).1 hsrc,
          hmem⟩⟩
  · rintro ⟨hlt, hno, ⟨hC, s, hs, hmem⟩ | ⟨hR, d, hd, hmem⟩⟩
    · exact ⟨hno, Or.inr ⟨(columnCandidates_one_column wf id hC gid).2 ⟨hlt, hno⟩, s,
        (rowCandidates_one_column wf id hid hC s).2 hs, hmem⟩⟩
    · exact ⟨hno, Or.inl ⟨((candidates_one_row wf id hid hR gid).1).2 hlt, d, hmem,
        (hone d hR (wf.dst_lt gid hlt d hmem)).2 hd⟩⟩

/-- C13: for host count 1 and every input graph, the grid is `1 x 1`,
`is_vertex_cut()` is false, every global id is owned by host 0 and is local
(`numNodes = totalNodes = totalOwnedNodes`), every `mirrorNodes` list is
empty, and `numEdges` is the number of edges of the graph. -/
theorem single_host_partition (p : Cut) (g : FileGraph) (wf : WellFormed p g)
    (hN : p.numHosts = 1) :
    factorize_hosts 1 = .ok (1, 1) ∧ p.numRowHosts = 1 ∧ p.numColumnHosts = 1 ∧
      is_vertex_cut p = false ∧
      ∃ st, loadStatistics p g 0 = some st ∧
        (∀ gid, gid < p.totalNodes → isOwned p 0 gid = true ∧ isLocal p 0 st gid = true) ∧
        st.numNodes = p.totalNodes ∧ st.totalOwnedNodes = p.totalNodes ∧
        (∀ h, (fill_mirrorNodes p 0 st (emptyMirrorNodes p)).getD h [] = []) ∧
        st.numEdges = ((List.range p.totalNodes).map fun n => (g.outEdges n).length).sum ∧
        ((∀ n, n + 1 < p.totalNodes → g.edge_end n ≤ g.edge_end (n + 1)) →
          st.numEdges = g.sizeEdges p.totalNodes) := by
  have hgrid := wf.grid
  rw [hN] at hgrid
  have hR : p.numRowHosts = 1 := Nat.eq_one_of_mul_eq_one_right hgrid
  have hC : p.numColumnHosts = 1 := Nat.eq_one_of_mul_eq_one_left hgrid
  have hid : 0 < p.numHosts := by omega
  have hcut : is_vertex_cut p = false := (is_vertex_cut_false_iff p).2 (Or.inl hR)
  have hown : ∀ gid, gid < p.totalNodes → isOwned p 0 gid = true := by
    intro gid hlt
    obtain ⟨h, hh, ho⟩ := wf.valid.exists_owner gid hlt
    have : h = 0 := by omega
    rw [← this]; exact ho
  have hrange : (hostRange p 0).1 = 0 ∧ (hostRange p 0).2 = p.totalNodes := by
    have h1 := wf.valid.first_start
    have h2 := wf.valid.last_end
    rw [hN] at h2
    exact ⟨h1, h2⟩
  obtain ⟨st, hst, hc, hl, _, hto⟩ := loadStatistics_spec p g wf 0 hid
  obtain ⟨st', hst', _, _, hnum⟩ := loadStatistics_basic p g wf.valid wf.grid 0 hid
  have est : st' = st := Option.some.inj (hst'.symm.trans hst)
  subst est
  have hnone : ∀ gid, ¬ ∃ h, gid ∈ (fill_mirrorNodes p 0 st' (emptyMirrorNodes p)).getD h [] := by
    intro gid hex
    obtain ⟨hlt, hno, _⟩ := (edge_cut_entries wf hid hcut hst gid).1 hex
    rw [hown gid hlt] at hno
    cases hno
  obtain ⟨hempty, hnodes⟩ := (no_mirrors_iff wf hid hst).2 hnone
  have htot : st'.totalOwnedNodes = p.totalNodes := by
    rw [hto, totalOwnedNodes, hrange.1, hrange.2, Nat.sub_zero]
  have hedges : st'.numEdges =
      ((List.range p.totalNodes).map fun n => (g.outEdges n).length).sum := by
    rw [hnum]
    have hcand : rowCandidates p 0 = List.range p.totalNodes := by
      unfold rowCandidates
      rw [hC, Nat.div_one, Nat.zero_mul, Nat.zero_add, wf.valid.blockStart_eq 0 hid,
        wf.valid.blockStart_succ 0 hid, hrange.1, hrange.2, Nat.sub_zero, List.range_eq_range']
    rw [hcand]
    apply congrArg List.sum
    apply List.map_congr_left
    intro n _
    unfold outCount
    rw [List.countP_eq_length]
    intro d _
    simp [getColumnHostID, getColumnHostIDOfBlock, hC, Nat.mod_one]
  refine ⟨factorize_hosts_one, hR, hC, hcut, st', hst, ?_, by omega, htot, hempty, hedges, ?_⟩
  · intro gid hlt
    refine ⟨hown gid hlt, ?_⟩
    unfold isLocal
    rw [hown gid hlt, Bool.true_or]
  · intro hmono
    rw [hedges]
    exact sum_degrees_eq_sizeEdges g _ hmono

theorem soloCut_wellFormed : WellFormed soloCut pathGraph where
  valid :=
    { hosts_pos := by decide
      length_eq := by decide
      first_start := by decide
      start_le_end := by decide
      contiguous := by
        intro h hh
        change h + 1 < 1 at hh
        omega
      last_end := by decide }
  grid := by decide
  nodes_lt := by decide
  dst_lt := by decide

theorem single_host_partition_witness :
    factorize_hosts 1 = .ok (1, 1) ∧ soloCut.numRowHosts = 1 ∧ soloCut.numColumnHosts = 1 ∧
      is_vertex_cut soloCut = false ∧
      ∃ st, loadStatistics soloCut pathGraph 0 = some st ∧
        (∀ gid, gid < soloCut.totalNodes →
          isOwned soloCut 0 gid = true ∧ isLocal soloCut 0 st gid = true) ∧
        st.numNodes = soloCut.totalNodes ∧ st.totalOwnedNodes = soloCut.totalNodes ∧
        (∀ h, (fill_mirrorNodes soloCut 0 st (emptyMirrorNodes soloCut)).getD h [] = []) ∧
        st.numEdges =
          ((List.range soloCut.totalNodes).map fun n => (pathGraph.outEdges n).length).sum ∧
        ((∀ n, n + 1 < soloCut.totalNodes → pathGraph.edge_end n ≤ pathGraph.edge_end (n + 1)) →
          st.numEdges = pathGraph.sizeEdges soloCut.totalNodes) :=
  single_host_partition soloCut pathGraph soloCut_wellFormed rfl

/-! ## The constructor on the example -/

/-- On the `2 x 2` example the constructor called with `transpose = false`
returns a partitioned graph on host 0, with the owned nodes at the local ids
`0` and `1` and global id 4 as the one mirror. -/
theorem construct_gridCut :
    (construct (fun _ _ _ _ => [(0, 2), (2, 4), (4, 6), (6, 8)]) gridGraph 8 0 4 [] false).toOption.map
        (fun part => (part.beginMaster, part.endMaster, part.mirrorNodes)) =
      some (0, 2, [[], [], [4], []]) := by
  unfold construct
  rw [if_neg (by decide), factorize_hosts_four]
  decide

/-! ## The branch marked `should be owned` -/

theorem createIf_foldl_inconsistent (keep : Nat → Bool) (w : Nat → Nat) :
    ∀ (xs : List Nat) (st : LocalGraph),
      (xs.foldl (createIf keep w) st).inconsistent = st.inconsistent := by
  intro xs
  induction xs with
  | nil => intro st; rfl
  | cons x xs ih =>
    intro st
    rw [List.foldl_cons, ih]
    unfold createIf
    split <;> rfl

/-- A node of the caller's grid row whose column host is the caller's column
is owned by the caller. -/
theorem owned_of_row_and_column {p : Cut} (hv : ValidPartition p)
    (hgrid : p.numRowHosts * p.numColumnHosts = p.numHosts) (id : Nat) (hid : id < p.numHosts)
    (src : Nat) (hsrc : src ∈ rowCandidates p id)
    (hcol : gridColumnID p id = getColumnHostID p src) : isOwned p id src = true := by
  obtain ⟨B, _, hrow, ho⟩ := (mem_rowCandidates hv hgrid id hid src).1 hsrc
  rw [getColumnHostID_eq hv B src ho] at hcol
  have e : B = id := eq_of_div_mod_eq p.numColumnHosts B id hrow hcol.symm
  rw [← e]; exact ho

/-- C26: under the invariant of `gid2host`, for every global id `src` walked
by the first node-creation loop, `gridColumnID() == getColumnHostID(src)`
implies `isOwned(src)`; so an iteration of that loop never takes the branch
marked `should be owned`, whatever the counter and the bitset hold, and
`loadStatistics` returns without having force-created a node. -/
theorem inconsistency_branch_unreachable (p : Cut) (g : FileGraph) (hv : ValidPartition p)
    (hgrid : p.numRowHosts * p.numColumnHosts = p.numHosts) (id : Nat) (hid : id < p.numHosts) :
    (∀ src, src ∈ rowCandidates p id → gridColumnID p id = getColumnHostID p src →
        isOwned p id src = true) ∧
      (∀ src, src ∈ rowCandidates p id → ∀ (hasIn0 : List Bool) (st : LocalGraph) (n : Nat),
        (rowNodeStep p id hasIn0 (st, src) n).1.inconsistent = st.inconsistent) ∧
      ∃ st, loadStatistics p g id = some st ∧ st.inconsistent = false := by
  refine ⟨owned_of_row_and_column hv hgrid id hid, ?_, ?_⟩
  · intro src hsrc hasIn0 st n
    unfold rowNodeStep
    dsimp only
    by_cases hn : n > 0
    · rw [if_pos hn]; rfl
    · rw [if_neg hn]
      by_cases ho : isOwned p id src = true
      · rw [if_pos ho]; rfl
      · rw [if_neg ho]
        by_cases hc : (gridColumnID p id == getColumnHostID p src
            && hasIn0.getD (getColumnIndex p src) false) = true
        · exfalso
          rw [Bool.and_eq_true, beq_iff_eq] at hc
          exact ho (owned_of_row_and_column hv hgrid id hid src hsrc hc.1)
        · rw [if_neg hc]
  · refine ⟨_, loadStatistics_closed p g hv hgrid id hid, ?_⟩
    rw [createIf_foldl_inconsistent]
    show ((rowCandidates p id).foldl _ (emptyLocalGraph p id)).inconsistent = false
    rw [createIf_foldl_inconsistent]
    rfl

theorem inconsistency_branch_unreachable_witness :
    (∀ src, src ∈ rowCandidates gridCut 3 → gridColumnID gridCut 3 = getColumnHostID gridCut src →
        isOwned gridCut 3 src = true) ∧
      (∀ src, src ∈ rowCandidates gridCut 3 → ∀ (hasIn0 : List Bool) (st : LocalGraph) (n : Nat),
        (rowNodeStep gridCut 3 hasIn0 (st, src) n).1.inconsistent = st.inconsistent) ∧
      ∃ st, loadStatistics gridCut gridGraph 3 = some st ∧ st.inconsistent = false :=
  inconsistency_branch_unreachable gridCut gridGraph gridCut_valid (by decide) 3 (by decide)

/-! ## Partners for `writeAny` -/

/-- C28: after `fill_mirrorNodes` started from empty lists, `mirrorNodes[h]`
is non-empty only for a host `h` other than the caller that shares its grid
row or its grid column; so `nothingToSend` for a reduce never fails the
assertion of `isNotCommunicationPartner`, and for `writeAny` it is false
exactly when `mirrorNodes[h]` is non-empty. -/
theorem mirrors_on_grid_lines (p : Cut) (hgrid : p.numRowHosts * p.numColumnHosts = p.numHosts)
    (id : Nat) (hid : id < p.numHosts) (st : LocalGraph) (masterNodes : List (List Nat))
    (h : Nat) (w : WriteLocation) (r : ReadLocation) :
    ((fill_mirrorNodes p id st (emptyMirrorNodes p)).getD h [] ≠ [] →
        h ≠ id ∧ h < p.numHosts ∧
          (gridRowID p h = gridRowID p id ∨ gridColumnID p h = gridColumnID p id)) ∧
      (∃ b, nothingToSend p id (fill_mirrorNodes p id st (emptyMirrorNodes p)) masterNodes h
        .syncReduce w r = .ok b) ∧
      (nothingToSend p id (fill_mirrorNodes p id st (emptyMirrorNodes p)) masterNodes h
          .syncReduce .writeAny r = .ok false ↔
        (fill_mirrorNodes p id st (emptyMirrorNodes p)).getD h [] ≠ []) ∧
      (nothingToSend p id (fill_mirrorNodes p id st (emptyMirrorNodes p)) masterNodes h
          .syncReduce .writeAny r = .ok true ↔
        (fill_mirrorNodes p id st (emptyMirrorNodes p)).getD h [] = []) := by
  have hline : (fill_mirrorNodes p id st (emptyMirrorNodes p)).getD h [] ≠ [] →
      h ≠ id ∧ h < p.numHosts ∧
        (gridRowID p h = gridRowID p id ∨ gridColumnID p h = gridColumnID p id) := by
    intro hne
    rw [fill_mirrorNodes_getD p hgrid id hid] at hne
    by_cases hk : h ∈ mirrorPeers p id
    · obtain ⟨h1, h2, h3⟩ := (mem_mirrorPeers p hgrid id hid h).1 hk
      exact ⟨h2, h1, h3⟩
    · rw [if_neg hk] at hne
      exact absurd rfl hne
  have hany : (fill_mirrorNodes p id st (emptyMirrorNodes p)).getD h [] ≠ [] →
      isNotCommunicationPartner p id h .syncReduce .writeAny r = .ok false := by
    intro hne
    obtain ⟨_, _, hl⟩ := hline hne
    unfold isNotCommunicationPartner
    dsimp only
    rcases hl with hl | hl
    · simp [hl]
    · simp [hl]
  have hsend : ∀ w', nothingToSend p id (fill_mirrorNodes p id st (emptyMirrorNodes p))
      masterNodes h .syncReduce w' r =
      if (fill_mirrorNodes p id st (emptyMirrorNodes p)).getD h [] ≠ [] then
        isNotCommunicationPartner p id h .syncReduce w' r
      else .ok true := by
    intro w'
    unfold nothingToSend
    simp only [if_true, gt_iff_lt, List.length_pos]
  refine ⟨hline, ?_, ?_, ?_⟩
  · rw [hsend]
    by_cases hne : (fill_mirrorNodes p id st (emptyMirrorNodes p)).getD h [] ≠ []
    · rw [if_pos hne]
      cases w with
      | writeSource => exact ⟨_, rfl⟩
      | writeDestination => exact ⟨_, rfl⟩
      | writeAny => exact ⟨false, hany hne⟩
    · rw [if_neg hne]; exact ⟨true, rfl⟩
  · rw [hsend]
    by_cases hne : (fill_mirrorNodes p id st (emptyMirrorNodes p)).getD h [] ≠ []
    · rw [if_pos hne, hany hne]
      exact ⟨fun _ => hne, fun _ => rfl⟩
    · rw [if_neg hne]
      exact ⟨fun e => (by cases e), fun e => absurd e hne⟩
  · rw [hsend]
    by_cases hne : (fill_mirrorNodes p id st (emptyMirrorNodes p)).getD h [] ≠ []
    · rw [if_pos hne, hany hne]
      exact ⟨fun e => (by cases e), fun e => absurd e hne⟩
    · rw [if_neg hne]
      exact ⟨fun _ => not_not.1 hne, fun _ => rfl⟩

theorem mirrors_on_grid_lines_witness :
    ((fill_mirrorNodes gridCut 0
          ((loadStatistics gridCut gridGraph 0).getD (emptyLocalGraph gridCut 0))
          (emptyMirrorNodes gridCut)).getD 2 [] ≠ [] →
        2 ≠ 0 ∧ 2 < gridCut.numHosts ∧
          (gridRowID gridCut 2 = gridRowID gridCut 0 ∨
            gridColumnID gridCut 2 = gridColumnID gridCut 0)) ∧
      (∃ b, nothingToSend gridCut 0
        (fill_mirrorNodes gridCut 0
          ((loadStatistics gridCut gridGraph 0).getD (emptyLocalGraph gridCut 0))
          (emptyMirrorNodes gridCut)) [] 2 .syncReduce .writeAny .readAny = .ok b) ∧
      (nothingToSend gridCut 0
          (fill_mirrorNodes gridCut 0
            ((loadStatistics gridCut gridGraph 0).getD (emptyLocalGraph gridCut 0))
            (emptyMirrorNodes gridCut)) [] 2 .syncReduce .writeAny .readAny = .ok false ↔
        (fill_mirrorNodes gridCut 0
          ((loadStatistics gridCut gridGraph 0).getD (emptyLocalGraph gridCut 0))
          (emptyMirrorNodes gridCut)).getD 2 [] ≠ []) ∧
      (nothingToSend gridCut 0
          (fill_mirrorNodes gridCut 0
            ((loadStatistics gridCut gridGraph 0).getD (emptyLocalGraph gridCut 0))
            (emptyMirrorNodes gridCut)) [] 2 .syncReduce .writeAny .readAny = .ok true ↔
        (fill_mirrorNodes gridCut 0
          ((loadStatistics gridCut gridGraph 0).getD (emptyLocalGraph gridCut 0))
          (emptyMirrorNodes gridCut)).getD 2 [] = []) :=
  mirrors_on_grid_lines gridCut (by decide) 0 (by decide)
    ((loadStatistics gridCut gridGraph 0).getD (emptyLocalGraph gridCut 0)) [] 2
    .writeAny .readAny

/-! ## Vertex cuts and composite host counts -/

/-- C29: for every host count `N ≥ 1`, `is_vertex_cut()` on the grid produced
by `factorize_hosts` is true if and only if `N` has a divisor `d` with
`1 < d < N`; it is false exactly for `N = 1` and for prime `N`. -/
theorem is_vertex_cut_iff_composite (N : Nat) (hN : 1 ≤ N) :
    ∃ rows cols, factorize_hosts N = .ok (rows, cols) ∧
      ∀ p : Cut, p.numRowHosts = rows → p.numColumnHosts = cols →
        (is_vertex_cut p = true ↔ ∃ d, 1 < d ∧ d < N ∧ d ∣ N) ∧
        (is_vertex_cut p = false ↔ (N = 1 ∨ Nat.Prime N)) := by
  obtain ⟨c, hc, hc1, hdvd, hsq, hmax⟩ := factorize_hosts_spec N hN
  have hcomp : (c ≠ 1) ↔ ∃ d, 1 < d ∧ d < N ∧ d ∣ N := by
    constructor
    · intro hne
      have h2 : 2 ≤ c := by omega
      refine ⟨c, by omega, ?_, hdvd⟩
      have : c * 2 ≤ c * c := Nat.mul_le_mul_left c h2
      omega
    · rintro ⟨d, hd1, hdN, e, he⟩ hc'
      have he1 : 1 < e := by
        rcases Nat.lt_or_ge 1 e with h | h
        · exact h
        · interval_cases e
          · omega
          · omega
      rcases Nat.le_total d e with hle | hle
      · have hdd : d * d ≤ N := by rw [he]; exact Nat.mul_le_mul_left d hle
        have := hmax d ⟨e, he⟩ hdd
        omega
      · have hee : e * e ≤ N := by rw [he]; exact Nat.mul_le_mul_right e hle
        have := hmax e ⟨d, by rw [he, Nat.mul_comm]⟩ hee
        omega
  have hrows : c ≠ 1 → N / c ≠ 1 := by
    intro hne hr
    obtain ⟨e, he⟩ := hdvd
    have hcpos : 0 < c := by omega
    rw [he, Nat.mul_div_cancel_left e hcpos] at hr
    rw [hr, Nat.mul_one] at he
    rw [he] at hsq
    have h2 : 2 ≤ c := by omega
    have : c * 2 ≤ c * c := Nat.mul_le_mul_left c h2
    omega
  have hprime : (¬ ∃ d, 1 < d ∧ d < N ∧ d ∣ N) ↔ (N = 1 ∨ Nat.Prime N) := by
    constructor
    · intro h
      by_cases h1 : N = 1
      · exact Or.inl h1
      · refine Or.inr (Nat.prime_def_lt.2 ⟨by omega, fun m hm hd => ?_⟩)
        by_contra hm1
        have hm0 : m ≠ 0 := by
          intro e; rw [e] at hd
          have := Nat.eq_zero_of_zero_dvd hd
          omega
        exact h ⟨m, by omega, hm, hd⟩
    · rintro (h1 | hp) ⟨d, hd1, hdN, hd⟩
      · omega
      · have := (Nat.prime_def_lt.1 hp).2 d hdN hd
        omega
  refine ⟨N / c, c, hc, fun p hR hC => ?_⟩
  have htrue : is_vertex_cut p = true ↔ c ≠ 1 := by
    unfold is_vertex_cut
    rw [hR, hC]
    by_cases h1 : c = 1
    · simp [h1]
    · have := hrows h1
      simp [h1, this]
  constructor
  · rw [htrue, hcomp]
  · rw [← hprime, ← hcomp, ← htrue]
    cases is_vertex_cut p <;> simp

theorem is_vertex_cut_iff_composite_witness :
    ∃ rows cols, factorize_hosts 4 = .ok (rows, cols) ∧
      ∀ p : Cut, p.numRowHosts = rows → p.numColumnHosts = cols →
        (is_vertex_cut p = true ↔ ∃ d, 1 < d ∧ d < 4 ∧ d ∣ 4) ∧
        (is_vertex_cut p = false ↔ (4 = 1 ∨ Nat.Prime 4)) :=
  is_vertex_cut_iff_composite 4 (by decide)

/-! ## The column index as a bijection -/

/-- Every value below the size of a column is reached inside one block of the
column. -/
theorem exists_block_of_lt_columnPrefix (p : Cut) (c k : Nat) :
    ∀ n, k < columnPrefix p c n →
      ∃ B, B < n ∧ B % p.numColumnHosts = c ∧ columnPrefix p c B ≤ k ∧
        k < columnPrefix p c B + blockSize p B := by
  intro n
  induction n with
  | zero => intro h; rw [columnPrefix_zero] at h; omega
  | succ n ih =>
    intro h
    rw [columnPrefix_succ] at h
    by_cases hk : k < columnPrefix p c n
    · obtain ⟨B, hB, h1, h2, h3⟩ := ih hk
      exact ⟨B, by omega, h1, h2, h3⟩
    · by_cases hn : n % p.numColumnHosts = c
      · rw [if_pos hn] at h
        exact ⟨n, by omega, hn, by omega, h⟩
      · rw [if_neg hn] at h
        omega

theorem owner_le_of_lt {p : Cut} (hv : ValidPartition p) (B B' g g' : Nat)
    (ho : isOwned p B g = true) (ho' : isOwned p B' g' = true) (hlt : g < g') : B ≤ B' := by
  by_contra hgt
  have hB := (hv.isOwned_lt B g ho).1
  have := hv.end_le_start B' B (by omega) hB
  rw [isOwned_iff] at ho ho'
  omega

theorem mergedIncoming_length (p : Cut) (g : FileGraph) (id : Nat) (hC : 0 < p.numColumnHosts) :
    (mergedIncoming p g id).length = columnBlockSize p (id % p.numColumnHosts) := by
  unfold mergedIncoming mergeIncoming
  have hget : ∀ i, i < p.numColumnHosts - 1 + 1 →
      (((List.range p.numColumnHosts).map fun i =>
        scanBits p g (id / p.numColumnHosts * p.numColumnHosts + i)
          (id % p.numColumnHosts)).getD i []).length =
        columnBlockSize p (id % p.numColumnHosts) := by
    intro i hi
    have hi' : i < p.numColumnHosts := by omega
    rw [List.getD_eq_getElem?_getD, List.getElem?_map, List.getElem?_range hi']
    simp [scanBits]
  exact (mergeIncoming_foldl _ _ (p.numColumnHosts - 1) hget).1

/-- With fewer than `2 ^ 32` nodes, where the 32-bit accumulator of
`getColumnIndex` cannot wrap, and under the invariant of `gid2host`: for each
column `c < numColumnHosts`, `getColumnIndex` restricted to the global ids whose
column host is `c` is strictly increasing and maps them one-to-one onto
`[0, S_c)`, where `S_c` is the size given to `hasIncomingEdge[c]`, the sum of
the range sizes of the blocks of column `c`; so the index of every bit set or
tested in `loadStatistics` is below the size of its bitset, and two distinct
global ids of one column never share a bit. -/
theorem getColumnIndex_bijection (p : Cut) (hv : ValidPartition p)
    (hT : p.totalNodes < 2 ^ 32) (c : Nat) (hc : c < p.numColumnHosts) :
    (∀ g, g < p.totalNodes → getColumnHostID p g = c →
        getColumnIndex p g < columnBlockSize p c) ∧
      (∀ g g', g < p.totalNodes → g' < p.totalNodes → getColumnHostID p g = c →
        getColumnHostID p g' = c → g < g' → getColumnIndex p g < getColumnIndex p g') ∧
      (∀ k, k < columnBlockSize p c →
        ∃ g, g < p.totalNodes ∧ getColumnHostID p g = c ∧ getColumnIndex p g = k) ∧
      (∀ g g', g < p.totalNodes → g' < p.totalNodes → getColumnHostID p g = c →
        getColumnHostID p g' = c → g ≠ g' → getColumnIndex p g ≠ getColumnIndex p g') ∧
      columnBlockSize p c =
        (((List.range p.numHosts).filter fun b => b % p.numColumnHosts == c).map
          (blockSize p)).sum ∧
      (∀ id, ((initialStats p id).hasIncomingEdge.getD c []).length = columnBlockSize p c) ∧
      (∀ (gr : FileGraph) id,
        ((inspectEdges p gr id).hasIncomingEdge.getD c []).length = columnBlockSize p c) ∧
      (∀ (gr : FileGraph) id, id % p.numColumnHosts = c →
        (mergedIncoming p gr id).length = columnBlockSize p c) := by
  have hmono : ∀ g g', g < p.totalNodes → g' < p.totalNodes → getColumnHostID p g = c →
      getColumnHostID p g' = c → g < g' → getColumnIndex p g < getColumnIndex p g' := by
    intro g g' hg hg' hcg hcg' hlt
    obtain ⟨B, hB, ho⟩ := hv.exists_owner g hg
    obtain ⟨B', hB', ho'⟩ := hv.exists_owner g' hg'
    rw [getColumnHostID_eq hv B g ho] at hcg
    rw [getColumnHostID_eq hv B' g' ho'] at hcg'
    rw [getColumnIndex_eq hv hT B g ho, getColumnIndex_eq hv hT B' g' ho', hcg, hcg']
    have hle := owner_le_of_lt hv B B' g g' ho ho' hlt
    rw [isOwned_iff] at ho ho'
    rcases Nat.lt_or_ge B B' with h | h
    · have e1 : columnPrefix p c (B + 1) = columnPrefix p c B + blockSize p B := by
        rw [columnPrefix_succ, if_pos hcg]
      have e2 := columnPrefix_mono p c (B + 1) B' h
      unfold blockSize at e1
      omega
    · have e : B = B' := by omega
      subst e
      omega
  refine ⟨?_, hmono, ?_, ?_, ?_, ?_, ?_, ?_⟩
  · intro g hg hcg
    rw [← hcg]
    exact getColumnIndex_lt hv hT g hg
  · intro k hk
    rw [columnBlockSize_eq] at hk
    obtain ⟨B, hB, hBc, h1, h2⟩ := exists_block_of_lt_columnPrefix p c k p.numHosts hk
    unfold blockSize at h2
    have ho : isOwned p B ((hostRange p B).1 + (k - columnPrefix p c B)) = true := by
      rw [isOwned_iff]
      have := hv.start_le_end B hB
      omega
    refine ⟨_, (hv.isOwned_lt B _ ho).2, ?_, ?_⟩
    · rw [getColumnHostID_eq hv B _ ho, hBc]
    · rw [getColumnIndex_eq hv hT B _ ho, hBc]
      omega
  · intro g g' hg hg' hcg hcg' hne
    rcases Nat.lt_or_gt_of_ne hne with h | h
    · exact Nat.ne_of_lt (hmono g g' hg hg' hcg hcg' h)
    · exact Nat.ne_of_gt (hmono g' g hg' hg hcg' hcg h)
  · rw [columnBlockSize_eq]
    generalize p.numHosts = n
    induction n with
    | zero => rfl
    | succ n ih =>
      rw [columnPrefix_succ, List.range_succ, List.filter_append, List.map_append,
        List.sum_append, ← ih]
      by_cases h : n % p.numColumnHosts = c
      · simp [h]
      · simp [h]
  · intro id
    rw [initialStats_hasIncomingEdge p id c hc, List.length_replicate]
  · intro gr id
    rw [inspectEdges_hasIncomingEdge p gr id c hc]
    simp [scanBits]
  · intro gr id hid
    rw [← hid]
    exact mergedIncoming_length p gr id (by omega)

theorem getColumnIndex_bijection_witness :
    (∀ g, g < gridCut.totalNodes → getColumnHostID gridCut g = 1 →
        getColumnIndex gridCut g < columnBlockSize gridCut 1) ∧
      (∀ g g', g < gridCut.totalNodes → g' < gridCut.totalNodes → getColumnHostID gridCut g = 1 →
        getColumnHostID gridCut g' = 1 → g < g' →
        getColumnIndex gridCut g < getColumnIndex gridCut g') ∧
      (∀ k, k < columnBlockSize gridCut 1 →
        ∃ g, g < gridCut.totalNodes ∧ getColumnHostID gridCut g = 1 ∧
          getColumnIndex gridCut g = k) ∧
      (∀ g g', g < gridCut.totalNodes → g' < gridCut.totalNodes → getColumnHostID gridCut g = 1 →
        getColumnHostID gridCut g' = 1 → g ≠ g' →
        getColumnIndex gridCut g ≠ getColumnIndex gridCut g') ∧
      columnBlockSize gridCut 1 =
        (((List.range gridCut.numHosts).filter fun b => b % gridCut.numColumnHosts == 1).map
          (blockSize gridCut)).sum ∧
      (∀ id, ((initialStats gridCut id).hasIncomingEdge.getD 1 []).length =
        columnBlockSize gridCut 1) ∧
      (∀ (gr : FileGraph) id,
        ((inspectEdges gridCut gr id).hasIncomingEdge.getD 1 []).length =
          columnBlockSize gridCut 1) ∧
      (∀ (gr : FileGraph) id, id % gridCut.numColumnHosts = 1 →
        (mergedIncoming gridCut gr id).length = columnBlockSize gridCut 1) :=
  getColumnIndex_bijection gridCut gridCut_valid (by decide) 1 (by decide)

/-! ## The column index beyond 32 bits -/

theorem wideCut_valid : ValidPartition wideCut where
  hosts_pos := by decide
  length_eq := by decide
  first_start := by decide
  start_le_end := by decide
  contiguous := by
    intro h hh
    have hlt : h < 3 := by
      change h + 1 < 4 at hh
      omega
    interval_cases h <;> rfl
  last_end := by decide

/-- C30: on the `2 x 2` grid with `2 ^ 31 + 1` nodes per host, a partition that
satisfies the invariant of `gid2host`, the global ids `0` (block 0) and
`3 * 2 ^ 31 + 1` (block 2) both lie in column 0 and both get the column index
0: the 32-bit accumulator of `getColumnIndex` wraps at `2 ^ 32`, while the
bitset of the column, sized with a 64-bit sum, has `2 ^ 32 + 2` bits. The two
distinct global ids share a bit, and `getColumnIndex` is neither increasing
nor one-to-one on the column. -/
theorem getColumnIndex_wraps :
    ValidPartition wideCut ∧
      wideCut.numRowHosts * wideCut.numColumnHosts = wideCut.numHosts ∧
      (∀ h, h < wideCut.numHosts → blockSize wideCut h < 2 ^ 32) ∧
      3 * 2 ^ 31 + 1 < wideCut.totalNodes ∧
      getColumnHostID wideCut 0 = 0 ∧
      getColumnHostID wideCut (3 * 2 ^ 31 + 1) = 0 ∧
      getColumnIndex wideCut 0 = 0 ∧
      getColumnIndex wideCut (3 * 2 ^ 31 + 1) = 0 ∧
      columnBlockSize wideCut 0 = 2 ^ 32 + 2 ∧
      ¬ (∀ g g', g < wideCut.totalNodes → g' < wideCut.totalNodes →
          getColumnHostID wideCut g = 0 → getColumnHostID wideCut g' = 0 → g ≠ g' →
          getColumnIndex wideCut g ≠ getColumnIndex wideCut g') := by
  refine ⟨wideCut_valid, by decide, ?_, by decide, by decide, by decide, by decide, by decide,
    by decide, ?_⟩
  · intro h hh
    have hlt : h < 4 := hh
    interval_cases h <;> decide
  · intro hinj
    exact hinj 0 (3 * 2 ^ 31 + 1) (by decide) (by decide) (by decide) (by decide) (by decide)
      (by decide)

/-! ## The local ids of the owned nodes -/

/-- The nodes created by the first loop: those before the owned range, the
whole owned range, and those after it. -/
theorem kept_row_split {p : Cut} (hv : ValidPartition p)
    (hgrid : p.numRowHosts * p.numColumnHosts = p.numHosts) (g : FileGraph) (id : Nat)
    (hid : id < p.numHosts) :
    ∃ pre post, (rowCandidates p id).filter (keepRowNode p g id) =
      pre ++ List.range' (hostRange p id).1 ((hostRange p id).2 - (hostRange p id).1) ++ post := by
  have hC : 0 < p.numColumnHosts := by
    rcases Nat.eq_zero_or_pos p.numColumnHosts with h | h
    · rw [h] at hgrid; have := hv.hosts_pos; omega
    · exact h
  have hrow : id / p.numColumnHosts * p.numColumnHosts ≤ id := Nat.div_mul_le_self _ _
  have hrow' : id + 1 ≤ id / p.numColumnHosts * p.numColumnHosts + p.numColumnHosts := by
    have := Nat.lt_div_mul_add hC (a := id)
    omega
  have h1 := hv.blockStart_mono _ _ hrow
  have h2 := hv.blockStart_mono _ _ hrow'
  have h3 := hv.blockStart_le_succ id
  have hs := hv.blockStart_eq id hid
  have he := hv.blockStart_succ id hid
  rw [hs] at h1 h3
  rw [he] at h2 h3
  have hsplit : rowCandidates p id =
      List.range' (blockStart p (id / p.numColumnHosts * p.numColumnHosts))
          ((hostRange p id).1 - blockStart p (id / p.numColumnHosts * p.numColumnHosts)) ++
        List.range' (hostRange p id).1 ((hostRange p id).2 - (hostRange p id).1) ++
        List.range' (hostRange p id).2
          (blockStart p (id / p.numColumnHosts * p.numColumnHosts + p.numColumnHosts) -
            (hostRange p id).2) := by
    unfold rowCandidates
    have e1 : blockStart p (id / p.numColumnHosts * p.numColumnHosts) +
        ((hostRange p id).1 - blockStart p (id / p.numColumnHosts * p.numColumnHosts)) =
        (hostRange p id).1 := by omega
    have e2 : (hostRange p id).1 + ((hostRange p id).2 - (hostRange p id).1) =
        (hostRange p id).2 := by omega
    have a1 := List.range'_append_1 (blockStart p (id / p.numColumnHosts * p.numColumnHosts))
      ((hostRange p id).1 - blockStart p (id / p.numColumnHosts * p.numColumnHosts))
      ((hostRange p id).2 - (hostRange p id).1)
    rw [e1] at a1
    rw [a1]
    have a2 := List.range'_append_1 (blockStart p (id / p.numColumnHosts * p.numColumnHosts))
      ((hostRange p id).2 - (hostRange p id).1 +
        ((hostRange p id).1 - blockStart p (id / p.numColumnHosts * p.numColumnHosts)))
      (blockStart p (id / p.numColumnHosts * p.numColumnHosts + p.numColumnHosts) -
        (hostRange p id).2)
    rw [show blockStart p (id / p.numColumnHosts * p.numColumnHosts) +
        ((hostRange p id).2 - (hostRange p id).1 +
          ((hostRange p id).1 - blockStart p (id / p.numColumnHosts * p.numColumnHosts))) =
        (hostRange p id).2 by omega] at a2
    rw [a2]
    congr 1
    omega
  refine ⟨(List.range' (blockStart p (id / p.numColumnHosts * p.numColumnHosts))
      ((hostRange p id).1 - blockStart p (id / p.numColumnHosts * p.numColumnHosts))).filter
        (keepRowNode p g id),
    (List.range' (hostRange p id).2
      (blockStart p (id / p.numColumnHosts * p.numColumnHosts + p.numColumnHosts) -
        (hostRange p id).2)).filter (keepRowNode p g id), ?_⟩
  rw [hsplit, List.filter_append, List.filter_append]
  congr 2
  apply List.filter_eq_self.2
  intro x hx
  rw [List.mem_range'_1] at hx
  rw [keepRowNode_iff]
  exact Or.inr ((isOwned_iff _ _ _).2 ⟨hx.1, by omega⟩)

/-- The owned global ids have consecutive local ids, in increasing order. -/
theorem owned_local_ids {p : Cut} {g : FileGraph} (wf : WellFormed p g) {id : Nat}
    (hid : id < p.numHosts) {st : LocalGraph} (hst : loadStatistics p g id = some st) :
    ∃ first, first + ((hostRange p id).2 - (hostRange p id).1) ≤ st.numNodes ∧
      ∀ l gid, L2G st l = some gid ∧ isOwned p id gid = true ↔
        first ≤ l ∧ l < first + ((hostRange p id).2 - (hostRange p id).1) ∧
          gid = (hostRange p id).1 + (l - first) := by
  obtain ⟨hc, hl, _, _⟩ := loadStatistics_facts wf hid hst
  obtain ⟨pre, post, hsplit⟩ := kept_row_split wf.valid wf.grid g id hid
  rw [hsplit] at hl
  have hget : ∀ k, k < (hostRange p id).2 - (hostRange p id).1 →
      st.localToGlobalVector[pre.length + k]? = some ((hostRange p id).1 + k) := by
    intro k hk
    rw [hl, List.append_assoc, List.append_assoc, List.getElem?_append_right (by omega),
      Nat.add_sub_cancel_left, List.getElem?_append_left (by rw [List.length_range']; exact hk),
      List.getElem?_range' _ _ hk, Nat.one_mul]
  refine ⟨pre.length, ?_, ?_⟩
  · rw [hc.numNodes_eq, hl]
    simp only [List.length_append, List.length_range']
    omega
  · intro l gid
    unfold L2G
    constructor
    · rintro ⟨hg, ho⟩
      rw [isOwned_iff] at ho
      have h1 := hget (gid - (hostRange p id).1) (by omega)
      rw [show (hostRange p id).1 + (gid - (hostRange p id).1) = gid by omega] at h1
      have e := (hc.map_iff gid l).2 hg
      rw [(hc.map_iff gid _).2 h1] at e
      have e' := Option.some.inj e
      omega
    · rintro ⟨h1, h2, h3⟩
      have h4 := hget (l - pre.length) (by omega)
      rw [show pre.length + (l - pre.length) = l by omega] at h4
      rw [h3]
      exact ⟨h4, (isOwned_iff _ _ _).2 ⟨by omega, by omega⟩⟩

theorem numNodes_lt {p : Cut} {g : FileGraph} (wf : WellFormed p g) {id : Nat}
    (hid : id < p.numHosts) {st : LocalGraph} (hst : loadStatistics p g id = some st) :
    st.numNodes ≤ p.totalNodes := by
  obtain ⟨hc, hl, _, _⟩ := loadStatistics_facts wf hid hst
  rw [hc.numNodes_eq]
  apply nodup_length_le _ _ hc.nodup
  intro x hx
  rw [hl, List.mem_append] at hx
  rcases hx with hx | hx
  · exact wf.rowCandidates_lt id x (List.mem_filter.1 hx).1
  · exact wf.columnCandidates_lt id x (List.mem_filter.1 hx).1

/-- The two lookups and the two assertions of `reset_bitset` on a host with a
non-empty owned range. -/
theorem reset_bitset_eq {p : Cut} {g : FileGraph} (wf : WellFormed p g) {id : Nat}
    (hid : id < p.numHosts) (hne : (hostRange p id).1 < (hostRange p id).2) {st : LocalGraph}
    (hst : loadStatistics p g id = some st) (first : Nat)
    (hfirst : ∀ l gid, L2G st l = some gid ∧ isOwned p id gid = true ↔
      first ≤ l ∧ l < first + ((hostRange p id).2 - (hostRange p id).1) ∧
        gid = (hostRange p id).1 + (l - first)) :
    G2L st (hostRange p id).1 = some first ∧
      G2L st (((hostRange p id).2 + 2 ^ 64 - 1) % 2 ^ 64) =
        some (first + ((hostRange p id).2 - (hostRange p id).1) - 1) ∧
      ∀ syncType, reset_bitset p id st syncType =
        match syncType with
        | .syncBroadcast =>
          .ok [(first, first + ((hostRange p id).2 - (hostRange p id).1) - 1)]
        | .syncReduce =>
          .ok ((if first > 0 then [(0, first - 1)] else []) ++
            (if first + ((hostRange p id).2 - (hostRange p id).1) - 1 < st.numNodes - 1 then
              [(first + ((hostRange p id).2 - (hostRange p id).1), st.numNodes - 1)]
            else [])) := by
  obtain ⟨hc, _, _, hto⟩ := loadStatistics_facts wf hid hst
  have hT := wf.nodes_lt
  have hnum := numNodes_lt wf hid hst
  have he : (hostRange p id).2 ≤ p.totalNodes := wf.valid.end_le_total id hid
  have hG : ∀ k, k < (hostRange p id).2 - (hostRange p id).1 →
      G2L st ((hostRange p id).1 + k) = some (first + k) := by
    intro k hk
    have := (hfirst (first + k) ((hostRange p id).1 + k)).2 ⟨by omega, by omega, by omega⟩
    exact (hc.map_iff _ _).2 this.1
  have h1 : G2L st (hostRange p id).1 = some first := hG 0 (by omega)
  have h2 : G2L st (((hostRange p id).2 + 2 ^ 64 - 1) % 2 ^ 64) =
      some (first + ((hostRange p id).2 - (hostRange p id).1) - 1) := by
    have e : ((hostRange p id).2 + 2 ^ 64 - 1) % 2 ^ 64 =
        (hostRange p id).1 + ((hostRange p id).2 - (hostRange p id).1 - 1) := by
      have : (hostRange p id).2 + 2 ^ 64 - 1 = (hostRange p id).2 - 1 + 2 ^ 64 := by omega
      rw [this, Nat.add_mod_right, Nat.mod_eq_of_lt (by omega)]
      omega
    rw [e, hG _ (by omega)]
    exact congrArg some (by omega)
  refine ⟨h1, h2, ?_⟩
  intro syncType
  have hn1 : (st.numNodes + 2 ^ 32 - 1) % 2 ^ 32 = st.numNodes - 1 := by
    obtain ⟨first', hle, _⟩ := owned_local_ids wf hid hst
    have : st.numNodes + 2 ^ 32 - 1 = st.numNodes - 1 + 2 ^ 32 := by omega
    rw [this, Nat.add_mod_right, Nat.mod_eq_of_lt (by omega)]
  unfold reset_bitset
  rw [h1, h2]
  dsimp only
  rw [if_pos (by omega), if_pos (by rw [hto, totalOwnedNodes]; omega), hn1,
    show first + ((hostRange p id).2 - (hostRange p id).1) - 1 + 1 =
      first + ((hostRange p id).2 - (hostRange p id).1) by omega]

/-- C25: on a host whose owned range `[s, e)` is non-empty, `loadStatistics`
gives the owned global ids consecutive local ids in increasing order,
`G2L(s + k) = G2L(s) + k` for `k < e - s`; so `endMaster - beginMaster`
is `totalOwnedNodes`, both assertions of `reset_bitset` hold and
`reset_bitset` returns. -/
theorem owned_ids_consecutive (p : Cut) (g : FileGraph) (wf : WellFormed p g) (id : Nat)
    (hid : id < p.numHosts) (hne : (hostRange p id).1 < (hostRange p id).2) :
    ∃ st first last, loadStatistics p g id = some st ∧
      G2L st (hostRange p id).1 = some first ∧
      (∀ k, k < (hostRange p id).2 - (hostRange p id).1 →
        G2L st ((hostRange p id).1 + k) = some (first + k)) ∧
      G2L st (((hostRange p id).2 + 2 ^ 64 - 1) % 2 ^ 64) = some last ∧
      (last + 1) - first = st.totalOwnedNodes ∧
      first ≤ last ∧ last - first + 1 = st.totalOwnedNodes ∧
      ∀ syncType, ∃ calls, reset_bitset p id st syncType = .ok calls := by
  obtain ⟨st, hst, hc, _, _, hto⟩ := loadStatistics_spec p g wf id hid
  obtain ⟨first, _, hfirst⟩ := owned_local_ids wf hid hst
  obtain ⟨h1, h2, h3⟩ := reset_bitset_eq wf hid hne hst first hfirst
  refine ⟨st, first, _, hst, h1, ?_, h2, ?_, by omega, ?_, ?_⟩
  · intro k hk
    have := (hfirst (first + k) ((hostRange p id).1 + k)).2 ⟨by omega, by omega, by omega⟩
    exact (hc.map_iff _ _).2 this.1
  · rw [hto, totalOwnedNodes]; omega
  · rw [hto, totalOwnedNodes]; omega
  · intro syncType
    rw [h3 syncType]
    cases syncType
    · exact ⟨_, rfl⟩
    · exact ⟨_, rfl⟩

theorem owned_ids_consecutive_witness :
    ∃ st first last, loadStatistics gridCut gridGraph 1 = some st ∧
      G2L st (hostRange gridCut 1).1 = some first ∧
      (∀ k, k < (hostRange gridCut 1).2 - (hostRange gridCut 1).1 →
        G2L st ((hostRange gridCut 1).1 + k) = some (first + k)) ∧
      G2L st (((hostRange gridCut 1).2 + 2 ^ 64 - 1) % 2 ^ 64) = some last ∧
      (last + 1) - first = st.totalOwnedNodes ∧
      first ≤ last ∧ last - first + 1 = st.totalOwnedNodes ∧
      ∀ syncType, ∃ calls, reset_bitset gridCut 1 st syncType = .ok calls :=
  owned_ids_consecutive gridCut gridGraph gridCut_wellFormed 1 (by decide) (by decide)

/-- C24: on a host with a non-empty owned range, `reset_bitset` with
`syncBroadcast` makes one call, on the inclusive range of the local ids of the
owned nodes; with `syncReduce` the inclusive ranges it passes cover exactly
the local ids below `numNodes` whose node is not owned, and it makes no call
for an empty side. -/
theorem reset_bitset_ranges (p : Cut) (g : FileGraph) (wf : WellFormed p g) (id : Nat)
    (hid : id < p.numHosts) (hne : (hostRange p id).1 < (hostRange p id).2) :
    ∃ st first last calls, loadStatistics p g id = some st ∧
      reset_bitset p id st .syncBroadcast = .ok [(first, last)] ∧
      (∀ l, (first ≤ l ∧ l ≤ last) ↔ ∃ gid, L2G st l = some gid ∧ isOwned p id gid = true) ∧
      reset_bitset p id st .syncReduce = .ok calls ∧
      (∀ l, (∃ r, r ∈ calls ∧ r.1 ≤ l ∧ l ≤ r.2) ↔
        (l < st.numNodes ∧ ∃ gid, L2G st l = some gid ∧ isOwned p id gid = false)) ∧
      (∀ r, r ∈ calls → r.1 ≤ r.2) ∧
      calls = (if 0 < first then [(0, first - 1)] else []) ++
        (if last + 1 < st.numNodes then [(last + 1, st.numNodes - 1)] else []) := by
  obtain ⟨st, hst, hc, _, _, hto⟩ := loadStatistics_spec p g wf id hid
  obtain ⟨first, hle, hfirst⟩ := owned_local_ids wf hid hst
  obtain ⟨_, _, h3⟩ := reset_bitset_eq wf hid hne hst first hfirst
  have hown : ∀ l, (first ≤ l ∧ l ≤ first + ((hostRange p id).2 - (hostRange p id).1) - 1) ↔
      ∃ gid, L2G st l = some gid ∧ isOwned p id gid = true := by
    intro l
    constructor
    · intro h
      exact ⟨_, (hfirst l _).2 ⟨h.1, by omega, rfl⟩⟩
    · rintro ⟨gid, h⟩
      have := (hfirst l gid).1 h
      omega
  have hcalls : (if first > 0 then [(0, first - 1)] else []) ++
      (if first + ((hostRange p id).2 - (hostRange p id).1) - 1 < st.numNodes - 1 then
        [(first + ((hostRange p id).2 - (hostRange p id).1), st.numNodes - 1)] else []) =
      (if 0 < first then [(0, first - 1)] else []) ++
        (if first + ((hostRange p id).2 - (hostRange p id).1) - 1 + 1 < st.numNodes then
          [(first + ((hostRange p id).2 - (hostRange p id).1) - 1 + 1, st.numNodes - 1)]
        else []) := by
    rw [show first + ((hostRange p id).2 - (hostRange p id).1) - 1 + 1 =
      first + ((hostRange p id).2 - (hostRange p id).1) by omega]
    congr 1
    by_cases h : first + ((hostRange p id).2 - (hostRange p id).1) - 1 < st.numNodes - 1
    · rw [if_pos h, if_pos (by omega)]
    · rw [if_neg h, if_neg (by omega)]
  refine ⟨st, first, first + ((hostRange p id).2 - (hostRange p id).1) - 1, _, hst,
    h3 .syncBroadcast, hown, (h3 .syncReduce).trans (congrArg Except.ok hcalls), ?_, ?_, rfl⟩
  · intro l
    have hL : l < st.numNodes → ∃ gid, L2G st l = some gid := by
      intro hl
      rw [hc.numNodes_eq] at hl
      exact ⟨_, List.getElem?_eq_getElem hl⟩
    have hnot : (l < st.numNodes ∧ ∃ gid, L2G st l = some gid ∧ isOwned p id gid = false) ↔
        (l < st.numNodes ∧
          ¬ (first ≤ l ∧ l ≤ first + ((hostRange p id).2 - (hostRange p id).1) - 1)) := by
      constructor
      · rintro ⟨hl, gid, hg, hno⟩
        refine ⟨hl, fun h => ?_⟩
        obtain ⟨gid', hg', ho'⟩ := (hown l).1 h
        rw [hg] at hg'
        rw [Option.some.inj hg', ho'] at hno
        cases hno
      · rintro ⟨hl, hn⟩
        obtain ⟨gid, hg⟩ := hL hl
        refine ⟨hl, gid, hg, ?_⟩
        cases hb : isOwned p id gid with
        | false => rfl
        | true => exact absurd ((hown l).2 ⟨gid, hg, hb⟩) hn
    rw [hnot]
    simp only [List.mem_append]
    constructor
    · rintro ⟨r, hr | hr, h1, h2⟩
      · split at hr
        · rw [List.mem_singleton] at hr
          subst hr
          dsimp only at h1 h2
          exact ⟨by omega, by omega⟩
        · cases hr
      · split at hr
        · rw [List.mem_singleton] at hr
          subst hr
          dsimp only at h1 h2
          exact ⟨by omega, by omega⟩
        · cases hr
    · rintro ⟨hl, hn⟩
      by_cases hlow : l < first
      · refine ⟨(0, first - 1), Or.inl ?_, Nat.zero_le _, ?_⟩
        · rw [if_pos (by omega)]; exact List.mem_singleton.2 rfl
        · dsimp only; omega
      · refine ⟨(first + ((hostRange p id).2 - (hostRange p id).1) - 1 + 1, st.numNodes - 1),
          Or.inr ?_, ?_, ?_⟩
        · rw [if_pos (by omega)]; exact List.mem_singleton.2 rfl
        · dsimp only; omega
        · dsimp only; omega
  · intro r hr
    rw [List.mem_append] at hr
    rcases hr with hr | hr
    · split at hr
      · rw [List.mem_singleton] at hr
        subst hr
        exact Nat.zero_le _
      · cases hr
    · split at hr
      · rw [List.mem_singleton] at hr
        subst hr
        dsimp only
        omega
      · cases hr

theorem reset_bitset_ranges_witness :
    ∃ st first last calls, loadStatistics gridCut gridGraph 1 = some st ∧
      reset_bitset gridCut 1 st .syncBroadcast = .ok [(first, last)] ∧
      (∀ l, (first ≤ l ∧ l ≤ last) ↔
        ∃ gid, L2G st l = some gid ∧ isOwned gridCut 1 gid = true) ∧
      reset_bitset gridCut 1 st .syncReduce = .ok calls ∧
      (∀ l, (∃ r, r ∈ calls ∧ r.1 ≤ l ∧ l ≤ r.2) ↔
        (l < st.numNodes ∧ ∃ gid, L2G st l = some gid ∧ isOwned gridCut 1 gid = false)) ∧
      (∀ r, r ∈ calls → r.1 ≤ r.2) ∧
      calls = (if 0 < first then [(0, first - 1)] else []) ++
        (if last + 1 < st.numNodes then [(last + 1, st.numNodes - 1)] else []) :=
  reset_bitset_ranges gridCut gridGraph gridCut_wellFormed 1 (by decide) (by decide)

/-! ## The assertions of pass 2 -/

theorem owned_mem_rowCandidates {p : Cut} (hv : ValidPartition p)
    (hgrid : p.numRowHosts * p.numColumnHosts = p.numHosts) (id : Nat) (hid : id < p.numHosts)
    (n : Nat) (ho : isOwned p id n = true) : n ∈ rowCandidates p id :=
  (mem_rowCandidates hv hgrid id hid n).2 ⟨id, hid, rfl, ho⟩

/-- The size of the slice that the allocation gives to a node of the grid row:
the number of its edges into the column of the host. -/
theorem slice_size_of_row_node {p : Cut} {g : FileGraph} (wf : WellFormed p g) {id : Nat}
    (hid : id < p.numHosts) {st : LocalGraph} (hst : loadStatistics p g id = some st)
    (graph : LocalCSR) (hg : graph.edgeIndData = st.prefixSumOfEdges) (n l : Nat)
    (hn : n ∈ rowCandidates p id) (hl : G2L st n = some l) :
    ((g.outEdges n).filter fun d => getColumnHostID p d == gridColumnID p id).length =
      graph.edge_end l - graph.edge_begin l := by
  obtain ⟨hc, _, _, _⟩ := loadStatistics_facts wf hid hst
  have hget := (hc.map_iff n l).1 hl
  have hlt : l < st.localToGlobalVector.length := by
    by_contra hge
    rw [List.getElem?_eq_none (by omega)] at hget
    cases hget
  have hln : st.localToGlobalVector[l] = n := by
    rw [List.getElem?_eq_getElem hlt] at hget
    exact Option.some.inj hget
  rw [edge_begin_eq hc graph hg l hlt, edge_end_eq hc graph hg l hlt, hln,
    wf.localEdgeCount_row id n hn, Nat.add_sub_cancel_left]
  unfold outCount gridColumnID
  rw [List.countP_eq_length_filter]

/-- The pass-2 messages that reach a host: their source is a node of its grid
row that the first loop created, and their batch is the list of the edges of
the source into the column of the host. -/
theorem mem_edgeInbox {p : Cut} {g : FileGraph} (wf : WellFormed p g) {id : Nat}
    (hid : id < p.numHosts) (m : EdgeMsg) (hm : m ∈ edgeInbox p g id) :
    m.n ∈ rowCandidates p id ∧ keepRowNode p g id m.n = true ∧
      m.gdst_vec = (g.outEdges m.n).filter fun d => getColumnHostID p d == gridColumnID p id := by
  rw [edgeInbox_eq wf id, List.mem_map] at hm
  obtain ⟨n, hn, rfl⟩ := hm
  obtain ⟨P, hP, ho, hpos⟩ := (mem_incomingSources p g id n).1 hn
  obtain ⟨h1, h2, _⟩ := (mem_rowPeers p id P).1 hP
  refine ⟨(mem_rowCandidates wf.valid wf.grid id hid n).2 ⟨P, h1, h2, ho⟩, ?_, rfl⟩
  unfold keepRowNode
  show (decide (0 < outCount p g (id % p.numColumnHosts) n) || isOwned p id n) = true
  rw [Bool.or_eq_true, decide_eq_true_eq]
  exact Or.inl hpos

/-- C27: every pass-2 write fills the pre-sized slice of its node exactly.
Both passes return, so no assertion of pass 2 fails; the slice ends are the
ones fixed by the allocation; for each owned node `n` the number of its edges
appended locally is the size of the slice of `G2L(n)`; and for each received
message `(n, dsts)` the length of `dsts` is the size of the slice of
`G2L(n)`. -/
theorem pass2_fills_slices (p : Cut) (g : FileGraph) (wf : WellFormed p g) (id : Nat)
    (hid : id < p.numHosts) :
    ∃ st r graph, loadStatistics p g id = some st ∧
      loadEdgesFromFile p g id st (allocateGraph st) = some r ∧
      loadEdges p g id = some (st, graph) ∧
      r.graph.edgeIndData = (allocateGraph st).edgeIndData ∧
      (∀ n, isOwned p id n = true → ∃ lsrc, G2L st n = some lsrc ∧
        ((g.outEdges n).filter fun d => getColumnHostID p d == gridColumnID p id).length =
          (allocateGraph st).edge_end lsrc - (allocateGraph st).edge_begin lsrc) ∧
      (∀ m, m ∈ edgeInbox p g id → ∃ lsrc, G2L st m.n = some lsrc ∧
        m.gdst_vec.length = r.graph.edge_end lsrc - r.graph.edge_begin lsrc) := by
  obtain ⟨st, graph, hst, hload, _⟩ := loadEdges_spec wf hid
  obtain ⟨r, hr, hind, _, _⟩ := loadEdgesFromFile_spec wf hid hst
  obtain ⟨hc, _, _, _⟩ := loadStatistics_facts wf hid hst
  have halloc := allocateGraph_edgeIndData hc
  refine ⟨st, r, graph, hst, hr, hload, by rw [hind, halloc], ?_, ?_⟩
  · intro n ho
    obtain ⟨l, hl⟩ := key_of_owned wf hid hst n ho
    exact ⟨l, hl, slice_size_of_row_node wf hid hst _ halloc n l
      (owned_mem_rowCandidates wf.valid wf.grid id hid n ho) hl⟩
  · intro m hm
    obtain ⟨hrow, hkeep, hvec⟩ := mem_edgeInbox wf hid m hm
    obtain ⟨l, hl⟩ := key_of_row_node wf hid hst m.n hrow hkeep
    refine ⟨l, hl, ?_⟩
    rw [hvec]
    exact slice_size_of_row_node wf hid hst _ hind m.n l hrow hl

theorem pass2_fills_slices_witness :
    ∃ st r graph, loadStatistics gridCut gridGraph 1 = some st ∧
      loadEdgesFromFile gridCut gridGraph 1 st (allocateGraph st) = some r ∧
      loadEdges gridCut gridGraph 1 = some (st, graph) ∧
      r.graph.edgeIndData = (allocateGraph st).edgeIndData ∧
      (∀ n, isOwned gridCut 1 n = true → ∃ lsrc, G2L st n = some lsrc ∧
        ((gridGraph.outEdges n).filter fun d =>
            getColumnHostID gridCut d == gridColumnID gridCut 1).length =
          (allocateGraph st).edge_end lsrc - (allocateGraph st).edge_begin lsrc) ∧
      (∀ m, m ∈ edgeInbox gridCut gridGraph 1 → ∃ lsrc, G2L st m.n = some lsrc ∧
        m.gdst_vec.length = r.graph.edge_end lsrc - r.graph.edge_begin lsrc) :=
  pass2_fills_slices gridCut gridGraph gridCut_wellFormed 1 (by decide)

/-- C21: for every edge `(s, d)` that a host handles in pass 2, appended from
the file or decoded from a received message, `s` and `d` are keys of the
host's `globalToLocalMap`; so every `G2L` call of `loadEdgesFromFile`,
`receiveEdges` and `deserializeEdges` succeeds, the `assert(isLocal(n))`
checks hold, and pass 2 returns. -/
theorem pass2_ids_local (p : Cut) (g : FileGraph) (wf : WellFormed p g) (id : Nat)
    (hid : id < p.numHosts) :
    ∃ st graph, loadStatistics p g id = some st ∧ loadEdges p g id = some (st, graph) ∧
      (∀ n, isOwned p id n = true →
        isLocal p id st n = true ∧ (∃ lsrc, G2L st n = some lsrc) ∧
        ∀ d, d ∈ g.outEdges n →
          gridRowID p id * p.numColumnHosts + getColumnHostID p d = id →
          ∃ ldst, G2L st d = some ldst) ∧
      (∀ m, m ∈ edgeInbox p g id →
        isLocal p id st m.n = true ∧ (∃ lsrc, G2L st m.n = some lsrc) ∧
        ∀ d, d ∈ m.gdst_vec → ∃ ldst, G2L st d = some ldst) := by
  have hC := wf.cols_pos
  obtain ⟨st, graph, hst, hload, _⟩ := loadEdges_spec wf hid
  have hlocal : ∀ n, (∃ l, G2L st n = some l) → isLocal p id st n = true := by
    rintro n ⟨l, hl⟩
    unfold isLocal
    unfold G2L at hl
    rw [hl]
    simp
  refine ⟨st, graph, hst, hload, ?_, ?_⟩
  · intro n ho
    have hkey := key_of_owned wf hid hst n ho
    refine ⟨hlocal n hkey, hkey, ?_⟩
    intro d hd hcol
    have hcol' : getColumnHostID p d = id % p.numColumnHosts := by
      have hlt : getColumnHostID p d < p.numColumnHosts := Nat.mod_lt _ hC
      exact ((row_add_eq_iff p.numColumnHosts _ _ id hlt).1 hcol).2
    exact key_of_dst wf hid hst n d (owned_mem_rowCandidates wf.valid wf.grid id hid n ho) hd hcol'
  · intro m hm
    obtain ⟨hrow, hkeep, hvec⟩ := mem_edgeInbox wf hid m hm
    have hkey := key_of_row_node wf hid hst m.n hrow hkeep
    refine ⟨hlocal m.n hkey, hkey, ?_⟩
    intro d hd
    rw [hvec, List.mem_filter, beq_iff_eq] at hd
    exact key_of_dst wf hid hst m.n d hrow hd.1 hd.2

theorem pass2_ids_local_witness :
    ∃ st graph, loadStatistics gridCut gridGraph 1 = some st ∧
      loadEdges gridCut gridGraph 1 = some (st, graph) ∧
      (∀ n, isOwned gridCut 1 n = true →
        isLocal gridCut 1 st n = true ∧ (∃ lsrc, G2L st n = some lsrc) ∧
        ∀ d, d ∈ gridGraph.outEdges n →
          gridRowID gridCut 1 * gridCut.numColumnHosts + getColumnHostID gridCut d = 1 →
          ∃ ldst, G2L st d = some ldst) ∧
      (∀ m, m ∈ edgeInbox gridCut gridGraph 1 →
        isLocal gridCut 1 st m.n = true ∧ (∃ lsrc, G2L st m.n = some lsrc) ∧
        ∀ d, d ∈ m.gdst_vec → ∃ ldst, G2L st d = some ldst) :=
  pass2_ids_local gridCut gridGraph gridCut_wellFormed 1 (by decide)

/-! ## The value of `numOwned` -/

theorem loadStatistics_gridCut_counts :
    (loadStatistics gridCut gridGraph 0).map (fun st =>
        (st.numOwned, st.totalOwnedNodes, st.numNodes,
          ((List.range st.numNodes).filter fun l =>
            decide (st.sliceBegin l < st.sliceEnd l)).length)) =
      some (2, 2, 3, 1) := by
  decide

theorem loadStatistics_gridCut_slice :
    (loadStatistics gridCut gridGraph 0).map (fun st =>
        (L2G st 1, st.sliceBegin 1, st.sliceEnd 1)) = some (some 1, 2, 2) := by
  decide

/-- C23: on the `2 x 2` example, a well-formed input, `loadStatistics` on host 0
sets `numOwned = 2`, the number of its owned nodes, although only one local id
has a non-empty slice: local id 1 is the owned global id 1, whose one edge
`1 → 2` ends in the other column, so its slice is empty and it is counted all
the same. The value stored is therefore not the number of nodes with outgoing
edges on the host that the comments on `numOwned` and `numNodesWithEdges`
announce. -/
theorem numOwned_counts_edgeless_owned :
    WellFormed gridCut gridGraph ∧
      ∃ st, loadStatistics gridCut gridGraph 0 = some st ∧
        st.numOwned = 2 ∧ st.totalOwnedNodes = 2 ∧
        ((List.range st.numNodes).filter fun l =>
          decide (st.sliceBegin l < st.sliceEnd l)).length = 1 ∧
        st.numOwned ≠
          ((List.range st.numNodes).filter fun l =>
            decide (st.sliceBegin l < st.sliceEnd l)).length ∧
        L2G st 1 = some 1 ∧ isOwned gridCut 0 1 = true ∧ gridGraph.outEdges 1 = [2] ∧
        st.sliceBegin 1 = st.sliceEnd 1 := by
  refine ⟨gridCut_wellFormed, ?_⟩
  have hm := loadStatistics_gridCut_counts
  have hs := loadStatistics_gridCut_slice
  cases hst : loadStatistics gridCut gridGraph 0 with
  | none => rw [hst] at hm; cases hm
  | some st =>
    rw [hst] at hm hs
    simp only [Option.map_some', Option.some.injEq, Prod.mk.injEq] at hm hs
    obtain ⟨h1, h2, _, h4⟩ := hm
    refine ⟨st, rfl, h1, h2, h4, ?_, hs.1, by decide, by decide, ?_⟩
    · rw [h1, h4]; decide
    · rw [hs.2.1, hs.2.2]

theorem length_filter_range (xs : List Nat) (q : Nat → Bool) (f : Nat → Bool)
    (hf : ∀ l, l < xs.length → ∀ x, xs[l]? = some x → f l = q x) :
    ((List.range xs.length).filter f).length = (xs.filter q).length := by
  induction xs using List.reverseRecOn with
  | nil => rfl
  | append_singleton xs a ih =>
    rw [List.length_append, List.length_singleton, List.range_succ, List.filter_append,
      List.filter_append, List.length_append, List.length_append]
    have ih' := ih (fun l hl x hx => hf l (by rw [List.length_append]; omega) x
      (by rw [List.getElem?_append_left hl]; exact hx))
    have h2 : f xs.length = q a :=
      hf xs.length (by rw [List.length_append, List.length_singleton]; omega) a
        (by rw [List.getElem?_append_right (le_refl _)]; simp)
    rw [ih']
    simp only [List.filter_cons, h2, List.filter_nil]
    split <;> rfl

/-- The size of the slice of a local id: the number of local edges of its
global id. -/
theorem slice_size_eq {p : Cut} {g : FileGraph} (wf : WellFormed p g) {id : Nat}
    (hid : id < p.numHosts) {st : LocalGraph} (hst : loadStatistics p g id = some st) (l : Nat)
    (hl : l < st.numNodes) :
    ∃ gid, st.localToGlobalVector[l]? = some gid ∧
      st.sliceEnd l = st.sliceBegin l + localEdgeCount p g id gid := by
  obtain ⟨hc, _, _, _⟩ := loadStatistics_facts wf hid hst
  have hl₁ : l < st.localToGlobalVector.length := by rw [← hc.numNodes_eq]; exact hl
  have hl₂ : l < (st.localToGlobalVector.map (localEdgeCount p g id)).length := by
    rw [List.length_map]; exact hl₁
  obtain ⟨hb, he⟩ := prefixSums_slices st _ hc.prefix_eq l hl₂
  refine ⟨st.localToGlobalVector[l], List.getElem?_eq_getElem hl₁, ?_⟩
  rw [hb, he, sliceStart_succ _ l hl₂, List.getElem_map]

/-- What the code counts in `numOwned`: `totalOwnedNodes` plus the number of
local ids whose node is not owned and whose slice is non-empty. Every local id
with a non-empty slice is below `numOwned`, so is every local id of an owned
node, with or without edges, and a local id below `numOwned` whose node is not
owned has a non-empty slice. -/
theorem numOwned_eq (p : Cut) (g : FileGraph) (wf : WellFormed p g) (id : Nat)
    (hid : id < p.numHosts) :
    ∃ st, loadStatistics p g id = some st ∧
      st.numOwned = st.totalOwnedNodes +
        ((List.range st.numNodes).filter fun l =>
          (match L2G st l with
            | some gid => !isOwned p id gid
            | none => false) && decide (st.sliceBegin l < st.sliceEnd l)).length ∧
      (∀ l, l < st.numNodes → st.sliceBegin l < st.sliceEnd l → l < st.numOwned) ∧
      (∀ l gid, L2G st l = some gid → isOwned p id gid = true → l < st.numOwned) ∧
      (∀ l gid, l < st.numOwned → L2G st l = some gid → isOwned p id gid = false →
        st.sliceBegin l < st.sliceEnd l) := by
  obtain ⟨st, hst, hc, hl, hno, _⟩ := loadStatistics_spec p g wf id hid
  have hlen := incomingSources_length wf hid hst
  have hcount : ((List.range st.numNodes).filter fun l =>
      (match L2G st l with
        | some gid => !isOwned p id gid
        | none => false) && decide (st.sliceBegin l < st.sliceEnd l)).length =
      (st.localToGlobalVector.filter fun x =>
        !isOwned p id x && decide (0 < localEdgeCount p g id x)).length := by
    rw [hc.numNodes_eq]
    apply length_filter_range
    intro l hl' x hx
    obtain ⟨gid, hg, hs⟩ := slice_size_eq wf hid hst l (by rw [hc.numNodes_eq]; exact hl')
    rw [hx] at hg
    have e := Option.some.inj hg
    subst e
    unfold L2G
    rw [hx, hs]
    dsimp only
    congr 1
    rw [Bool.eq_iff_iff, decide_eq_true_eq, decide_eq_true_eq]
    omega
  have hperm : (st.localToGlobalVector.filter fun x =>
      !isOwned p id x && decide (0 < localEdgeCount p g id x)).Perm
      (incomingSources p g id) := by
    apply (List.perm_ext_iff_of_nodup (hc.nodup.filter _) (incomingSources_nodup wf.valid g id)).2
    intro x
    rw [List.mem_filter, Bool.and_eq_true, Bool.not_eq_true', decide_eq_true_eq,
      mem_incomingSources]
    constructor
    · rintro ⟨_, hno', hpos⟩
      have hrow : x ∈ rowCandidates p id := by
        by_contra hnr
        rw [wf.localEdgeCount_not_row id x hnr] at hpos
        omega
      rw [wf.localEdgeCount_row id x hrow] at hpos
      obtain ⟨B, hB, hBrow, ho⟩ := (mem_rowCandidates wf.valid wf.grid id hid x).1 hrow
      refine ⟨B, (mem_rowPeers p id B).2 ⟨hB, hBrow, ?_⟩, ho, hpos⟩
      intro e
      rw [e, hno'] at ho
      cases ho
    · rintro ⟨P, hP, ho, hpos⟩
      obtain ⟨h1, h2, h3⟩ := (mem_rowPeers p id P).1 hP
      have hrow : x ∈ rowCandidates p id :=
        (mem_rowCandidates wf.valid wf.grid id hid x).2 ⟨P, h1, h2, ho⟩
      refine ⟨?_, ?_, by rw [wf.localEdgeCount_row id x hrow]; exact hpos⟩
      · rw [hl]
        apply List.mem_append_left
        rw [List.mem_filter, keepRowNode_iff]
        refine ⟨hrow, Or.inl ?_⟩
        unfold outCount at hpos
        obtain ⟨d, hd, hdc⟩ := List.countP_pos_iff.1 hpos
        exact ⟨d, hd, by simpa using hdc⟩
      · cases hb : isOwned p id x with
        | false => rfl
        | true => exact absurd (wf.valid.isOwned_unique P id x ho hb) h3
  refine ⟨st, hst, ?_, ?_, ?_, ?_⟩
  · rw [hcount, hperm.length_eq, hlen]
  · intro l hl' hlt
    by_contra hge
    obtain ⟨gid, hg, hs⟩ := slice_size_eq wf hid hst l hl'
    have hcol : gid ∈ columnCandidates p id := by
      rw [hl, List.getElem?_append_right (by rw [← hno]; omega)] at hg
      exact (List.mem_filter.1 (List.mem_iff_getElem?.2 ⟨_, hg⟩)).1
    rw [wf.localEdgeCount_not_row id gid (wf.column_not_row id hid gid hcol)] at hs
    omega
  · intro l gid hg ho
    by_contra hge
    unfold L2G at hg
    have hcol : gid ∈ columnCandidates p id := by
      rw [hl, List.getElem?_append_right (by rw [← hno]; omega)] at hg
      exact (List.mem_filter.1 (List.mem_iff_getElem?.2 ⟨_, hg⟩)).1
    exact wf.column_not_row id hid gid hcol
      (owned_mem_rowCandidates wf.valid wf.grid id hid gid ho)
  · intro l gid hlo hg hno'
    have hl' : l < st.numNodes := by
      rw [hc.numNodes_eq, hl, List.length_append, ← hno]
      omega
    obtain ⟨gid', hg', hs⟩ := slice_size_eq wf hid hst l hl'
    unfold L2G at hg
    rw [hg] at hg'
    have e := Option.some.inj hg'
    subst e
    have hmem : gid ∈ (rowCandidates p id).filter (keepRowNode p g id) := by
      rw [hl, List.getElem?_append_left (by rw [← hno]; exact hlo)] at hg
      exact List.mem_iff_getElem?.2 ⟨_, hg⟩
    obtain ⟨hrow, hkeep⟩ := List.mem_filter.1 hmem
    unfold keepRowNode at hkeep
    rw [hno', Bool.or_false, decide_eq_true_eq] at hkeep
    rw [hs, wf.localEdgeCount_row id gid hrow]
    omega

theorem numOwned_eq_witness :
    ∃ st, loadStatistics gridCut gridGraph 0 = some st ∧
      st.numOwned = st.totalOwnedNodes +
        ((List.range st.numNodes).filter fun l =>
          (match L2G st l with
            | some gid => !isOwned gridCut 0 gid
            | none => false) && decide (st.sliceBegin l < st.sliceEnd l)).length ∧
      (∀ l, l < st.numNodes → st.sliceBegin l < st.sliceEnd l → l < st.numOwned) ∧
      (∀ l gid, L2G st l = some gid → isOwned gridCut 0 gid = true → l < st.numOwned) ∧
      (∀ l gid, l < st.numOwned → L2G st l = some gid → isOwned gridCut 0 gid = false →
        st.sliceBegin l < st.sliceEnd l) :=
  numOwned_eq gridCut gridGraph gridCut_wellFormed 0 (by decide)

/-! ## Phase tags -/

theorem recieveTagged_tag (tag : Nat) :
    ∀ (queue : List Tagged) (m : Tagged) (rest : List Tagged),
      recieveTagged tag queue = some (m, rest) → m.tag = tag := by
  intro queue
  induction queue with
  | nil => intro m rest h; cases h
  | cons a queue ih =>
    intro m rest h
    unfold recieveTagged at h
    by_cases ha : (a.tag == tag) = true
    · rw [if_pos ha] at h
      have e := (Prod.mk.inj (Option.some.inj h)).1
      rw [← e]
      exact beq_iff_eq.1 ha
    · rw [if_neg ha] at h
      cases hr : recieveTagged tag queue with
      | none => rw [hr] at h; cases h
      | some r =>
        obtain ⟨r1, r2⟩ := r
        rw [hr] at h
        have e := (Prod.mk.inj (Option.some.inj h)).1
        rw [← e]
        exact ih r1 r2 hr

/-- Receiving with a tag takes the first queued message with the tag and
leaves the messages with the other tags in place. -/
theorem recieveTagged_spec (tag : Nat) :
    ∀ (queue : List Tagged) (m : Tagged) (ms : List Tagged),
      queue.filter (fun x => x.tag == tag) = m :: ms →
      ∃ rest, recieveTagged tag queue = some (m, rest) ∧
        rest.filter (fun x => x.tag == tag) = ms ∧
        ∀ t, t ≠ tag → rest.filter (fun x => x.tag == t) = queue.filter (fun x => x.tag == t) := by
  intro queue
  induction queue with
  | nil => intro m ms h; cases h
  | cons a queue ih =>
    intro m ms h
    unfold recieveTagged
    by_cases ha : (a.tag == tag) = true
    · rw [List.filter_cons, if_pos ha] at h
      obtain ⟨e1, e2⟩ := List.cons.inj h
      refine ⟨queue, by rw [if_pos ha, e1], e2, ?_⟩
      intro t ht
      have : (a.tag == t) = false := by
        rw [beq_iff_eq] at ha
        rw [ha]
        simpa using fun e : tag = t => ht e.symm
      rw [List.filter_cons, this]
      rfl
    · rw [List.filter_cons, if_neg ha] at h
      obtain ⟨rest, h1, h2, h3⟩ := ih m ms h
      refine ⟨a :: rest, by rw [if_neg ha, h1], ?_, ?_⟩
      · rw [List.filter_cons, if_neg ha, h2]
      · intro t ht
        rw [List.filter_cons, List.filter_cons, h3 t ht]

theorem recvStatisticsTagged_tags (p : Cut) (tag : Nat) :
    ∀ (n : Nat) (queue : List Tagged) (st : EdgeStats) (acc : List Tagged)
      (r : EdgeStats × List Tagged × List Tagged),
      recvStatisticsTagged p tag n queue st acc = some r →
      (∀ m, m ∈ acc → m.tag = tag) → ∀ m, m ∈ r.2.1 → m.tag = tag := by
  intro n
  induction n with
  | zero =>
    intro queue st acc r h hacc
    simp only [recvStatisticsTagged, Option.some.injEq] at h
    rw [← h]; exact hacc
  | succ n ih =>
    intro queue st acc r h hacc
    simp only [recvStatisticsTagged] at h
    cases hr : recieveTagged tag queue with
    | none => rw [hr] at h; cases h
    | some x =>
      obtain ⟨m, rest⟩ := x
      rw [hr] at h
      dsimp only at h
      cases hb : m.body with
      | inl s =>
        rw [hb] at h
        dsimp only at h
        apply ih _ _ _ _ h
        intro m' hm'
        rw [List.mem_append, List.mem_singleton] at hm'
        rcases hm' with hm' | hm'
        · exact hacc m' hm'
        · rw [hm']; exact recieveTagged_tag tag queue m rest hr
      | inr e => rw [hb] at h; cases h

theorem receiveEdgesTagged_tags (p : Cut) (id : Nat) (st : LocalGraph) (tag : Nat) :
    ∀ (n : Nat) (queue : List Tagged) (graph : LocalCSR) (acc : List Tagged)
      (r : LocalCSR × List Tagged × List Tagged),
      receiveEdgesTagged p id st tag n queue graph acc = some r →
      (∀ m, m ∈ acc → m.tag = tag) → ∀ m, m ∈ r.2.1 → m.tag = tag := by
  intro n
  induction n with
  | zero =>
    intro queue graph acc r h hacc
    simp only [receiveEdgesTagged, Option.some.injEq] at h
    rw [← h]; exact hacc
  | succ n ih =>
    intro queue graph acc r h hacc
    simp only [receiveEdgesTagged] at h
    cases hr : recieveTagged tag queue with
    | none => rw [hr] at h; cases h
    | some x =>
      obtain ⟨m, rest⟩ := x
      rw [hr] at h
      dsimp only at h
      cases hb : m.body with
      | inl s => rw [hb] at h; cases h
      | inr e =>
        rw [hb] at h
        dsimp only at h
        cases hg : receiveEdgeMsg p id st graph e with
        | none => rw [hg] at h; cases h
        | some graph' =>
          rw [hg] at h
          dsimp only at h
          apply ih _ _ _ _ h
          intro m' hm'
          rw [List.mem_append, List.mem_singleton] at hm'
          rcases hm' with hm' | hm'
          · exact hacc m' hm'
          · rw [hm']; exact recieveTagged_tag tag queue m rest hr

/-- On a queue whose messages tagged `tag` are the pass-1 messages `inbox`,
the tagged receive loop does what the receive loop does on `inbox`, whatever
else is queued. -/
theorem recvStatisticsTagged_eq (p : Cut) (tag : Nat) :
    ∀ (n : Nat) (inbox : List StatMsg) (queue : List Tagged) (st : EdgeStats)
      (acc : List Tagged) (stats : EdgeStats),
      queue.filter (fun x => x.tag == tag) = inbox.map (fun s => ⟨tag, .inl s⟩) →
      recvStatistics p n inbox st = some stats →
      ∃ acc' rest, recvStatisticsTagged p tag n queue st acc = some (stats, acc', rest) ∧
        ∀ t, t ≠ tag → rest.filter (fun x => x.tag == t) = queue.filter (fun x => x.tag == t) := by
  intro n
  induction n with
  | zero =>
    intro inbox queue st acc stats _ h
    simp only [recvStatistics, Option.some.injEq] at h
    exact ⟨acc, queue, by simp only [recvStatisticsTagged, h], fun _ _ => rfl⟩
  | succ n ih =>
    intro inbox queue st acc stats hq h
    cases inbox with
    | nil => simp only [recvStatistics] at h; cases h
    | cons s inbox =>
      simp only [recvStatistics] at h
      rw [List.map_cons] at hq
      obtain ⟨rest, h1, h2, h3⟩ := recieveTagged_spec tag queue _ _ hq
      obtain ⟨acc', rest', h4, h5⟩ := ih inbox rest (storeStatistics p st s)
        (acc ++ [⟨tag, .inl s⟩]) stats h2 h
      refine ⟨acc', rest', ?_, fun t ht => (h5 t ht).trans (h3 t ht)⟩
      simp only [recvStatisticsTagged, h1]
      exact h4

/-- On a queue whose messages tagged `tag` are the pass-2 messages `inbox`,
as many as the loop of `receiveEdges` consumes, the tagged loop does what the
loop does on `inbox`, whatever else is queued. -/
theorem receiveEdgesTagged_eq (p : Cut) (id : Nat) (st : LocalGraph) (tag : Nat) :
    ∀ (inbox : List EdgeMsg) (cnt : Nat) (queue : List Tagged) (graph : LocalCSR)
      (acc : List Tagged) (graph' : LocalCSR),
      queue.filter (fun x => x.tag == tag) = inbox.map (fun e => ⟨tag, .inr e⟩) →
      cnt + inbox.length = st.numOwned →
      receiveEdges p id st cnt inbox graph = some graph' →
      ∃ acc' rest,
        receiveEdgesTagged p id st tag inbox.length queue graph acc = some (graph', acc', rest) ∧
        ∀ t, t ≠ tag → rest.filter (fun x => x.tag == t) = queue.filter (fun x => x.tag == t) := by
  intro inbox
  induction inbox with
  | nil =>
    intro cnt queue graph acc graph' _ hcnt h
    have hge : ¬ cnt < st.numOwned := by simp at hcnt; omega
    simp only [receiveEdges, if_neg hge, Option.some.injEq] at h
    exact ⟨acc, queue, by simp only [List.length_nil, receiveEdgesTagged, h], fun _ _ => rfl⟩
  | cons e inbox ih =>
    intro cnt queue graph acc graph' hq hcnt h
    have hlt : cnt < st.numOwned := by simp at hcnt; omega
    simp only [receiveEdges, if_pos hlt] at h
    rw [List.map_cons] at hq
    obtain ⟨rest, h1, h2, h3⟩ := recieveTagged_spec tag queue _ _ hq
    cases hg : receiveEdgeMsg p id st graph e with
    | none => rw [hg] at h; cases h
    | some graph₁ =>
      rw [hg] at h
      obtain ⟨acc', rest', h4, h5⟩ := ih (cnt + 1) rest graph₁ (acc ++ [⟨tag, .inr e⟩]) graph' h2
        (by simp at hcnt ⊢; omega) h
      refine ⟨acc', rest', ?_, fun t ht => (h5 t ht).trans (h3 t ht)⟩
      simp only [List.length_cons, receiveEdgesTagged, h1, hg]
      exact h4

/-- A queue that holds the pass-2 messages of a host before its pass-1
messages: the messages with each tag, in order. -/
theorem filter_tagged_queue (a : Nat) (ss : List StatMsg) (es : List EdgeMsg) :
    (es.map (fun e => (⟨a + 1, .inr e⟩ : Tagged)) ++
        ss.map (fun s => (⟨a, .inl s⟩ : Tagged))).filter (fun x => x.tag == a) =
        ss.map (fun s => ⟨a, .inl s⟩) ∧
      (es.map (fun e => (⟨a + 1, .inr e⟩ : Tagged)) ++
        ss.map (fun s => (⟨a, .inl s⟩ : Tagged))).filter (fun x => x.tag == a + 1) =
        es.map (fun e => ⟨a + 1, .inr e⟩) := by
  constructor
  · rw [List.filter_append, List.filter_eq_nil_iff.2, List.nil_append, List.filter_eq_self.2]
    · intro x hx
      obtain ⟨s, _, rfl⟩ := List.mem_map.1 hx
      simp
    · intro x hx
      obtain ⟨e, _, rfl⟩ := List.mem_map.1 hx
      simp
  · rw [List.filter_append, List.filter_eq_self.2, List.filter_eq_nil_iff.2, List.append_nil]
    · intro x hx
      obtain ⟨s, _, rfl⟩ := List.mem_map.1 hx
      simp
    · intro x hx
      obtain ⟨e, _, rfl⟩ := List.mem_map.1 hx
      simp

/-- C22: starting from the phase value `phase`, every message that
`loadStatistics` sends or accepts is tagged `phase` and `loadStatistics`
leaves the counter at `phase + 1`; every message of `loadEdges` is tagged
`phase + 1` and `loadEdges` leaves the counter at `phase + 2`; so no pass-1
tag equals a pass-2 tag.  On a receive queue that holds the pass-1 messages
of the host under the tag `phase` and its pass-2 messages under the tag
`phase + 1`, in any interleaving, both passes return, with the tables and the
store of the passes run on their own messages. -/
theorem phase_tags_separate_passes (p : Cut) (g : FileGraph) (wf : WellFormed p g) (id : Nat)
    (hid : id < p.numHosts) (phase : Nat) (queue : List Tagged)
    (hq1 : queue.filter (fun x => x.tag == phase) =
      (statInbox p g id).map (fun s => ⟨phase, .inl s⟩))
    (hq2 : queue.filter (fun x => x.tag == phase + 1) =
      (edgeInbox p g id).map (fun e => ⟨phase + 1, .inr e⟩)) :
    (∀ q r, loadStatisticsTagged p g id phase q = some r →
        r.evilPhase = phase + 1 ∧ ∀ m, m ∈ r.sent ++ r.accepted → m.tag = phase) ∧
      (∀ st q r, loadEdgesTagged p g id st (phase + 1) q = some r →
        r.evilPhase = phase + 2 ∧ ∀ m, m ∈ r.sent ++ r.accepted → m.tag = phase + 1) ∧
      ∃ r1 r2, loadStatisticsTagged p g id phase queue = some r1 ∧
        loadStatistics p g id = some r1.result ∧
        loadEdgesTagged p g id r1.result r1.evilPhase r1.queue = some r2 ∧
        loadEdges p g id = some (r1.result, r2.result) ∧
        r1.evilPhase = phase + 1 ∧ r2.evilPhase = phase + 2 ∧
        ∀ m1 m2, m1 ∈ r1.sent ++ r1.accepted → m2 ∈ r2.sent ++ r2.accepted →
          m1.tag = phase ∧ m2.tag = phase + 1 ∧ m1.tag ≠ m2.tag := by
  have hstat : ∀ q r, loadStatisticsTagged p g id phase q = some r →
      r.evilPhase = phase + 1 ∧ ∀ m, m ∈ r.sent ++ r.accepted → m.tag = phase := by
    intro q r h
    unfold loadStatisticsTagged at h
    cases hr : recvStatisticsTagged p phase (p.numColumnHosts - 1) q (inspectEdges p g id) []
      with
    | none => rw [hr] at h; cases h
    | some x =>
      obtain ⟨stats, acc, rest⟩ := x
      rw [hr] at h
      dsimp only at h
      have e := Option.some.inj h
      rw [← e]
      refine ⟨rfl, ?_⟩
      intro m hm
      rw [List.mem_append] at hm
      rcases hm with hm | hm
      · obtain ⟨s, _, rfl⟩ := List.mem_map.1 hm
        rfl
      · exact recvStatisticsTagged_tags p phase _ _ _ _ _ hr (fun _ h' => by cases h') m hm
  have hedge : ∀ st q r, loadEdgesTagged p g id st (phase + 1) q = some r →
      r.evilPhase = phase + 2 ∧ ∀ m, m ∈ r.sent ++ r.accepted → m.tag = phase + 1 := by
    intro st q r h
    unfold loadEdgesTagged at h
    cases hf : loadEdgesFromFile p g id st (allocateGraph st) with
    | none => rw [hf] at h; cases h
    | some fr =>
      rw [hf] at h
      dsimp only at h
      cases hr : receiveEdgesTagged p id st (phase + 1) (st.numOwned - st.totalOwnedNodes) q
        fr.graph [] with
      | none => rw [hr] at h; cases h
      | some x =>
        obtain ⟨graph, acc, rest⟩ := x
        rw [hr] at h
        dsimp only at h
        have e := Option.some.inj h
        rw [← e]
        refine ⟨rfl, ?_⟩
        intro m hm
        rw [List.mem_append] at hm
        rcases hm with hm | hm
        · obtain ⟨s, _, rfl⟩ := List.mem_map.1 hm
          rfl
        · exact receiveEdgesTagged_tags p id st (phase + 1) _ _ _ _ _ hr
            (fun _ h' => by cases h') m hm
  refine ⟨hstat, hedge, ?_⟩
  -- pass 1
  obtain ⟨stats, hrecv, _⟩ := recvStatistics_spec p g wf.grid id hid
  obtain ⟨acc1, rest1, ht1, hrest1⟩ := recvStatisticsTagged_eq p phase (p.numColumnHosts - 1)
    (statInbox p g id) queue (inspectEdges p g id) [] stats hq1 hrecv
  obtain ⟨st, graph, hst, hload, _⟩ := loadEdges_spec wf hid
  have hst' := hst
  unfold loadStatistics loadStatisticsFrom at hst'
  rw [hrecv] at hst'
  dsimp only at hst'
  have h1 : loadStatisticsTagged p g id phase queue =
      some ⟨st, phase + 1, sendStatisticsTagged p g id phase, acc1, rest1⟩ := by
    unfold loadStatisticsTagged
    rw [ht1]
    dsimp only
    rw [Option.some.inj hst']
  -- pass 2
  obtain ⟨fr, hfr, _, _, _⟩ := loadEdgesFromFile_spec wf hid hst
  have hlen := incomingSources_length wf hid hst
  have hinlen : (edgeInbox p g id).length = (incomingSources p g id).length := by
    rw [← edgeInbox_sources wf id, List.length_map]
  have hrecv2 : receiveEdges p id st st.totalOwnedNodes (edgeInbox p g id) fr.graph =
      some graph := by
    unfold loadEdges loadEdgesFrom at hload
    rw [hst] at hload
    dsimp only at hload
    rw [hfr] at hload
    dsimp only at hload
    cases hrg : receiveEdges p id st st.totalOwnedNodes (edgeInbox p g id) fr.graph with
    | none => rw [hrg] at hload; cases hload
    | some graph' =>
      rw [hrg] at hload
      simp only [Option.some.injEq, Prod.mk.injEq, true_and] at hload
      rw [hload]
  have hq2' : rest1.filter (fun x => x.tag == phase + 1) =
      (edgeInbox p g id).map (fun e => ⟨phase + 1, .inr e⟩) := by
    rw [hrest1 (phase + 1) (by omega), hq2]
  obtain ⟨acc2, rest2, ht2, _⟩ := receiveEdgesTagged_eq p id st (phase + 1) (edgeInbox p g id)
    st.totalOwnedNodes rest1 fr.graph [] graph hq2' (by omega) hrecv2
  have h2 : loadEdgesTagged p g id st (phase + 1) rest1 =
      some ⟨graph, phase + 2, fr.sent.map fun m => ⟨phase + 1, .inr m⟩, acc2, rest2⟩ := by
    unfold loadEdgesTagged
    rw [hfr]
    dsimp only
    rw [show st.numOwned - st.totalOwnedNodes = (edgeInbox p g id).length by omega, ht2]
  refine ⟨_, _, h1, hst, h2, hload, rfl, rfl, ?_⟩
  intro m1 m2 hm1 hm2
  have t1 := (hstat _ _ h1).2 m1 hm1
  have t2 := (hedge _ _ _ h2).2 m2 hm2
  exact ⟨t1, t2, by omega⟩

theorem phase_tags_separate_passes_witness :
    (∀ q r, loadStatisticsTagged gridCut gridGraph 1 7 q = some r →
        r.evilPhase = 7 + 1 ∧ ∀ m, m ∈ r.sent ++ r.accepted → m.tag = 7) ∧
      (∀ st q r, loadEdgesTagged gridCut gridGraph 1 st (7 + 1) q = some r →
        r.evilPhase = 7 + 2 ∧ ∀ m, m ∈ r.sent ++ r.accepted → m.tag = 7 + 1) ∧
      ∃ r1 r2,
        loadStatisticsTagged gridCut gridGraph 1 7
          ((edgeInbox gridCut gridGraph 1).map (fun e => (⟨7 + 1, .inr e⟩ : Tagged)) ++
            (statInbox gridCut gridGraph 1).map (fun s => (⟨7, .inl s⟩ : Tagged))) = some r1 ∧
        loadStatistics gridCut gridGraph 1 = some r1.result ∧
        loadEdgesTagged gridCut gridGraph 1 r1.result r1.evilPhase r1.queue = some r2 ∧
        loadEdges gridCut gridGraph 1 = some (r1.result, r2.result) ∧
        r1.evilPhase = 7 + 1 ∧ r2.evilPhase = 7 + 2 ∧
        ∀ m1 m2, m1 ∈ r1.sent ++ r1.accepted → m2 ∈ r2.sent ++ r2.accepted →
          m1.tag = 7 ∧ m2.tag = 7 + 1 ∧ m1.tag ≠ m2.tag :=
  phase_tags_separate_passes gridCut gridGraph gridCut_wellFormed 1 (by decide) 7
    ((edgeInbox gridCut gridGraph 1).map (fun e => (⟨7 + 1, .inr e⟩ : Tagged)) ++
      (statInbox gridCut gridGraph 1).map (fun s => (⟨7, .inl s⟩ : Tagged)))
    (filter_tagged_queue 7 _ _).1 (filter_tagged_queue 7 _ _).2

end CartesianCut
